import Mathlib

/-!
# ASLR-Guard runtime: encoding protocol and remap table

A shallow embedding of `eglibc-2.19/elf/aslr-guard.h` and of the decode path of
`eglibc-2.19/sysdeps/x86_64/dl-irel.h`, in the configuration selected by
`eglibc-2.19/aslr-guard-config.h` (`AG_ENCODE_CP`, `USE_NONCE_RDRAND`,
`REMAP_CODE_TO_RANDOM`; `DO_STATISTICS` and `USE_MAGIC_CODE` undefined).

Machine words are naturals reduced modulo `2 ^ 64`; memory is one flat,
byte-addressed, little-endian store.  A `%gs`-relative operand `%gs:disp(%reg)`
denotes the linear address `gsBase + (disp + reg)`, both sums taken modulo
`2 ^ 64`.
-/

namespace AslrGuard

/-! ## Machine model -/

/-- Values of type `AG_Addr` (`unsigned long`) are naturals below `2 ^ 64`. -/
abbrev AG_Addr := Nat

/-- Size of the 64-bit word space. -/
def W64 : Nat := 2 ^ 64

/-- Size of the 32-bit word space. -/
def W32 : Nat := 2 ^ 32

/-- Byte-addressed memory; only the low eight bits of a cell are ever read. -/
abbrev Mem := Nat → Nat

/-- Little-endian 8-byte load. -/
def load64 (m : Mem) (a : Nat) : Nat :=
  m a % 256 + m (a + 1) % 256 * 256 ^ 1 + m (a + 2) % 256 * 256 ^ 2
    + m (a + 3) % 256 * 256 ^ 3 + m (a + 4) % 256 * 256 ^ 4
    + m (a + 5) % 256 * 256 ^ 5 + m (a + 6) % 256 * 256 ^ 6
    + m (a + 7) % 256 * 256 ^ 7

/-- Little-endian 4-byte load. -/
def load32 (m : Mem) (a : Nat) : Nat :=
  m a % 256 + m (a + 1) % 256 * 256 ^ 1 + m (a + 2) % 256 * 256 ^ 2
    + m (a + 3) % 256 * 256 ^ 3

/-- Little-endian 8-byte store of the low 64 bits of `v`. -/
def store64 (m : Mem) (a v : Nat) : Mem :=
  fun x => if a ≤ x ∧ x < a + 8 then v / 256 ^ (x - a) % 256 else m x

/-- Little-endian 4-byte store of the low 32 bits of `v`. -/
def store32 (m : Mem) (a v : Nat) : Mem :=
  fun x => if a ≤ x ∧ x < a + 4 then v / 256 ^ (x - a) % 256 else m x

/-- The part of the process state the runtime protocol touches: the base of
the `%gs` segment, the global `safeMemReg`, and memory. -/
structure Machine where
  gsBase : Nat
  safeMemReg : AG_Addr
  mem : Mem

/-- Linear address of the operand `%gs:disp(%reg)`. -/
def gsAddr (s : Machine) (disp reg : Nat) : Nat :=
  (s.gsBase + (disp + reg) % W64) % W64

/-! ## Configuration constants (`aslr-guard-config.h`) -/

def LEAST_ADDRESS : Nat := 0x7fffffff
def LARGEST_ADDRESS : Nat := 0x7fffffffffff
def AG_MAGIC_CODE : Nat := 0x4147454350000000

/-! ## `encrypt_function_pointer` -/

/-- The 8-byte slot counter, `%gs:0x100000`. -/
def slotCounter (s : Machine) : Nat :=
  load64 s.mem (gsAddr s 0x100000 0)

/-- The inline-assembly body of `encrypt_function_pointer` in the
`USE_NONCE_RDRAND` build.  `rdrand` is the value the `rdrand %eax`
instruction delivers.  The `push`/`pop` pairs save and restore `%r15`, `%rdi`
and `%rax` on the ordinary stack and leave no trace in the result.  The
suffix-less `add $0x10, %gs:0x100000` is the 32-bit read-modify-write that
the rewriter's template spells `addl  $0x10, %gs:0x100000`.

    mov %gs:0x100000, %r15
    mov %1, %gs:0x100000(%r15)
    rdrand %eax
    shl $32, %rax
    mov %r15, %rdi
    mov %rax, %gs:0x100008(%rdi)
    or %rax, %r15
    add $0x10, %gs:0x100000
    mov %r15, %0
-/
def encrypt_asm (s : Machine) (rdrand : Nat) (fp : AG_Addr) : AG_Addr × Machine :=
  let r15 := load64 s.mem (gsAddr s 0x100000 0)
  let m1 := store64 s.mem (gsAddr s 0x100000 r15) fp
  let rax := (rdrand % W32) <<< 32 % W64
  let rdi := r15
  let m2 := store64 m1 (gsAddr s 0x100008 rdi) rax
  let r15 := r15 ||| rax
  let m3 := store32 m2 (gsAddr s 0x100000 0)
    ((load32 m2 (gsAddr s 0x100000 0) + 0x10) % W32)
  (r15, { s with mem := m3 })

/-- The first instruction of the body, `mov %gs:0x100000, %r15`: a plain load
of the slot counter into the register `%r15` of the executing thread. -/
def encrypt_load (s : Machine) : Nat :=
  load64 s.mem (gsAddr s 0x100000 0)

/-- The instructions of the body that follow the load of the counter, run by
a thread whose `%r15` holds `r15`, on the memory as it is by then.  The
`add $0x10, %gs:0x100000` at the end carries no `lock` prefix.

    mov %1, %gs:0x100000(%r15)
    rdrand %eax
    shl $32, %rax
    mov %r15, %rdi
    mov %rax, %gs:0x100008(%rdi)
    or %rax, %r15
    add $0x10, %gs:0x100000
    mov %r15, %0
-/
def encrypt_rest (s : Machine) (r15 rdrand : Nat) (fp : AG_Addr) : AG_Addr × Machine :=
  let m1 := store64 s.mem (gsAddr s 0x100000 r15) fp
  let rax := (rdrand % W32) <<< 32 % W64
  let rdi := r15
  let m2 := store64 m1 (gsAddr s 0x100008 rdi) rax
  let r15 := r15 ||| rax
  let m3 := store32 m2 (gsAddr s 0x100000 0)
    ((load32 m2 (gsAddr s 0x100000 0) + 0x10) % W32)
  (r15, { s with mem := m3 })

/-- Two threads `A` and `B` run the body on the shared memory of `s` in the
order: `A` loads the counter, `B` loads the counter, `A` runs the rest of its
body, `B` runs the rest of its body.  The result is the pair of values
returned to `A` and to `B`, and the machine state at the end. -/
def encrypt_interleaved (s : Machine) (rdrandA : Nat) (fpA : AG_Addr) (rdrandB : Nat)
    (fpB : AG_Addr) : (AG_Addr × AG_Addr) × Machine :=
  let a := encrypt_load s
  let b := encrypt_load s
  let ra := encrypt_rest s a rdrandA fpA
  let rb := encrypt_rest ra.2 b rdrandB fpB
  ((ra.1, rb.1), rb.2)

/-- `encrypt_function_pointer (AG_Addr fp)`, with `AG_ENCODE_CP` defined. -/
def encrypt_function_pointer (s : Machine) (rdrand : Nat) (fp : AG_Addr) :
    AG_Addr × Machine :=
  if fp < LEAST_ADDRESS ∨ fp > AG_MAGIC_CODE ∨ fp > LARGEST_ADDRESS then
    (fp, s)
  else
    encrypt_asm s rdrand fp

/-! ## `elf_ifunc_invoke` (decode path) -/

/-- The `else` branch of `elf_ifunc_invoke`: decode the encrypted value `ret`.

    offset = ret & 0xffffffff
    xor %gs:0x100008(offset), ret
    mov %gs:0x100000(ret), %rax
-/
def elf_ifunc_decode (s : Machine) (ret : AG_Addr) : AG_Addr :=
  let offset := ret &&& 0xffffffff
  let ret := ret ^^^ load64 s.mem (gsAddr s 0x100008 offset)
  load64 s.mem (gsAddr s 0x100000 ret)

/-- The code of `elf_ifunc_invoke` that follows the call of the resolver;
`ret` is the value the resolver returned in `%rax`.  The result is the value
returned together with the machine state at the return. -/
def elf_ifunc_invoke (s : Machine) (ret : AG_Addr) : AG_Addr × Machine :=
  if ret > LEAST_ADDRESS ∧ ret < LARGEST_ADDRESS then (ret, s)
  else (elf_ifunc_decode s ret, s)

/-! ## The remap table -/

/-- The record count `*(int *)safeMemReg`, a signed 32-bit integer. -/
def remapCount (s : Machine) : Int :=
  let v := load32 s.mem s.safeMemReg
  if v < 2 ^ 31 then (v : Int) else (v : Int) - 2 ^ 32

/-- Field `k` (in units of `sizeof(AG_Addr)`) of record `idx`:
`*(AG_Addr*)(safeMemReg + sizeof(int) + idx * sizeof(struct remapInfo) + k * sizeof(AG_Addr))`
with `sizeof(int) = 4` and `sizeof(struct remapInfo) = 80`.  The fields are
0 `l_addr`, 1 `oldCodeBase`, 2 `newCodeBase`, 3 `oldGpBase`, 4 `newGpBase`,
5 `codeSize`, 6 `gotpltSize`, 7 `oldRelRoBase`, 8 `newRelRoBase`, 9 `relRoSize`. -/
def remapField (s : Machine) (idx k : Nat) : Nat :=
  load64 s.mem ((s.safeMemReg + 4 + idx * 80 + k * 8) % W64)

/-- The `while` loop of `is_gotplt`, with `n` rounds left and `idx` the
current index. -/
def is_gotplt_loop (s : Machine) (addr : AG_Addr) : Nat → Nat → Bool
  | 0, _ => false
  | n + 1, idx =>
    let oldGotpltBase := remapField s idx 3
    let gotpltSize := remapField s idx 6
    if oldGotpltBase ≤ addr ∧ addr < (oldGotpltBase + gotpltSize) % W64 then true
    else is_gotplt_loop s addr n (idx + 1)

def is_gotplt (s : Machine) (addr : AG_Addr) : Bool :=
  if addr < LEAST_ADDRESS ∨ addr > AG_MAGIC_CODE then false
  else if s.safeMemReg ≠ 0 then is_gotplt_loop s addr (remapCount s).toNat 0
  else false

/-- The `while` loop of `is_rodata`. -/
def is_rodata_loop (s : Machine) (addr : AG_Addr) : Nat → Nat → Bool
  | 0, _ => false
  | n + 1, idx =>
    let oldRelRoBase := remapField s idx 7
    let relRoSize := remapField s idx 9
    if oldRelRoBase ≤ addr ∧ addr < (oldRelRoBase + relRoSize) % W64 then true
    else is_rodata_loop s addr n (idx + 1)

def is_rodata (s : Machine) (addr : AG_Addr) : Bool :=
  if addr < LEAST_ADDRESS ∨ addr > AG_MAGIC_CODE then false
  else if s.safeMemReg ≠ 0 then is_rodata_loop s addr (remapCount s).toNat 0
  else false

def NOT_ENCODE : Nat := 1
def MAY_ENCODE : Nat := 2
def ALWAYS_ENCODE : Nat := 4

/-- The `while` loop of `adjust_encode_code_addr`, with `n` rounds left and
`idx` the current index: the value returned from inside the loop and the
machine state then, or `none` when the loop runs to its end. -/
def adjust_loop (s : Machine) (rdrand : Nat) (addr : AG_Addr) (mode : Nat) (loc : AG_Addr) :
    Nat → Nat → Option (AG_Addr × Machine)
  | 0, _ => none
  | n + 1, idx =>
    let oldCodeBase := remapField s idx 1
    let codeSize := remapField s idx 5
    if oldCodeBase ≤ addr ∧ addr < (oldCodeBase + codeSize) % W64 then
      let oldGotpltBase := remapField s idx 3
      let gotpltSize := remapField s idx 6
      if loc > 0 ∧ oldGotpltBase ≤ loc ∧ loc < (oldGotpltBase + gotpltSize) % W64 then
        some (addr, s)
      else
        let newCodeBase := remapField s idx 2
        if mode &&& MAY_ENCODE ≠ 0 then
          some (encrypt_function_pointer s rdrand ((addr + newCodeBase + (W64 - oldCodeBase)) % W64))
        else if mode &&& NOT_ENCODE ≠ 0 then
          some ((addr + (newCodeBase + (W64 - oldCodeBase)) % W64) % W64, s)
        else some (addr, s)
    else adjust_loop s rdrand addr mode loc n (idx + 1)

/-- `adjust_encode_code_addr (addr, mode, loc)` with `REMAP_CODE_TO_RANDOM` and
`AG_ENCODE_CP` defined; `rdrand` is the random value an encoding would draw. -/
def adjust_encode_code_addr (s : Machine) (rdrand : Nat) (addr : AG_Addr) (mode : Nat)
    (loc : AG_Addr) : AG_Addr × Machine :=
  if addr < LEAST_ADDRESS ∨ addr > AG_MAGIC_CODE then (addr, s)
  else
    match (if s.safeMemReg ≠ 0 then
        adjust_loop s rdrand addr mode loc (remapCount s).toNat 0 else none) with
    | some r => r
    | none =>
      if mode &&& ALWAYS_ENCODE ≠ 0 then encrypt_function_pointer s rdrand addr
      else (addr, s)

/-- `adjust_encode_code_addr_fast (addr, current_remapInfo_off, loc)`; the
offset is a signed `off_t`. -/
def adjust_encode_code_addr_fast (s : Machine) (addr : AG_Addr) (current_remapInfo_off : Int)
    (_loc : AG_Addr) : AG_Addr :=
  if addr < LEAST_ADDRESS ∨ addr > AG_MAGIC_CODE then addr
  else if s.safeMemReg ≠ 0 ∧ current_remapInfo_off > 0 then
    let off := current_remapInfo_off.toNat
    let oldCodeBase := load64 s.mem ((s.safeMemReg + off + 8) % W64)
    let newCodeBase := load64 s.mem ((s.safeMemReg + off + 2 * 8) % W64)
    (addr + (newCodeBase + (W64 - oldCodeBase)) % W64) % W64
  else addr

/-- The `while` loop of `get_offset_remap_code_addr`. -/
def get_offset_loop (s : Machine) (addr : AG_Addr) : Nat → Nat → Option Nat
  | 0, _ => none
  | n + 1, idx =>
    let oldCodeBase := remapField s idx 1
    let codeSize := remapField s idx 5
    if oldCodeBase ≤ addr ∧ addr < (oldCodeBase + codeSize) % W64 then
      let newCodeBase := remapField s idx 2
      some ((newCodeBase + (W64 - oldCodeBase)) % W64)
    else get_offset_loop s addr n (idx + 1)

/-- `get_offset_remap_code_addr (addr)`; the `off_t` result is given by its
64-bit two's complement pattern. -/
def get_offset_remap_code_addr (s : Machine) (addr : AG_Addr) : Nat :=
  match (if s.safeMemReg ≠ 0 then get_offset_loop s addr (remapCount s).toNat 0 else none) with
  | some d => d
  | none => 0

/-! ## Runs of calls and sample machines -/

/-- A sequential run of `encrypt_function_pointer` over the calls `(rdrand, fp)`:
the tags returned, in order, and the final state. -/
def encrypt_all (s : Machine) : List (Nat × AG_Addr) → List AG_Addr × Machine
  | [] => ([], s)
  | p :: rest =>
    let o := encrypt_function_pointer s p.1 p.2
    let os := encrypt_all o.2 rest
    (o.1 :: os.1, os.2)

/-- The slot offsets used in a sequential run: the value of the slot counter
at each call that passes the range check. -/
def issuedSlots (s : Machine) : List (Nat × AG_Addr) → List Nat
  | [] => []
  | p :: rest =>
    let o := encrypt_function_pointer s p.1 p.2
    if p.2 < LEAST_ADDRESS ∨ p.2 > AG_MAGIC_CODE ∨ p.2 > LARGEST_ADDRESS then
      issuedSlots o.2 rest
    else slotCounter s :: issuedSlots o.2 rest

/-- A machine with `%gs` base 0, all memory zero and no remap table. -/
def zeroMachine : Machine :=
  { gsBase := 0, safeMemReg := 0, mem := fun _ => 0 }

/-- The machine `zeroMachine` with the slot counter set to `c`. -/
def counterMachine (c : Nat) : Machine :=
  { gsBase := 0, safeMemReg := 0, mem := store64 (fun _ => 0) 0x100000 c }

/-- A machine whose remap table, at address `0x1000`, holds the records
`recs`, each given by its ten fields. -/
def tableMem : Nat → List (List Nat) → Mem → Mem
  | _, [], m => m
  | idx, r :: rs, m =>
    tableMem (idx + 1) rs
      ((List.range 10).foldl (fun m k => store64 m (0x1000 + 4 + idx * 80 + k * 8) (r.getD k 0)) m)

/-- The machine with `%gs` base 0, slot counter `c` and the remap table `recs`
at `0x1000`. -/
def tableMachine (c : Nat) (recs : List (List Nat)) : Machine :=
  { gsBase := 0, safeMemReg := 0x1000,
    mem := tableMem 0 recs (store32 (store64 (fun _ => 0) 0x100000 c) 0x1000 recs.length) }

/-- The code range of record `i` contains `addr`, with the end of the range
computed as the code computes it, in 64-bit arithmetic. -/
def code_range_has (s : Machine) (i : Nat) (addr : AG_Addr) : Prop :=
  remapField s i 1 ≤ addr ∧ addr < (remapField s i 1 + remapField s i 5) % W64

instance (s : Machine) (i : Nat) (addr : AG_Addr) : Decidable (code_range_has s i addr) := by
  unfold code_range_has
  infer_instance

/-- The GOT/PLT range of record `i` contains `addr`. -/
def gotplt_range_has (s : Machine) (i : Nat) (addr : AG_Addr) : Prop :=
  remapField s i 3 ≤ addr ∧ addr < (remapField s i 3 + remapField s i 6) % W64

instance (s : Machine) (i : Nat) (addr : AG_Addr) : Decidable (gotplt_range_has s i addr) := by
  unfold gotplt_range_has
  infer_instance

/-- The read-only-data range of record `i` contains `addr`. -/
def relro_range_has (s : Machine) (i : Nat) (addr : AG_Addr) : Prop :=
  remapField s i 7 ≤ addr ∧ addr < (remapField s i 7 + remapField s i 9) % W64

instance (s : Machine) (i : Nat) (addr : AG_Addr) : Decidable (relro_range_has s i addr) := by
  unfold relro_range_has
  infer_instance

/-! # The assembly rewriter (`binutils-2.24/gas/aslr-guard.h`)

Configuration of `gas/aslr-guard-config.h`: `AG_SAFE_STACK`, `AG_ENCODE_CP`
and `USE_NONCE_RDRAND` defined; `USE_MAGIC_CODE`, `USE_NONCE_DEVRAND` and
`DO_STATISTICS` undefined.

A C string is the list of its characters before the terminating NUL.  A read
at or past the terminator yields NUL: the line buffers are taken to be
NUL-padded. -/

/-- Characters of a C string, terminator excluded. -/
abbrev Str := List Char

/-- The ways in which the pass stops without a result. -/
inductive Fatal where
  /-- A `gas_assert` (`aslr_assert`, `aslr_not_reachable`) failed. -/
  | assertion
  /-- The call `err(1, ...)`. -/
  | errExit
  /-- The C code leaves defined behaviour (wild read or write, bad `printf`
  argument, unbounded recursion). -/
  | undefined
deriving DecidableEq, Repr

/-- Result of a routine that may stop the pass. -/
inductive Res (α : Type) where
  | ok (val : α)
  | fatal (f : Fatal)
deriving DecidableEq, Repr

/-- Sequencing of routines that may stop the pass. -/
def Res.bind {α β : Type} (r : Res α) (k : α → Res β) : Res β :=
  match r with
  | .ok a => k a
  | .fatal f => .fatal f

instance : Monad Res where
  pure := Res.ok
  bind := Res.bind

def FRAME_PTR : Str := "r15".toList
def OP_SIZE : Nat := 1024
def MAX_ASM_LINE : Nat := 2048

/-- The record `struct s_asm_data`: the arrays with their element counts.  The
file names and the label fields play no part in the rewriting. -/
structure s_asm_data where
  lines : List Str
  new_lines : List Str
  func_syms : List Str
  obj_syms : List Str
deriving DecidableEq, Repr

/-! ## libc string routines -/

/-- Index of the first occurrence of `c` (`strchr` with `c` not NUL). -/
def strchr : Str → Char → Option Nat
  | [], _ => none
  | x :: xs, c => if x = c then some 0 else (strchr xs c).map (· + 1)

/-- Index of the first occurrence of `needle` (`strstr`). -/
def strstr : Str → Str → Option Nat
  | [], needle => if needle.isPrefixOf [] then some 0 else none
  | x :: xs, needle =>
    if needle.isPrefixOf (x :: xs) then some 0 else (strstr xs needle).map (· + 1)

/-- Index of the first occurrence of `needle`, letter case ignored
(`strcasestr`). -/
def strcasestr (hay needle : Str) : Option Nat :=
  strstr (hay.map Char.toLower) (needle.map Char.toLower)

/-! ## Utilities -/

def starts_with (str pre : Str) : Bool :=
  pre.isPrefixOf str

def opecode_with (str op : Str) : Bool :=
  starts_with (str.dropWhile fun c => c == ' ' || c == '\t') op

def ends_with (str post : Str) : Bool :=
  post.isSuffixOf str

def is_alphanumeric (c : Char) : Bool :=
  ('0' ≤ c && c ≤ '9') || ('a' ≤ c && c ≤ 'z') || ('A' ≤ c && c ≤ 'Z')

def is_effective_char (c : Char) : Bool :=
  is_alphanumeric c || c == ')' || c == ':'

def is_trim_char (c : Char) : Bool :=
  c == ' ' || c == '\t' || c == '\n'

/-- The function `trim_str`: skips the leading trim characters and overwrites
the trailing ones with NUL. -/
def trim_str (str : Str) : Str :=
  ((str.dropWhile is_trim_char).reverse.dropWhile is_trim_char).reverse

/-- The function `get_tail`: the text up to the first `#`, `/` or `;`, without
leading trim characters and without trailing characters that are not
effective. -/
def get_tail (raw : Str) : Str :=
  let raw := raw.dropWhile is_trim_char
  let tail_end := raw.length
  let tail_end := match strchr raw '#' with
    | some i => i
    | none => tail_end
  let tail_end := match strchr raw '/' with
    | some i => if i < tail_end then i else tail_end
    | none => tail_end
  let tail_end := match strchr raw ';' with
    | some i => if i < tail_end then i else tail_end
    | none => tail_end
  let tail := raw.take tail_end
  (tail.reverse.dropWhile fun c => !is_effective_char c).reverse

/-- The function `reg_bytes`.  `b` is the last character of the name; for an
empty name the byte read there is the `%` or the NUL next to it, which selects
the same branch. -/
def reg_bytes (reg : Str) : Nat :=
  let reg := if reg.head? = some '%' then reg.tail else reg
  let len := reg.length
  let a := reg.headD (Char.ofNat 0)
  let b := reg.getLastD (Char.ofNat 0)
  if b = 'l' then 1
  else if b = 'b' then 1
  else if b = 'w' then 2
  else if b = 'd' then 4
  else if a = 'r' then 8
  else if a = 'e' then 4
  else if len = 2 then 2
  else 8

/-- The function `get_frame_ptr`: the text written to `fp`. -/
def get_frame_ptr (bytes : Nat) : Str :=
  match bytes with
  | 1 => FRAME_PTR ++ "b".toList
  | 2 => FRAME_PTR ++ "w".toList
  | 4 => FRAME_PTR ++ "d".toList
  | _ => FRAME_PTR

/-- The function `_get_frame_ptr`. -/
def _get_frame_ptr (bytes : Nat) : Str :=
  match bytes with
  | 1 => "%".toList ++ FRAME_PTR ++ "b".toList
  | 2 => "%".toList ++ FRAME_PTR ++ "w".toList
  | 4 => "%".toList ++ FRAME_PTR ++ "d".toList
  | _ => "%".toList ++ FRAME_PTR

def is_insn (line : Str) : Bool :=
  let insn := get_tail line
  ((strstr insn ":".toList).isNone || (strstr insn "%fs:".toList).isSome)
    && !opecode_with line ".".toList
    && !opecode_with line "#".toList
    && !opecode_with line "/".toList
    && !ends_with line "#_volatile_".toList

def _in_func_syms (needle : Str) (asm_data : s_asm_data) : Bool :=
  asm_data.func_syms.contains needle

def _in_obj_syms (needle : Str) (asm_data : s_asm_data) : Bool :=
  asm_data.obj_syms.contains needle

def _skip_spaces (line : Str) : Str :=
  line.dropWhile fun c => " \t\n".toList.contains c

def _skip_seps (line : Str) (seps : Str) : Str :=
  line.dropWhile fun c => seps.contains c

/-! ## Opcode and operand extraction -/

/-- The function `get_opcode`: the letters that follow the leading blanks.
The buffer `op` holds `OP_SIZE` bytes; a longer run of letters is written past
its end. -/
def get_opcode (iter : Str) : Res Str :=
  let op := (_skip_spaces iter).takeWhile Char.isAlpha
  if op.length < OP_SIZE then .ok op else .fatal .undefined

/-- The function `get_optype`.  An index past the terminator of `op` reads a
byte of the buffer that was never written. -/
def get_optype (line : Str) (type_chr_idx : Nat) : Res Char := do
  let op ← get_opcode line
  if op.length = type_chr_idx then return ' '
  match op.get? type_chr_idx with
  | some c => return c
  | none => .fatal .undefined

def get_optype_bytes (line : Str) (type_chr_idx : Nat) : Res Nat := do
  let c ← get_optype line type_chr_idx
  if c = 'l' then return 4
  else if c = 'w' then return 2
  else if c = 'b' then return 1
  else return 8

/-- The `for` loop of `get_oparand`, entered with `OP_SIZE - i` iterations
left, the current `depth` (an `unsigned int`), the rest of the line at `iter`
and the characters copied so far, last one first.  Returns the operand and the
position of `iter` at the `break`; running out of iterations leaves
`i = OP_SIZE` and fails `gas_assert(i < OP_SIZE)`.  At the terminator with an
open parenthesis the loop does not break: `iter` moves past the end of the
line and the next iteration, if there is one, reads outside the buffer. -/
def get_oparand_copy : Nat → Nat → Str → Str → Res (Str × Str)
  | 0, _, _, _ => .fatal .assertion
  | fuel + 1, depth, [], acc =>
    if depth = 0 then .ok (acc.reverse, [])
    else
      match fuel with
      | 0 => .fatal .assertion
      | _ + 1 => .fatal .undefined
  | fuel + 1, depth, c :: rest, acc =>
    let depth := if c = '(' then (depth + 1) % 2 ^ 32 else depth
    let depth := if c = ')' then (depth + 2 ^ 32 - 1) % 2 ^ 32 else depth
    if depth = 0 ∧ (c = Char.ofNat 0 ∨ c ∈ " ,\t\n#;/".toList) then
      .ok (acc.reverse, c :: rest)
    else
      get_oparand_copy fuel depth rest (c :: acc)

/-- The `while ((--num) >= 0)` loop of `get_oparand`: `num` rounds, each
skipping separators and copying one operand into `op`. -/
def get_oparand_loop : Nat → Str → Str → Res Str
  | 0, _, op => .ok op
  | num + 1, iter, _ => do
    let iter := _skip_seps iter " ,\t\n".toList
    let r ← get_oparand_copy OP_SIZE 0 iter []
    get_oparand_loop num r.2 r.1

/-- The function `get_oparand`: the text of operand `num` of the instruction
at `iter`. -/
def get_oparand (iter : Str) (num : Nat) : Res Str :=
  if num = 1 ∨ num = 2 then
    let iter := _skip_spaces iter
    let iter := iter.dropWhile Char.isAlpha
    get_oparand_loop num iter []
  else .fatal .assertion

/-! ## The address-taking classifier -/

/-- The function `potential_func_addr_taken`.  The write that drops `(%rip)`
lands before the buffer when `op1` has fewer than six characters, and the
read of `at_idx[-1]` does when `@` is the first character. -/
def potential_func_addr_taken (line : Str) (asm_data : s_asm_data) : Res Bool := do
  if !opecode_with line "mov".toList && !opecode_with line "lea".toList then
    return false
  if (strstr line "( %rip ),".toList).isSome || (strstr line "(%rip),".toList).isNone then
    return false
  let op1 ← get_oparand line 1
  if starts_with op1 "_dl_runtime_resolve".toList then
    return false
  if op1.length < "(%rip)".toList.length then
    .fatal .undefined
  let op1 := op1.take (op1.length - "(%rip)".toList.length)
  let at_idx := strstr op1 "@".toList
  match at_idx with
  | some 0 => .fatal .undefined
  | some (k + 1) =>
    if op1.get? k = some ' ' then
      return true
    else
      let suffix := op1.drop (k + 2)
      let op1 := op1.take (k + 1)
      if _in_func_syms op1 asm_data then return true
      if _in_obj_syms op1 asm_data then return false
      if starts_with op1 ".".toList || (strchr op1 '+').isSome then return false
      if starts_with suffix "GOTPCREL".toList then return true
      if starts_with op1 "__GI__".toList || starts_with op1 "_dl_".toList then
        return true
      return false
  | none =>
    if _in_func_syms op1 asm_data then return true
    if _in_obj_syms op1 asm_data then return false
    if starts_with op1 ".".toList || (strchr op1 '+').isSome then return false
    if starts_with op1 "__GI__".toList || starts_with op1 "_dl_".toList then
      return true
    return false

/-- The function `get_low_half_reg`. -/
def get_low_half_reg (full : Str) : Res Str :=
  if (strstr full "rax".toList).isSome then .ok "%eax".toList
  else if (strstr full "rbx".toList).isSome then .ok "%ebx".toList
  else if (strstr full "rcx".toList).isSome then .ok "%ecx".toList
  else if (strstr full "rdx".toList).isSome then .ok "%edx".toList
  else if (strstr full "rsi".toList).isSome then .ok "%esi".toList
  else if (strstr full "rdi".toList).isSome then .ok "%edi".toList
  else if (strstr full "rbp".toList).isSome then .ok "%ebp".toList
  else if (strstr full "rsp".toList).isSome then .ok "%esp".toList
  else if (strstr full "r8".toList).isSome then .ok "%r8d".toList
  else if (strstr full "r9".toList).isSome then .ok "%r9d".toList
  else if (strstr full "r10".toList).isSome then .ok "%r10d".toList
  else if (strstr full "r11".toList).isSome then .ok "%r11d".toList
  else if (strstr full "r12".toList).isSome then .ok "%r12d".toList
  else if (strstr full "r13".toList).isSome then .ok "%r13d".toList
  else if (strstr full "r14".toList).isSome then .ok "%r14d".toList
  else if (strstr full "r15".toList).isSome then .ok "%r15d".toList
  else .fatal .assertion

/-! ## Emitting lines -/

/-- An argument passed with a format string. -/
inductive FmtArg where
  | str (s : Str)
  | chr (c : Char)
  | int (n : Nat)
deriving DecidableEq, Repr

/-- The conversions of `vsnprintf` that the templates use: `%%`, `%s`, `%c`
and `%d`.  A `char` passed for `%d` arrives promoted to `int`; a `char`
passed for `%s` is not a pointer and the call is undefined.  Any other
character after `%` is no conversion: the C library of the GNU system, which
gas is built against, copies `%` and that character to the output. -/
def vformat : Str → List FmtArg → Res Str
  | [], _ => .ok []
  | '%' :: '%' :: rest, args => do
    let out ← vformat rest args
    return '%' :: out
  | '%' :: 's' :: rest, args =>
    match args with
    | .str s :: args => do
      let out ← vformat rest args
      return s ++ out
    | _ => .fatal .undefined
  | '%' :: 'c' :: rest, args =>
    match args with
    | .chr c :: args => do
      let out ← vformat rest args
      return c :: out
    | _ => .fatal .undefined
  | '%' :: 'd' :: rest, args =>
    match args with
    | .int n :: args => do
      let out ← vformat rest args
      return Nat.toDigits 10 n ++ out
    | _ => .fatal .undefined
  | c :: rest, args => do
    let out ← vformat rest args
    return c :: out

/-- The function `_insert_new_line`: `strncpy` copies at most `MAX_ASM_LINE`
characters of `line` into the new entry.  The array `new_lines` has the
`2 * lines_num` entries that `process_asm` allocates, and the write to
`new_lines[new_lines_num]` is not checked: an insertion into a full array
writes past the allocation. -/
def _insert_new_line (asm_data : s_asm_data) (line : Str) : Res s_asm_data :=
  if asm_data.new_lines.length < 2 * asm_data.lines.length then
    .ok { asm_data with new_lines := asm_data.new_lines ++ [line.take MAX_ASM_LINE] }
  else .fatal .undefined

/-- The function `_insert_new_line_fmt`: `vsnprintf` keeps at most
`MAX_ASM_LINE - 1` characters. -/
def _insert_new_line_fmt (asm_data : s_asm_data) (fmt : Str) (args : List FmtArg) :
    Res s_asm_data := do
  let buf ← vformat fmt args
  _insert_new_line asm_data (buf.take (MAX_ASM_LINE - 1))

/-- The macro `_replace_cur_line_fmt`: drops the last entry of `new_lines`
and inserts the formatted line.  With no entry to drop, `new_lines_num`
becomes negative and the entry freed lies before the array. -/
def _replace_cur_line_fmt (asm_data : s_asm_data) (fmt : Str) (args : List FmtArg) :
    Res s_asm_data :=
  if asm_data.new_lines = [] then .fatal .undefined
  else
    _insert_new_line_fmt { asm_data with new_lines := asm_data.new_lines.dropLast } fmt args

/-- The macro `_insert_hdr`, expanded in function `fn` at source line `ln`. -/
def _insert_hdr (asm_data : s_asm_data) (fn : Str) (ln : Nat) : Res s_asm_data :=
  _insert_new_line_fmt asm_data "#> ================ by %s():%d".toList [.str fn, .int ln]

/-- The macro `_insert_ftr`, expanded in function `fn` at source line `ln`. -/
def _insert_ftr (asm_data : s_asm_data) (fn : Str) (ln : Nat) : Res s_asm_data :=
  _insert_new_line_fmt asm_data "#< ================ by %s():%d".toList [.str fn, .int ln]

/-- The macro `_EMITI`. -/
def _EMITI (asm_data : s_asm_data) (fmt : Str) (args : List FmtArg) : Res s_asm_data :=
  _insert_new_line_fmt asm_data ("\t".toList ++ fmt) args

/-- The macro `_EMITV`. -/
def _EMITV (asm_data : s_asm_data) (fmt : Str) (args : List FmtArg) : Res s_asm_data :=
  _insert_new_line_fmt asm_data ("\t".toList ++ fmt ++ " #_volatile_".toList) args

/-! ## Rewrite templates -/

/-- The function `encode_func_addr`, in the `USE_NONCE_RDRAND` build. -/
def encode_func_addr (line : Str) (asm_data : s_asm_data) : Res s_asm_data := do
  let op2 ← get_oparand line 2
  let frame_ptr := get_frame_ptr (reg_bytes op2)
  let m ← _insert_hdr asm_data "encode_func_addr".toList 494
  let m ← _EMITV m "pushq %%r15".toList []
  let m ← _EMITI m "movq  %%gs:0x100000, %%r15".toList []
  let m ← _EMITI m "mov   %s, %%gs:0x100000(%%r15)".toList [.str op2]
  let m ← _EMITV m "pushq %%rdi".toList []
  let m ← _EMITV m "pushq %%rax".toList []
  let m ← _EMITI m "rdrand %%eax".toList []
  let m ← _EMITI m "shl $32, %%rax".toList []
  let m ← _EMITI m "movq  %%r15, %%rdi".toList []
  let m ← _EMITI m "movq  %%rax, %%gs:0x100008(%%rdi)".toList []
  let m ← _EMITI m "or    %%rax, %%r15".toList []
  let m ← _EMITV m "popq %%rax".toList []
  let m ← _EMITV m "popq %%rdi".toList []
  let m ← _EMITI m "addl  $0x10, %%gs:0x100000".toList []
  let m ← _EMITI m "mov   %%%s, %s".toList [.str frame_ptr, .str op2]
  let m ← _EMITV m "popq  %%r15".toList []
  _insert_ftr m "encode_func_addr".toList 546

/-- The function `decode_func_addr_for_indirect_call`, in the
`USE_NONCE_RDRAND` build. -/
def decode_func_addr_for_indirect_call (line : Str) (asm_data : s_asm_data) :
    Res s_asm_data := do
  let fn := "decode_func_addr_for_indirect_call".toList
  let op1 ← get_oparand line 1
  if op1.head? ≠ some '*' then
    .fatal .assertion
  let reg := op1.tail
  let m ← _replace_cur_line_fmt asm_data "#-%s".toList [.str line]
  if starts_with op1 "*%".toList && (strstr op1 "%fs".toList).isNone then
    let halfReg ← get_low_half_reg reg
    if opecode_with line "call".toList then
      let m ← _insert_hdr m fn 565
      let m ← _EMITI m "xor  %%gs:0x100008(%s), %s".toList [.str halfReg, .str reg]
      let m ← _EMITI m "call  *%%gs:0x100000(%s)".toList [.str reg]
      _insert_ftr m fn 576
    else if opecode_with line "jmp".toList then
      let m ← _insert_hdr m fn 580
      let m ← _EMITI m "xor  %%gs:0x100008(%s), %s".toList [.str halfReg, .str reg]
      let m ← _EMITI m "jmp   *%%gs:0x100000(%s)".toList [.str reg]
      _insert_ftr m fn 590
    else
      .fatal .assertion
  else if starts_with op1 "*".toList
      && (ends_with op1 ")".toList || (strstr op1 "%fs".toList).isSome) then
    if opecode_with line "call".toList then
      let m ← _insert_hdr m fn 600
      let m ← _EMITV m "pushq %%r10".toList []
      let c ← get_optype line "call".toList.length
      let m ← _EMITI m "mov%c %s, %%r10".toList [.chr c, .str reg]
      let m ← _EMITI m "xor  %%gs:0x100008(%r10d), %r10".toList []
      let m ← _EMITI m "movq  %%gs:0x100000(%%r10), %%r10".toList []
      let m ← _EMITV m "movq  %%r10, -0x8(%%rsp)".toList []
      let m ← _EMITV m "popq  %%r10".toList []
      let m ← _EMITV m "call  *-0x10(%%rsp)".toList []
      _insert_ftr m fn 615
    else if opecode_with line "jmp".toList then
      let m ← _insert_hdr m fn 618
      let m ← _EMITV m "pushq %%r10".toList []
      let c ← get_optype line "jmp".toList.length
      let m ← _EMITI m "mov%s %s, %%r10".toList [.chr c, .str reg]
      let m ← _EMITI m "xor  %%gs:0x100008(%r10d), %r10".toList []
      let m ← _EMITI m "movq  %%gs:0x100000(%%r10), %%r10".toList []
      let m ← _EMITV m "movq  %%r10, -0x8(%%rsp)".toList []
      let m ← _EMITV m "popq  %%r10".toList []
      let m ← _EMITV m "jmp   *-0x10(%%rsp)".toList []
      _insert_ftr m fn 633
    else
      .fatal .assertion
  else
    .fatal .errExit

/-- The function `encode_vptr`. -/
def encode_vptr (line : Str) (asm_data : s_asm_data) : Res s_asm_data := do
  let m ← _replace_cur_line_fmt asm_data "#-%s".toList [.str line]
  let op1 ← get_oparand line 1
  let op2 ← get_oparand line 2
  let frame_ptr := get_frame_ptr (reg_bytes op1)
  let m ← _insert_hdr m "encode_vptr".toList 657
  let m ← _EMITV m "pushq %%r15".toList []
  let m ← _EMITI m "movq  %%gs:0x100000, %%r15".toList []
  let m ← _EMITI m "mov   %s, %%gs:0x100000(%%r15)".toList [.str op1]
  let m ← _EMITI m "movq  %%r15, %%gs:0x100008(%%r15)".toList []
  let m ← _EMITI m "addl  $0x10, %%gs:0x100000".toList []
  let m ← _EMITI m "mov   %%%s, %s".toList [.str frame_ptr, .str op2]
  let m ← _EMITV m "popq  %%r15".toList []
  _insert_ftr m "encode_vptr".toList 665

/-- The function `decode_vptr`. -/
def decode_vptr (line : Str) (asm_data : s_asm_data) : Res s_asm_data := do
  let op2 ← get_oparand line 2
  let m ← _insert_hdr asm_data "decode_vptr".toList 673
  let m ← _EMITI m "movq  %%gs:0x100000(%s), %s".toList [.str op2, .str op2]
  _insert_ftr m "decode_vptr".toList 675

/-- The function `replace_push_pop_with_mov`. -/
def replace_push_pop_with_mov (line : Str) (asm_data : s_asm_data) : Res s_asm_data := do
  let fn := "replace_push_pop_with_mov".toList
  let m ← _replace_cur_line_fmt asm_data "#-%s".toList [.str line]
  let op1 ← get_oparand line 1
  let is_mem : Bool := op1.head? = some '('
  let m ← _insert_hdr m fn 689
  if opecode_with line "push".toList then
    let op_type ← get_optype line "push".toList.length
    let op_type_bytes ← get_optype_bytes line "push".toList.length
    if is_mem then
      let m ← _EMITV m "pushq %r10".toList []
      let m ← _EMITI m "xor   %r10, %r10".toList []
      let m ← _EMITI m "mov%c %s, %%r10".toList [.chr op_type, .str op1]
      let op1 := "%r10".toList
      let m ← _EMITI m "sub   $%d, %%rsp".toList [.int op_type_bytes]
      let m ← _EMITI m "mov%c %s, (%%rsp)".toList [.chr op_type, .str op1]
      let m ← _EMITV m "popq  %r10".toList []
      _insert_ftr m fn 720
    else
      let m ← _EMITI m "sub   $%d, %%rsp".toList [.int op_type_bytes]
      let m ← _EMITI m "mov%c %s, (%%rsp)".toList [.chr op_type, .str op1]
      _insert_ftr m fn 720
  else if opecode_with line "pop".toList then
    let op_type ← get_optype line "pop".toList.length
    let op_type_bytes ← get_optype_bytes line "pop".toList.length
    if is_mem then
      let m ← _EMITV m "pushq %r10".toList []
      let m ← _EMITI m "xor   %r10, %r10".toList []
      let m ← _EMITI m "mov%c  (%%rsp), %r10".toList [.chr op_type]
      let m ← _EMITI m "mov%s  %%r10, %s".toList [.int op_type_bytes, .str op1]
      let m ← _EMITV m "popq   %r10".toList []
      _insert_ftr m fn 720
    else
      let m ← _EMITI m "mov%c  (%%rsp), %s".toList [.chr op_type, .str op1]
      let m ← _EMITI m "add    $%d, %rsp".toList [.int op_type_bytes]
      _insert_ftr m fn 720
  else
    .fatal .assertion

/-- The function `_str_replace`, which replaces the first occurrence of `frm`
and calls itself on the result.  The C recursion has no bound; here `fuel`
caps the number of nested calls, and a call that would exceed it stands for
the recursion that does not come back. -/
def _str_replace : Nat → Str → Str → Str → Res Str
  | 0, _, _, _ => .fatal .undefined
  | fuel + 1, strp, frm, rep =>
    match strstr strp frm with
    | none => .ok strp
    | some i => _str_replace fuel (strp.take i ++ rep ++ strp.drop (i + frm.length)) frm rep

/-- The four substitutions that `replace_sp_with_frame_ptr` applies to one
instruction line.  Every replacement removes one occurrence and a line has
no more occurrences than characters, so `length + 1` nested calls are
enough. -/
def replace_sp_line (line : Str) : Res Str := do
  let l ← _str_replace (line.length + 1) line "%rsp".toList (_get_frame_ptr 8)
  let l ← _str_replace (l.length + 1) l "%esp".toList (_get_frame_ptr 4)
  let l ← _str_replace (l.length + 1) l "%sp".toList (_get_frame_ptr 2)
  _str_replace (l.length + 1) l "%spl".toList (_get_frame_ptr 1)

/-- The loop of `replace_sp_with_frame_ptr` over the entries of `new_lines`. -/
def replace_sp_loop : List Str → Res (List Str)
  | [] => .ok []
  | l :: ls => do
    let l ← if !is_insn l then pure l else replace_sp_line l
    let ls ← replace_sp_loop ls
    return l :: ls

/-- The function `replace_sp_with_frame_ptr`. -/
def replace_sp_with_frame_ptr (asm_data : s_asm_data) : Res s_asm_data := do
  let nl ← replace_sp_loop asm_data.new_lines
  return { asm_data with new_lines := nl }

/-- One round of the loop of `load_syms`, for the line `line`.  The symbol is
the text between the sixth character after `.type`, trim characters skipped,
and the first `,` of the line.  On a line that ends with `.type` the sixth
character lies behind the terminator and `start_idx[0]` is read outside the
line; a `,` before the start of the symbol makes the length passed to
`malloc` and `strncpy` negative. -/
def load_syms_line (line : Str) (asm_data : s_asm_data) : Res s_asm_data :=
  if opecode_with line ".type".toList then
    let start_idx := (strstr line ".type".toList).getD 0 + 6
    if line.length < start_idx then .fatal .undefined
    else
      let start_idx := start_idx + ((line.drop start_idx).takeWhile is_trim_char).length
      match strchr line ',' with
      | none => .ok asm_data
      | some end_idx =>
        if end_idx < start_idx then .fatal .undefined
        else
          let sym := (line.drop start_idx).take (end_idx - start_idx)
          let sym := trim_str sym
          if ends_with line "function".toList then
            .ok { asm_data with func_syms := asm_data.func_syms ++ [sym] }
          else if ends_with line "object".toList then
            .ok { asm_data with obj_syms := asm_data.obj_syms ++ [sym] }
          else if (strcasestr line "function".toList).isNone
              && (strcasestr line "object".toList).isNone then
            .ok asm_data
          else .fatal .assertion
  else .ok asm_data

/-- The loop of `load_syms` over the lines of the document. -/
def load_syms_loop : List Str → s_asm_data → Res s_asm_data
  | [], asm_data => .ok asm_data
  | line :: rest, asm_data => do
    let asm_data ← load_syms_line line asm_data
    load_syms_loop rest asm_data

/-- The function `load_syms`. -/
def load_syms (asm_data : s_asm_data) : Res s_asm_data :=
  if asm_data.lines.length = 0 then .ok asm_data
  else load_syms_loop asm_data.lines { asm_data with func_syms := [], obj_syms := [] }

/-- The code-pointer part (`AG_ENCODE_CP`) of one round of the loop of
`process_asm`.  The flag returned is true when the round ends with
`continue`, false when it goes on to the safe-stack part. -/
def process_asm_cp (line : Str) (asm_data : s_asm_data) : Res (Bool × s_asm_data) := do
  if ← potential_func_addr_taken line asm_data then
    let m ← encode_func_addr line asm_data
    return (false, m)
  else if opecode_with line "call".toList
      || (opecode_with line "jmp".toList && ends_with line "_tail_".toList) then
    let op1 ← get_oparand line 1
    if starts_with op1 "%gs".toList then
      return (true, asm_data)
    if starts_with op1 "*".toList then
      let m ← decode_func_addr_for_indirect_call line asm_data
      return (false, m)
    else if (strstr op1 "AG_VPTR_DEF".toList).isSome then
      let m ← _replace_cur_line_fmt asm_data "#-%s".toList [.str line]
      return (false, m)
    else if (strstr op1 "AG_VPTR_USE".toList).isSome then
      let m ← _replace_cur_line_fmt asm_data "#-%s".toList [.str line]
      return (false, m)
    else
      return (true, asm_data)
  else if opecode_with line "mov".toList
      && ((strstr line "->_vptr.".toList).isSome || (strstr line "._vptr.".toList).isSome) then
    if (strstr line "), %".toList).isNone && (strstr line "),%".toList).isNone
        && (strstr line ", this".toList).isSome then
      let m ← encode_vptr line asm_data
      return (false, m)
    else if (strstr line "), %".toList).isSome || (strstr line "),%".toList).isSome then
      let m ← decode_vptr line asm_data
      return (false, m)
    else
      return (false, asm_data)
  else
    return (false, asm_data)

/-- One round of the loop of `process_asm`, for the line `line`. -/
def process_asm_line (line : Str) (asm_data : s_asm_data) : Res s_asm_data := do
  let m ← _insert_new_line asm_data line
  let m ← if starts_with line "_dl_start:".toList then
      _insert_new_line_fmt m "\tleaq\t-0x10000(%%rsp), %%%s #_volatile_".toList [.str FRAME_PTR]
    else pure m
  if !is_insn line then
    return m
  let r ← process_asm_cp line m
  if r.1 then
    return r.2
  let m := r.2
  if opecode_with line "push".toList || opecode_with line "pop".toList then
    if opecode_with line "popcnt".toList then
      return m
    replace_push_pop_with_mov line m
  else
    return m

/-- The loop of `process_asm` over the lines of the document. -/
def process_asm_loop : List Str → s_asm_data → Res s_asm_data
  | [], asm_data => .ok asm_data
  | line :: rest, asm_data => do
    let asm_data ← process_asm_line line asm_data
    process_asm_loop rest asm_data

/-- The function `process_asm`.  The array `new_lines` is allocated with
`2 * lines_num` entries and starts empty; `_insert_new_line` accounts for the
allocation. -/
def process_asm (asm_data : s_asm_data) : Res s_asm_data := do
  let m ← process_asm_loop asm_data.lines { asm_data with new_lines := [] }
  replace_sp_with_frame_ptr m

/-! ## Auxiliary notions used to state the properties -/

/-- Image of a result under a function. -/
def Res.map {α β : Type} (f : α → β) (r : Res α) : Res β :=
  match r with
  | .ok a => .ok (f a)
  | .fatal e => .fatal e

/-- A state with `n` empty lines, an array of `2 * n` entries of which the
first `k` hold the empty text, and no symbols: `2 * n - k` entries are
free. -/
def blank_doc (n k : Nat) : s_asm_data :=
  { lines := List.replicate n [], new_lines := List.replicate k [], func_syms := [],
    obj_syms := [] }

/-- The state `asm_data` with the entries `out` appended to `new_lines`. -/
def with_appended (asm_data : s_asm_data) (out : List Str) : s_asm_data :=
  { asm_data with new_lines := asm_data.new_lines ++ out }

/-- The state `b` stands for the state `m` in a round that started in the
state `m0`: `b` has `n` lines and holds `k` empty entries followed by the
entries `t` written in the round so far, `m` holds the entries of `m0`
followed by `t`, and `m` has the lines and symbols of `m0`.  With `started`
set, at least one entry has been written. -/
def stands_for (m0 : s_asm_data) (n k : Nat) (started : Bool) (b m : s_asm_data) : Prop :=
  ∃ t : List Str, (started = true → t ≠ [])
    ∧ b.lines.length = n ∧ b.new_lines = List.replicate k [] ++ t
    ∧ m.lines = m0.lines ∧ m.func_syms = m0.func_syms ∧ m.obj_syms = m0.obj_syms
    ∧ m.new_lines = m0.new_lines ++ t

/-- Whenever the first run comes back, the second comes back with a result
related to it by `Q`. -/
def Res.follows {α β : Type} (Q : α → β → Prop) (r1 : Res α) (r2 : Res β) : Prop :=
  ∀ a, r1 = .ok a → ∃ b, r2 = .ok b ∧ Q a b

/-! ## Register names and sample documents -/

/-- The sixteen 64-bit general-purpose registers. -/
def regs64 : List Str :=
  ["%rax", "%rbx", "%rcx", "%rdx", "%rsi", "%rdi", "%rbp", "%rsp",
   "%r8", "%r9", "%r10", "%r11", "%r12", "%r13", "%r14", "%r15"].map String.toList

/-- The 32-bit low halves, in the order of `regs64`. -/
def regs32 : List Str :=
  ["%eax", "%ebx", "%ecx", "%edx", "%esi", "%edi", "%ebp", "%esp",
   "%r8d", "%r9d", "%r10d", "%r11d", "%r12d", "%r13d", "%r14d", "%r15d"].map String.toList

/-- The 16-bit registers, in the order of `regs64`. -/
def regs16 : List Str :=
  ["%ax", "%bx", "%cx", "%dx", "%si", "%di", "%bp", "%sp",
   "%r8w", "%r9w", "%r10w", "%r11w", "%r12w", "%r13w", "%r14w", "%r15w"].map String.toList

/-- The low-byte registers, in the order of `regs64`. -/
def regs8 : List Str :=
  ["%al", "%bl", "%cl", "%dl", "%sil", "%dil", "%bpl", "%spl",
   "%r8b", "%r9b", "%r10b", "%r11b", "%r12b", "%r13b", "%r14b", "%r15b"].map String.toList

/-- The high-byte registers. -/
def regs8h : List Str :=
  ["%ah", "%bh", "%ch", "%dh"].map String.toList

/-- The names of the stack pointer at its four widths. -/
def sp_aliases : List Str :=
  ["%rsp", "%esp", "%sp", "%spl"].map String.toList

/-- Every general-purpose register name. -/
def all_regs : List Str :=
  regs64 ++ regs32 ++ regs16 ++ regs8 ++ regs8h

/-- The general-purpose registers other than the stack pointer. -/
def regs_not_sp : List Str :=
  all_regs.filter fun r => !sp_aliases.contains r

/-- A document with the lines `ls` and nothing else filled in. -/
def doc_of (ls : List String) : s_asm_data :=
  { lines := ls.map String.toList, new_lines := [], func_syms := [], obj_syms := [] }

/-- The document `doc_of ls` after a pass that emitted the lines `out`. -/
def doc_out (ls out : List String) : s_asm_data :=
  { lines := ls.map String.toList, new_lines := out.map String.toList,
    func_syms := [], obj_syms := [] }

/-- Whether the text `s` contains `%rsp`, `%esp` or `%sp`. -/
def mentions_sp (s : Str) : Bool :=
  (strstr s "%rsp".toList).isSome || (strstr s "%esp".toList).isSome
    || (strstr s "%sp".toList).isSome

/-- Whether the line `s` is a push or pop instruction, by the test that
`process_asm` applies. -/
def is_push_pop (s : Str) : Bool :=
  opecode_with s "push".toList || opecode_with s "pop".toList

/-- The lines expected for `pushq R`, with `sp` the name under which the
stack pointer appears: `%rsp` as the template writes them, `%r15` after the
substitution. -/
def safe_stack_push_lines (sp R : Str) : List Str :=
  ["#-pushq ".toList ++ R,
   "#> ================ by replace_push_pop_with_mov():689".toList,
   "\tsub   $8, ".toList ++ sp,
   "\tmovq ".toList ++ R ++ ", (".toList ++ sp ++ ")".toList,
   "#< ================ by replace_push_pop_with_mov():720".toList]

/-- The lines expected for an indirect call or jump through the register `R`
with low half `r`: `line` is the original line, `opc` the opcode with the
blanks the template puts after it, `h` and `f` the source lines of the header
and footer macros. -/
def indirect_branch_lines (line opc R r : Str) (h f : Nat) : List Str :=
  ["#-".toList ++ line,
   "#> ================ by decode_func_addr_for_indirect_call():".toList ++ Nat.toDigits 10 h,
   "\txor  %gs:0x100008(".toList ++ r ++ "), ".toList ++ R,
   "\t".toList ++ opc ++ "*%gs:0x100000(".toList ++ R ++ ")".toList,
   "#< ================ by decode_func_addr_for_indirect_call():".toList ++ Nat.toDigits 10 f]

/-! ## Facts about single lines that are settled by evaluation -/

/-- What a round on `pushq R` and the substitution pass do. -/
def push_register_fact (R : Str) : Prop :=
  opecode_with ("pushq ".toList ++ R) "mov".toList = false
    ∧ opecode_with ("pushq ".toList ++ R) "lea".toList = false
    ∧ process_asm_line ("pushq ".toList ++ R) (blank_doc 3 1)
      = .ok (with_appended (blank_doc 3 1) (safe_stack_push_lines "%rsp".toList R))
    ∧ replace_sp_loop (safe_stack_push_lines "%rsp".toList R)
      = .ok (safe_stack_push_lines "%r15".toList R)
    ∧ (safe_stack_push_lines "%r15".toList R).all
        (fun l => !mentions_sp l && !is_push_pop l) = true

instance (R : Str) : Decidable (push_register_fact R) := by
  unfold push_register_fact
  infer_instance

/-- What a round on the line `line`, a call or jump through `p.1` with low
half `p.2`, and the substitution pass do. -/
def indirect_branch_fact (line opc : Str) (p : Str × Str) (h f : Nat) : Prop :=
  opecode_with line "mov".toList = false
    ∧ opecode_with line "lea".toList = false
    ∧ process_asm_line line (blank_doc 3 1)
      = .ok (with_appended (blank_doc 3 1) (indirect_branch_lines line opc p.1 p.2 h f))
    ∧ replace_sp_loop (indirect_branch_lines line opc p.1 p.2 h f)
      = .ok (indirect_branch_lines line opc p.1 p.2 h f)
    ∧ (indirect_branch_lines line opc p.1 p.2 h f).all (fun l => l != line) = true

instance (line opc : Str) (p : Str × Str) (h f : Nat) :
    Decidable (indirect_branch_fact line opc p h f) := by
  unfold indirect_branch_fact
  infer_instance


/-- A `call` line of 2046 characters, the longest that `load_asm` accepts:
the marked call followed by a comment of `#` characters. -/
def long_vptr_call : Str :=
  "call AG_VPTR_DEF".toList ++ List.replicate 2030 '#'

/-- A document with the lines `ls` and nothing else filled in. -/
def doc_of_lines (ls : List Str) : s_asm_data :=
  { lines := ls, new_lines := [], func_syms := [], obj_syms := [] }

/-- The entry that `_insert_new_line_fmt` stores for the formatted text `s`:
`vsnprintf` keeps `MAX_ASM_LINE - 1` characters and `strncpy` copies at most
`MAX_ASM_LINE`. -/
def stored_line (s : Str) : Str :=
  (s.take (MAX_ASM_LINE - 1)).take MAX_ASM_LINE

/-- The width that `get_optype_bytes` derives from the type character `c`. -/
def optype_bytes (c : Char) : Nat :=
  if c = 'l' then 4 else if c = 'w' then 2 else if c = 'b' then 1 else 8

/-! ## Declaration lines -/

/-- The index at which `load_syms` starts to copy the symbol of the line
`line`: the sixth character after `.type`, trim characters skipped. -/
def decl_start (line : Str) : Nat :=
  let start_idx := (strstr line ".type".toList).getD 0 + 6
  start_idx + ((line.drop start_idx).takeWhile is_trim_char).length

/-- The symbol that `load_syms` copies from the line `line` whose first comma
is at index `end_idx`. -/
def decl_symbol (line : Str) (end_idx : Nat) : Str :=
  trim_str ((line.drop (decl_start line)).take (end_idx - decl_start line))

/-- Whether `line` is a `.type` line on which `load_syms` leaves the line or
the buffer of the symbol: the line ends with `.type`, or its first comma comes
before the place where the symbol starts. -/
def decl_out_of_bounds (line : Str) : Bool :=
  opecode_with line ".type".toList &&
    (decide (line.length < (strstr line ".type".toList).getD 0 + 6) ||
      match strchr line ',' with
      | some end_idx => decide (end_idx < decl_start line)
      | none => false)

/-- Whether `line` is a `.type` line with a comma that ends with neither
`function` nor `object` and yet contains one of the two words, letter case
ignored. -/
def decl_inconsistent (line : Str) : Bool :=
  opecode_with line ".type".toList && (strchr line ',').isSome
    && !ends_with line "function".toList && !ends_with line "object".toList
    && ((strcasestr line "function".toList).isSome || (strcasestr line "object".toList).isSome)

/-- The symbol that a `.type` line with a comma that ends with `function`
declares. -/
def func_decl (line : Str) : Option Str :=
  if opecode_with line ".type".toList && ends_with line "function".toList then
    (strchr line ',').map (decl_symbol line)
  else none

/-- The symbol that a `.type` line with a comma that ends with `object`
declares. -/
def obj_decl (line : Str) : Option Str :=
  if opecode_with line ".type".toList && !ends_with line "function".toList
      && ends_with line "object".toList then
    (strchr line ',').map (decl_symbol line)
  else none

/-- The characters of an assembler symbol name: letters, digits, `_`, `.`
and `$`. -/
def is_symbol_char (c : Char) : Bool :=
  c.isAlphanum || c == '_' || c == '.' || c == '$'

/-- Whether `sym` is a symbol name: not empty and made of symbol
characters. -/
def is_symbol (sym : Str) : Bool :=
  !sym.isEmpty && sym.all is_symbol_char

/-- The declaration line `.type sym, ty`. -/
def decl_line (sym ty : Str) : Str :=
  ".type ".toList ++ sym ++ ", ".toList ++ ty

/-! ## Replacing a text, as a single pass -/

/-- The single left-to-right pass that replaces `frm` by `rep`: `skip` counts
the characters of a matched occurrence still to be passed over. -/
def replace_all_aux (frm rep : Str) : Nat → Str → Str
  | _, [] => []
  | skip + 1, _ :: cs => replace_all_aux frm rep skip cs
  | 0, c :: cs =>
    if frm.isPrefixOf (c :: cs) then rep ++ replace_all_aux frm rep (frm.length - 1) cs
    else c :: replace_all_aux frm rep 0 cs

/-- The text `s` with every occurrence of `frm`, found in a single pass from
the left, replaced by `rep`. -/
def replace_all (frm rep s : Str) : Str :=
  replace_all_aux frm rep 0 s

/-- The number of positions of `s` at which `frm` occurs. -/
def occurrences (frm : Str) : Str → Nat
  | [] => 0
  | c :: cs => (if frm.isPrefixOf (c :: cs) then 1 else 0) + occurrences frm cs

/-- A pattern and a replacement such that putting the replacement into a text
creates no occurrence of the pattern: neither is empty or a prefix of the
other, the first character of the one does not occur later in the other, and
the first character of the pattern does not occur later in the pattern. -/
def separate (frm rep : Str) : Bool :=
  !frm.isEmpty && !rep.isEmpty && !frm.isPrefixOf rep && !rep.isPrefixOf frm
    && !frm.tail.contains (rep.headD ' ') && !rep.tail.contains (frm.headD ' ')
    && !frm.tail.contains (frm.headD ' ')

/-- The pairs that `replace_sp_with_frame_ptr` passes to `_str_replace`, in
the order of the calls. -/
def sp_pairs : List (Str × Str) :=
  [("%rsp".toList, _get_frame_ptr 8), ("%esp".toList, _get_frame_ptr 4),
   ("%sp".toList, _get_frame_ptr 2), ("%spl".toList, _get_frame_ptr 1)]

/-- The pairs that `load_asm` passes to `_str_replace`. -/
def label_pairs : List (Str × Str) :=
  [("/".toList, "_".toList), (".".toList, "_".toList)]

/-- No occurrence of `frm` starts within `X` in the text `X ++ B`. -/
def clear_of (frm X B : Str) : Prop :=
  ∀ k, k < X.length → frm.isPrefixOf ((X ++ B).drop k) = false

/-- The line `l` after the four single passes, in the order of the calls of
`replace_sp_with_frame_ptr`. -/
def sp_replaced (l : Str) : Str :=
  sp_pairs.foldl (fun l p => replace_all p.1 p.2 l) l

/-- What `replace_sp_with_frame_ptr` is to make of the entry `l`. -/
def sp_pass_line (l : Str) : Str :=
  if is_insn l then sp_replaced l else l

/-! ## The lines of the safe-stack template -/

/-- The header comment of `replace_push_pop_with_mov`. -/
def push_pop_hdr : Str :=
  "#> ================ by replace_push_pop_with_mov():689".toList

/-- The footer comment of `replace_push_pop_with_mov`. -/
def push_pop_ftr : Str :=
  "#< ================ by replace_push_pop_with_mov():720".toList

/-- The two tagged lines with which the template saves and restores the
scratch register around a push of an operand that starts with `(`. -/
def scratch_save_lines : List Str :=
  ["\tpushq %r10 #_volatile_".toList, "\tpopq  %r10 #_volatile_".toList]

/-- The lines that `replace_push_pop_with_mov` writes for a push with type
character `c` and first operand `op1`, behind the commented original. -/
def push_template (c : Char) (op1 : Str) : List Str :=
  if op1.head? = some '(' then
    [push_pop_hdr,
     "\tpushq %r10 #_volatile_".toList,
     "\txor   %r10, %r10".toList,
     "\tmov".toList ++ [c] ++ " ".toList ++ op1 ++ ", %r10".toList,
     "\tsub   $".toList ++ Nat.toDigits 10 (optype_bytes c) ++ ", %rsp".toList,
     "\tmov".toList ++ [c] ++ " %r10, (%rsp)".toList,
     "\tpopq  %r10 #_volatile_".toList,
     push_pop_ftr]
  else
    [push_pop_hdr,
     "\tsub   $".toList ++ Nat.toDigits 10 (optype_bytes c) ++ ", %rsp".toList,
     "\tmov".toList ++ [c] ++ " ".toList ++ op1 ++ ", (%rsp)".toList,
     push_pop_ftr]

/-- The lines that `replace_push_pop_with_mov` writes for a pop with type
character `c` and a first operand `op1` that does not start with `(`, behind
the commented original. -/
def pop_template (c : Char) (op1 : Str) : List Str :=
  [push_pop_hdr,
   "\tmov".toList ++ [c] ++ "  (%rsp), ".toList ++ op1,
   "\tadd    $".toList ++ Nat.toDigits 10 (optype_bytes c) ++ ", %rsp".toList,
   push_pop_ftr]

/-! ## Well-formed operands -/

/-- Whether the copy loop of `get_oparand` stops at the character `c` when no
parenthesis is open: the terminator, a blank, a tab, a newline, `,`, `#`, `;`
or `/`. -/
def is_operand_end (c : Char) : Bool :=
  c == Char.ofNat 0 || " ,\t\n#;/".toList.contains c

/-- The number of open parentheses behind the character `c`, from `d` in
front of it; none for a `)` that closes nothing. -/
def paren_depth (d : Nat) (c : Char) : Option Nat :=
  if c = '(' then some (d + 1)
  else if c = ')' then (if d = 0 then none else some (d - 1))
  else some d

/-- Whether the text `s`, read with `d` parentheses open, has balanced
parentheses and has the characters that end an operand only inside
parentheses. -/
def well_nested : Nat → Str → Bool
  | d, [] => d == 0
  | d, c :: cs =>
    match paren_depth d c with
    | none => false
    | some d' => !(d' == 0 && is_operand_end c) && well_nested d' cs

/-- An operand as the operand round-trip takes it: not empty, shorter than
`OP_SIZE`, with balanced parentheses, and with blank, tab, newline, `,`, `#`,
`;`, `/` only inside parentheses. -/
def well_formed_operand (op : Str) : Bool :=
  !op.isEmpty && decide (op.length < OP_SIZE) && well_nested 0 op

/-- A blank or a tab. -/
def is_blank (c : Char) : Bool :=
  c == ' ' || c == '\t'

/-- The counter `depth` of the copy loop of `get_oparand`, an `unsigned int`,
behind the character `c`. -/
def next_depth (d : Nat) (c : Char) : Nat :=
  if c = ')' then ((if c = '(' then (d + 1) % 2 ^ 32 else d) + 2 ^ 32 - 1) % 2 ^ 32
  else (if c = '(' then (d + 1) % 2 ^ 32 else d)

/-- The text in front of the first `#`, `/` or `;`, where `get_tail` cuts. -/
def code_part (s : Str) : Str :=
  s.takeWhile fun c => !(c == '#' || c == '/' || c == ';')

/-! ## Lines for the address-taking classifier -/

/-- The line `opc operand(%rip), %rax`. -/
def rip_line (opc operand : Str) : Str :=
  opc ++ " ".toList ++ operand ++ "(%rip), %rax".toList

/-- The operand `sym@sfx`. -/
def at_operand (sym sfx : Str) : Str :=
  sym ++ "@".toList ++ sfx

/-- An opcode that the classifier looks at: letters only, starting with `mov`
or `lea`. -/
def is_mov_lea (opc : Str) : Bool :=
  opc.all Char.isAlpha && (starts_with opc "mov".toList || starts_with opc "lea".toList)

/-- The verdict of the classifier on a symbol that is in neither list, by
the prefixes of the name. -/
def internal_prefix (sym : Str) : Bool :=
  starts_with sym "__GI__".toList || starts_with sym "_dl_".toList

/-! ## The block of `encode_func_addr` -/

/-- The lines that `encode_func_addr` writes for the destination operand `D`,
in the `USE_NONCE_RDRAND` build. -/
def encode_block (D : Str) : List Str :=
  ["#> ================ by encode_func_addr():494".toList,
   "\tpushq %r15 #_volatile_".toList,
   "\tmovq  %gs:0x100000, %r15".toList,
   "\tmov   ".toList ++ D ++ ", %gs:0x100000(%r15)".toList,
   "\tpushq %rdi #_volatile_".toList,
   "\tpushq %rax #_volatile_".toList,
   "\trdrand %eax".toList,
   "\tshl $32, %rax".toList,
   "\tmovq  %r15, %rdi".toList,
   "\tmovq  %rax, %gs:0x100008(%rdi)".toList,
   "\tor    %rax, %r15".toList,
   "\tpopq %rax #_volatile_".toList,
   "\tpopq %rdi #_volatile_".toList,
   "\taddl  $0x10, %gs:0x100000".toList,
   "\tmov   %".toList ++ get_frame_ptr (reg_bytes D) ++ ", ".toList ++ D,
   "\tpopq  %r15 #_volatile_".toList,
   "#< ================ by encode_func_addr():546".toList]

/-- The result of a call that returned, if it did. -/
def Res.toOption {α : Type} (r : Res α) : Option α :=
  match r with
  | .ok a => some a
  | .fatal _ => none

/-- The register that a tagged `push` line saves. -/
def saved_by (l : Str) : Option Str :=
  if opecode_with l "push".toList && ends_with l "#_volatile_".toList then
    (get_oparand l 1).toOption
  else none

/-- The register that a tagged `pop` line restores. -/
def restored_by (l : Str) : Option Str :=
  if opecode_with l "pop".toList && ends_with l "#_volatile_".toList then
    (get_oparand l 1).toOption
  else none

/-- The operand that an instruction line without tag writes: the second
operand, or the first when there is no second; none for a comment and for a
tagged line. -/
def written_by (l : Str) : Option Str :=
  if opecode_with l "#".toList || ends_with l "#_volatile_".toList then none
  else
    match get_oparand l 2 with
    | .ok [] => (get_oparand l 1).toOption
    | .ok op2 => some op2
    | .fatal _ => none
/-! ## Memory lemmas -/

theorem store64_out (m : Mem) (a v x : Nat) (h : x < a ∨ a + 8 ≤ x) :
    store64 m a v x = m x := by
  have hc : ¬ (a ≤ x ∧ x < a + 8) := by omega
  simp only [store64, if_neg hc]

theorem store32_out (m : Mem) (a v x : Nat) (h : x < a ∨ a + 4 ≤ x) :
    store32 m a v x = m x := by
  have hc : ¬ (a ≤ x ∧ x < a + 4) := by omega
  simp only [store32, if_neg hc]

theorem store64_in (m : Mem) (a v i : Nat) (h : i < 8) :
    store64 m a v (a + i) = v / 256 ^ i % 256 := by
  have hc : a ≤ a + i ∧ a + i < a + 8 := by omega
  have hs : a + i - a = i := by omega
  simp only [store64, if_pos hc, hs]

theorem store32_in (m : Mem) (a v i : Nat) (h : i < 4) :
    store32 m a v (a + i) = v / 256 ^ i % 256 := by
  have hc : a ≤ a + i ∧ a + i < a + 4 := by omega
  have hs : a + i - a = i := by omega
  simp only [store32, if_pos hc, hs]

theorem load64_lt (m : Mem) (a : Nat) : load64 m a < W64 := by
  simp only [load64, W64, Nat.reducePow]
  omega

theorem load32_eq (m : Mem) (a : Nat) : load32 m a = load64 m a % W32 := by
  simp only [load32, load64, W32, Nat.reducePow]
  omega

theorem load64_store64_same (m : Mem) (a v : Nat) :
    load64 (store64 m a v) a = v % W64 := by
  have h0 := store64_in m a v 0 (by omega)
  have h1 := store64_in m a v 1 (by omega)
  have h2 := store64_in m a v 2 (by omega)
  have h3 := store64_in m a v 3 (by omega)
  have h4 := store64_in m a v 4 (by omega)
  have h5 := store64_in m a v 5 (by omega)
  have h6 := store64_in m a v 6 (by omega)
  have h7 := store64_in m a v 7 (by omega)
  simp only [Nat.add_zero] at h0
  unfold load64
  rw [h0, h1, h2, h3, h4, h5, h6, h7]
  clear h0 h1 h2 h3 h4 h5 h6 h7
  simp only [W64, Nat.reducePow, Nat.div_one, Nat.pow_one]
  omega

theorem load64_congr (m m' : Mem) (a : Nat)
    (h : ∀ i, i < 8 → m' (a + i) = m (a + i)) : load64 m' a = load64 m a := by
  have h0 := h 0 (by omega)
  simp only [Nat.add_zero] at h0
  unfold load64
  rw [h0, h 1 (by omega), h 2 (by omega), h 3 (by omega), h 4 (by omega),
    h 5 (by omega), h 6 (by omega), h 7 (by omega)]

theorem load64_store64_other (m : Mem) (a v b : Nat) (h : b + 8 ≤ a ∨ a + 8 ≤ b) :
    load64 (store64 m a v) b = load64 m b :=
  load64_congr _ _ _ fun i hi => store64_out m a v (b + i) (by omega)

theorem load64_store32_other (m : Mem) (a v b : Nat) (h : b + 8 ≤ a ∨ a + 4 ≤ b) :
    load64 (store32 m a v) b = load64 m b :=
  load64_congr _ _ _ fun i hi => store32_out m a v (b + i) (by omega)

theorem load64_store32_same (m : Mem) (a v : Nat) :
    load64 (store32 m a v) a = v % W32 + load64 m a / W32 * W32 := by
  have h0 := store32_in m a v 0 (by omega)
  have h1 := store32_in m a v 1 (by omega)
  have h2 := store32_in m a v 2 (by omega)
  have h3 := store32_in m a v 3 (by omega)
  have h4 := store32_out m a v (a + 4) (by omega)
  have h5 := store32_out m a v (a + 5) (by omega)
  have h6 := store32_out m a v (a + 6) (by omega)
  have h7 := store32_out m a v (a + 7) (by omega)
  simp only [Nat.add_zero] at h0
  unfold load64
  rw [h0, h1, h2, h3, h4, h5, h6, h7]
  clear h0 h1 h2 h3 h4 h5 h6 h7
  simp only [W32, Nat.reducePow, Nat.div_one, Nat.pow_one]
  omega

/-! ## Single calls of the runtime routines -/

/-- C3: for `fp` below `LEAST_ADDRESS` or above `LARGEST_ADDRESS`,
`encrypt_function_pointer` returns `fp` and leaves the machine state, hence the
slot counter and every cell of the table, as it was. -/
theorem encrypt_function_pointer_noop (s : Machine) (rdrand fp : Nat)
    (h : fp < LEAST_ADDRESS ∨ fp > LARGEST_ADDRESS) :
    encrypt_function_pointer s rdrand fp = (fp, s) := by
  have hc : fp < LEAST_ADDRESS ∨ fp > AG_MAGIC_CODE ∨ fp > LARGEST_ADDRESS := by
    rcases h with h | h
    · exact Or.inl h
    · exact Or.inr (Or.inr h)
  simp only [encrypt_function_pointer, if_pos hc]

theorem encrypt_function_pointer_noop_witness :
    (5 < LEAST_ADDRESS ∨ 5 > LARGEST_ADDRESS)
      ∧ encrypt_function_pointer zeroMachine 7 5 = (5, zeroMachine) :=
  ⟨Or.inl (by decide), encrypt_function_pointer_noop zeroMachine 7 5 (Or.inl (by decide))⟩

/-- C4, failing input: with slot counter `0x10` and nonce `1` the pointer
`0x7fffffff0000` gets the tag `0x100000010`.  The tag lies strictly between
`LEAST_ADDRESS` and `LARGEST_ADDRESS`, so `elf_ifunc_invoke` returns it as it
is, although decoding it would give the pointer back. -/
theorem tag_passes_plain_address_test :
    (encrypt_function_pointer (counterMachine 0x10) 1 0x7fffffff0000).1 = 0x100000010
      ∧ LEAST_ADDRESS < 0x100000010 ∧ 0x100000010 < LARGEST_ADDRESS
      ∧ (elf_ifunc_invoke (encrypt_function_pointer (counterMachine 0x10) 1 0x7fffffff0000).2
          0x100000010).1 = 0x100000010
      ∧ elf_ifunc_decode (encrypt_function_pointer (counterMachine 0x10) 1 0x7fffffff0000).2
          0x100000010 = 0x7fffffff0000 := by
  decide

theorem gsAddr_nonce_cell (s : Machine) (o : Nat) :
    gsAddr s 0x100008 o = gsAddr s 0x100000 (o + 8) := by
  have e : 0x100008 + o = 0x100000 + (o + 8) := by omega
  simp only [gsAddr, e]

/-- C11: `elf_ifunc_invoke` returns `ret` itself when
`LEAST_ADDRESS < ret < LARGEST_ADDRESS`; otherwise it returns the 8-byte value
of the slot table at offset `ret xor nonce`, where `nonce` is the 8-byte value
at offset `(ret & 0xffffffff) + 8`.  In both cases the machine state is the
one it was called in. -/
theorem elf_ifunc_invoke_result (s : Machine) (ret : AG_Addr) :
    elf_ifunc_invoke s ret
      = (if LEAST_ADDRESS < ret ∧ ret < LARGEST_ADDRESS then ret
          else load64 s.mem (gsAddr s 0x100000
            (ret ^^^ load64 s.mem (gsAddr s 0x100000 ((ret &&& 0xffffffff) + 8)))), s) := by
  simp only [elf_ifunc_invoke, elf_ifunc_decode, gsAddr_nonce_cell, gt_iff_lt]
  split <;> rfl

/-- C9, failing input: one record with code range `[0x80001000, 0x80001500)`
and new code base `0x80009000`.  For `addr = 0x80001200` inside the range and
mode `ALWAYS_ENCODE`, neither `mode & MAY_ENCODE` nor `mode & NOT_ENCODE` is
set: the address comes back as it went in, neither translated nor tagged, and
no slot is used, whereas `encrypt_function_pointer` would give the tag
`0x700000010` and move the counter from `0x10` to `0x20`. -/
theorem always_encode_inside_record :
    (adjust_encode_code_addr
        (tableMachine 0x10 [[0, 0x80001000, 0x80009000, 0, 0, 0x500, 0, 0, 0, 0]])
        7 0x80001200 ALWAYS_ENCODE 0).1 = 0x80001200
      ∧ slotCounter (adjust_encode_code_addr
          (tableMachine 0x10 [[0, 0x80001000, 0x80009000, 0, 0, 0x500, 0, 0, 0, 0]])
          7 0x80001200 ALWAYS_ENCODE 0).2 = 0x10
      ∧ (encrypt_function_pointer
          (tableMachine 0x10 [[0, 0x80001000, 0x80009000, 0, 0, 0x500, 0, 0, 0, 0]])
          7 0x80001200).1 = 0x700000010
      ∧ slotCounter (encrypt_function_pointer
          (tableMachine 0x10 [[0, 0x80001000, 0x80009000, 0, 0, 0x500, 0, 0, 0, 0]])
          7 0x80001200).2 = 0x20
      ∧ (adjust_encode_code_addr
          (tableMachine 0x10 [[0, 0x80001000, 0x80009000, 0, 0, 0x500, 0, 0, 0, 0]])
          7 0x80001700 ALWAYS_ENCODE 0).1 = 0x700000010 := by
  decide

/-! ## Scans of the remap table -/

theorem adjust_loop_skip (s : Machine) (rdrand addr mode loc : Nat) (n : Nat) :
    ∀ (i idx : Nat), (∀ j, j < i → ¬ code_range_has s (idx + j) addr) →
      adjust_loop s rdrand addr mode loc (n + i) idx
        = adjust_loop s rdrand addr mode loc n (idx + i) := by
  intro i
  induction i with
  | zero => intro idx _; rfl
  | succ i ih =>
    intro idx h
    have h0 : ¬ (remapField s idx 1 ≤ addr
        ∧ addr < (remapField s idx 1 + remapField s idx 5) % W64) := h 0 (Nat.succ_pos i)
    have e : n + (i + 1) = (n + i) + 1 := by omega
    rw [e, adjust_loop]
    simp only [if_neg h0]
    rw [ih (idx + 1) (fun j hj => by
      have := h (j + 1) (by omega)
      rwa [show idx + 1 + j = idx + (j + 1) by omega])]
    rw [show idx + 1 + i = idx + (i + 1) by omega]

theorem adjust_loop_first (s : Machine) (rdrand addr mode loc : Nat) (n i : Nat)
    (hi : i < n) (hfirst : ∀ j, j < i → ¬ code_range_has s j addr) :
    adjust_loop s rdrand addr mode loc n 0
      = adjust_loop s rdrand addr mode loc (n - i) i := by
  have h := adjust_loop_skip s rdrand addr mode loc (n - i) i 0
    (fun j hj => by rw [Nat.zero_add]; exact hfirst j hj)
  rw [show n - i + i = n by omega, Nat.zero_add] at h
  exact h

/-- C7 (amended): for a table (`safeMemReg` not 0) and `addr` with
`LEAST_ADDRESS ≤ addr ≤ AG_MAGIC_CODE`, if record `i` is the first record whose
code range contains `addr`, then `adjust_encode_code_addr (addr, NOT_ENCODE, 0)`
returns `addr + newCodeBase - oldCodeBase` of that record, in 64-bit
arithmetic, and changes nothing. -/
theorem adjust_not_encode_translates (s : Machine) (rdrand : Nat) (addr : AG_Addr) (i : Nat)
    (hs : s.safeMemReg ≠ 0) (hlo : LEAST_ADDRESS ≤ addr) (hhi : addr ≤ AG_MAGIC_CODE)
    (hi : i < (remapCount s).toNat) (hin : code_range_has s i addr)
    (hfirst : ∀ j, j < i → ¬ code_range_has s j addr) :
    adjust_encode_code_addr s rdrand addr NOT_ENCODE 0
      = ((addr + (remapField s i 2 + (W64 - remapField s i 1)) % W64) % W64, s) := by
  have hr : ¬ (addr < LEAST_ADDRESS ∨ addr > AG_MAGIC_CODE) :=
    fun h => h.elim (Nat.not_lt.mpr hlo) (Nat.not_lt.mpr hhi)
  obtain ⟨k, hk⟩ : ∃ k, (remapCount s).toNat - i = k + 1 := ⟨(remapCount s).toNat - i - 1, by omega⟩
  have hin' : remapField s i 1 ≤ addr
      ∧ addr < (remapField s i 1 + remapField s i 5) % W64 := hin
  have hloc : ¬ (0 > 0 ∧ remapField s i 3 ≤ 0 ∧ 0 < (remapField s i 3 + remapField s i 6) % W64) := by
    omega
  simp only [adjust_encode_code_addr, if_neg hr, if_pos hs,
    adjust_loop_first s rdrand addr NOT_ENCODE 0 _ i hi hfirst, hk, adjust_loop, if_pos hin',
    if_neg hloc]
  rfl

theorem adjust_not_encode_translates_witness :
    (tableMachine 0x10 [[0, 0x80001000, 0x80009000, 0, 0, 0x500, 0, 0, 0, 0]]).safeMemReg ≠ 0
      ∧ code_range_has (tableMachine 0x10 [[0, 0x80001000, 0x80009000, 0, 0, 0x500, 0, 0, 0, 0]])
          0 0x80001200
      ∧ (adjust_encode_code_addr
          (tableMachine 0x10 [[0, 0x80001000, 0x80009000, 0, 0, 0x500, 0, 0, 0, 0]])
          0 0x80001200 NOT_ENCODE 0).1 = 0x80009200 :=
  ⟨by decide, by decide,
    (congrArg Prod.fst (adjust_not_encode_translates
      (tableMachine 0x10 [[0, 0x80001000, 0x80009000, 0, 0, 0x500, 0, 0, 0, 0]])
      0 0x80001200 0 (by decide) (by decide) (by decide) (by decide) (by decide)
      (fun j hj => absurd hj (Nat.not_lt_zero j)))).trans (by decide)⟩

/-- C7, counterexample: with the single record `oldCodeBase = 0x1000`,
`newCodeBase = 0x9000`, `codeSize = 0x500` the address `0x1200` is below
`LEAST_ADDRESS` and comes back unchanged, not as `0x9200`. -/
theorem adjust_below_least_address_unchanged :
    code_range_has (tableMachine 0x10 [[0, 0x1000, 0x9000, 0, 0, 0x500, 0, 0, 0, 0]]) 0 0x1200
      ∧ (adjust_encode_code_addr
          (tableMachine 0x10 [[0, 0x1000, 0x9000, 0, 0, 0x500, 0, 0, 0, 0]])
          0 0x1200 NOT_ENCODE 0).1 = 0x1200 := by
  decide

/-- C8 (amended): for a table (`safeMemReg` not 0), whatever the mode, if
record `i` is the first record whose code range contains `addr` and `loc > 0`
lies in the GOT/PLT range of that record, then `adjust_encode_code_addr`
returns `addr` and leaves the machine, hence the slot counter, as it was. -/
theorem adjust_gotplt_unchanged (s : Machine) (rdrand : Nat) (addr : AG_Addr) (mode : Nat)
    (loc : AG_Addr) (i : Nat)
    (hs : s.safeMemReg ≠ 0) (hi : i < (remapCount s).toNat) (hin : code_range_has s i addr)
    (hfirst : ∀ j, j < i → ¬ code_range_has s j addr)
    (hloc : loc > 0) (hgp : gotplt_range_has s i loc) :
    adjust_encode_code_addr s rdrand addr mode loc = (addr, s) := by
  by_cases hr : addr < LEAST_ADDRESS ∨ addr > AG_MAGIC_CODE
  · simp only [adjust_encode_code_addr, if_pos hr]
  · obtain ⟨k, hk⟩ : ∃ k, (remapCount s).toNat - i = k + 1 :=
      ⟨(remapCount s).toNat - i - 1, by omega⟩
    have hin' : remapField s i 1 ≤ addr
        ∧ addr < (remapField s i 1 + remapField s i 5) % W64 := hin
    have hloc' : loc > 0 ∧ remapField s i 3 ≤ loc
        ∧ loc < (remapField s i 3 + remapField s i 6) % W64 := ⟨hloc, hgp⟩
    simp only [adjust_encode_code_addr, if_neg hr, if_pos hs,
      adjust_loop_first s rdrand addr mode loc _ i hi hfirst, hk, adjust_loop, if_pos hin',
      if_pos hloc']

theorem adjust_gotplt_unchanged_witness :
    code_range_has
        (tableMachine 0x10 [[0, 0x80001000, 0x80009000, 0x80010000, 0, 0x500, 0x100, 0, 0, 0]])
        0 0x80001200
      ∧ gotplt_range_has
        (tableMachine 0x10 [[0, 0x80001000, 0x80009000, 0x80010000, 0, 0x500, 0x100, 0, 0, 0]])
        0 0x80010010
      ∧ (adjust_encode_code_addr
          (tableMachine 0x10 [[0, 0x80001000, 0x80009000, 0x80010000, 0, 0x500, 0x100, 0, 0, 0]])
          3 0x80001200 MAY_ENCODE 0x80010010).1 = 0x80001200 :=
  ⟨by decide, by decide,
    congrArg Prod.fst (adjust_gotplt_unchanged
      (tableMachine 0x10 [[0, 0x80001000, 0x80009000, 0x80010000, 0, 0x500, 0x100, 0, 0, 0]])
      3 0x80001200 MAY_ENCODE 0x80010010 0 (by decide) (by decide) (by decide)
      (fun j hj => absurd hj (Nat.not_lt_zero j)) (by decide) (by decide))⟩

/-- C8, counterexample: two records with the same code range
`[0x80001000, 0x80001500)`.  `addr = 0x80001200` is in the code range of
record 1 and `loc = 0x80020010` is in the GOT/PLT range of record 1, but the
scan stops at record 0, whose GOT/PLT range does not contain `loc`, and the
address is translated to `0x80009200`. -/
theorem adjust_gotplt_of_later_record_translated :
    code_range_has
        (tableMachine 0x10 [[0, 0x80001000, 0x80009000, 0x80010000, 0, 0x500, 0x100, 0, 0, 0],
          [0, 0x80001000, 0x8000a000, 0x80020000, 0, 0x500, 0x100, 0, 0, 0]])
        1 0x80001200
      ∧ gotplt_range_has
        (tableMachine 0x10 [[0, 0x80001000, 0x80009000, 0x80010000, 0, 0x500, 0x100, 0, 0, 0],
          [0, 0x80001000, 0x8000a000, 0x80020000, 0, 0x500, 0x100, 0, 0, 0]])
        1 0x80020010
      ∧ (adjust_encode_code_addr
          (tableMachine 0x10 [[0, 0x80001000, 0x80009000, 0x80010000, 0, 0x500, 0x100, 0, 0, 0],
            [0, 0x80001000, 0x8000a000, 0x80020000, 0, 0x500, 0x100, 0, 0, 0]])
          3 0x80001200 NOT_ENCODE 0x80020010).1 = 0x80009200 := by
  decide

theorem is_gotplt_loop_iff (s : Machine) (addr : AG_Addr) :
    ∀ n idx, is_gotplt_loop s addr n idx = true
      ↔ ∃ j, j < n ∧ gotplt_range_has s (idx + j) addr := by
  intro n
  induction n with
  | zero =>
    intro idx
    simp only [is_gotplt_loop, Bool.false_eq_true, Nat.not_lt_zero, false_and, exists_false]
  | succ n ih =>
    intro idx
    rw [is_gotplt_loop]
    by_cases h : remapField s idx 3 ≤ addr
        ∧ addr < (remapField s idx 3 + remapField s idx 6) % W64
    · simp only [if_pos h, true_iff]
      exact ⟨0, Nat.succ_pos n, h⟩
    · simp only [if_neg h, ih (idx + 1)]
      constructor
      · rintro ⟨j, hj, hr⟩
        exact ⟨j + 1, by omega, by rwa [show idx + (j + 1) = idx + 1 + j by omega]⟩
      · rintro ⟨j, hj, hr⟩
        cases j with
        | zero => exact absurd hr h
        | succ j => exact ⟨j, by omega, by rwa [show idx + 1 + j = idx + (j + 1) by omega]⟩

theorem is_rodata_loop_iff (s : Machine) (addr : AG_Addr) :
    ∀ n idx, is_rodata_loop s addr n idx = true
      ↔ ∃ j, j < n ∧ relro_range_has s (idx + j) addr := by
  intro n
  induction n with
  | zero =>
    intro idx
    simp only [is_rodata_loop, Bool.false_eq_true, Nat.not_lt_zero, false_and, exists_false]
  | succ n ih =>
    intro idx
    rw [is_rodata_loop]
    by_cases h : remapField s idx 7 ≤ addr
        ∧ addr < (remapField s idx 7 + remapField s idx 9) % W64
    · simp only [if_pos h, true_iff]
      exact ⟨0, Nat.succ_pos n, h⟩
    · simp only [if_neg h, ih (idx + 1)]
      constructor
      · rintro ⟨j, hj, hr⟩
        exact ⟨j + 1, by omega, by rwa [show idx + (j + 1) = idx + 1 + j by omega]⟩
      · rintro ⟨j, hj, hr⟩
        cases j with
        | zero => exact absurd hr h
        | succ j => exact ⟨j, by omega, by rwa [show idx + 1 + j = idx + (j + 1) by omega]⟩

/-- C10: `is_gotplt (addr)` is true exactly when `addr` lies in
`[LEAST_ADDRESS, AG_MAGIC_CODE]`, there is a table (`safeMemReg` not 0) and
some record `i` below the record count has
`oldGpBase ≤ addr < oldGpBase + gotpltSize`; `is_rodata (addr)` likewise with
`oldRelRoBase` and `relRoSize`.  The sums are the 64-bit sums the code
computes.  In particular both are false outside the address range. -/
theorem range_membership_scans (s : Machine) (addr : AG_Addr) :
    (is_gotplt s addr = true
        ↔ LEAST_ADDRESS ≤ addr ∧ addr ≤ AG_MAGIC_CODE ∧ s.safeMemReg ≠ 0
          ∧ ∃ i, i < (remapCount s).toNat ∧ gotplt_range_has s i addr)
      ∧ (is_rodata s addr = true
        ↔ LEAST_ADDRESS ≤ addr ∧ addr ≤ AG_MAGIC_CODE ∧ s.safeMemReg ≠ 0
          ∧ ∃ i, i < (remapCount s).toNat ∧ relro_range_has s i addr) := by
  have hz : ∀ j, 0 + j = j := Nat.zero_add
  by_cases hr : addr < LEAST_ADDRESS ∨ addr > AG_MAGIC_CODE
  · have hn : ¬ (LEAST_ADDRESS ≤ addr ∧ addr ≤ AG_MAGIC_CODE) := by
      rintro ⟨h1, h2⟩
      exact hr.elim (Nat.not_lt.mpr h1) (Nat.not_lt.mpr h2)
    constructor
    · simp only [is_gotplt, if_pos hr, Bool.false_eq_true, false_iff]
      exact fun h => hn ⟨h.1, h.2.1⟩
    · simp only [is_rodata, if_pos hr, Bool.false_eq_true, false_iff]
      exact fun h => hn ⟨h.1, h.2.1⟩
  · have h1 : LEAST_ADDRESS ≤ addr := Nat.not_lt.mp (fun h => hr (Or.inl h))
    have h2 : addr ≤ AG_MAGIC_CODE := Nat.not_lt.mp (fun h => hr (Or.inr h))
    by_cases hs : s.safeMemReg ≠ 0
    · simp only [is_gotplt, is_rodata, if_neg hr, if_pos hs, is_gotplt_loop_iff,
        is_rodata_loop_iff, hz, h1, h2, true_and, ne_eq, hs, not_false_eq_true, ↓reduceIte]
    · simp only [is_gotplt, is_rodata, if_neg hr, if_neg hs, Bool.false_eq_true, false_iff,
        hs, false_and, and_false, not_false_eq_true, and_self, ↓reduceIte]

theorem get_offset_loop_skip (s : Machine) (addr : AG_Addr) (n : Nat) :
    ∀ (i idx : Nat), (∀ j, j < i → ¬ code_range_has s (idx + j) addr) →
      get_offset_loop s addr (n + i) idx = get_offset_loop s addr n (idx + i) := by
  intro i
  induction i with
  | zero => intro idx _; rfl
  | succ i ih =>
    intro idx h
    have h0 : ¬ (remapField s idx 1 ≤ addr
        ∧ addr < (remapField s idx 1 + remapField s idx 5) % W64) := h 0 (Nat.succ_pos i)
    have e : n + (i + 1) = (n + i) + 1 := by omega
    rw [e, get_offset_loop]
    simp only [if_neg h0]
    rw [ih (idx + 1) (fun j hj => by
      have := h (j + 1) (by omega)
      rwa [show idx + 1 + j = idx + (j + 1) by omega])]
    rw [show idx + 1 + i = idx + (i + 1) by omega]

/-- C38: for a table (`safeMemReg` not 0) and `addr` in
`[LEAST_ADDRESS, AG_MAGIC_CODE]` whose first containing record is record `i`,
when `loc` is 0 or outside the GOT/PLT range of record `i`:
`adjust_encode_code_addr_fast` called with the offset
`sizeof(int) + i * sizeof(struct remapInfo)` returns what
`adjust_encode_code_addr (addr, NOT_ENCODE, loc)` returns, the latter changes
nothing, and the value is `addr + get_offset_remap_code_addr (addr)` in 64-bit
arithmetic. -/
theorem fast_and_slow_translation_agree (s : Machine) (rdrand : Nat) (addr loc : AG_Addr)
    (i : Nat) (hs : s.safeMemReg ≠ 0) (hlo : LEAST_ADDRESS ≤ addr) (hhi : addr ≤ AG_MAGIC_CODE)
    (hi : i < (remapCount s).toNat) (hin : code_range_has s i addr)
    (hfirst : ∀ j, j < i → ¬ code_range_has s j addr)
    (hloc : loc = 0 ∨ ¬ gotplt_range_has s i loc) :
    adjust_encode_code_addr s rdrand addr NOT_ENCODE loc
        = (adjust_encode_code_addr_fast s addr ((4 + i * 80 : Nat) : Int) loc, s)
      ∧ adjust_encode_code_addr_fast s addr ((4 + i * 80 : Nat) : Int) loc
        = (addr + get_offset_remap_code_addr s addr) % W64 := by
  have hr : ¬ (addr < LEAST_ADDRESS ∨ addr > AG_MAGIC_CODE) :=
    fun h => h.elim (Nat.not_lt.mpr hlo) (Nat.not_lt.mpr hhi)
  obtain ⟨k, hk⟩ := Nat.exists_eq_succ_of_ne_zero (Nat.sub_ne_zero_of_lt hi)
  have hin' : remapField s i 1 ≤ addr
      ∧ addr < (remapField s i 1 + remapField s i 5) % W64 := hin
  have hloc' : ¬ (loc > 0 ∧ remapField s i 3 ≤ loc
      ∧ loc < (remapField s i 3 + remapField s i 6) % W64) := by
    rintro ⟨h0, hg⟩
    rcases hloc with h | h
    · exact absurd h (Nat.pos_iff_ne_zero.mp h0)
    · exact h hg
  have hpos : s.safeMemReg ≠ 0 ∧ (((4 + i * 80 : Nat) : Int)) > 0 := ⟨hs, by
    exact_mod_cast (show 0 < 4 + i * 80 by omega)⟩
  have hf1 : load64 s.mem ((s.safeMemReg + (4 + i * 80) + 8) % W64) = remapField s i 1 := by
    have e : ∀ a : Nat, a + 4 + i * 80 + 1 * 8 = a + (4 + i * 80) + 8 := by intro a; omega
    simp only [remapField, e]
  have hf2 : load64 s.mem ((s.safeMemReg + (4 + i * 80) + 2 * 8) % W64) = remapField s i 2 := by
    have e : ∀ a : Nat, a + 4 + i * 80 + 2 * 8 = a + (4 + i * 80) + 2 * 8 := by intro a; omega
    simp only [remapField, e]
  have hgo := get_offset_loop_skip s addr ((remapCount s).toNat - i) i 0
    (fun j hj => by rw [Nat.zero_add]; exact hfirst j hj)
  rw [Nat.sub_add_cancel (Nat.le_of_lt hi), Nat.zero_add] at hgo
  have hfast : adjust_encode_code_addr_fast s addr ((4 + i * 80 : Nat) : Int) loc
      = (addr + (remapField s i 2 + (W64 - remapField s i 1)) % W64) % W64 := by
    simp only [adjust_encode_code_addr_fast, if_neg hr, if_pos hpos, Int.toNat_ofNat, hf1, hf2]
  constructor
  · rw [hfast]
    simp only [adjust_encode_code_addr, if_neg hr, if_pos hs,
      adjust_loop_first s rdrand addr NOT_ENCODE loc _ i hi hfirst, hk, adjust_loop, if_pos hin',
      if_neg hloc']
    rfl
  · rw [hfast]
    simp only [get_offset_remap_code_addr, if_pos hs, hgo, hk, get_offset_loop, if_pos hin']

theorem fast_and_slow_translation_agree_witness :
    code_range_has (tableMachine 0x10 [[0, 0x80001000, 0x80009000, 0, 0, 0x500, 0, 0, 0, 0]])
        0 0x80001200
      ∧ adjust_encode_code_addr
          (tableMachine 0x10 [[0, 0x80001000, 0x80009000, 0, 0, 0x500, 0, 0, 0, 0]])
          0 0x80001200 NOT_ENCODE 0
        = (adjust_encode_code_addr_fast
            (tableMachine 0x10 [[0, 0x80001000, 0x80009000, 0, 0, 0x500, 0, 0, 0, 0]])
            0x80001200 ((4 + 0 * 80 : Nat) : Int) 0,
          tableMachine 0x10 [[0, 0x80001000, 0x80009000, 0, 0, 0x500, 0, 0, 0, 0]])
      ∧ adjust_encode_code_addr_fast
          (tableMachine 0x10 [[0, 0x80001000, 0x80009000, 0, 0, 0x500, 0, 0, 0, 0]])
          0x80001200 ((4 + 0 * 80 : Nat) : Int) 0
        = (0x80001200 + get_offset_remap_code_addr
            (tableMachine 0x10 [[0, 0x80001000, 0x80009000, 0, 0, 0x500, 0, 0, 0, 0]])
            0x80001200) % W64 :=
  ⟨by decide,
    fast_and_slow_translation_agree
      (tableMachine 0x10 [[0, 0x80001000, 0x80009000, 0, 0, 0x500, 0, 0, 0, 0]])
      0 0x80001200 0 0 (by decide) (by decide) (by decide) (by decide) (by decide)
      (fun j hj => absurd hj (Nat.not_lt_zero j)) (Or.inl rfl)⟩

/-! ## One call of `encrypt_function_pointer` -/

/-- The nonce as stored: the random value in the high half of a 64-bit word. -/
theorem nonce_eq (r : Nat) : (r % W32) <<< 32 % W64 = (r % W32) * 2 ^ 32 := by
  rw [Nat.shiftLeft_eq]
  have h : r % W32 < 2 ^ 32 := Nat.mod_lt _ (by decide)
  simp only [W64]
  omega

theorem encrypt_asm_eq (s : Machine) (r fp : Nat) :
    encrypt_asm s r fp
      = (slotCounter s ||| (r % W32) <<< 32 % W64,
          { gsBase := s.gsBase, safeMemReg := s.safeMemReg,
            mem := store32
              (store64 (store64 s.mem (gsAddr s 0x100000 (slotCounter s)) fp)
                (gsAddr s 0x100008 (slotCounter s)) ((r % W32) <<< 32 % W64))
              (gsAddr s 0x100000 0)
              ((load32
                (store64 (store64 s.mem (gsAddr s 0x100000 (slotCounter s)) fp)
                  (gsAddr s 0x100008 (slotCounter s)) ((r % W32) <<< 32 % W64))
                (gsAddr s 0x100000 0) + 0x10) % W32) }) := by
  cases s
  rfl

theorem gsAddr_congr (s' s : Machine) (h : s'.gsBase = s.gsBase) (d x : Nat) :
    gsAddr s' d x = gsAddr s d x := by
  simp only [gsAddr, h]

/-- Positions of the counter cell and of the two cells of slot `c`. -/
theorem gs_geom (g c : Nat) (h8 : 8 ≤ c) (hov : c + 0x10 < 2 ^ 32) :
    ((g + (0x100000 + c) % 2 ^ 64) % 2 ^ 64 + 8 ≤ (g + (0x100000 + 0) % 2 ^ 64) % 2 ^ 64
        ∨ (g + (0x100000 + 0) % 2 ^ 64) % 2 ^ 64 + 8 ≤ (g + (0x100000 + c) % 2 ^ 64) % 2 ^ 64)
      ∧ ((g + (0x100008 + c) % 2 ^ 64) % 2 ^ 64 + 8 ≤ (g + (0x100000 + 0) % 2 ^ 64) % 2 ^ 64
        ∨ (g + (0x100000 + 0) % 2 ^ 64) % 2 ^ 64 + 8 ≤ (g + (0x100008 + c) % 2 ^ 64) % 2 ^ 64)
      ∧ ((g + (0x100008 + c) % 2 ^ 64) % 2 ^ 64 + 8 ≤ (g + (0x100000 + c) % 2 ^ 64) % 2 ^ 64
        ∨ (g + (0x100000 + c) % 2 ^ 64) % 2 ^ 64 + 8
            ≤ (g + (0x100008 + c) % 2 ^ 64) % 2 ^ 64) := by
  simp only [Nat.reducePow] at *
  omega

theorem gs_geom_machine (s : Machine) (c : Nat) (h8 : 8 ≤ c) (hov : c + 0x10 < W32) :
    (gsAddr s 0x100000 c + 8 ≤ gsAddr s 0x100000 0
        ∨ gsAddr s 0x100000 0 + 8 ≤ gsAddr s 0x100000 c)
      ∧ (gsAddr s 0x100008 c + 8 ≤ gsAddr s 0x100000 0
        ∨ gsAddr s 0x100000 0 + 8 ≤ gsAddr s 0x100008 c)
      ∧ (gsAddr s 0x100008 c + 8 ≤ gsAddr s 0x100000 c
        ∨ gsAddr s 0x100000 c + 8 ≤ gsAddr s 0x100008 c) := by
  simp only [gsAddr, W64]
  exact gs_geom s.gsBase c h8 hov

theorem encrypt_asm_gsBase (s : Machine) (r fp : Nat) :
    (encrypt_asm s r fp).2.gsBase = s.gsBase := by
  cases s
  rfl

theorem encrypt_asm_safeMemReg (s : Machine) (r fp : Nat) :
    (encrypt_asm s r fp).2.safeMemReg = s.safeMemReg := by
  cases s
  rfl

theorem encrypt_asm_fst (s : Machine) (r fp : Nat) :
    (encrypt_asm s r fp).1 = slotCounter s ||| (r % W32) <<< 32 % W64 := by
  simp only [encrypt_asm_eq]

theorem encrypt_asm_mem (s : Machine) (r fp : Nat) :
    (encrypt_asm s r fp).2.mem
      = store32
          (store64 (store64 s.mem (gsAddr s 0x100000 (slotCounter s)) fp)
            (gsAddr s 0x100008 (slotCounter s)) ((r % W32) <<< 32 % W64))
          (gsAddr s 0x100000 0)
          ((load32
            (store64 (store64 s.mem (gsAddr s 0x100000 (slotCounter s)) fp)
              (gsAddr s 0x100008 (slotCounter s)) ((r % W32) <<< 32 % W64))
            (gsAddr s 0x100000 0) + 0x10) % W32) := by
  simp only [encrypt_asm_eq]

theorem counter_after (m : Mem) (a0 ar an fp R c : Nat) (hc : load64 m a0 = c)
    (g1 : ar + 8 ≤ a0 ∨ a0 + 8 ≤ ar) (g2 : an + 8 ≤ a0 ∨ a0 + 8 ≤ an) (hov : c + 0x10 < W32) :
    load64 (store32 (store64 (store64 m ar fp) an R) a0
      ((load32 (store64 (store64 m ar fp) an R) a0 + 0x10) % W32)) a0 = c + 0x10 := by
  rw [load64_store32_same, load32_eq, load64_store64_other _ _ _ _ (by omega),
    load64_store64_other _ _ _ _ (by omega), hc]
  simp only [W32, Nat.reducePow] at hov ⊢
  omega

theorem encrypt_asm_counter (s : Machine) (r fp : Nat) (h8 : 8 ≤ slotCounter s)
    (hov : slotCounter s + 0x10 < W32) :
    slotCounter (encrypt_asm s r fp).2 = slotCounter s + 0x10 := by
  obtain ⟨g1, g2, _⟩ := gs_geom_machine s (slotCounter s) h8 hov
  have e : slotCounter (encrypt_asm s r fp).2
      = load64 (encrypt_asm s r fp).2.mem (gsAddr s 0x100000 0) := by
    simp only [slotCounter, gsAddr_congr _ s (encrypt_asm_gsBase s r fp)]
  rw [e, encrypt_asm_mem]
  exact counter_after s.mem _ _ _ _ _ _ rfl g1 g2 hov

theorem encrypt_asm_real_cell (s : Machine) (r fp : Nat) (h8 : 8 ≤ slotCounter s)
    (hov : slotCounter s + 0x10 < W32) :
    load64 (encrypt_asm s r fp).2.mem (gsAddr s 0x100000 (slotCounter s)) = fp % W64 := by
  obtain ⟨g1, _, g3⟩ := gs_geom_machine s (slotCounter s) h8 hov
  rw [encrypt_asm_mem, load64_store32_other _ _ _ _ (by omega),
    load64_store64_other _ _ _ _ (by omega), load64_store64_same]

theorem encrypt_asm_nonce_cell (s : Machine) (r fp : Nat) (h8 : 8 ≤ slotCounter s)
    (hov : slotCounter s + 0x10 < W32) :
    load64 (encrypt_asm s r fp).2.mem (gsAddr s 0x100008 (slotCounter s))
      = (r % W32) <<< 32 % W64 := by
  obtain ⟨_, g2, _⟩ := gs_geom_machine s (slotCounter s) h8 hov
  rw [encrypt_asm_mem, load64_store32_other _ _ _ _ (by omega), load64_store64_same,
    Nat.mod_mod]

theorem encrypt_asm_frame (s : Machine) (r fp x : Nat)
    (hr : x < gsAddr s 0x100000 (slotCounter s) ∨ gsAddr s 0x100000 (slotCounter s) + 8 ≤ x)
    (hn : x < gsAddr s 0x100008 (slotCounter s) ∨ gsAddr s 0x100008 (slotCounter s) + 8 ≤ x)
    (hc : x < gsAddr s 0x100000 0 ∨ gsAddr s 0x100000 0 + 4 ≤ x) :
    (encrypt_asm s r fp).2.mem x = s.mem x := by
  rw [encrypt_asm_mem, store32_out _ _ _ _ hc, store64_out _ _ _ _ hn, store64_out _ _ _ _ hr]

/-- Bytes of a cell of a slot at a smaller offset lie outside the cells that
a call at counter `c` writes. -/
theorem gs_geom_older (g c c' d i : Nat) (hd : d = 0x100000 ∨ d = 0x100008) (h8 : 8 ≤ c')
    (hle : c' + 16 ≤ c) (hov : c + 0x10 < 2 ^ 32) (hi : i < 8) :
    ((g + (d + c') % 2 ^ 64) % 2 ^ 64 + i < (g + (0x100000 + c) % 2 ^ 64) % 2 ^ 64
        ∨ (g + (0x100000 + c) % 2 ^ 64) % 2 ^ 64 + 8 ≤ (g + (d + c') % 2 ^ 64) % 2 ^ 64 + i)
      ∧ ((g + (d + c') % 2 ^ 64) % 2 ^ 64 + i < (g + (0x100008 + c) % 2 ^ 64) % 2 ^ 64
        ∨ (g + (0x100008 + c) % 2 ^ 64) % 2 ^ 64 + 8 ≤ (g + (d + c') % 2 ^ 64) % 2 ^ 64 + i)
      ∧ ((g + (d + c') % 2 ^ 64) % 2 ^ 64 + i < (g + (0x100000 + 0) % 2 ^ 64) % 2 ^ 64
        ∨ (g + (0x100000 + 0) % 2 ^ 64) % 2 ^ 64 + 4
            ≤ (g + (d + c') % 2 ^ 64) % 2 ^ 64 + i) := by
  simp only [Nat.reducePow] at *
  omega

/-- A call at counter `c` leaves the bytes of the cells of every slot at a
smaller offset as they were. -/
theorem encrypt_asm_older_slot (s : Machine) (r fp c' d i : Nat)
    (hd : d = 0x100000 ∨ d = 0x100008) (h8 : 8 ≤ c') (hle : c' + 16 ≤ slotCounter s)
    (hov : slotCounter s + 0x10 < W32) (hi : i < 8) :
    (encrypt_asm s r fp).2.mem (gsAddr s d c' + i) = s.mem (gsAddr s d c' + i) := by
  have g := gs_geom_older s.gsBase (slotCounter s) c' d i hd h8 hle hov hi
  apply encrypt_asm_frame
  · exact g.1
  · exact g.2.1
  · exact g.2.2
theorem tag_bits (c x j : Nat) (hc : c < 2 ^ 32) :
    (x * 2 ^ 32).testBit j = (decide (32 ≤ j) && x.testBit (j - 32))
      ∧ (32 ≤ j → c.testBit j = false) := by
  constructor
  · rw [Nat.mul_comm, Nat.testBit_mul_pow_two]
  · intro h
    exact Nat.testBit_lt_two_pow (lt_of_lt_of_le hc (Nat.pow_le_pow_right (by decide) h))

theorem tag_low (c x : Nat) (hc : c < 2 ^ 32) : (c ||| x * 2 ^ 32) &&& 0xffffffff = c := by
  apply Nat.eq_of_testBit_eq
  intro j
  have e : (0xffffffff : Nat) = 2 ^ 32 - 1 := by norm_num
  rw [Nat.testBit_and, Nat.testBit_or, e, Nat.testBit_two_pow_sub_one, (tag_bits c x j hc).1]
  by_cases h : 32 ≤ j
  · have h' : ¬ j < 32 := by omega
    simp [h, h', (tag_bits c x j hc).2 h]
  · have h' : j < 32 := by omega
    simp [h, h']

theorem tag_xor (c x : Nat) (hc : c < 2 ^ 32) : (c ||| x * 2 ^ 32) ^^^ (x * 2 ^ 32) = c := by
  apply Nat.eq_of_testBit_eq
  intro j
  rw [Nat.testBit_xor, Nat.testBit_or, (tag_bits c x j hc).1]
  by_cases h : 32 ≤ j
  · simp [h, (tag_bits c x j hc).2 h]
  · simp [h]

theorem encrypt_function_pointer_in_range (s : Machine) (r fp : Nat)
    (hlo : LEAST_ADDRESS ≤ fp) (hhi : fp ≤ LARGEST_ADDRESS) :
    encrypt_function_pointer s r fp = encrypt_asm s r fp := by
  have hm : LARGEST_ADDRESS ≤ AG_MAGIC_CODE := by decide
  have hc : ¬ (fp < LEAST_ADDRESS ∨ fp > AG_MAGIC_CODE ∨ fp > LARGEST_ADDRESS) := by
    rintro (h | h | h)
    · exact Nat.not_lt.mpr hlo h
    · exact Nat.not_lt.mpr (Nat.le_trans hhi hm) h
    · exact Nat.not_lt.mpr hhi h
  simp only [encrypt_function_pointer, if_neg hc]

theorem nonce_of_lt (r : Nat) (hr : r < W32) : (r % W32) <<< 32 % W64 = r <<< 32 := by
  rw [nonce_eq, Nat.mod_eq_of_lt hr, Nat.shiftLeft_eq]

/-- C2 (amended): for `fp` in `[LEAST_ADDRESS, LARGEST_ADDRESS]`, a slot counter
`c` with `8 ≤ c` and `c + 0x10 < 2 ^ 32`, and a 32-bit random value `r`,
`encrypt_function_pointer` returns `c | (r << 32)`, stores `fp` at table offset
`c` and `r << 32` at offset `c + 8`, sets the counter to `c + 0x10`, and leaves
every byte outside these two cells and the counter cell, and the rest of the
machine state, as it was. -/
theorem encode_slot_protocol (s : Machine) (r fp : Nat)
    (hlo : LEAST_ADDRESS ≤ fp) (hhi : fp ≤ LARGEST_ADDRESS) (hr : r < W32)
    (h8 : 8 ≤ slotCounter s) (hov : slotCounter s + 0x10 < W32) :
    (encrypt_function_pointer s r fp).1 = slotCounter s ||| r <<< 32
      ∧ load64 (encrypt_function_pointer s r fp).2.mem (gsAddr s 0x100000 (slotCounter s)) = fp
      ∧ load64 (encrypt_function_pointer s r fp).2.mem
          (gsAddr s 0x100000 (slotCounter s + 8)) = r <<< 32
      ∧ slotCounter (encrypt_function_pointer s r fp).2 = slotCounter s + 0x10
      ∧ (encrypt_function_pointer s r fp).2.gsBase = s.gsBase
      ∧ (encrypt_function_pointer s r fp).2.safeMemReg = s.safeMemReg
      ∧ ∀ x,
          (x < gsAddr s 0x100000 (slotCounter s) ∨ gsAddr s 0x100000 (slotCounter s) + 8 ≤ x) →
          (x < gsAddr s 0x100000 (slotCounter s + 8)
            ∨ gsAddr s 0x100000 (slotCounter s + 8) + 8 ≤ x) →
          (x < gsAddr s 0x100000 0 ∨ gsAddr s 0x100000 0 + 8 ≤ x) →
          (encrypt_function_pointer s r fp).2.mem x = s.mem x := by
  have hfp : fp % W64 = fp := Nat.mod_eq_of_lt (by
    have : LARGEST_ADDRESS < W64 := by decide
    omega)
  rw [encrypt_function_pointer_in_range s r fp hlo hhi, ← gsAddr_nonce_cell]
  refine ⟨?_, ?_, ?_, encrypt_asm_counter s r fp h8 hov, encrypt_asm_gsBase s r fp,
    encrypt_asm_safeMemReg s r fp, ?_⟩
  · rw [encrypt_asm_fst, nonce_of_lt r hr]
  · rw [encrypt_asm_real_cell s r fp h8 hov, hfp]
  · rw [encrypt_asm_nonce_cell s r fp h8 hov, nonce_of_lt r hr]
  · intro x h1 h2 h3
    exact encrypt_asm_frame s r fp x h1 h2 (by omega)

theorem encode_slot_protocol_witness :
    (8 ≤ slotCounter (counterMachine 0x10) ∧ slotCounter (counterMachine 0x10) + 0x10 < W32)
      ∧ (encrypt_function_pointer (counterMachine 0x10) 5 0x80000000).1
        = slotCounter (counterMachine 0x10) ||| 5 <<< 32 :=
  ⟨by decide, (encode_slot_protocol (counterMachine 0x10) 5 0x80000000 (by decide) (by decide)
    (by decide) (by decide) (by decide)).1⟩

/-- C2, counterexample: with slot counter 0 the real value is written over the
counter itself; after the call the counter is `0x8000000f`, not `0x10`. -/
theorem encode_at_counter_zero :
    slotCounter zeroMachine = 0
      ∧ slotCounter (encrypt_function_pointer zeroMachine 0 0x7fffffff).2 = 0x8000000f := by
  decide

/-! ## Sequential runs of `encrypt_function_pointer` -/

theorem issuedSlots_length_le : ∀ (calls : List (Nat × AG_Addr)) (s : Machine),
    (issuedSlots s calls).length ≤ calls.length := by
  intro calls
  induction calls with
  | nil => intro s; exact Nat.le_refl 0
  | cons p rest ih =>
    intro s
    rw [issuedSlots]
    split
    · exact Nat.le_succ_of_le (ih _)
    · simp only [List.length_cons]
      exact Nat.succ_le_succ (ih _)

theorem run_invariant : ∀ (calls : List (Nat × AG_Addr)) (s : Machine),
    8 ≤ slotCounter s → slotCounter s + 16 * (issuedSlots s calls).length < W32 →
    (encrypt_all s calls).2.gsBase = s.gsBase
      ∧ slotCounter (encrypt_all s calls).2
          = slotCounter s + 16 * (issuedSlots s calls).length
      ∧ issuedSlots s calls
          = (List.range (issuedSlots s calls).length).map (fun i => slotCounter s + 16 * i)
      ∧ ∀ c' d i, (d = 0x100000 ∨ d = 0x100008) → 8 ≤ c' → c' + 16 ≤ slotCounter s → i < 8 →
          (encrypt_all s calls).2.mem (gsAddr s d c' + i) = s.mem (gsAddr s d c' + i) := by
  intro calls
  induction calls with
  | nil =>
    intro s _ _
    exact ⟨rfl, rfl, rfl, fun _ _ _ _ _ _ _ => rfl⟩
  | cons p rest ih =>
    intro s h8 hov
    by_cases hp : p.2 < LEAST_ADDRESS ∨ p.2 > AG_MAGIC_CODE ∨ p.2 > LARGEST_ADDRESS
    · have e1 : encrypt_function_pointer s p.1 p.2 = (p.2, s) := by
        simp only [encrypt_function_pointer, if_pos hp]
      have e2 : issuedSlots s (p :: rest) = issuedSlots s rest := by
        rw [issuedSlots]
        simp only [if_pos hp, e1]
      have e3 : (encrypt_all s (p :: rest)).2 = (encrypt_all s rest).2 := by
        rw [encrypt_all]
        simp only [e1]
      rw [e2] at hov ⊢
      rw [e3]
      exact ih s h8 hov
    · have e1 : encrypt_function_pointer s p.1 p.2 = encrypt_asm s p.1 p.2 := by
        simp only [encrypt_function_pointer, if_neg hp]
      have e2 : issuedSlots s (p :: rest)
          = slotCounter s :: issuedSlots (encrypt_asm s p.1 p.2).2 rest := by
        rw [issuedSlots]
        simp only [if_neg hp, e1]
      have e3 : (encrypt_all s (p :: rest)).2 = (encrypt_all (encrypt_asm s p.1 p.2).2 rest).2 := by
        rw [encrypt_all]
        simp only [e1]
      rw [e2, List.length_cons] at hov
      have hov1 : slotCounter s + 0x10 < W32 := by omega
      have hc1 := encrypt_asm_counter s p.1 p.2 h8 hov1
      have hg1 := encrypt_asm_gsBase s p.1 p.2
      obtain ⟨ig, ic, il, im⟩ := ih (encrypt_asm s p.1 p.2).2 (by omega) (by omega)
      rw [e2, e3, List.length_cons]
      refine ⟨ig.trans hg1, by omega, ?_, ?_⟩
      · rw [List.range_succ_eq_map, List.map_cons, List.map_map]
        refine congrArg₂ List.cons (by omega) ?_
        rw [il, List.length_map, List.length_range]
        apply List.map_congr_left
        intro i _
        simp only [Function.comp, hc1]
        omega
      · intro c' d i hd h8' hle hi
        have := im c' d i hd h8' (by omega) hi
        rw [gsAddr_congr _ s hg1] at this
        rw [this]
        exact encrypt_asm_older_slot s p.1 p.2 c' d i hd h8' hle hov1 hi

theorem encrypt_all_append_state : ∀ (a b : List (Nat × AG_Addr)) (s : Machine),
    (encrypt_all s (a ++ b)).2 = (encrypt_all (encrypt_all s a).2 b).2 := by
  intro a
  induction a with
  | nil => intro b s; rfl
  | cons p rest ih =>
    intro b s
    simp only [List.cons_append, encrypt_all]
    exact ih b _

theorem issuedSlots_append : ∀ (a b : List (Nat × AG_Addr)) (s : Machine),
    issuedSlots s (a ++ b) = issuedSlots s a ++ issuedSlots (encrypt_all s a).2 b := by
  intro a
  induction a with
  | nil => intro b s; rfl
  | cons p rest ih =>
    intro b s
    simp only [List.cons_append, issuedSlots, encrypt_all]
    split
    · exact ih b _
    · exact congrArg (List.cons (slotCounter s)) (ih b _)

/-- C5 (amended): in a sequential run of `encrypt_function_pointer` calls that
starts with a slot counter `c ≥ 8` and does not take the counter to `2 ^ 32`,
the slot offsets used by the calls that pass the range check are
`c, c + 0x10, c + 0x20, ...` in order, and no byte of the real-value cell or of
the nonce cell of a slot issued in a first part `a` of the run is changed by
the calls of the rest `b` of the run. -/
theorem slots_issued_once (s : Machine) (a b : List (Nat × AG_Addr))
    (h8 : 8 ≤ slotCounter s)
    (hov : slotCounter s + 16 * (issuedSlots s (a ++ b)).length < W32) :
    issuedSlots s (a ++ b)
        = (List.range (issuedSlots s (a ++ b)).length).map (fun i => slotCounter s + 16 * i)
      ∧ ∀ c', c' ∈ issuedSlots s a → ∀ d i, (d = 0x100000 ∨ d = 0x100008) → i < 8 →
          (encrypt_all s (a ++ b)).2.mem (gsAddr s d c' + i)
            = (encrypt_all s a).2.mem (gsAddr s d c' + i) := by
  have hlen : (issuedSlots s (a ++ b)).length
      = (issuedSlots s a).length + (issuedSlots (encrypt_all s a).2 b).length := by
    rw [issuedSlots_append, List.length_append]
  obtain ⟨_, _, il, _⟩ := run_invariant (a ++ b) s h8 hov
  obtain ⟨ag, ac, al, _⟩ := run_invariant a s h8 (by omega)
  refine ⟨il, ?_⟩
  intro c' hc' d i hd hi
  rw [al] at hc'
  obtain ⟨j, hj, rfl⟩ := List.mem_map.mp hc'
  have hj' : j < (issuedSlots s a).length := List.mem_range.mp hj
  obtain ⟨_, _, _, bm⟩ := run_invariant b (encrypt_all s a).2 (by omega) (by omega)
  have := bm (slotCounter s + 16 * j) d i hd (by omega) (by omega) hi
  rw [gsAddr_congr _ s ag] at this
  rw [encrypt_all_append_state]
  exact this

theorem slots_issued_once_witness :
    (8 ≤ slotCounter (counterMachine 0x10))
      ∧ issuedSlots (counterMachine 0x10) ([(1, 0x80000000)] ++ [(2, 5), (3, 0x80000001)])
        = (List.range
            (issuedSlots (counterMachine 0x10)
              ([(1, 0x80000000)] ++ [(2, 5), (3, 0x80000001)])).length).map
            (fun i => slotCounter (counterMachine 0x10) + 16 * i) :=
  ⟨by decide, (slots_issued_once (counterMachine 0x10) [(1, 0x80000000)]
    [(2, 5), (3, 0x80000001)] (by decide) (by decide)).1⟩

/-- C5, counterexample: starting with slot counter 0, two calls for the
pointer `0x7fffffff` use the slot offsets `0` and `0x8000000f`. -/
theorem slots_from_counter_zero :
    issuedSlots zeroMachine [(0, 0x7fffffff), (0, 0x7fffffff)] = [0, 0x8000000f] := by
  decide

theorem decode_of_cells (sf s : Machine) (c r fp : Nat) (hg : sf.gsBase = s.gsBase)
    (hc : c < W32)
    (hn : load64 sf.mem (gsAddr s 0x100008 c) = (r % W32) <<< 32 % W64)
    (hr : load64 sf.mem (gsAddr s 0x100000 c) = fp) :
    elf_ifunc_decode sf (c ||| (r % W32) <<< 32 % W64) = fp := by
  have hc' : c < 2 ^ 32 := hc
  simp only [elf_ifunc_decode, gsAddr_congr sf s hg, nonce_eq] at hn ⊢
  rw [tag_low c _ hc', hn, tag_xor c _ hc', hr]

/-- C1 (amended): starting from a state whose slot counter `c` has `8 ≤ c` and
`c + 16 * n < 2 ^ 32`, after `encrypt_function_pointer` has been applied in
order to `n` pointers, each in `[LEAST_ADDRESS, LARGEST_ADDRESS]`, with any
random values, decoding each returned tag in the final state gives the
pointer it was returned for. -/
theorem encode_decode_inverse : ∀ (calls : List (Nat × AG_Addr)) (s : Machine),
    8 ≤ slotCounter s → slotCounter s + 16 * calls.length < W32 →
    (∀ p, p ∈ calls → LEAST_ADDRESS ≤ p.2 ∧ p.2 ≤ LARGEST_ADDRESS) →
    (encrypt_all s calls).1.map (elf_ifunc_decode (encrypt_all s calls).2)
      = calls.map Prod.snd := by
  intro calls
  induction calls with
  | nil => intro s _ _ _; rfl
  | cons p rest ih =>
    intro s h8 hov hP
    rw [List.length_cons] at hov
    obtain ⟨hlo, hhi⟩ := hP p (List.mem_cons_self p rest)
    have e1 := encrypt_function_pointer_in_range s p.1 p.2 hlo hhi
    have hov1 : slotCounter s + 0x10 < W32 := by omega
    have hc1 := encrypt_asm_counter s p.1 p.2 h8 hov1
    have hg1 := encrypt_asm_gsBase s p.1 p.2
    have hl := issuedSlots_length_le rest (encrypt_asm s p.1 p.2).2
    obtain ⟨rg, _, _, rm⟩ := run_invariant rest (encrypt_asm s p.1 p.2).2 (by omega) (by omega)
    have hfp : p.2 % W64 = p.2 :=
      Nat.mod_eq_of_lt (Nat.lt_of_le_of_lt hhi (by decide))
    have hcell : ∀ d, (d = 0x100000 ∨ d = 0x100008) →
        load64 (encrypt_all (encrypt_asm s p.1 p.2).2 rest).2.mem (gsAddr s d (slotCounter s))
          = load64 (encrypt_asm s p.1 p.2).2.mem (gsAddr s d (slotCounter s)) := by
      intro d hd
      apply load64_congr
      intro i hi
      have := rm (slotCounter s) d i hd h8 (by omega) hi
      rwa [gsAddr_congr _ s hg1] at this
    have htail := ih (encrypt_asm s p.1 p.2).2 (by omega) (by omega)
      (fun q hq => hP q (List.mem_cons_of_mem p hq))
    simp only [encrypt_all, e1, List.map_cons]
    refine congrArg₂ List.cons ?_ htail
    rw [encrypt_asm_fst]
    apply decode_of_cells _ s _ _ _ (rg.trans hg1) (by omega)
    · rw [hcell _ (Or.inr rfl), encrypt_asm_nonce_cell s p.1 p.2 h8 hov1]
    · rw [hcell _ (Or.inl rfl), encrypt_asm_real_cell s p.1 p.2 h8 hov1, hfp]

theorem encode_decode_inverse_witness :
    (8 ≤ slotCounter (counterMachine 0x10))
      ∧ (encrypt_all (counterMachine 0x10) [(1, 0x80000000), (0, 0x7fffffff0000)]).1.map
          (elf_ifunc_decode
            (encrypt_all (counterMachine 0x10) [(1, 0x80000000), (0, 0x7fffffff0000)]).2)
        = [(1, 0x80000000), (0, 0x7fffffff0000)].map Prod.snd :=
  ⟨by decide, encode_decode_inverse [(1, 0x80000000), (0, 0x7fffffff0000)]
    (counterMachine 0x10) (by decide) (by decide) (by decide)⟩

/-- C1, counterexample: starting with slot counter 0, the tag returned for
the pointer `0x7fffffff` is `0`, and decoding it gives `0x8000000f`. -/
theorem decode_after_counter_zero :
    (encrypt_all zeroMachine [(0, 0x7fffffff)]).1 = [0]
      ∧ (encrypt_all zeroMachine [(0, 0x7fffffff)]).1.map
          (elf_ifunc_decode (encrypt_all zeroMachine [(0, 0x7fffffff)]).2) = [0x8000000f] := by
  decide

/-! ## Two encodes at the same time -/

/-- The body of `encrypt_function_pointer` is the load of the counter
followed by the rest of the instructions. -/
theorem encrypt_asm_split (s : Machine) (r fp : Nat) :
    encrypt_asm s r fp = encrypt_rest s (encrypt_load s) r fp := rfl

theorem low_bits_of_tag (c x : Nat) :
    (c ||| (x % W32) <<< 32 % W64) &&& 0xffffffff = c &&& 0xffffffff := by
  have e : (0xffffffff : Nat) = 2 ^ 32 - 1 := by norm_num
  rw [e, Nat.and_pow_two_sub_one_eq_mod, Nat.and_pow_two_sub_one_eq_mod]
  apply Nat.eq_of_testBit_eq
  intro j
  simp only [Nat.testBit_mod_two_pow, Nat.testBit_or, W64, Nat.testBit_shiftLeft]
  by_cases h : j < 32
  · have h' : ¬ 32 ≤ j := by omega
    simp [h, h']
  · simp [h]

/-- C6, failing schedule: when two threads both execute the load of the slot
counter before either executes the `add`, both calls get the slot offset the
counter held, whatever the pointers and nonces; from a counter of `0x10` both
tags carry the offset `0x10`, the slot holds the pointer of the second thread
only, and the counter ends at `0x30`. -/
theorem interleaved_encodes_share_slot :
    (∀ (s : Machine) (rA fpA rB fpB : Nat),
        (encrypt_interleaved s rA fpA rB fpB).1.1 &&& 0xffffffff
            = slotCounter s &&& 0xffffffff
          ∧ (encrypt_interleaved s rA fpA rB fpB).1.2 &&& 0xffffffff
            = slotCounter s &&& 0xffffffff)
      ∧ (encrypt_interleaved (counterMachine 0x10) 1 0x7fffffff0000 2 0x7fffffff1000).1
          = (0x100000010, 0x200000010)
      ∧ load64 (encrypt_interleaved (counterMachine 0x10) 1 0x7fffffff0000 2
          0x7fffffff1000).2.mem 0x100010 = 0x7fffffff1000
      ∧ slotCounter (encrypt_interleaved (counterMachine 0x10) 1 0x7fffffff0000 2
          0x7fffffff1000).2 = 0x30 := by
  refine ⟨fun s rA fpA rB fpB => ⟨?_, ?_⟩, by decide, by decide, by decide⟩
  · exact low_bits_of_tag _ _
  · exact low_bits_of_tag _ _

/-! ## Results and emitted lines -/

@[simp] theorem Res.bind_ok {α β : Type} (a : α) (k : α → Res β) :
    Res.bind (.ok a) k = k a := rfl

@[simp] theorem Res.bind_fatal {α β : Type} (e : Fatal) (k : α → Res β) :
    Res.bind (.fatal e) k = .fatal e := rfl

@[simp] theorem Res.map_ok {α β : Type} (f : α → β) (a : α) :
    Res.map f (.ok a) = .ok (f a) := rfl

@[simp] theorem Res.map_fatal {α β : Type} (f : α → β) (e : Fatal) :
    Res.map f (.fatal e : Res α) = .fatal e := rfl

theorem Res.bind_def {α β : Type} (r : Res α) (k : α → Res β) :
    (r >>= k) = Res.bind r k := rfl

theorem Res.pure_def {α : Type} (a : α) : (pure a : Res α) = .ok a := rfl

/-! ## One run following another -/

theorem follows_fatal {α β : Type} (Q : α → β → Prop) (e : Fatal) (r : Res β) :
    Res.follows Q (.fatal e) r := by
  intro a h
  cases h

theorem follows_ok {α β : Type} (Q : α → β → Prop) (a : α) (b : β) (h : Q a b) :
    Res.follows Q (.ok a) (.ok b) := by
  intro a' h'
  cases h'
  exact ⟨b, rfl, h⟩

theorem follows_bind {α β γ δ : Type} (Q : α → β → Prop) (Q' : γ → δ → Prop)
    (x : Res α) (y : Res β) (f : α → Res γ) (g : β → Res δ)
    (hxy : Res.follows Q x y) (hfg : ∀ a b, Q a b → Res.follows Q' (f a) (g b)) :
    Res.follows Q' (x.bind f) (y.bind g) := by
  intro c hc
  cases x with
  | fatal e => cases hc
  | ok a =>
    obtain ⟨b, hb, hq⟩ := hxy a rfl
    rw [hb, Res.bind_ok]
    exact hfg a b hq c hc

theorem follows_bind_same {α γ δ : Type} (Q' : γ → δ → Prop)
    (x : Res α) (f : α → Res γ) (g : α → Res δ)
    (hfg : ∀ a, Res.follows Q' (f a) (g a)) :
    Res.follows Q' (x.bind f) (x.bind g) := by
  intro c hc
  cases x with
  | fatal e => cases hc
  | ok a => exact hfg a c hc

theorem follows_ite {α β : Type} (Q : α → β → Prop) (c : Prop) [Decidable c]
    (x x' : Res α) (y y' : Res β)
    (h : Res.follows Q x y) (h' : Res.follows Q x' y') :
    Res.follows Q (if c then x else x') (if c then y else y') := by
  split
  · exact h
  · exact h'

/-! ## A round in a small array and in a large one -/

theorem follows_insert (m0 : s_asm_data) (n k : Nat)
    (hroom : m0.new_lines.length + 2 * n ≤ 2 * m0.lines.length + k)
    (started : Bool) (b m : s_asm_data) (l : Str) (h : stands_for m0 n k started b m) :
    Res.follows (stands_for m0 n k true) (_insert_new_line b l) (_insert_new_line m l) := by
  obtain ⟨t, -, hbl, hbn, hml, hmf, hmo, hmn⟩ := h
  intro a ha
  unfold _insert_new_line at ha ⊢
  by_cases hc : b.new_lines.length < 2 * b.lines.length
  · rw [if_pos hc] at ha
    cases ha
    have hlen : m.new_lines.length < 2 * m.lines.length := by
      rw [hbn, hbl, List.length_append, List.length_replicate] at hc
      rw [hmn, hml, List.length_append]
      omega
    rw [if_pos hlen]
    refine ⟨_, rfl, t ++ [l.take MAX_ASM_LINE], (fun _ => by simp), hbl, ?_, hml, hmf, hmo, ?_⟩
    · show b.new_lines ++ [l.take MAX_ASM_LINE] = _
      rw [hbn, List.append_assoc]
    · show m.new_lines ++ [l.take MAX_ASM_LINE] = _
      rw [hmn, List.append_assoc]
  · rw [if_neg hc] at ha
    cases ha

theorem follows_insert_fmt (m0 : s_asm_data) (n k : Nat)
    (hroom : m0.new_lines.length + 2 * n ≤ 2 * m0.lines.length + k)
    (started : Bool) (b m : s_asm_data) (fmt : Str) (args : List FmtArg)
    (h : stands_for m0 n k started b m) :
    Res.follows (stands_for m0 n k true) (_insert_new_line_fmt b fmt args)
      (_insert_new_line_fmt m fmt args) := by
  unfold _insert_new_line_fmt
  simp only [Res.bind_def]
  exact follows_bind_same _ _ _ _ fun buf => follows_insert m0 n k hroom started b m _ h

theorem follows_replace_cur (m0 : s_asm_data) (n k : Nat)
    (hroom : m0.new_lines.length + 2 * n ≤ 2 * m0.lines.length + k)
    (b m : s_asm_data) (fmt : Str) (args : List FmtArg)
    (h : stands_for m0 n k true b m) :
    Res.follows (stands_for m0 n k true) (_replace_cur_line_fmt b fmt args)
      (_replace_cur_line_fmt m fmt args) := by
  obtain ⟨t, ht, hbl, hbn, hml, hmf, hmo, hmn⟩ := h
  have ht' : t ≠ [] := ht rfl
  have hb : b.new_lines ≠ [] := by
    rw [hbn]
    simp [ht']
  have hm : m.new_lines ≠ [] := by
    rw [hmn]
    simp [ht']
  unfold _replace_cur_line_fmt
  rw [if_neg hb, if_neg hm]
  apply follows_insert_fmt m0 n k hroom false
  refine ⟨t.dropLast, (fun h' => by cases h'), hbl, ?_, hml, hmf, hmo, ?_⟩
  · show b.new_lines.dropLast = _
    rw [hbn, List.dropLast_append_of_ne_nil _ ht']
  · show m.new_lines.dropLast = _
    rw [hmn, List.dropLast_append_of_ne_nil _ ht']

theorem follows_hdr (m0 : s_asm_data) (n k : Nat)
    (hroom : m0.new_lines.length + 2 * n ≤ 2 * m0.lines.length + k)
    (b m : s_asm_data) (fn : Str) (ln : Nat) (h : stands_for m0 n k true b m) :
    Res.follows (stands_for m0 n k true) (_insert_hdr b fn ln) (_insert_hdr m fn ln) :=
  follows_insert_fmt m0 n k hroom true b m _ _ h

theorem follows_ftr (m0 : s_asm_data) (n k : Nat)
    (hroom : m0.new_lines.length + 2 * n ≤ 2 * m0.lines.length + k)
    (b m : s_asm_data) (fn : Str) (ln : Nat) (h : stands_for m0 n k true b m) :
    Res.follows (stands_for m0 n k true) (_insert_ftr b fn ln) (_insert_ftr m fn ln) :=
  follows_insert_fmt m0 n k hroom true b m _ _ h

theorem follows_EMITI (m0 : s_asm_data) (n k : Nat)
    (hroom : m0.new_lines.length + 2 * n ≤ 2 * m0.lines.length + k)
    (b m : s_asm_data) (fmt : Str) (args : List FmtArg) (h : stands_for m0 n k true b m) :
    Res.follows (stands_for m0 n k true) (_EMITI b fmt args) (_EMITI m fmt args) :=
  follows_insert_fmt m0 n k hroom true b m _ _ h

theorem follows_EMITV (m0 : s_asm_data) (n k : Nat)
    (hroom : m0.new_lines.length + 2 * n ≤ 2 * m0.lines.length + k)
    (b m : s_asm_data) (fmt : Str) (args : List FmtArg) (h : stands_for m0 n k true b m) :
    Res.follows (stands_for m0 n k true) (_EMITV b fmt args) (_EMITV m fmt args) :=
  follows_insert_fmt m0 n k hroom true b m _ _ h

/-! ## Opcodes -/

/-- A text that starts with `c :: p` has first character `c`. -/
theorem starts_with_head (s p : Str) (c : Char) (h : starts_with s (c :: p) = true) :
    s.head? = some c := by
  cases s with
  | nil => simp [starts_with, List.isPrefixOf] at h
  | cons x xs =>
    simp only [starts_with, List.isPrefixOf, Bool.and_eq_true, beq_iff_eq] at h
    simp only [List.head?_cons, h.1]

/-- Two opcodes with different first letters do not both start a line. -/
theorem opecode_with_excl (line p q : Str) (c d : Char) (hcd : c ≠ d)
    (h : opecode_with line (c :: p) = true) : opecode_with line (d :: q) = false := by
  cases hq : opecode_with line (d :: q) with
  | false => rfl
  | true =>
    have h1 := starts_with_head _ _ _ h
    have h2 := starts_with_head _ _ _ hq
    rw [h1] at h2
    exact absurd (Option.some.inj h2) hcd

/-- A line whose opcode starts with neither `mov` nor `lea` is not
address-taking. -/
theorem potential_func_addr_taken_other_opcode (line : Str) (m : s_asm_data)
    (hmov : opecode_with line "mov".toList = false)
    (hlea : opecode_with line "lea".toList = false) :
    potential_func_addr_taken line m = .ok false := by
  simp only [potential_func_addr_taken, hmov, hlea, Bool.not_false, Bool.and_self,
    ↓reduceIte, Res.pure_def]

/-- A push or pop line passes the code-pointer part untouched. -/
theorem process_asm_cp_push_pop (line : Str) (m : s_asm_data)
    (h : (opecode_with line "push".toList || opecode_with line "pop".toList) = true) :
    process_asm_cp line m = .ok (false, m) := by
  have hp : opecode_with line ('p' :: "ush".toList) = true
      ∨ opecode_with line ('p' :: "op".toList) = true := by
    simpa only [Bool.or_eq_true] using h
  have hmov : opecode_with line "mov".toList = false := by
    rcases hp with hp | hp
    · exact opecode_with_excl line _ "ov".toList 'p' 'm' (by decide) hp
    · exact opecode_with_excl line _ "ov".toList 'p' 'm' (by decide) hp
  have hlea : opecode_with line "lea".toList = false := by
    rcases hp with hp | hp
    · exact opecode_with_excl line _ "ea".toList 'p' 'l' (by decide) hp
    · exact opecode_with_excl line _ "ea".toList 'p' 'l' (by decide) hp
  have hcall : opecode_with line "call".toList = false := by
    rcases hp with hp | hp
    · exact opecode_with_excl line _ "all".toList 'p' 'c' (by decide) hp
    · exact opecode_with_excl line _ "all".toList 'p' 'c' (by decide) hp
  have hjmp : opecode_with line "jmp".toList = false := by
    rcases hp with hp | hp
    · exact opecode_with_excl line _ "mp".toList 'p' 'j' (by decide) hp
    · exact opecode_with_excl line _ "mp".toList 'p' 'j' (by decide) hp
  simp only [process_asm_cp, potential_func_addr_taken_other_opcode line m hmov hlea, hmov,
    hcall, hjmp, Res.bind_def, Res.pure_def, Res.bind_ok, Bool.false_and, Bool.or_false,
    Bool.false_eq_true, ↓reduceIte]


/-! ## The templates in a small array and in a large one -/

theorem follows_decode (m0 : s_asm_data) (n k : Nat)
    (hroom : m0.new_lines.length + 2 * n ≤ 2 * m0.lines.length + k)
    (line : Str) (b m : s_asm_data) (h : stands_for m0 n k true b m) :
    Res.follows (stands_for m0 n k true) (decode_func_addr_for_indirect_call line b)
      (decode_func_addr_for_indirect_call line m) := by
  unfold decode_func_addr_for_indirect_call
  simp only [Res.bind_def, Res.pure_def]
  repeat' first
    | with_reducible exact follows_fatal _ _ _
    | with_reducible exact follows_hdr m0 n k hroom _ _ _ _ (by assumption)
    | with_reducible exact follows_ftr m0 n k hroom _ _ _ _ (by assumption)
    | with_reducible exact follows_EMITI m0 n k hroom _ _ _ _ (by assumption)
    | with_reducible exact follows_EMITV m0 n k hroom _ _ _ _ (by assumption)
    | with_reducible exact follows_replace_cur m0 n k hroom _ _ _ _ (by assumption)
    | with_reducible refine follows_ite _ _ _ _ _ _ ?_ ?_
    | with_reducible refine follows_bind_same _ _ _ _ (fun _ => ?_)
    | with_reducible refine follows_bind (stands_for m0 n k true) _ _ _ _ _ ?_ (fun _ _ _ => ?_)

theorem follows_replace_push_pop (m0 : s_asm_data) (n k : Nat)
    (hroom : m0.new_lines.length + 2 * n ≤ 2 * m0.lines.length + k)
    (line : Str) (b m : s_asm_data) (h : stands_for m0 n k true b m) :
    Res.follows (stands_for m0 n k true) (replace_push_pop_with_mov line b)
      (replace_push_pop_with_mov line m) := by
  unfold replace_push_pop_with_mov
  simp only [Res.bind_def, Res.pure_def]
  repeat' first
    | with_reducible exact follows_fatal _ _ _
    | with_reducible exact follows_hdr m0 n k hroom _ _ _ _ (by assumption)
    | with_reducible exact follows_ftr m0 n k hroom _ _ _ _ (by assumption)
    | with_reducible exact follows_EMITI m0 n k hroom _ _ _ _ (by assumption)
    | with_reducible exact follows_EMITV m0 n k hroom _ _ _ _ (by assumption)
    | with_reducible exact follows_replace_cur m0 n k hroom _ _ _ _ (by assumption)
    | with_reducible refine follows_ite _ _ _ _ _ _ ?_ ?_
    | with_reducible refine follows_bind_same _ _ _ _ (fun _ => ?_)
    | with_reducible refine follows_bind (stands_for m0 n k true) _ _ _ _ _ ?_ (fun _ _ _ => ?_)

/-- The code-pointer part of a round on a line that is neither `mov` nor
`lea`. -/
theorem process_asm_cp_other (line : Str) (m : s_asm_data)
    (hmov : opecode_with line "mov".toList = false)
    (hlea : opecode_with line "lea".toList = false) :
    process_asm_cp line m
      = if (opecode_with line "call".toList
            || (opecode_with line "jmp".toList && ends_with line "_tail_".toList)) = true then
          Res.bind (get_oparand line 1) fun op1 =>
            if starts_with op1 "%gs".toList = true then Res.ok (true, m)
            else if starts_with op1 "*".toList = true then
              Res.bind (decode_func_addr_for_indirect_call line m) fun m' => Res.ok (false, m')
            else if (strstr op1 "AG_VPTR_DEF".toList).isSome = true then
              Res.bind (_replace_cur_line_fmt m "#-%s".toList [.str line]) fun m' =>
                Res.ok (false, m')
            else if (strstr op1 "AG_VPTR_USE".toList).isSome = true then
              Res.bind (_replace_cur_line_fmt m "#-%s".toList [.str line]) fun m' =>
                Res.ok (false, m')
            else Res.ok (true, m)
        else Res.ok (false, m) := by
  simp only [process_asm_cp, potential_func_addr_taken_other_opcode line m hmov hlea, hmov,
    Res.bind_def, Res.pure_def, Res.bind_ok, Bool.false_eq_true, ↓reduceIte, Bool.false_and]

theorem follows_process_cp (m0 : s_asm_data) (n k : Nat)
    (hroom : m0.new_lines.length + 2 * n ≤ 2 * m0.lines.length + k)
    (line : Str) (hmov : opecode_with line "mov".toList = false)
    (hlea : opecode_with line "lea".toList = false)
    (b m : s_asm_data) (h : stands_for m0 n k true b m) :
    Res.follows (fun r1 r2 => r1.1 = r2.1 ∧ stands_for m0 n k true r1.2 r2.2)
      (process_asm_cp line b) (process_asm_cp line m) := by
  rw [process_asm_cp_other line b hmov hlea, process_asm_cp_other line m hmov hlea]
  repeat' first
    | with_reducible exact follows_fatal _ _ _
    | with_reducible exact follows_ok _ _ _ ⟨rfl, by assumption⟩
    | with_reducible exact follows_decode m0 n k hroom _ _ _ (by assumption)
    | with_reducible exact follows_replace_cur m0 n k hroom _ _ _ _ (by assumption)
    | with_reducible refine follows_ite _ _ _ _ _ _ ?_ ?_
    | with_reducible refine follows_bind_same _ _ _ _ (fun _ => ?_)
    | with_reducible refine follows_bind (stands_for m0 n k true) _ _ _ _ _ ?_ (fun _ _ _ => ?_)

theorem follows_process_asm_line (m0 : s_asm_data) (n k : Nat)
    (hroom : m0.new_lines.length + 2 * n ≤ 2 * m0.lines.length + k)
    (line : Str) (hmov : opecode_with line "mov".toList = false)
    (hlea : opecode_with line "lea".toList = false)
    (b m : s_asm_data) (h : stands_for m0 n k false b m) :
    Res.follows (stands_for m0 n k true) (process_asm_line line b)
      (process_asm_line line m) := by
  unfold process_asm_line
  simp only [Res.bind_def, Res.pure_def, Res.bind_ok]
  refine follows_bind (stands_for m0 n k true) _ _ _ _ _
    (follows_insert m0 n k hroom false b m line h) (fun b1 m1 h1 => ?_)
  repeat' first
    | with_reducible exact follows_fatal _ _ _
    | with_reducible exact follows_ok _ _ _ (by assumption)
    | with_reducible exact follows_insert_fmt m0 n k hroom true _ _ _ _ (by assumption)
    | with_reducible exact follows_replace_push_pop m0 n k hroom _ _ _ (by assumption)
    | with_reducible refine follows_ite _ _ _ _ _ _ ?_ ?_
    | (with_reducible refine follows_bind _ _ _ _ _ _ (follows_process_cp m0 n k hroom line hmov hlea _ _ (by assumption)) (fun r1 r2 hr => ?_); obtain ⟨h1', h2'⟩ := hr; rw [h1'])
    | with_reducible refine follows_bind (stands_for m0 n k true) _ _ _ _ _ ?_ (fun _ _ _ => ?_)

/-- For a line whose opcode starts with neither `mov` nor `lea`: when the
round in the state `blank_doc n k`, with `2 * n - k` free entries, comes back
with the lines `out` appended, the round in a state with at least as many
free entries comes back with `out` appended. -/
theorem process_asm_line_rebase_other (line : Str) (m : s_asm_data) (n k : Nat)
    (out : List Str)
    (hmov : opecode_with line "mov".toList = false)
    (hlea : opecode_with line "lea".toList = false)
    (hbase : process_asm_line line (blank_doc n k) = .ok (with_appended (blank_doc n k) out))
    (hroom : m.new_lines.length + 2 * n ≤ 2 * m.lines.length + k) :
    process_asm_line line m = .ok (with_appended m out) := by
  have h0 : stands_for m n k false (blank_doc n k) m :=
    ⟨[], (fun h => by cases h), by simp [blank_doc], by simp [blank_doc], rfl, rfl, rfl,
      by simp⟩
  obtain ⟨m', hm', t, -, -, hbn, hml, hmf, hmo, hmn⟩ :=
    follows_process_asm_line m n k hroom line hmov hlea _ _ h0 _ hbase
  have ht : t = out := by
    simp only [with_appended, blank_doc] at hbn
    exact (List.append_cancel_left hbn).symm
  rw [hm']
  congr 1
  cases m
  cases m'
  simp only [with_appended] at hml hmf hmo hmn ⊢
  simp only [hml, hmf, hmo, hmn, ht]

/-! ## Occurrences of a text in a line -/

theorem strstr_eq_none (s n : Str) :
    strstr s n = none ↔ ∀ k, n.isPrefixOf (s.drop k) = false := by
  induction s with
  | nil =>
    constructor
    · intro h k
      simp only [strstr] at h
      cases hp : n.isPrefixOf [] with
      | false => simp only [List.drop_nil, hp]
      | true => simp only [hp, ↓reduceIte] at h; cases h
    · intro h
      have h0 := h 0
      simp only [List.drop_nil] at h0
      simp only [strstr, h0, Bool.false_eq_true, ↓reduceIte]
  | cons x xs ih =>
    constructor
    · intro h k
      simp only [strstr] at h
      cases hp : n.isPrefixOf (x :: xs) with
      | true => simp only [hp, ↓reduceIte] at h; cases h
      | false =>
        simp only [hp, Bool.false_eq_true, ↓reduceIte, Option.map_eq_none'] at h
        cases k with
        | zero => simpa only [List.drop_zero] using hp
        | succ k => simpa only [List.drop_succ_cons] using ih.mp h k
    · intro h
      have h0 := h 0
      simp only [List.drop_zero] at h0
      simp only [strstr, h0, Bool.false_eq_true, ↓reduceIte, Option.map_eq_none']
      exact ih.mpr fun k => by simpa only [List.drop_succ_cons] using h (k + 1)

theorem strstr_eq_some (s n : Str) (i : Nat) (h : strstr s n = some i) :
    n.isPrefixOf (s.drop i) = true ∧ i ≤ s.length
      ∧ ∀ j, j < i → n.isPrefixOf (s.drop j) = false := by
  induction s generalizing i with
  | nil =>
    simp only [strstr] at h
    cases hp : n.isPrefixOf [] with
    | false => simp only [hp, Bool.false_eq_true, ↓reduceIte] at h; cases h
    | true =>
      simp only [hp, ↓reduceIte, Option.some.injEq] at h
      subst h
      exact ⟨by simpa only [List.drop_nil] using hp, Nat.le_refl _, fun j hj => by omega⟩
  | cons x xs ih =>
    simp only [strstr] at h
    cases hp : n.isPrefixOf (x :: xs) with
    | true =>
      simp only [hp, ↓reduceIte, Option.some.injEq] at h
      subst h
      exact ⟨by simpa only [List.drop_zero] using hp, Nat.zero_le _, fun j hj => by omega⟩
    | false =>
      simp only [hp, Bool.false_eq_true, ↓reduceIte, Option.map_eq_some'] at h
      obtain ⟨i', hi', rfl⟩ := h
      obtain ⟨h1, h2, h3⟩ := ih i' hi'
      refine ⟨by simpa only [List.drop_succ_cons] using h1, by
        simp only [List.length_cons]; omega, fun j hj => ?_⟩
      cases j with
      | zero => simpa only [List.drop_zero] using hp
      | succ j => simpa only [List.drop_succ_cons] using h3 j (by omega)

/-- A line without an occurrence of `n` has none of a text that starts with
`n`. -/
theorem strstr_none_of_prefix (s n n' : Str) (hn : n.isPrefixOf n' = true)
    (h : strstr s n = none) : strstr s n' = none := by
  rw [strstr_eq_none] at h ⊢
  intro k
  cases hp : n'.isPrefixOf (s.drop k) with
  | false => rfl
  | true =>
    have h1 := List.isPrefixOf_iff_prefix.mp hn
    have h2 := List.isPrefixOf_iff_prefix.mp hp
    have := List.isPrefixOf_iff_prefix.mpr (h1.trans h2)
    rw [h k] at this
    cases this

theorem str_replace_absent (fuel : Nat) (s frm rep : Str) (h : strstr s frm = none) :
    _str_replace (fuel + 1) s frm rep = .ok s := by
  simp only [_str_replace, h]

/-- A line that contains none of `%rsp`, `%esp`, `%sp` comes out of the four
substitutions as it went in. -/
theorem replace_sp_line_absent (line : Str)
    (h1 : strstr line "%rsp".toList = none) (h2 : strstr line "%esp".toList = none)
    (h3 : strstr line "%sp".toList = none) :
    replace_sp_line line = .ok line := by
  have h4 : strstr line "%spl".toList = none :=
    strstr_none_of_prefix line "%sp".toList "%spl".toList (by decide) h3
  simp only [replace_sp_line, Res.bind_def, str_replace_absent, h1, h2, h3, h4, Res.bind_ok]

theorem replace_sp_loop_cons (l : Str) (ls : List Str) :
    replace_sp_loop (l :: ls)
      = Res.bind (if (!is_insn l) = true then Res.ok l else replace_sp_line l) fun l' =>
          Res.bind (replace_sp_loop ls) fun ls' => .ok (l' :: ls') := by
  simp only [replace_sp_loop, Res.bind_def, Res.pure_def]
  split <;> rfl

theorem replace_sp_loop_append (a b : List Str) :
    replace_sp_loop (a ++ b)
      = Res.bind (replace_sp_loop a) fun a' =>
          Res.bind (replace_sp_loop b) fun b' => .ok (a' ++ b') := by
  induction a with
  | nil =>
    simp only [List.nil_append, replace_sp_loop, Res.bind_ok]
    cases replace_sp_loop b <;> rfl
  | cons l ls ih =>
    rw [List.cons_append, replace_sp_loop_cons, replace_sp_loop_cons, ih]
    cases (if (!is_insn l) = true then Res.ok l else replace_sp_line l) with
    | fatal e => rfl
    | ok l' =>
      cases replace_sp_loop ls with
      | fatal e => rfl
      | ok ls' =>
        cases replace_sp_loop b <;> rfl

/-! ## `_str_replace` and the single pass -/

theorem separate_pairs :
    (∀ p ∈ sp_pairs ++ label_pairs, separate p.1 p.2 = true)
      ∧ separate "%rsp".toList (_get_frame_ptr 4) = true
      ∧ separate "%rsp".toList (_get_frame_ptr 2) = true
      ∧ separate "%rsp".toList (_get_frame_ptr 1) = true
      ∧ separate "%esp".toList (_get_frame_ptr 2) = true
      ∧ separate "%esp".toList (_get_frame_ptr 1) = true
      ∧ separate "%sp".toList (_get_frame_ptr 1) = true := by
  decide

/-- A prefix of `X ++ Y` is a prefix of `X`, or is `X` followed by a text
that starts `Y`. -/
theorem prefix_split (q X Y : Str) (h : q <+: X ++ Y) :
    q <+: X ∨ ∃ q', q' ≠ [] ∧ q = X ++ q' ∧ q' <+: Y := by
  rcases List.prefix_or_prefix_of_prefix h (List.prefix_append X Y) with h1 | h1
  · exact Or.inl h1
  · obtain ⟨q', rfl⟩ := h1
    by_cases hq : q' = []
    · subst hq
      exact Or.inl (by simp)
    · exact Or.inr ⟨q', hq, rfl, (List.prefix_append_right_inj X).mp h⟩

theorem isPrefixOf_false_iff (q s : Str) : q.isPrefixOf s = false ↔ ¬ q <+: s := by
  constructor
  · intro h hp
    rw [List.isPrefixOf_iff_prefix.mpr hp] at h
    cases h
  · intro h
    cases hb : q.isPrefixOf s with
    | false => rfl
    | true => exact absurd (List.isPrefixOf_iff_prefix.mp hb) h

theorem separate_spec (q r : Str) (h : separate q r = true) :
    q ≠ [] ∧ r ≠ [] ∧ ¬ q <+: r ∧ ¬ r <+: q
      ∧ (∀ c, r.head? = some c → c ∉ q.tail) ∧ (∀ c, q.head? = some c → c ∉ r.tail)
      ∧ (∀ c, q.head? = some c → c ∉ q.tail) := by
  simp only [separate, Bool.and_eq_true, Bool.not_eq_true', List.isEmpty_eq_false,
    isPrefixOf_false_iff] at h
  obtain ⟨⟨⟨⟨⟨⟨h1, h2⟩, h3⟩, h4⟩, h5⟩, h6⟩, h7⟩ := h
  refine ⟨h1, h2, h3, h4, ?_, ?_, ?_⟩
  · intro c hc
    cases r with
    | nil => cases hc
    | cons r0 r' =>
      simp only [List.head?_cons, Option.some.injEq] at hc
      subst hc
      simpa using h5
  · intro c hc
    cases q with
    | nil => cases hc
    | cons q0 q' =>
      simp only [List.head?_cons, Option.some.injEq] at hc
      subst hc
      simpa using h6
  · intro c hc
    cases q with
    | nil => cases hc
    | cons q0 q' =>
      simp only [List.head?_cons, Option.some.injEq] at hc
      subst hc
      simpa using h7

/-- An occurrence of `q` that starts before an inserted `r` ends before it. -/
theorem no_match_across (q r X B : Str) (hs : separate q r = true) (hX : X ≠ [])
    (h : q <+: X ++ (r ++ B)) : q <+: X := by
  obtain ⟨_, hr, _, _, h5, _, _⟩ := separate_spec q r hs
  rcases prefix_split q X (r ++ B) h with h1 | ⟨q', hq', rfl, h2⟩
  · exact h1
  · exfalso
    cases r with
    | nil => exact hr rfl
    | cons r0 r' =>
      cases q' with
      | nil => exact hq' rfl
      | cons d q'' =>
        rw [List.cons_append, List.cons_prefix_cons] at h2
        obtain ⟨rfl, _⟩ := h2
        cases X with
        | nil => exact hX rfl
        | cons x0 X' =>
          exact h5 d rfl (by simp)

/-- No occurrence of `q` starts at the first character of an inserted `r`. -/
theorem no_match_at_start (q r B : Str) (hs : separate q r = true) : ¬ q <+: r ++ B := by
  obtain ⟨_, _, h3, h4, _, _, _⟩ := separate_spec q r hs
  intro h
  rcases List.prefix_or_prefix_of_prefix h (List.prefix_append r B) with h1 | h1
  · exact h3 h1
  · exact h4 h1

/-- No occurrence of `q` starts at a later character of a text `r` in which
the first character of `q` does not occur past the first position. -/
theorem no_match_inside (q r B : Str) (hq : q ≠ [])
    (h6 : ∀ c, q.head? = some c → c ∉ r.tail) (t : Nat) (ht : 0 < t) (ht' : t < r.length) :
    ¬ q <+: r.drop t ++ B := by
  intro h
  cases q with
  | nil => exact hq rfl
  | cons q0 q' =>
    cases r with
    | nil => simp at ht'
    | cons r0 r' =>
      cases t with
      | zero => omega
      | succ t =>
        simp only [List.length_cons] at ht'
        have hlt : t < r'.length := by omega
        rw [List.drop_succ_cons, List.drop_eq_getElem_cons hlt, List.cons_append,
          List.cons_prefix_cons] at h
        obtain ⟨rfl, _⟩ := h
        exact h6 _ rfl (List.getElem_mem _)

theorem clear_of_cons (frm : Str) (x : Char) (X B : Str) (h : clear_of frm (x :: X) B) :
    frm.isPrefixOf (x :: (X ++ B)) = false ∧ clear_of frm X B := by
  refine ⟨by simpa using h 0 (by simp), fun k hk => ?_⟩
  simpa using h (k + 1) (by simpa using hk)

theorem occurrences_cons (frm : Str) (c : Char) (cs : Str) :
    occurrences frm (c :: cs)
      = (if frm.isPrefixOf (c :: cs) = true then 1 else 0) + occurrences frm cs := rfl

theorem replace_all_cons (frm rep : Str) (c : Char) (cs : Str) :
    replace_all frm rep (c :: cs)
      = if frm.isPrefixOf (c :: cs) = true then rep ++ replace_all_aux frm rep (frm.length - 1) cs
        else c :: replace_all frm rep cs := rfl

theorem occurrences_clear (frm X B : Str) (h : clear_of frm X B) :
    occurrences frm (X ++ B) = occurrences frm B := by
  induction X with
  | nil => rfl
  | cons x X ih =>
    obtain ⟨h0, h1⟩ := clear_of_cons frm x X B h
    rw [List.cons_append, occurrences_cons, h0, ih h1]
    simp only [Bool.false_eq_true, ↓reduceIte, Nat.zero_add]

theorem replace_all_clear (frm rep X B : Str) (h : clear_of frm X B) :
    replace_all frm rep (X ++ B) = X ++ replace_all frm rep B := by
  induction X with
  | nil => rfl
  | cons x X ih =>
    obtain ⟨h0, h1⟩ := clear_of_cons frm x X B h
    rw [List.cons_append, replace_all_cons, h0, ih h1]
    simp only [Bool.false_eq_true, ↓reduceIte, List.cons_append]

theorem replace_all_aux_skip (frm rep X B : Str) :
    replace_all_aux frm rep X.length (X ++ B) = replace_all_aux frm rep 0 B := by
  induction X with
  | nil => rfl
  | cons x X ih => simpa only [List.length_cons, List.cons_append, replace_all_aux] using ih

theorem replace_all_nil (frm rep : Str) : replace_all frm rep [] = [] := rfl

/-- At an occurrence the single pass writes `rep` and goes on behind it. -/
theorem replace_all_match (frm rep B : Str) (hne : frm ≠ []) :
    replace_all frm rep (frm ++ B) = rep ++ replace_all frm rep B := by
  cases frm with
  | nil => exact absurd rfl hne
  | cons p0 p' =>
    have hp : (p0 :: p').isPrefixOf (p0 :: (p' ++ B)) = true :=
      List.isPrefixOf_iff_prefix.mpr (List.prefix_append (p0 :: p') B)
    rw [List.cons_append, replace_all_cons, hp]
    simp only [↓reduceIte, List.length_cons, Nat.add_sub_cancel]
    rw [replace_all_aux_skip]
    rfl

theorem occurrences_match (frm B : Str) (hne : frm ≠ [])
    (h7 : ∀ c, frm.head? = some c → c ∉ frm.tail) :
    occurrences frm (frm ++ B) = 1 + occurrences frm B := by
  cases frm with
  | nil => exact absurd rfl hne
  | cons p0 p' =>
    have hp : (p0 :: p').isPrefixOf (p0 :: (p' ++ B)) = true :=
      List.isPrefixOf_iff_prefix.mpr (List.prefix_append (p0 :: p') B)
    rw [List.cons_append, occurrences_cons, hp]
    simp only [↓reduceIte]
    congr 1
    apply occurrences_clear
    intro k hk
    rw [isPrefixOf_false_iff, List.drop_append_of_le_length (Nat.le_of_lt hk)]
    have := no_match_inside (p0 :: p') (p0 :: p') B hne h7 (k + 1) (by omega)
      (by simpa using hk)
    simpa using this

theorem occurrences_le_length (frm s : Str) : occurrences frm s ≤ s.length := by
  induction s with
  | nil => simp [occurrences]
  | cons c cs ih =>
    simp only [occurrences, List.length_cons]
    split <;> omega

/-- The text around the first occurrence of `frm`. -/
theorem strstr_some_split (s frm : Str) (i : Nat) (h : strstr s frm = some i) :
    s = s.take i ++ (frm ++ s.drop (i + frm.length))
      ∧ clear_of frm (s.take i) (frm ++ s.drop (i + frm.length)) := by
  obtain ⟨h1, h2, h3⟩ := strstr_eq_some s frm i h
  obtain ⟨B, hB⟩ := List.isPrefixOf_iff_prefix.mp h1
  have hd : s.drop (i + frm.length) = B := by
    have := congrArg (List.drop frm.length) hB
    rw [List.drop_left, List.drop_drop] at this
    rw [← this]
  have hs : s = s.take i ++ (frm ++ s.drop (i + frm.length)) := by
    rw [hd, hB, List.take_append_drop]
  refine ⟨hs, fun k hk => ?_⟩
  rw [← hs]
  apply h3
  simp only [List.length_take] at hk
  omega

theorem clear_of_rep (frm rep B : Str) (hs : separate frm rep = true) : clear_of frm rep B := by
  obtain ⟨h1, _, _, _, _, h6, _⟩ := separate_spec frm rep hs
  intro k hk
  rw [isPrefixOf_false_iff, List.drop_append_of_le_length (Nat.le_of_lt hk)]
  cases k with
  | zero => simpa using no_match_at_start frm rep B hs
  | succ k => exact no_match_inside frm rep B h1 h6 (k + 1) (by omega) hk

/-- Putting `rep` in the place of a part of a text creates no occurrence of
`q` in front of it. -/
theorem clear_of_splice (q rep A mid B : Str) (hs : separate q rep = true)
    (h : clear_of q A (mid ++ B)) : clear_of q A (rep ++ B) := by
  intro k hk
  have h0 := h k hk
  rw [isPrefixOf_false_iff, List.drop_append_of_le_length (Nat.le_of_lt hk)] at h0 ⊢
  intro hp
  have hX : A.drop k ≠ [] := by
    intro he
    have := congrArg List.length he
    simp only [List.length_drop, List.length_nil] at this
    omega
  exact h0 ((no_match_across q rep (A.drop k) B hs hX hp).trans (List.prefix_append _ _))

theorem strstr_none_clear (s q : Str) (h : strstr s q = none) : clear_of q s [] := by
  intro k _
  rw [List.append_nil]
  exact (strstr_eq_none s q).mp h k

theorem strstr_none_of_clear (q X B : Str) (h : clear_of q X B) (hB : strstr B q = none) :
    strstr (X ++ B) q = none := by
  rw [strstr_eq_none] at hB ⊢
  intro k
  by_cases hk : k < X.length
  · exact h k hk
  · have : (X ++ B).drop k = B.drop (k - X.length) := by
      rw [List.drop_append_eq_append_drop, List.drop_of_length_le (by omega), List.nil_append]
    rw [this]
    exact hB _

theorem clear_of_none (q X B : Str) (h : strstr (X ++ B) q = none) :
    clear_of q X B ∧ strstr B q = none := by
  rw [strstr_eq_none] at h
  refine ⟨fun k _ => h k, ?_⟩
  rw [strstr_eq_none]
  intro k
  have := h (X.length + k)
  rwa [← List.drop_drop, List.drop_left] at this

/-- Replacing a part of a text without occurrence of `q` by `rep` leaves it
without occurrence of `q`. -/
theorem strstr_none_splice (q rep A mid B : Str) (hs : separate q rep = true)
    (h : strstr (A ++ (mid ++ B)) q = none) : strstr (A ++ (rep ++ B)) q = none := by
  obtain ⟨h1, h2⟩ := clear_of_none q A (mid ++ B) h
  obtain ⟨_, h3⟩ := clear_of_none q mid B h2
  exact strstr_none_of_clear q A (rep ++ B) (clear_of_splice q rep A mid B hs h1)
    (strstr_none_of_clear q rep B (clear_of_rep q rep B hs) h3)

/-- One replacement takes away one occurrence and leaves the result of the
single pass as it was. -/
theorem str_replace_step (s frm rep : Str) (i : Nat) (hs : separate frm rep = true)
    (h : strstr s frm = some i) :
    occurrences frm (s.take i ++ rep ++ s.drop (i + frm.length)) + 1 = occurrences frm s
      ∧ replace_all frm rep (s.take i ++ rep ++ s.drop (i + frm.length))
          = replace_all frm rep s := by
  obtain ⟨h1, _, _, _, _, _, h7⟩ := separate_spec frm rep hs
  obtain ⟨e, hc⟩ := strstr_some_split s frm i h
  generalize s.take i = A at e hc ⊢
  generalize s.drop (i + frm.length) = B at e hc ⊢
  have hc' := clear_of_splice frm rep A frm B hs hc
  have hr := clear_of_rep frm rep B hs
  rw [List.append_assoc]
  constructor
  · rw [e, occurrences_clear frm A _ hc', occurrences_clear frm rep B hr,
      occurrences_clear frm A _ hc, occurrences_match frm B h1 h7]
    omega
  · rw [e, replace_all_clear frm rep A _ hc', replace_all_clear frm rep rep B hr,
      replace_all_clear frm rep A _ hc, replace_all_match frm rep B h1]

theorem replace_all_absent (frm rep s : Str) (h : strstr s frm = none) :
    replace_all frm rep s = s := by
  have := replace_all_clear frm rep s [] (strstr_none_clear s frm h)
  simpa only [List.append_nil, replace_all_nil] using this

/-- With more nested calls than occurrences, `_str_replace` comes back with
the result of the single pass. -/
theorem str_replace_eq (frm rep : Str) (hs : separate frm rep = true) (fuel : Nat) (s : Str)
    (hf : occurrences frm s < fuel) :
    _str_replace fuel s frm rep = .ok (replace_all frm rep s) := by
  induction fuel generalizing s with
  | zero => omega
  | succ fuel ih =>
    rw [_str_replace]
    cases h : strstr s frm with
    | none => simp only [replace_all_absent frm rep s h]
    | some i =>
      obtain ⟨h1, h2⟩ := str_replace_step s frm rep i hs h
      simp only
      rw [ih _ (by omega), h2]

/-- What `_str_replace` returns has no occurrence of `frm`. -/
theorem str_replace_result (fuel : Nat) (s frm rep x : Str)
    (h : _str_replace fuel s frm rep = .ok x) : strstr x frm = none := by
  induction fuel generalizing s with
  | zero => cases h
  | succ fuel ih =>
    rw [_str_replace] at h
    cases hh : strstr s frm with
    | none =>
      simp only [hh, Res.ok.injEq] at h
      exact h ▸ hh
    | some i =>
      simp only [hh] at h
      exact ih _ h

/-- A text without occurrence of `q` comes out of `_str_replace` without
occurrence of `q`, when `q` and the replacement are separate. -/
theorem str_replace_keeps_absent (q : Str) (fuel : Nat) (s frm rep x : Str)
    (hs : separate q rep = true) (hq : strstr s q = none)
    (h : _str_replace fuel s frm rep = .ok x) : strstr x q = none := by
  induction fuel generalizing s with
  | zero => cases h
  | succ fuel ih =>
    rw [_str_replace] at h
    cases hh : strstr s frm with
    | none =>
      simp only [hh, Res.ok.injEq] at h
      exact h ▸ hq
    | some i =>
      simp only [hh] at h
      refine ih _ ?_ h
      obtain ⟨e, _⟩ := strstr_some_split s frm i hh
      rw [List.append_assoc]
      rw [e] at hq
      exact strstr_none_splice q rep _ frm _ hs hq

/-! ## The substitution pass -/

theorem replace_sp_line_eq (l : Str) :
    replace_sp_line l = .ok (sp_replaced l) ∧ mentions_sp (sp_replaced l) = false := by
  obtain ⟨hp, h84, h82, h81, h42, h41, h21⟩ := separate_pairs
  have e1 := str_replace_eq "%rsp".toList (_get_frame_ptr 8)
    (hp ("%rsp".toList, _get_frame_ptr 8) (by decide))
  have e2 := str_replace_eq "%esp".toList (_get_frame_ptr 4)
    (hp ("%esp".toList, _get_frame_ptr 4) (by decide))
  have e3 := str_replace_eq "%sp".toList (_get_frame_ptr 2)
    (hp ("%sp".toList, _get_frame_ptr 2) (by decide))
  have e4 := str_replace_eq "%spl".toList (_get_frame_ptr 1)
    (hp ("%spl".toList, _get_frame_ptr 1) (by decide))
  have hle := fun frm s => Nat.lt_succ_of_le (occurrences_le_length frm s)
  have hrun : replace_sp_line l = .ok (sp_replaced l) := by
    simp only [replace_sp_line, Res.bind_def, sp_replaced, sp_pairs, List.foldl_cons,
      List.foldl_nil]
    rw [e1 _ _ (hle _ _), Res.bind_ok, e2 _ _ (hle _ _), Res.bind_ok, e3 _ _ (hle _ _),
      Res.bind_ok, e4 _ _ (hle _ _)]
  refine ⟨hrun, ?_⟩
  simp only [replace_sp_line, Res.bind_def] at hrun
  cases h1 : _str_replace (l.length + 1) l "%rsp".toList (_get_frame_ptr 8) with
  | fatal e => rw [h1] at hrun; cases hrun
  | ok l1 =>
    rw [h1, Res.bind_ok] at hrun
    cases h2 : _str_replace (l1.length + 1) l1 "%esp".toList (_get_frame_ptr 4) with
    | fatal e => rw [h2] at hrun; cases hrun
    | ok l2 =>
      rw [h2, Res.bind_ok] at hrun
      cases h3 : _str_replace (l2.length + 1) l2 "%sp".toList (_get_frame_ptr 2) with
      | fatal e => rw [h3] at hrun; cases hrun
      | ok l3 =>
        rw [h3, Res.bind_ok] at hrun
        have a1 := str_replace_result _ _ _ _ _ h1
        have a2 := str_replace_result _ _ _ _ _ h2
        have a3 := str_replace_result _ _ _ _ _ h3
        have b1 := str_replace_keeps_absent "%rsp".toList _ _ _ _ _ h84 a1 h2
        have b2 := str_replace_keeps_absent "%rsp".toList _ _ _ _ _ h82 b1 h3
        have b3 := str_replace_keeps_absent "%rsp".toList _ _ _ _ _ h81 b2 hrun
        have c2 := str_replace_keeps_absent "%esp".toList _ _ _ _ _ h82 a2 h3
        have c3 := str_replace_keeps_absent "%esp".toList _ _ _ _ _ h81 c2 hrun
        have d3 := str_replace_keeps_absent "%sp".toList _ _ _ _ _ h21 a3 hrun
        simp only [mentions_sp, b3, c3, d3, Option.isSome_none, Bool.or_self]

theorem replace_sp_loop_eq (ls : List Str) :
    replace_sp_loop ls = .ok (ls.map sp_pass_line) := by
  induction ls with
  | nil => rfl
  | cons l ls ih =>
    rw [replace_sp_loop_cons, ih, List.map_cons, sp_pass_line]
    cases h : is_insn l with
    | false => rfl
    | true =>
      simp only [Bool.not_true, Bool.false_eq_true, ↓reduceIte, (replace_sp_line_eq l).1,
        Res.bind_ok]

theorem sp_pass_line_clean (l : Str) (h : is_insn (sp_pass_line l) = true) :
    mentions_sp (sp_pass_line l) = false := by
  unfold sp_pass_line at h ⊢
  cases hi : is_insn l with
  | false =>
    rw [hi] at h
    simp only [Bool.false_eq_true, ↓reduceIte] at h
    rw [hi] at h
    cases h
  | true =>
    simp only [↓reduceIte]
    exact (replace_sp_line_eq l).2


/-! ## The rewriter on sample lines -/

/-- C15, failing input: on `movq printf @GOTPCREL(%rip), %rax`, with `printf`
in neither list, `get_oparand` stops at the blank and returns `printf`; the six
characters dropped for `(%rip)` are the whole name, no `@` is left, and the
line is classified as not address-taking. -/
theorem space_before_suffix_not_taken :
    get_oparand "movq printf @GOTPCREL(%rip), %rax".toList 1 = .ok "printf".toList
      ∧ potential_func_addr_taken "movq printf @GOTPCREL(%rip), %rax".toList (doc_of [])
          = .ok false := by
  decide!

/-- C19, failing input: `reg_bytes` gives 2 for each of the high-byte
registers, with or without the leading `%`. -/
theorem reg_bytes_high_byte :
    regs8h.map reg_bytes = [2, 2, 2, 2]
      ∧ (regs8h.map fun r => reg_bytes r.tail) = [2, 2, 2, 2] := by
  decide!

/-- C26, failing input: for `pushq 8(%rax)` the operand does not start with
`(`, so it is handled as a register: the mov emitted has the two memory
operands `8(%rax)` and `(%r15)`, and `%r10` is not used.  The document has
four lines, so that the array holds the eight entries written. -/
theorem push_displacement_not_staged :
    process_asm (doc_of [".text", "f:", "pushq 8(%rax)", "ret"])
      = .ok (doc_out [".text", "f:", "pushq 8(%rax)", "ret"]
          [".text",
           "f:",
           "#-pushq 8(%rax)",
           "#> ================ by replace_push_pop_with_mov():689",
           "\tsub   $8, %r15",
           "\tmovq 8(%rax), (%r15)",
           "#< ================ by replace_push_pop_with_mov():720",
           "ret"]) := by
  decide!

/-- C33, failing input: in `movb %spl, %al` the substitution of `%sp` comes
before that of `%spl` and turns the operand into `%r15wl`. -/
theorem spl_becomes_r15wl :
    replace_sp_line "movb %spl, %al".toList = .ok "movb %r15wl, %al".toList
      ∧ process_asm (doc_of ["movb %spl, %al"])
          = .ok (doc_out ["movb %spl, %al"] ["movb %r15wl, %al"]) := by
  decide!

/-- C36, failing input: for the document of the single line `pushq %rbx` the
array `new_lines` has `2 * lines_num = 2` entries; the round writes five (in
an array with room they are the commented original, the header, the `sub`,
the `mov` and the footer), so the third insertion writes past the
allocation. -/
theorem new_lines_exceeds_allocation :
    process_asm (doc_of ["pushq %rbx"]) = .fatal .undefined
      ∧ process_asm_line "pushq %rbx".toList (blank_doc 3 1)
        = .ok (with_appended (blank_doc 3 1) (["#-pushq %rbx",
           "#> ================ by replace_push_pop_with_mov():689",
           "\tsub   $8, %rsp",
           "\tmovq %rbx, (%rsp)",
           "#< ================ by replace_push_pop_with_mov():720"].map String.toList))
      ∧ 2 * (doc_of ["pushq %rbx"]).lines.length < 5 := by
  decide!

/-- C39, failing input: `movq foo @GOTPCREL(%rip), %rax` passes the opcode and
the `(%rip),` filters; the first operand is `foo`, three characters long and
without `(%rip)`, and the write that drops the suffix lands before the
buffer. -/
theorem suffix_removal_out_of_bounds :
    opecode_with "movq foo @GOTPCREL(%rip), %rax".toList "mov".toList = true
      ∧ (strstr "movq foo @GOTPCREL(%rip), %rax".toList "(%rip),".toList).isSome = true
      ∧ get_oparand "movq foo @GOTPCREL(%rip), %rax".toList 1 = .ok "foo".toList
      ∧ potential_func_addr_taken "movq foo @GOTPCREL(%rip), %rax".toList (doc_of [])
          = .fatal .undefined := by
  decide!

/-! ## The safe-stack template -/

theorem push_register_wide :
    ∀ R ∈ regs64.filter (fun r => !sp_aliases.contains r), push_register_fact R := by
  decide!

theorem push_register_half :
    ∀ R ∈ regs32.filter (fun r => !sp_aliases.contains r), push_register_fact R := by
  decide!

theorem push_register_word :
    ∀ R ∈ regs16.filter (fun r => !sp_aliases.contains r), push_register_fact R := by
  decide!

theorem push_register_low :
    ∀ R ∈ regs8.filter (fun r => !sp_aliases.contains r), push_register_fact R := by
  decide!

theorem push_register_high :
    ∀ R ∈ regs8h.filter (fun r => !sp_aliases.contains r), push_register_fact R := by
  decide!

theorem safe_stack_push_base : ∀ R ∈ regs_not_sp, push_register_fact R := by
  intro R hR
  simp only [regs_not_sp, all_regs, List.filter_append, List.mem_append] at hR
  rcases hR with (((h | h) | h) | h) | h
  · exact push_register_wide R h
  · exact push_register_half R h
  · exact push_register_word R h
  · exact push_register_low R h
  · exact push_register_high R h

/-- C24: for every register operand `R` other than the four names of the
stack pointer, in a state whose array has five free entries, the round of
`process_asm` for the line `pushq R` appends, to whatever was emitted before,
the original line behind `#-`, the header comment, `sub   $8, %rsp`,
`movq R, (%rsp)` and the footer comment; `replace_sp_with_frame_ptr` turns
these five lines into the same lines with `%r15` for `%rsp`; and none of the
five final lines mentions `%rsp`, `%esp` or `%sp` or is a push or pop
instruction. -/
theorem safe_stack_push_register (m : s_asm_data) (R : Str) (hR : R ∈ regs_not_sp)
    (hroom : m.new_lines.length + 5 ≤ 2 * m.lines.length) :
    process_asm_line ("pushq ".toList ++ R) m
        = .ok (with_appended m (safe_stack_push_lines "%rsp".toList R))
      ∧ replace_sp_loop (safe_stack_push_lines "%rsp".toList R)
        = .ok (safe_stack_push_lines "%r15".toList R)
      ∧ ∀ l ∈ safe_stack_push_lines "%r15".toList R,
          mentions_sp l = false ∧ is_push_pop l = false := by
  obtain ⟨h1, h2, h3, h4, h5⟩ := safe_stack_push_base R hR
  refine ⟨process_asm_line_rebase_other _ m 3 1 _ h1 h2 h3 (by omega), h4, ?_⟩
  intro l hl
  have := List.all_eq_true.mp h5 l hl
  simpa only [Bool.and_eq_true, Bool.not_eq_true'] using this

/-- C24, at a document of four lines, whose array holds the eight entries
written, and at the document of the single line `pushq %rbx`,
whose array has two entries: there the round writes past it. -/
theorem safe_stack_push_register_witness :
    process_asm_line "pushq %rbx".toList (doc_out [".text", "f:", "pushq %rbx", "ret"]
          [".text", "f:"])
        = .ok (with_appended (doc_out [".text", "f:", "pushq %rbx", "ret"] [".text", "f:"])
            (safe_stack_push_lines "%rsp".toList "%rbx".toList))
      ∧ process_asm (doc_of [".text", "f:", "pushq %rbx", "ret"])
        = .ok (doc_out [".text", "f:", "pushq %rbx", "ret"]
          [".text",
           "f:",
           "#-pushq %rbx",
           "#> ================ by replace_push_pop_with_mov():689",
           "\tsub   $8, %r15",
           "\tmovq %rbx, (%r15)",
           "#< ================ by replace_push_pop_with_mov():720",
           "ret"])
      ∧ process_asm (doc_of ["pushq %rbx"]) = .fatal .undefined :=
  ⟨(safe_stack_push_register (doc_out [".text", "f:", "pushq %rbx", "ret"] [".text", "f:"])
      "%rbx".toList (by decide!) (by decide!)).1, by decide!, by decide!⟩

/-! ## The indirect-branch template -/

theorem indirect_call_first :
    ∀ p ∈ (regs64.zip regs32).take 8,
      indirect_branch_fact ("call *".toList ++ p.1) "call  ".toList p 565 576 := by
  decide!

theorem indirect_jmp_first :
    ∀ p ∈ (regs64.zip regs32).take 8,
      indirect_branch_fact ("jmp *".toList ++ p.1 ++ " #_tail_".toList) "jmp   ".toList p
        580 590 := by
  decide!

theorem indirect_call_second :
    ∀ p ∈ (regs64.zip regs32).drop 8,
      indirect_branch_fact ("call *".toList ++ p.1) "call  ".toList p 565 576 := by
  decide!

theorem indirect_jmp_second :
    ∀ p ∈ (regs64.zip regs32).drop 8,
      indirect_branch_fact ("jmp *".toList ++ p.1 ++ " #_tail_".toList) "jmp   ".toList p
        580 590 := by
  decide!

theorem indirect_branch_base :
    ∀ p ∈ regs64.zip regs32,
      indirect_branch_fact ("call *".toList ++ p.1) "call  ".toList p 565 576
        ∧ indirect_branch_fact ("jmp *".toList ++ p.1 ++ " #_tail_".toList) "jmp   ".toList p
          580 590 := by
  intro p hp
  rw [← List.take_append_drop 8 (regs64.zip regs32), List.mem_append] at hp
  rcases hp with h | h
  · exact ⟨indirect_call_first p h, indirect_jmp_first p h⟩
  · exact ⟨indirect_call_second p h, indirect_jmp_second p h⟩

/-- C29: for each of the sixteen 64-bit registers `R` with low half `r`, in a
state whose array has five free entries, a round of `process_asm` on
`call *R` leaves, after the lines already there, the original as a `#-`
comment, the header, `xor  %gs:0x100008(r), R`, `call  *%gs:0x100000(R)`
and the footer; on `jmp *R #_tail_` the same with `jmp`.  The stack-register
substitution keeps these lines as they are, and the original line is not
among them. -/
theorem indirect_call_rewritten (m : s_asm_data) (R r : Str)
    (hR : (R, r) ∈ regs64.zip regs32)
    (hroom : m.new_lines.length + 5 ≤ 2 * m.lines.length) :
    (process_asm_line ("call *".toList ++ R) m
        = .ok (with_appended m (indirect_branch_lines ("call *".toList ++ R)
            "call  ".toList R r 565 576))
      ∧ replace_sp_loop (indirect_branch_lines ("call *".toList ++ R)
            "call  ".toList R r 565 576)
        = .ok (indirect_branch_lines ("call *".toList ++ R) "call  ".toList R r 565 576)
      ∧ "call *".toList ++ R ∉ indirect_branch_lines ("call *".toList ++ R)
            "call  ".toList R r 565 576)
    ∧ (process_asm_line ("jmp *".toList ++ R ++ " #_tail_".toList) m
        = .ok (with_appended m (indirect_branch_lines
            ("jmp *".toList ++ R ++ " #_tail_".toList) "jmp   ".toList R r 580 590))
      ∧ replace_sp_loop (indirect_branch_lines ("jmp *".toList ++ R ++ " #_tail_".toList)
            "jmp   ".toList R r 580 590)
        = .ok (indirect_branch_lines ("jmp *".toList ++ R ++ " #_tail_".toList)
            "jmp   ".toList R r 580 590)
      ∧ "jmp *".toList ++ R ++ " #_tail_".toList ∉ indirect_branch_lines
            ("jmp *".toList ++ R ++ " #_tail_".toList) "jmp   ".toList R r 580 590) := by
  obtain ⟨⟨c1, c2, c3, c4, c5⟩, j1, j2, j3, j4, j5⟩ := indirect_branch_base (R, r) hR
  refine ⟨⟨process_asm_line_rebase_other _ m 3 1 _ c1 c2 c3 (by omega), c4, ?_⟩,
    process_asm_line_rebase_other _ m 3 1 _ j1 j2 j3 (by omega), j4, ?_⟩
  · intro h
    have := List.all_eq_true.mp c5 _ h
    simp at this
  · intro h
    have := List.all_eq_true.mp j5 _ h
    simp at this

/-- C29, at a document of four lines, whose array holds the eight entries
written, and at the document of the single line `call *%rax`,
whose array has two entries: there the round writes past it. -/
theorem indirect_call_rewritten_witness :
    process_asm_line "call *%rax".toList (doc_out [".text", "f:", "call *%rax", "ret"]
          [".text", "f:"])
        = .ok (with_appended (doc_out [".text", "f:", "call *%rax", "ret"] [".text", "f:"])
            (indirect_branch_lines "call *%rax".toList "call  ".toList "%rax".toList
              "%eax".toList 565 576))
      ∧ process_asm (doc_of [".text", "f:", "call *%rax", "ret"])
        = .ok (doc_out [".text", "f:", "call *%rax", "ret"]
            [".text",
             "f:",
             "#-call *%rax",
             "#> ================ by decode_func_addr_for_indirect_call():565",
             "\txor  %gs:0x100008(%eax), %rax",
             "\tcall  *%gs:0x100000(%rax)",
             "#< ================ by decode_func_addr_for_indirect_call():576",
             "ret"])
      ∧ process_asm (doc_of ["call *%rax"]) = .fatal .undefined :=
  ⟨(indirect_call_rewritten (doc_out [".text", "f:", "call *%rax", "ret"] [".text", "f:"])
      "%rax".toList "%eax".toList (by decide!) (by decide!)).1.1, by decide!, by decide!⟩

/-! ## Indirect operands that no template covers -/

theorem vformat_comment (line : Str) :
    vformat "#-%s".toList [.str line] = .ok ("#-".toList ++ line) := by
  simp [vformat, Res.bind_def, Res.pure_def, Res.bind]

/-- An insertion into an array with a free entry. -/
theorem insert_new_line_room (m : s_asm_data) (l : Str)
    (h : m.new_lines.length < 2 * m.lines.length) :
    _insert_new_line m l
      = .ok { m with new_lines := m.new_lines ++ [l.take MAX_ASM_LINE] } := by
  simp only [_insert_new_line, h, ↓reduceIte]

theorem replace_cur_comment_eq (m : s_asm_data) (line : Str) (hne : m.new_lines ≠ [])
    (hcap : m.new_lines.length ≤ 2 * m.lines.length) :
    _replace_cur_line_fmt m "#-%s".toList [.str line]
      = .ok { m with new_lines := m.new_lines.dropLast
          ++ [(("#-".toList ++ line).take (MAX_ASM_LINE - 1)).take MAX_ASM_LINE] } := by
  have hlen : m.new_lines.dropLast.length < 2 * m.lines.length := by
    have : 0 < m.new_lines.length := List.length_pos.mpr hne
    rw [List.length_dropLast]
    omega
  simp only [_replace_cur_line_fmt, hne, ↓reduceIte, _insert_new_line_fmt, vformat_comment,
    Res.bind_def, Res.bind_ok, _insert_new_line, hlen]

theorem replace_cur_comment (m : s_asm_data) (line : Str) (hne : m.new_lines ≠ [])
    (hcap : m.new_lines.length ≤ 2 * m.lines.length) :
    ∃ m', _replace_cur_line_fmt m "#-%s".toList [.str line] = .ok m' :=
  ⟨_, replace_cur_comment_eq m line hne hcap⟩

theorem decode_unrecognised (line op1 : Str) (m : s_asm_data)
    (hop : get_oparand line 1 = .ok op1)
    (hstar : starts_with op1 "*".toList = true)
    (hreg : starts_with op1 "*%".toList = false)
    (hparen : ends_with op1 ")".toList = false)
    (hfs : strstr op1 "%fs".toList = none)
    (hne : m.new_lines ≠ []) (hcap : m.new_lines.length ≤ 2 * m.lines.length) :
    decode_func_addr_for_indirect_call line m = .fatal .errExit := by
  obtain ⟨m', hm'⟩ := replace_cur_comment m line hne hcap
  have hhead : op1.head? = some '*' := by
    cases op1 with
    | nil => simp [starts_with] at hstar
    | cons c t =>
      simp [starts_with] at hstar
      subst hstar
      rfl
  simp only [decode_func_addr_for_indirect_call, hop, Res.bind_def, Res.bind_ok, hm', hhead,
    hreg, hparen, hfs, hstar]
  rfl

theorem get_low_half_reg_unnamed (reg : Str)
    (hnone : ∀ n ∈ regs64, strstr reg n.tail = none) :
    get_low_half_reg reg = .fatal .assertion := by
  have e0 : strstr reg "rax".toList = none := hnone "%rax".toList (by decide)
  have e1 : strstr reg "rbx".toList = none := hnone "%rbx".toList (by decide)
  have e2 : strstr reg "rcx".toList = none := hnone "%rcx".toList (by decide)
  have e3 : strstr reg "rdx".toList = none := hnone "%rdx".toList (by decide)
  have e4 : strstr reg "rsi".toList = none := hnone "%rsi".toList (by decide)
  have e5 : strstr reg "rdi".toList = none := hnone "%rdi".toList (by decide)
  have e6 : strstr reg "rbp".toList = none := hnone "%rbp".toList (by decide)
  have e7 : strstr reg "rsp".toList = none := hnone "%rsp".toList (by decide)
  have e8 : strstr reg "r8".toList = none := hnone "%r8".toList (by decide)
  have e9 : strstr reg "r9".toList = none := hnone "%r9".toList (by decide)
  have e10 : strstr reg "r10".toList = none := hnone "%r10".toList (by decide)
  have e11 : strstr reg "r11".toList = none := hnone "%r11".toList (by decide)
  have e12 : strstr reg "r12".toList = none := hnone "%r12".toList (by decide)
  have e13 : strstr reg "r13".toList = none := hnone "%r13".toList (by decide)
  have e14 : strstr reg "r14".toList = none := hnone "%r14".toList (by decide)
  have e15 : strstr reg "r15".toList = none := hnone "%r15".toList (by decide)
  unfold get_low_half_reg
  rw [e0, e1, e2, e3, e4, e5, e6, e7, e8, e9, e10, e11, e12, e13, e14, e15]
  rfl

/-- A line whose opcode starts with a character other than `_` does not start
with `_dl_start:`. -/
theorem dl_start_excl (line q : Str) (d : Char) (hd : d ≠ '_')
    (h : opecode_with line (d :: q) = true) :
    starts_with line "_dl_start:".toList = false := by
  cases hs : starts_with line "_dl_start:".toList with
  | false => rfl
  | true =>
    have h1 := starts_with_head line "dl_start:".toList '_' hs
    cases line with
    | nil => cases h1
    | cons x xs =>
      have hx : x = '_' := Option.some.inj h1
      subst hx
      have h2 := starts_with_head _ _ _ h
      exact absurd (Option.some.inj h2).symm hd

/-- One round of `process_asm` on an instruction line that does not start
with `_dl_start:`, in an array with a free entry. -/
theorem process_asm_line_insn (line : Str) (m : s_asm_data)
    (hdl : starts_with line "_dl_start:".toList = false) (hinsn : is_insn line = true)
    (hroom : m.new_lines.length < 2 * m.lines.length) :
    process_asm_line line m
      = Res.bind (process_asm_cp line
          { m with new_lines := m.new_lines ++ [line.take MAX_ASM_LINE] }) fun r =>
          if r.1 = true then Res.ok r.2
          else if (opecode_with line "push".toList || opecode_with line "pop".toList) = true
            then
              if opecode_with line "popcnt".toList = true then Res.ok r.2
              else replace_push_pop_with_mov line r.2
            else Res.ok r.2 := by
  simp only [process_asm_line, insert_new_line_room m line hroom, Res.bind_def, Res.pure_def,
    hdl, hinsn, Bool.false_eq_true, ↓reduceIte, Res.bind_ok, Bool.not_true]

/-- A round in a full array: the insertion of the line writes past the
allocation. -/
theorem process_asm_line_full (line : Str) (m : s_asm_data)
    (h : ¬ m.new_lines.length < 2 * m.lines.length) :
    process_asm_line line m = .fatal .undefined := by
  simp only [process_asm_line, _insert_new_line, h, ↓reduceIte, Res.bind_def]
  rfl

/-- The macro `_replace_cur_line_fmt` outside the array: with no entry to
drop, or with more entries than were allocated. -/
theorem replace_cur_outside (m : s_asm_data) (fmt : Str) (args : List FmtArg) (text : Str)
    (hv : vformat fmt args = .ok text)
    (h : ¬ (m.new_lines ≠ [] ∧ m.new_lines.length ≤ 2 * m.lines.length)) :
    _replace_cur_line_fmt m fmt args = .fatal .undefined := by
  unfold _replace_cur_line_fmt
  by_cases hne : m.new_lines = []
  · simp only [hne, ↓reduceIte]
  · have hlen : 0 < m.new_lines.length := List.length_pos.mpr hne
    have hfull : ¬ m.new_lines.dropLast.length < 2 * m.lines.length := by
      rw [List.length_dropLast]
      intro hlt
      exact h ⟨hne, by omega⟩
    simp only [hne, ↓reduceIte, _insert_new_line_fmt, hv, Res.bind_def, Res.bind_ok,
      _insert_new_line, hfull]

/-- The code-pointer part of a round on a `call` or tail-flagged `jmp`
line. -/
theorem process_asm_cp_branch (line : Str) (m : s_asm_data)
    (hbr : opecode_with line "call".toList = true
      ∨ (opecode_with line "jmp".toList = true ∧ ends_with line "_tail_".toList = true)) :
    process_asm_cp line m
      = Res.bind (get_oparand line 1) fun op1 =>
          if starts_with op1 "%gs".toList = true then Res.ok (true, m)
          else if starts_with op1 "*".toList = true then
            Res.bind (decode_func_addr_for_indirect_call line m) fun m' => Res.ok (false, m')
          else if (strstr op1 "AG_VPTR_DEF".toList).isSome = true then
            Res.bind (_replace_cur_line_fmt m "#-%s".toList [.str line]) fun m' =>
              Res.ok (false, m')
          else if (strstr op1 "AG_VPTR_USE".toList).isSome = true then
            Res.bind (_replace_cur_line_fmt m "#-%s".toList [.str line]) fun m' =>
              Res.ok (false, m')
          else Res.ok (true, m) := by
  have hmov : opecode_with line "mov".toList = false := by
    rcases hbr with hp | ⟨hp, -⟩
    · exact opecode_with_excl line "all".toList "ov".toList 'c' 'm' (by decide) hp
    · exact opecode_with_excl line "mp".toList "ov".toList 'j' 'm' (by decide) hp
  have hlea : opecode_with line "lea".toList = false := by
    rcases hbr with hp | ⟨hp, -⟩
    · exact opecode_with_excl line "all".toList "ea".toList 'c' 'l' (by decide) hp
    · exact opecode_with_excl line "mp".toList "ea".toList 'j' 'l' (by decide) hp
  have hc : (opecode_with line "call".toList
      || (opecode_with line "jmp".toList && ends_with line "_tail_".toList)) = true := by
    rcases hbr with hp | ⟨hp, ht⟩
    · simp only [hp, Bool.true_or]
    · simp only [hp, ht, Bool.and_self, Bool.or_true]
  simp only [process_asm_cp, potential_func_addr_taken_other_opcode line m hmov hlea, hc,
    Res.bind_def, Res.pure_def, Res.bind_ok, Bool.false_eq_true, ↓reduceIte]

/-- A `call` or `jmp` line is no push or pop. -/
theorem branch_not_push_pop (line : Str)
    (hbr : opecode_with line "call".toList = true
      ∨ (opecode_with line "jmp".toList = true ∧ ends_with line "_tail_".toList = true)) :
    (opecode_with line "push".toList || opecode_with line "pop".toList) = false
      ∧ starts_with line "_dl_start:".toList = false := by
  have hpush : opecode_with line "push".toList = false := by
    rcases hbr with hp | ⟨hp, -⟩
    · exact opecode_with_excl line "all".toList "ush".toList 'c' 'p' (by decide) hp
    · exact opecode_with_excl line "mp".toList "ush".toList 'j' 'p' (by decide) hp
  have hpop : opecode_with line "pop".toList = false := by
    rcases hbr with hp | ⟨hp, -⟩
    · exact opecode_with_excl line "all".toList "op".toList 'c' 'p' (by decide) hp
    · exact opecode_with_excl line "mp".toList "op".toList 'j' 'p' (by decide) hp
  refine ⟨by rw [hpush, hpop]; rfl, ?_⟩
  rcases hbr with hp | ⟨hp, -⟩
  · exact dl_start_excl line _ 'c' (by decide) hp
  · exact dl_start_excl line _ 'j' (by decide) hp

/-- C30 (counterexample): `call *%r10d` names no 64-bit register, yet
`get_low_half_reg` finds `r10` in it and the line is rewritten like a call
through a 64-bit register (in a document of four lines, whose array holds the
eight entries written). -/
theorem low_half_of_narrow_register :
    get_low_half_reg "%r10d".toList = .ok "%r10d".toList
      ∧ process_asm (doc_of [".text", "f:", "call *%r10d", "ret"])
        = .ok (doc_out [".text", "f:", "call *%r10d", "ret"]
            [".text",
             "f:",
             "#-call *%r10d",
             "#> ================ by decode_func_addr_for_indirect_call():565",
             "\txor  %gs:0x100008(%r10d), %r10d",
             "\tcall  *%gs:0x100000(%r10d)",
             "#< ================ by decode_func_addr_for_indirect_call():576",
             "ret"]) := by
  decide!

/-- C30 (amended): an instruction line with opcode `call`, or `jmp` with the
`_tail_` flag, whose operand starts with `*` ends the pass with the exit of
`err` when the operand neither starts with `*%`, nor ends with `)`, nor
contains `%fs`; and fails the assertion of `get_low_half_reg` when the
operand starts with `*%`, does not contain `%fs`, and contains none of the
sixteen 64-bit register names as a substring.  The template does so in every
state that holds the current line within the array, and the round in every
state with a free entry for the line; outside the array the write of the
line is undefined before the operand is looked at. -/
theorem unrecognised_indirect_operand_fatal (line op1 : Str) (m : s_asm_data)
    (hinsn : is_insn line = true)
    (hbr : opecode_with line "call".toList = true
      ∨ (opecode_with line "jmp".toList = true ∧ ends_with line "_tail_".toList = true))
    (hop : get_oparand line 1 = .ok op1)
    (hstar : starts_with op1 "*".toList = true)
    (hfs : strstr op1 "%fs".toList = none) :
    (starts_with op1 "*%".toList = false → ends_with op1 ")".toList = false →
      decode_func_addr_for_indirect_call line m
          = (if m.new_lines ≠ [] ∧ m.new_lines.length ≤ 2 * m.lines.length then
              .fatal .errExit else .fatal .undefined)
        ∧ process_asm_line line m
          = (if m.new_lines.length < 2 * m.lines.length then .fatal .errExit
              else .fatal .undefined))
    ∧ (starts_with op1 "*%".toList = true →
        (∀ n ∈ regs64, strstr op1.tail n.tail = none) →
      get_low_half_reg op1.tail = .fatal .assertion
        ∧ decode_func_addr_for_indirect_call line m
          = (if m.new_lines ≠ [] ∧ m.new_lines.length ≤ 2 * m.lines.length then
              .fatal .assertion else .fatal .undefined)
        ∧ process_asm_line line m
          = (if m.new_lines.length < 2 * m.lines.length then .fatal .assertion
              else .fatal .undefined)) := by
  have hhead : op1.head? = some '*' := starts_with_head op1 [] '*' hstar
  have hgs : starts_with op1 "%gs".toList = false := by
    cases hg : starts_with op1 "%gs".toList with
    | false => rfl
    | true =>
      have := starts_with_head op1 "gs".toList '%' hg
      rw [hhead] at this
      exact absurd (Option.some.inj this) (by decide)
  have hout : ∀ m1 : s_asm_data,
      ¬ (m1.new_lines ≠ [] ∧ m1.new_lines.length ≤ 2 * m1.lines.length) →
      decode_func_addr_for_indirect_call line m1 = .fatal .undefined := by
    intro m1 h1
    have := replace_cur_outside m1 "#-%s".toList [.str line] _ (vformat_comment line) h1
    simp only [decode_func_addr_for_indirect_call, hop, Res.bind_def, Res.bind_ok, hhead, this]
    rfl
  have hround : ∀ e, (∀ m1 : s_asm_data, m1.new_lines ≠ [] →
        m1.new_lines.length ≤ 2 * m1.lines.length →
        decode_func_addr_for_indirect_call line m1 = .fatal e) →
      process_asm_line line m
        = (if m.new_lines.length < 2 * m.lines.length then .fatal e else .fatal .undefined) := by
    intro e he
    by_cases hroom : m.new_lines.length < 2 * m.lines.length
    · rw [if_pos hroom, process_asm_line_insn line m (branch_not_push_pop line hbr).2 hinsn hroom,
        process_asm_cp_branch line _ hbr, hop]
      have := he { m with new_lines := m.new_lines ++ [line.take MAX_ASM_LINE] }
        (by simp) (by simp only [List.length_append, List.length_singleton]; omega)
      simp only [Res.bind_ok, hgs, hstar, this, Bool.false_eq_true, ↓reduceIte, Res.bind_fatal]
    · rw [if_neg hroom, process_asm_line_full line m hroom]
  have htmpl : ∀ e, (∀ m1 : s_asm_data, m1.new_lines ≠ [] →
        m1.new_lines.length ≤ 2 * m1.lines.length →
        decode_func_addr_for_indirect_call line m1 = .fatal e) →
      decode_func_addr_for_indirect_call line m
        = (if m.new_lines ≠ [] ∧ m.new_lines.length ≤ 2 * m.lines.length then .fatal e
            else .fatal .undefined) := by
    intro e he
    by_cases hin : m.new_lines ≠ [] ∧ m.new_lines.length ≤ 2 * m.lines.length
    · rw [if_pos hin, he m hin.1 hin.2]
    · rw [if_neg hin, hout m hin]
  constructor
  · intro hreg hparen
    have hdec : ∀ m1 : s_asm_data, m1.new_lines ≠ [] →
        m1.new_lines.length ≤ 2 * m1.lines.length →
        decode_func_addr_for_indirect_call line m1 = .fatal .errExit :=
      fun m1 h1 h2 => decode_unrecognised line op1 m1 hop hstar hreg hparen hfs h1 h2
    exact ⟨htmpl _ hdec, hround _ hdec⟩
  · intro hreg hnone
    have hlow := get_low_half_reg_unnamed op1.tail hnone
    have hdec : ∀ m1 : s_asm_data, m1.new_lines ≠ [] →
        m1.new_lines.length ≤ 2 * m1.lines.length →
        decode_func_addr_for_indirect_call line m1 = .fatal .assertion := by
      intro m1 h1 h2
      obtain ⟨m', hm'⟩ := replace_cur_comment m1 line h1 h2
      simp only [decode_func_addr_for_indirect_call, hop, Res.bind_def, Res.bind_ok, hm',
        hhead, hreg, hfs, hlow, Res.bind_fatal]
      rfl
    exact ⟨hlow, htmpl _ hdec, hround _ hdec⟩

theorem unrecognised_indirect_operand_fatal_witness :
    process_asm_line "call *foo".toList (doc_of ["call *foo"]) = .fatal .errExit
      ∧ process_asm_line "call *%eax".toList (doc_of ["call *%eax"]) = .fatal .assertion :=
  ⟨(((unrecognised_indirect_operand_fatal "call *foo".toList "*foo".toList
      (doc_of ["call *foo"])
      (by decide!) (Or.inl (by decide!)) (by decide!) (by decide!) (by decide!)).1
      (by decide!) (by decide!)).2).trans (if_pos (by decide)),
   (((unrecognised_indirect_operand_fatal "call *%eax".toList "*%eax".toList
      (doc_of ["call *%eax"])
      (by decide!) (Or.inl (by decide!)) (by decide!) (by decide!) (by decide!)).2
      (by decide!) (by decide!)).2.2).trans (if_pos (by decide))⟩

/-! ## Lines with a virtual-pointer marker -/

/-- A round on a `call` or tail-flagged `jmp` line whose operand carries a
virtual-pointer marker, in an array with a free entry: the line is replaced
by its comment, cut to the `MAX_ASM_LINE - 1` characters that `vsnprintf`
keeps. -/
theorem vptr_marker_round (line op1 : Str) (m : s_asm_data)
    (hroom : m.new_lines.length < 2 * m.lines.length)
    (hinsn : is_insn line = true)
    (hbr : opecode_with line "call".toList = true
      ∨ (opecode_with line "jmp".toList = true ∧ ends_with line "_tail_".toList = true))
    (hop : get_oparand line 1 = .ok op1)
    (hstar : starts_with op1 "*".toList = false)
    (hgs : starts_with op1 "%gs".toList = false)
    (hmark : (strstr op1 "AG_VPTR_DEF".toList).isSome = true
      ∨ (strstr op1 "AG_VPTR_USE".toList).isSome = true) :
    process_asm_line line m
      = .ok { m with new_lines := m.new_lines
          ++ [(("#-".toList ++ line).take (MAX_ASM_LINE - 1)).take MAX_ASM_LINE] } := by
  rw [process_asm_line_insn line m (branch_not_push_pop line hbr).2 hinsn hroom,
    process_asm_cp_branch line _ hbr, hop]
  have hr := replace_cur_comment_eq
    { m with new_lines := m.new_lines ++ [line.take MAX_ASM_LINE] } line (by simp)
    (by simp only [List.length_append, List.length_singleton]; omega)
  simp only [List.dropLast_concat] at hr
  rcases hmark with hm | hm
  · simp only [Res.bind_ok, hgs, hstar, hm, Bool.false_eq_true, ↓reduceIte,
      hr, (branch_not_push_pop line hbr).1]
  · by_cases hdef : (strstr op1 "AG_VPTR_DEF".toList).isSome = true
    · simp only [Res.bind_ok, hgs, hstar, hdef, Bool.false_eq_true, ↓reduceIte,
        hr, (branch_not_push_pop line hbr).1]
    · simp only [Res.bind_ok, hgs, hstar, hm, hdef, Bool.false_eq_true, ↓reduceIte,
        hr, (branch_not_push_pop line hbr).1]

theorem long_vptr_call_facts :
    long_vptr_call.length = 2046
      ∧ is_insn long_vptr_call = true
      ∧ opecode_with long_vptr_call "call".toList = true
      ∧ get_oparand long_vptr_call 1 = .ok "AG_VPTR_DEF".toList := by
  decide!

/-- C31 (counterexample): for a marked call line of 2046 characters the one
line emitted is `#-` followed by the first 2045 characters of the original,
not by the whole original. -/
theorem vptr_marker_comment_cut :
    Res.map (fun d => d.new_lines)
        (process_asm (doc_of_lines [long_vptr_call]))
      = .ok ["#-".toList ++ long_vptr_call.take 2045]
    ∧ "#-".toList ++ long_vptr_call.take 2045 ≠ "#-".toList ++ long_vptr_call
    ∧ long_vptr_call.length + 2 ≤ MAX_ASM_LINE := by
  decide!

/-- C31 (amended): for an instruction line with opcode `call`, or `jmp` with
the `_tail_` flag, of fewer than 2046 characters, whose first operand starts
with neither `*` nor `%gs` and contains `AG_VPTR_DEF` or `AG_VPTR_USE`, a
round of `process_asm` adds exactly one line, the original prefixed with
`#-` (into a full array the line is written past the allocation); that line
is no instruction and the substitution pass keeps it. -/
theorem vptr_marker_stripped (line op1 : Str) (m : s_asm_data)
    (hlen : line.length + 2 < MAX_ASM_LINE)
    (hinsn : is_insn line = true)
    (hbr : opecode_with line "call".toList = true
      ∨ (opecode_with line "jmp".toList = true ∧ ends_with line "_tail_".toList = true))
    (hop : get_oparand line 1 = .ok op1)
    (hstar : starts_with op1 "*".toList = false)
    (hgs : starts_with op1 "%gs".toList = false)
    (hmark : (strstr op1 "AG_VPTR_DEF".toList).isSome = true
      ∨ (strstr op1 "AG_VPTR_USE".toList).isSome = true) :
    process_asm_line line m
        = (if m.new_lines.length < 2 * m.lines.length then
            .ok { m with new_lines := m.new_lines ++ ["#-".toList ++ line] }
          else .fatal .undefined)
      ∧ is_insn ("#-".toList ++ line) = false
      ∧ replace_sp_loop ["#-".toList ++ line] = .ok ["#-".toList ++ line] := by
  have hcut : (("#-".toList ++ line).take (MAX_ASM_LINE - 1)).take MAX_ASM_LINE
      = "#-".toList ++ line := by
    have h1 : ("#-".toList ++ line).length ≤ MAX_ASM_LINE - 1 := by
      simp only [List.length_append, MAX_ASM_LINE] at hlen ⊢
      have : "#-".toList.length = 2 := rfl
      omega
    rw [List.take_of_length_le h1, List.take_of_length_le (by simp only [MAX_ASM_LINE] at h1 ⊢; omega)]
  have hno : is_insn ("#-".toList ++ line) = false := by
    have : opecode_with ("#-".toList ++ line) "#".toList = true := rfl
    simp only [is_insn, this, Bool.not_true, Bool.and_false, Bool.false_and]
  refine ⟨?_, hno, ?_⟩
  · by_cases hroom : m.new_lines.length < 2 * m.lines.length
    · rw [if_pos hroom, vptr_marker_round line op1 m hroom hinsn hbr hop hstar hgs hmark, hcut]
    · rw [if_neg hroom, process_asm_line_full line m hroom]
  · simp only [replace_sp_loop, hno, Bool.not_false, ↓reduceIte, Res.bind_def, Res.pure_def,
      Res.bind_ok]

theorem vptr_marker_stripped_witness :
    process_asm_line "call AG_VPTR_USE(%rax)".toList (doc_of ["call AG_VPTR_USE(%rax)"])
      = .ok { doc_of ["call AG_VPTR_USE(%rax)"] with
          new_lines := (doc_of ["call AG_VPTR_USE(%rax)"]).new_lines
            ++ ["#-".toList ++ "call AG_VPTR_USE(%rax)".toList] } :=
  ((vptr_marker_stripped "call AG_VPTR_USE(%rax)".toList "AG_VPTR_USE(%rax)".toList
    (doc_of ["call AG_VPTR_USE(%rax)"])
    (by decide!) (by decide!) (Or.inl (by decide!)) (by decide!) (by decide!) (by decide!)
    (Or.inr (by decide!))).1).trans (if_pos (by decide))

/-! ## The exclusion filters of the classifier -/

/-- C14: whatever the symbol lists hold, `potential_func_addr_taken` returns
false for a line whose opcode starts with neither `mov` nor `lea`, for a line
that does not contain `(%rip),`, and for a line whose first operand starts
with `_dl_runtime_resolve`. -/
theorem classifier_exclusion_filters (line : Str) (m : s_asm_data) :
    (opecode_with line "mov".toList = false → opecode_with line "lea".toList = false →
      potential_func_addr_taken line m = .ok false)
    ∧ (strstr line "(%rip),".toList = none → potential_func_addr_taken line m = .ok false)
    ∧ (∀ op1, get_oparand line 1 = .ok op1 →
        starts_with op1 "_dl_runtime_resolve".toList = true →
        potential_func_addr_taken line m = .ok false) := by
  refine ⟨potential_func_addr_taken_other_opcode line m, ?_, ?_⟩
  · intro h
    unfold potential_func_addr_taken
    by_cases h1 : (!opecode_with line "mov".toList && !opecode_with line "lea".toList) = true
    · simp only [h1, ↓reduceIte, Res.bind_def, Res.pure_def, Res.bind_ok]
    · simp only [h1, h, Option.isNone_none, Bool.or_true, ↓reduceIte, Res.bind_def,
        Res.pure_def, Res.bind_ok, Bool.false_eq_true]
  · intro op1 hop hpre
    unfold potential_func_addr_taken
    by_cases h1 : (!opecode_with line "mov".toList && !opecode_with line "lea".toList) = true
    · simp only [h1, ↓reduceIte, Res.bind_def, Res.pure_def, Res.bind_ok]
    · by_cases h2 : ((strstr line "( %rip ),".toList).isSome
          || (strstr line "(%rip),".toList).isNone) = true
      · simp only [h1, h2, ↓reduceIte, Res.bind_def, Res.pure_def, Res.bind_ok,
          Bool.false_eq_true]
      · simp only [h1, h2, hop, hpre, ↓reduceIte, Res.bind_def, Res.pure_def, Res.bind_ok,
          Bool.false_eq_true]

theorem classifier_exclusion_filters_witness :
    potential_func_addr_taken "addq f(%rip), %rax".toList
        { doc_of [] with func_syms := ["f".toList] } = .ok false
      ∧ potential_func_addr_taken "movq f, %rax".toList
        { doc_of [] with func_syms := ["f".toList] } = .ok false
      ∧ potential_func_addr_taken "leaq _dl_runtime_resolve(%rip), %rax".toList
        { doc_of [] with func_syms := ["_dl_runtime_resolve".toList] } = .ok false :=
  ⟨(classifier_exclusion_filters _ _).1 (by decide!) (by decide!),
   (classifier_exclusion_filters _ _).2.1 (by decide!),
   (classifier_exclusion_filters _ _).2.2 "_dl_runtime_resolve(%rip)".toList
     (by decide!) (by decide!)⟩

/-! ## Lines that no template applies to -/

theorem insert_new_line_short (m : s_asm_data) (line : Str)
    (hroom : m.new_lines.length < 2 * m.lines.length)
    (hlen : line.length ≤ MAX_ASM_LINE) :
    _insert_new_line m line = .ok { m with new_lines := m.new_lines ++ [line] } := by
  simp only [_insert_new_line, hroom, ↓reduceIte, List.take_of_length_le hlen]

/-- A round on a line that is no instruction and does not start with
`_dl_start:` inserts the line. -/
theorem process_asm_line_not_insn (line : Str) (m : s_asm_data)
    (hdl : starts_with line "_dl_start:".toList = false) (hinsn : is_insn line = false) :
    process_asm_line line m = _insert_new_line m line := by
  simp only [process_asm_line, Res.bind_def, Res.pure_def, hdl, hinsn, Bool.false_eq_true,
    ↓reduceIte, Bool.not_false]
  cases _insert_new_line m line <;> rfl

/-- The substitution pass around a line that is no instruction. -/
theorem replace_sp_loop_not_insn (line : Str) (hinsn : is_insn line = false)
    (pre post : List Str) :
    replace_sp_loop (pre ++ line :: post)
      = Res.bind (replace_sp_loop pre) fun a =>
          Res.bind (replace_sp_loop post) fun b => .ok (a ++ line :: b) := by
  rw [replace_sp_loop_append, replace_sp_loop_cons]
  simp only [hinsn, Bool.not_false, ↓reduceIte, Res.bind_ok]
  cases replace_sp_loop pre with
  | fatal e => rfl
  | ok a =>
    cases replace_sp_loop post <;> rfl

/-- The substitution pass around an instruction line. -/
theorem replace_sp_loop_insn (line : Str) (hinsn : is_insn line = true)
    (pre post : List Str) :
    replace_sp_loop (pre ++ line :: post)
      = Res.bind (replace_sp_loop pre) fun a =>
          Res.bind (replace_sp_line line) fun l =>
            Res.bind (replace_sp_loop post) fun b => .ok (a ++ l :: b) := by
  rw [replace_sp_loop_append, replace_sp_loop_cons]
  simp only [hinsn, Bool.not_true, Bool.false_eq_true, ↓reduceIte]
  cases replace_sp_loop pre with
  | fatal e => rfl
  | ok a =>
    cases replace_sp_line line with
    | fatal e => rfl
    | ok l =>
      cases replace_sp_loop post <;> rfl

/-- The insertion of a line that `load_asm` admits. -/
theorem insert_new_line_eq (m : s_asm_data) (line : Str) (hlen : line.length ≤ MAX_ASM_LINE) :
    _insert_new_line m line
      = (if m.new_lines.length < 2 * m.lines.length then
          .ok { m with new_lines := m.new_lines ++ [line] } else .fatal .undefined) := by
  simp only [_insert_new_line, List.take_of_length_le hlen]

/-- C23: a line that ends with `#_volatile_` and does not start with
`_dl_start:` (of at most `MAX_ASM_LINE` characters, as `load_asm` admits) is
no instruction candidate; a round of `process_asm` appends exactly that line
(into a full array it writes the line past the allocation), and the
substitution pass copies it unchanged wherever it stands. -/
theorem volatile_line_untouched (line : Str) (m : s_asm_data)
    (hv : ends_with line "#_volatile_".toList = true)
    (hdl : starts_with line "_dl_start:".toList = false)
    (hlen : line.length ≤ MAX_ASM_LINE) :
    is_insn line = false
      ∧ process_asm_line line m
        = (if m.new_lines.length < 2 * m.lines.length then
            .ok { m with new_lines := m.new_lines ++ [line] } else .fatal .undefined)
      ∧ ∀ pre post, replace_sp_loop (pre ++ line :: post)
          = Res.bind (replace_sp_loop pre) fun a =>
              Res.bind (replace_sp_loop post) fun b => .ok (a ++ line :: b) := by
  have hinsn : is_insn line = false := by
    simp only [is_insn, hv, Bool.not_true, Bool.and_false]
  refine ⟨hinsn, ?_, replace_sp_loop_not_insn line hinsn⟩
  rw [process_asm_line_not_insn line m hdl hinsn, insert_new_line_eq m line hlen]

theorem volatile_line_untouched_witness :
    is_insn "\tpushq %rsp #_volatile_".toList = false
      ∧ process_asm (doc_of ["\tpushq %rsp #_volatile_"])
        = .ok (doc_out ["\tpushq %rsp #_volatile_"] ["\tpushq %rsp #_volatile_"]) :=
  ⟨(volatile_line_untouched "\tpushq %rsp #_volatile_".toList
      (doc_of ["\tpushq %rsp #_volatile_"]) (by decide!) (by decide!) (by decide!)).1,
    by decide!⟩

/-- C22 (counterexample): the line `_dl_start: movq %fs:0, %rax` is an
instruction candidate that no template applies to, and `process_asm` emits
two lines for it. -/
theorem dl_start_instruction_gets_second_line :
    is_insn "_dl_start: movq %fs:0, %rax".toList = true
      ∧ potential_func_addr_taken "_dl_start: movq %fs:0, %rax".toList (doc_of []) = .ok false
      ∧ opecode_with "_dl_start: movq %fs:0, %rax".toList "call".toList = false
      ∧ opecode_with "_dl_start: movq %fs:0, %rax".toList "jmp".toList = false
      ∧ opecode_with "_dl_start: movq %fs:0, %rax".toList "mov".toList = false
      ∧ opecode_with "_dl_start: movq %fs:0, %rax".toList "push".toList = false
      ∧ opecode_with "_dl_start: movq %fs:0, %rax".toList "pop".toList = false
      ∧ process_asm (doc_of ["_dl_start: movq %fs:0, %rax"])
        = .ok (doc_out ["_dl_start: movq %fs:0, %rax"]
            ["_dl_start: movq %fs:0, %rax",
             "\tleaq\t-0x10000(%rsp), %r15 #_volatile_"]) := by
  decide!

/-- C22 (amended): for a line that does not start with `_dl_start:` (of at
most `MAX_ASM_LINE` characters, as `load_asm` admits): if it is an
instruction candidate, not classified address-taking, no `call` and no
`_tail_`-flagged `jmp`, no `mov` mentioning `->_vptr.` or `._vptr.`, and no
push or pop, then a round of `process_asm` appends exactly the line (into a
full array it writes the line past the allocation), the substitution pass
puts the substituted line in its place, and that is the line itself when it
contains none of `%rsp`, `%esp`, `%sp`; if it is no instruction candidate,
the round appends exactly the line and the substitution pass copies it
unchanged. -/
theorem non_participating_line_identity (line : Str) (m : s_asm_data)
    (hdl : starts_with line "_dl_start:".toList = false)
    (hlen : line.length ≤ MAX_ASM_LINE) :
    (is_insn line = true → potential_func_addr_taken line m = .ok false →
      opecode_with line "call".toList = false →
      (opecode_with line "jmp".toList && ends_with line "_tail_".toList) = false →
      (opecode_with line "mov".toList && ((strstr line "->_vptr.".toList).isSome
        || (strstr line "._vptr.".toList).isSome)) = false →
      opecode_with line "push".toList = false → opecode_with line "pop".toList = false →
      process_asm_line line m
          = (if m.new_lines.length < 2 * m.lines.length then
              .ok { m with new_lines := m.new_lines ++ [line] } else .fatal .undefined)
        ∧ (∀ pre post, replace_sp_loop (pre ++ line :: post)
            = Res.bind (replace_sp_loop pre) fun a =>
                Res.bind (replace_sp_line line) fun l =>
                  Res.bind (replace_sp_loop post) fun b => .ok (a ++ l :: b))
        ∧ (strstr line "%rsp".toList = none → strstr line "%esp".toList = none →
            strstr line "%sp".toList = none → replace_sp_line line = .ok line))
    ∧ (is_insn line = false →
      process_asm_line line m
          = (if m.new_lines.length < 2 * m.lines.length then
              .ok { m with new_lines := m.new_lines ++ [line] } else .fatal .undefined)
        ∧ ∀ pre post, replace_sp_loop (pre ++ line :: post)
            = Res.bind (replace_sp_loop pre) fun a =>
                Res.bind (replace_sp_loop post) fun b => .ok (a ++ line :: b)) := by
  constructor
  · intro hinsn hpot hcall hjmp hvptr hpush hpop
    refine ⟨?_, replace_sp_loop_insn line hinsn, replace_sp_line_absent line⟩
    by_cases hroom : m.new_lines.length < 2 * m.lines.length
    · have hpot' : potential_func_addr_taken line
          { m with new_lines := m.new_lines ++ [line] } = .ok false := hpot
      rw [if_pos hroom, process_asm_line_insn line m hdl hinsn hroom,
        List.take_of_length_le hlen]
      simp only [process_asm_cp, hpot', hcall, hjmp, hvptr, hpush, hpop, Res.bind_def,
        Res.pure_def, Res.bind_ok, Bool.false_eq_true, ↓reduceIte, Bool.or_self]
    · rw [if_neg hroom, process_asm_line_full line m hroom]
  · intro hinsn
    refine ⟨?_, replace_sp_loop_not_insn line hinsn⟩
    rw [process_asm_line_not_insn line m hdl hinsn, insert_new_line_eq m line hlen]

theorem non_participating_line_identity_witness :
    process_asm_line "\taddq $8, %rax".toList (doc_of ["\taddq $8, %rax"])
        = .ok { doc_of ["\taddq $8, %rax"] with
            new_lines := (doc_of ["\taddq $8, %rax"]).new_lines ++ ["\taddq $8, %rax".toList] }
      ∧ process_asm_line "main:".toList (doc_of ["main:"])
        = .ok { doc_of ["main:"] with
            new_lines := (doc_of ["main:"]).new_lines ++ ["main:".toList] } :=
  ⟨(((non_participating_line_identity "\taddq $8, %rax".toList (doc_of ["\taddq $8, %rax"])
      (by decide!) (by decide!)).1 (by decide!) (by decide!) (by decide!)
      (by decide!) (by decide!) (by decide!) (by decide!)).1).trans (if_pos (by decide)),
   (((non_participating_line_identity "main:".toList (doc_of ["main:"]) (by decide!)
      (by decide!)).2 (by decide!)).1).trans (if_pos (by decide))⟩

/-! ## The safe-stack template on operands that are no registers -/

/-- C28, failing input: `pushfq` has no operand, and `pushq $1` an immediate;
neither stops the pass.  The template emits its `sub`/`mov` pair with the
operand text in the source position: `movf , (%r15)` for `pushfq`, with the
type character `f` taken from the opcode and an empty source, and
`movq $1, (%r15)` for `pushq $1`.  (Documents of four lines, whose array holds
the eight entries written.) -/
theorem push_without_operand_rewritten :
    get_oparand "pushfq".toList 1 = .ok []
      ∧ process_asm (doc_of [".text", "f:", "pushfq", "ret"])
        = .ok (doc_out [".text", "f:", "pushfq", "ret"]
          [".text",
           "f:",
           "#-pushfq",
           "#> ================ by replace_push_pop_with_mov():689",
           "\tsub   $8, %r15",
           "\tmovf , (%r15)",
           "#< ================ by replace_push_pop_with_mov():720",
           "ret"])
      ∧ process_asm (doc_of [".text", "f:", "popfq", "ret"])
        = .ok (doc_out [".text", "f:", "popfq", "ret"]
          [".text",
           "f:",
           "#-popfq",
           "#> ================ by replace_push_pop_with_mov():689",
           "\tmovf  (%r15), ",
           "\tadd    $8, %r15",
           "#< ================ by replace_push_pop_with_mov():720",
           "ret"])
      ∧ process_asm (doc_of [".text", "f:", "pushq $1", "ret"])
        = .ok (doc_out [".text", "f:", "pushq $1", "ret"]
          [".text",
           "f:",
           "#-pushq $1",
           "#> ================ by replace_push_pop_with_mov():689",
           "\tsub   $8, %r15",
           "\tmovq $1, (%r15)",
           "#< ================ by replace_push_pop_with_mov():720",
           "ret"]) := by
  decide!

/-- C25, failing input: for `push %ax` the template subtracts 8 from the
frame pointer, while `reg_bytes` of `%ax` is 2 and the sibling `pushw %ax`
gets 2.  (Documents of four lines, whose array holds the eight entries
written.) -/
theorem push_width_ignores_register :
    process_asm (doc_of [".text", "f:", "push %ax", "ret"])
        = .ok (doc_out [".text", "f:", "push %ax", "ret"]
            [".text",
             "f:",
             "#-push %ax",
             "#> ================ by replace_push_pop_with_mov():689",
             "\tsub   $8, %r15",
             "\tmov  %ax, (%r15)",
             "#< ================ by replace_push_pop_with_mov():720",
             "ret"])
      ∧ process_asm (doc_of [".text", "f:", "pushw %ax", "ret"])
        = .ok (doc_out [".text", "f:", "pushw %ax", "ret"]
            [".text",
             "f:",
             "#-pushw %ax",
             "#> ================ by replace_push_pop_with_mov():689",
             "\tsub   $2, %r15",
             "\tmovw %ax, (%r15)",
             "#< ================ by replace_push_pop_with_mov():720",
             "ret"])
      ∧ reg_bytes "%ax".toList = 2
      ∧ get_optype_bytes "push %ax".toList 4 = .ok 8 := by
  decide!

/-! ## The symbol lists -/

/-- The effect of one round of `load_syms` on a line on which it stays
within the line and the buffer of the symbol. -/
theorem load_syms_line_eq (line : Str) (m : s_asm_data) (hw : decl_out_of_bounds line = false) :
    load_syms_line line m
      = if decl_inconsistent line = true then .fatal .assertion
        else .ok { m with
          func_syms := m.func_syms ++ (func_decl line).toList,
          obj_syms := m.obj_syms ++ (obj_decl line).toList } := by
  unfold load_syms_line decl_inconsistent func_decl obj_decl
  unfold decl_out_of_bounds at hw
  cases hop : opecode_with line ".type".toList with
  | false =>
    simp only [Bool.false_eq_true, ↓reduceIte, Bool.false_and, Option.toList_none,
      List.append_nil]
  | true =>
    rw [hop] at hw
    simp only [Bool.true_and, Bool.or_eq_false_iff, decide_eq_false_iff_not] at hw
    obtain ⟨hb, hw⟩ := hw
    cases hc : strchr line ',' with
    | none =>
      simp only [↓reduceIte, hb, Option.isSome_none, Bool.and_false, Bool.false_and,
        Bool.false_eq_true, Option.map_none', Option.toList_none, List.append_nil, ite_self]
    | some e =>
      rw [hc] at hw
      have hlt : ¬ e < decl_start line := by
        simpa only [decide_eq_false_iff_not] using hw
      have hlt' : ¬ e < (strstr line ".type".toList).getD 0 + 6
          + ((line.drop ((strstr line ".type".toList).getD 0 + 6)).takeWhile
            is_trim_char).length := hlt
      cases hf : ends_with line "function".toList with
      | true =>
        simp only [↓reduceIte, hb, hlt', Option.isSome_some, Bool.and_true, Bool.true_and,
          Bool.not_true, Bool.false_and, Bool.and_false, Bool.false_eq_true, Option.map_some',
          Option.toList_some, Option.toList_none, List.append_nil, decl_symbol, decl_start]
      | false =>
        cases ho : ends_with line "object".toList with
        | true =>
          simp only [↓reduceIte, hb, hlt', Option.isSome_some, Bool.and_true, Bool.true_and,
            Bool.not_true, Bool.not_false, Bool.false_and, Bool.and_false, Bool.false_eq_true,
            Option.map_some', Option.toList_some, Option.toList_none, List.append_nil,
            decl_symbol, decl_start]
        | false =>
          cases h1 : strcasestr line "function".toList <;>
            cases h2 : strcasestr line "object".toList <;>
            simp only [↓reduceIte, hb, hlt', Option.isSome_some, Option.isSome_none,
              Option.isNone_none, Option.isNone_some, Bool.and_true, Bool.true_and,
              Bool.not_false, Bool.false_eq_true, Bool.and_false, Bool.false_and,
              Bool.or_false, Bool.or_true, Bool.and_self, Bool.or_self, Option.toList_none,
              List.append_nil]

theorem load_syms_line_wild (line : Str) (m : s_asm_data)
    (hw : decl_out_of_bounds line = true) :
    load_syms_line line m = .fatal .undefined := by
  unfold decl_out_of_bounds at hw
  unfold load_syms_line
  cases hop : opecode_with line ".type".toList with
  | false => rw [hop] at hw; cases hw
  | true =>
    rw [hop] at hw
    simp only [Bool.true_and, Bool.or_eq_true, decide_eq_true_eq] at hw
    by_cases hb : line.length < (strstr line ".type".toList).getD 0 + 6
    · simp only [↓reduceIte, hb]
    · rcases hw with hw | hw
      · exact absurd hw hb
      · cases hc : strchr line ',' with
        | none => rw [hc] at hw; cases hw
        | some e =>
          rw [hc] at hw
          have hlt : e < decl_start line := by
            simpa only [decide_eq_true_eq] using hw
          have hlt' : e < (strstr line ".type".toList).getD 0 + 6
              + ((line.drop ((strstr line ".type".toList).getD 0 + 6)).takeWhile
                is_trim_char).length := hlt
          simp only [↓reduceIte, hb, hlt']

/-- What a round of `load_syms` that comes back has recorded. -/
theorem load_syms_line_of_ok (line : Str) (m m' : s_asm_data)
    (h : load_syms_line line m = .ok m') :
    decl_out_of_bounds line = false ∧ decl_inconsistent line = false
      ∧ m' = { m with
          func_syms := m.func_syms ++ (func_decl line).toList,
          obj_syms := m.obj_syms ++ (obj_decl line).toList } := by
  cases hw : decl_out_of_bounds line with
  | true => rw [load_syms_line_wild line m hw] at h; cases h
  | false =>
    rw [load_syms_line_eq line m hw] at h
    cases hi : decl_inconsistent line with
    | true => simp only [hi, ↓reduceIte] at h; cases h
    | false =>
      simp only [hi, Bool.false_eq_true, ↓reduceIte, Res.ok.injEq] at h
      exact ⟨rfl, rfl, h.symm⟩

theorem load_syms_loop_cons (l : Str) (ls : List Str) (m : s_asm_data) :
    load_syms_loop (l :: ls) m = Res.bind (load_syms_line l m) fun m1 => load_syms_loop ls m1 := by
  simp only [load_syms_loop, Res.bind_def]

theorem load_syms_loop_of_ok (ls : List Str) (m m' : s_asm_data)
    (h : load_syms_loop ls m = .ok m') :
    (∀ l ∈ ls, decl_out_of_bounds l = false ∧ decl_inconsistent l = false)
      ∧ m' = { m with
          func_syms := m.func_syms ++ ls.filterMap func_decl,
          obj_syms := m.obj_syms ++ ls.filterMap obj_decl } := by
  induction ls generalizing m with
  | nil =>
    simp only [load_syms_loop, Res.ok.injEq] at h
    subst h
    simp only [List.filterMap_nil, List.append_nil, List.not_mem_nil, false_implies,
      implies_true, true_and]
  | cons l ls ih =>
    rw [load_syms_loop_cons] at h
    cases h1 : load_syms_line l m with
    | fatal e => rw [h1] at h; cases h
    | ok m1 =>
      rw [h1, Res.bind_ok] at h
      obtain ⟨hw, hi, hm1⟩ := load_syms_line_of_ok l m m1 h1
      obtain ⟨hall, hm'⟩ := ih m1 h
      refine ⟨?_, ?_⟩
      · intro x hx
        rcases List.mem_cons.mp hx with rfl | hx
        · exact ⟨hw, hi⟩
        · exact hall x hx
      · rw [hm', hm1]
        cases hf : func_decl l <;> cases ho : obj_decl l <;>
          simp only [List.filterMap_cons, hf, ho, Option.toList_none, Option.toList_some,
            List.append_nil, List.append_assoc, List.singleton_append]

theorem load_syms_loop_total (ls : List Str) (m : s_asm_data)
    (h : ∀ l ∈ ls, decl_out_of_bounds l = false ∧ decl_inconsistent l = false) :
    ∃ m', load_syms_loop ls m = .ok m' := by
  induction ls generalizing m with
  | nil => exact ⟨m, rfl⟩
  | cons l ls ih =>
    obtain ⟨hw, hi⟩ := h l (List.mem_cons_self _ _)
    rw [load_syms_loop_cons, load_syms_line_eq l m hw]
    simp only [hi, Bool.false_eq_true, ↓reduceIte, Res.bind_ok]
    exact ih _ fun x hx => h x (List.mem_cons_of_mem _ hx)

theorem load_syms_loop_abort (ls : List Str) (m : s_asm_data)
    (hw : ∀ l ∈ ls, decl_out_of_bounds l = false) :
    load_syms_loop ls m = .fatal .assertion ↔ ∃ l ∈ ls, decl_inconsistent l = true := by
  induction ls generalizing m with
  | nil =>
    simp only [load_syms_loop, List.not_mem_nil, false_and, exists_false, iff_false]
    intro h
    cases h
  | cons l ls ih =>
    rw [load_syms_loop_cons, load_syms_line_eq l m (hw l (List.mem_cons_self _ _))]
    cases hi : decl_inconsistent l with
    | true =>
      simp only [↓reduceIte, Res.bind_fatal, true_iff]
      exact ⟨l, List.mem_cons_self _ _, hi⟩
    | false =>
      simp only [Bool.false_eq_true, ↓reduceIte, Res.bind_ok]
      rw [ih _ fun x hx => hw x (List.mem_cons_of_mem _ hx)]
      constructor
      · rintro ⟨x, hx, hxi⟩
        exact ⟨x, List.mem_cons_of_mem _ hx, hxi⟩
      · rintro ⟨x, hx, hxi⟩
        rcases List.mem_cons.mp hx with rfl | hx
        · rw [hi] at hxi; cases hxi
        · exact ⟨x, hx, hxi⟩

theorem load_syms_nonempty (d : s_asm_data) (hne : d.lines ≠ []) :
    load_syms d = load_syms_loop d.lines { d with func_syms := [], obj_syms := [] } := by
  have : ¬ d.lines.length = 0 := fun h => hne (List.length_eq_zero.mp h)
  simp only [load_syms, this, ↓reduceIte]

theorem decl_lists_disjoint (l : Str) : func_decl l = none ∨ obj_decl l = none := by
  unfold func_decl obj_decl
  cases ends_with l "function".toList <;> simp

theorem decl_lists_length (ls : List Str) :
    (ls.filterMap func_decl).length + (ls.filterMap obj_decl).length ≤ ls.length := by
  induction ls with
  | nil => simp
  | cons l ls ih =>
    rcases decl_lists_disjoint l with h | h
    · have := List.length_filterMap_le obj_decl (l :: ls)
      cases ho : obj_decl l <;>
        simp only [List.filterMap_cons, h, ho, List.length_cons] <;> omega
    · cases hf : func_decl l <;>
        simp only [List.filterMap_cons, h, hf, List.length_cons] <;> omega

/-! ## Declaration lines in their usual form -/

theorem strchr_append (a b : Str) (c : Char) (h : ∀ x ∈ a, x ≠ c) :
    strchr (a ++ c :: b) c = some a.length := by
  induction a with
  | nil => simp only [List.nil_append, strchr, ↓reduceIte, List.length_nil]
  | cons x xs ih =>
    have hx : x ≠ c := h x (List.mem_cons_self _ _)
    have ih' := ih fun y hy => h y (List.mem_cons_of_mem _ hy)
    rw [List.cons_append]
    simp only [strchr, hx, ↓reduceIte, List.length_cons]
    rw [ih']
    rfl

theorem strchr_none (a : Str) (c : Char) (h : ∀ x ∈ a, x ≠ c) : strchr a c = none := by
  induction a with
  | nil => rfl
  | cons x xs ih =>
    have hx : x ≠ c := h x (List.mem_cons_self _ _)
    have ih' := ih fun y hy => h y (List.mem_cons_of_mem _ hy)
    simp only [strchr, hx, ↓reduceIte]
    rw [ih']
    rfl

theorem dropWhile_head (p : Char → Bool) (l : Str) (h : ∀ x, l.head? = some x → p x = false) :
    l.dropWhile p = l := by
  cases l with
  | nil => rfl
  | cons x xs => simp only [List.dropWhile, h x rfl]

theorem takeWhile_head (p : Char → Bool) (l : Str) (h : ∀ x, l.head? = some x → p x = false) :
    l.takeWhile p = [] := by
  cases l with
  | nil => rfl
  | cons x xs => simp only [List.takeWhile, h x rfl]

theorem is_symbol_char_not_trim (c : Char) (h : is_symbol_char c = true) :
    is_trim_char c = false := by
  cases ht : is_trim_char c with
  | false => rfl
  | true =>
    simp only [is_trim_char, Bool.or_eq_true, beq_iff_eq] at ht
    rcases ht with (rfl | rfl) | rfl <;> exact absurd h (by decide!)

theorem trim_str_symbol (sym : Str) (h : sym.all is_symbol_char = true) :
    trim_str sym = sym := by
  have hall := List.all_eq_true.mp h
  unfold trim_str
  rw [dropWhile_head is_trim_char sym fun x hx =>
    is_symbol_char_not_trim x (hall x (List.mem_of_mem_head? hx))]
  rw [dropWhile_head is_trim_char sym.reverse fun x hx =>
    is_symbol_char_not_trim x (hall x (List.mem_reverse.mp (List.mem_of_mem_head? hx)))]
  exact List.reverse_reverse sym

theorem decl_line_cons (sym ty : Str) :
    decl_line sym ty = '.' :: 't' :: 'y' :: 'p' :: 'e' :: ' ' :: (sym ++ ',' :: ' ' :: ty) := by
  simp [decl_line]

theorem decl_line_opcode (sym ty : Str) : opecode_with (decl_line sym ty) ".type".toList = true := by
  rw [decl_line_cons]
  rfl

theorem decl_line_start (sym ty : Str) (h : sym.all is_symbol_char = true) :
    decl_start (decl_line sym ty) = 6 := by
  have hall := List.all_eq_true.mp h
  have h0 : strstr (decl_line sym ty) ".type".toList = some 0 := by
    rw [decl_line_cons]
    rfl
  have h6 : (decl_line sym ty).drop 6 = sym ++ ',' :: ' ' :: ty := by
    rw [decl_line_cons]
    rfl
  unfold decl_start
  simp only [h0, Option.getD_some, Nat.zero_add, h6]
  rw [takeWhile_head]
  · rfl
  · intro x hx
    cases sym with
    | nil =>
      simp only [List.nil_append, List.head?_cons, Option.some.injEq] at hx
      subst hx
      rfl
    | cons y ys =>
      simp only [List.cons_append, List.head?_cons, Option.some.injEq] at hx
      subst hx
      exact is_symbol_char_not_trim _ (hall _ (List.mem_cons_self _ _))

theorem decl_line_comma (sym ty : Str) (h : sym.all is_symbol_char = true) :
    strchr (decl_line sym ty) ',' = some (6 + sym.length) := by
  have hall := List.all_eq_true.mp h
  have e : decl_line sym ty = (".type ".toList ++ sym) ++ ',' :: (' ' :: ty) := by
    simp [decl_line]
  rw [e, strchr_append]
  · simp only [List.length_append]
    have : ".type ".toList.length = 6 := rfl
    rw [this]
  · intro x hx
    rcases List.mem_append.mp hx with hx | hx
    · have hd : ∀ y ∈ ".type ".toList, y ≠ ',' := by decide
      exact hd x hx
    · rintro rfl
      exact absurd (hall _ hx) (by decide!)

theorem decl_line_symbol (sym ty : Str) (h : sym.all is_symbol_char = true) :
    decl_symbol (decl_line sym ty) (6 + sym.length) = sym := by
  have h6 : (decl_line sym ty).drop 6 = sym ++ ',' :: ' ' :: ty := by
    rw [decl_line_cons]
    rfl
  unfold decl_symbol
  rw [decl_line_start sym ty h, h6, Nat.add_sub_cancel_left, List.take_left']
  · exact trim_str_symbol sym h
  · rfl

/-- The usual form of a function declaration declares its symbol. -/
theorem func_decl_line (sym ty : Str) (h : sym.all is_symbol_char = true)
    (hf : ends_with (decl_line sym ty) "function".toList = true) :
    func_decl (decl_line sym ty) = some sym := by
  simp only [func_decl, decl_line_opcode, hf, Bool.and_self, ↓reduceIte,
    decl_line_comma sym ty h, Option.map_some', decl_line_symbol sym ty h]

/-- The usual form of an object declaration declares its symbol. -/
theorem obj_decl_line (sym ty : Str) (h : sym.all is_symbol_char = true)
    (hf : ends_with (decl_line sym ty) "function".toList = false)
    (ho : ends_with (decl_line sym ty) "object".toList = true) :
    obj_decl (decl_line sym ty) = some sym := by
  simp only [obj_decl, decl_line_opcode, hf, ho, Bool.not_false, Bool.and_self, ↓reduceIte,
    decl_line_comma sym ty h, Option.map_some', decl_line_symbol sym ty h]

/-! ## What `load_syms` records and when it stops -/

/-- C20 (counterexample): three documents whose first line declares the
function `f` and on which `load_syms` does not come back with `f` recorded: the
second line fails the assertion, ends with `.type`, so that the start of the
symbol lies behind the terminator, or has its comma before the symbol.  And a
document whose only line, `.type x, @notype`, is of the form
`.type <sym>, <type>` and contributes to neither list. -/
theorem load_syms_stops_on_later_line :
    load_syms (doc_of [".type f, @function", ".type g, @FUNCTION"]) = .fatal .assertion
      ∧ load_syms (doc_of [".type f, @function", ".type"]) = .fatal .undefined
      ∧ load_syms (doc_of [".type f, @function", ".type,g, @function"]) = .fatal .undefined
      ∧ load_syms (doc_of [".type x, @notype"]) = .ok (doc_of [".type x, @notype"]) := by
  decide!

/-- C20 (amended): on a document with at least one line, in which no `.type`
line ends with `.type` or has its first comma before the symbol and none fails
the assertion, `load_syms` returns with the function list holding, in document
order, the trimmed symbols of the `.type` lines with a comma that end with
`function`, and the object list those of the lines that end with `object`;
no line contributes to both lists, and the two lists together are no longer
than the document.  A line `.type sym, ty` contributes the symbol `sym`. -/
theorem load_syms_records (d : s_asm_data) (hne : d.lines ≠ [])
    (hok : ∀ l ∈ d.lines, decl_out_of_bounds l = false ∧ decl_inconsistent l = false) :
    load_syms d = .ok { d with
        func_syms := d.lines.filterMap func_decl,
        obj_syms := d.lines.filterMap obj_decl }
      ∧ (∀ l, func_decl l = none ∨ obj_decl l = none)
      ∧ (d.lines.filterMap func_decl).length + (d.lines.filterMap obj_decl).length
          ≤ d.lines.length
      ∧ (∀ sym ty, sym.all is_symbol_char = true →
          (ends_with (decl_line sym ty) "function".toList = true →
            func_decl (decl_line sym ty) = some sym)
          ∧ (ends_with (decl_line sym ty) "function".toList = false →
            ends_with (decl_line sym ty) "object".toList = true →
            obj_decl (decl_line sym ty) = some sym)) := by
  refine ⟨?_, decl_lists_disjoint, decl_lists_length d.lines, fun sym ty hs =>
    ⟨func_decl_line sym ty hs, obj_decl_line sym ty hs⟩⟩
  rw [load_syms_nonempty d hne]
  obtain ⟨m', hm'⟩ := load_syms_loop_total d.lines { d with func_syms := [], obj_syms := [] } hok
  rw [hm', (load_syms_loop_of_ok _ _ _ hm').2]
  rfl

theorem load_syms_records_witness :
    load_syms (doc_of [".type main, @function", "main:", ".type tab, @object", ".text"])
      = .ok { doc_of [".type main, @function", "main:", ".type tab, @object", ".text"] with
          func_syms := (doc_of [".type main, @function", "main:", ".type tab, @object",
            ".text"]).lines.filterMap func_decl,
          obj_syms := (doc_of [".type main, @function", "main:", ".type tab, @object",
            ".text"]).lines.filterMap obj_decl }
      ∧ (doc_of [".type main, @function", "main:", ".type tab, @object",
            ".text"]).lines.filterMap func_decl = ["main".toList]
      ∧ (doc_of [".type main, @function", "main:", ".type tab, @object",
            ".text"]).lines.filterMap obj_decl = ["tab".toList] :=
  ⟨(load_syms_records _ (by decide!) (by decide!)).1, by decide!, by decide!⟩

/-- C21 (counterexample): the declaration `.type object_list, @notype` has a
type text with neither word, yet `load_syms` fails its assertion on it,
because the symbol name contains `object`.  On `.type,g, @FUNCTION`, whose
comma comes before the symbol, and on a line that ends with `.type`,
`load_syms` does not reach the assertion: it leaves the line before. -/
theorem type_word_in_symbol_name_aborts :
    (load_syms (doc_of [".type object_list, @notype"]) = .fatal .assertion
      ∧ strcasestr " @notype".toList "function".toList = none
      ∧ strcasestr " @notype".toList "object".toList = none)
    ∧ load_syms (doc_of [".type,g, @FUNCTION"]) = .fatal .undefined
    ∧ load_syms (doc_of [".type"]) = .fatal .undefined := by
  decide!

/-- C21 (amended): on a document in which no `.type` line ends with `.type`
or has its first comma before the symbol, `load_syms` fails its assertion if
and only if some
`.type` line with a comma ends with neither `function` nor `object` and yet
contains one of the two words somewhere, letter case ignored; without such
a line it returns; and a `.type` line that contains neither word anywhere is
passed over with nothing recorded. -/
theorem load_syms_abort_iff (d : s_asm_data)
    (hw : ∀ l ∈ d.lines, decl_out_of_bounds l = false) :
    (load_syms d = .fatal .assertion ↔ ∃ l ∈ d.lines, decl_inconsistent l = true)
      ∧ ((∀ l ∈ d.lines, decl_inconsistent l = false) → ∃ d', load_syms d = .ok d')
      ∧ (∀ l ∈ d.lines, ∀ m, strcasestr l "function".toList = none →
          strcasestr l "object".toList = none →
          ends_with l "function".toList = false → ends_with l "object".toList = false →
          load_syms_line l m = .ok m) := by
  refine ⟨?_, ?_, ?_⟩
  · cases hl : d.lines with
    | nil =>
      simp only [load_syms, hl, List.length_nil, ↓reduceIte, List.not_mem_nil, false_and,
        exists_false, iff_false]
      intro h
      cases h
    | cons x xs =>
      have hne : d.lines ≠ [] := by rw [hl]; exact List.cons_ne_nil _ _
      rw [load_syms_nonempty d hne, load_syms_loop_abort _ _ hw, hl]
  · intro hi
    cases hl : d.lines with
    | nil => exact ⟨d, by simp only [load_syms, hl, List.length_nil, ↓reduceIte]⟩
    | cons x xs =>
      have hne : d.lines ≠ [] := by rw [hl]; exact List.cons_ne_nil _ _
      rw [load_syms_nonempty d hne]
      exact load_syms_loop_total _ _ fun l hl' => ⟨hw l hl', hi l hl'⟩
  · intro l hl m h1 h2 h3 h4
    rw [load_syms_line_eq l m (hw l hl)]
    have hi : decl_inconsistent l = false := by
      simp only [decl_inconsistent, h1, h2, Option.isSome_none, Bool.or_self, Bool.and_false]
    have hf : func_decl l = none := by
      simp only [func_decl, h3, Bool.and_false, Bool.false_eq_true, ↓reduceIte]
    have ho : obj_decl l = none := by
      simp only [obj_decl, h4, Bool.and_false, Bool.false_eq_true, ↓reduceIte]
    simp only [hi, hf, ho, Bool.false_eq_true, ↓reduceIte, Option.toList_none, List.append_nil]

theorem load_syms_abort_iff_witness :
    (load_syms (doc_of [".type f, @FUNCTION"]) = .fatal .assertion
        ↔ ∃ l ∈ (doc_of [".type f, @FUNCTION"]).lines, decl_inconsistent l = true)
      ∧ decl_inconsistent ".type f, @FUNCTION".toList = true
      ∧ decl_inconsistent ".type f, @function ".toList = true
      ∧ decl_inconsistent ".type f, @notype".toList = false :=
  ⟨(load_syms_abort_iff (doc_of [".type f, @FUNCTION"]) (by decide!)).1, by decide!,
    by decide!, by decide!⟩

/-! ## The text substitution and the stack-pointer pass -/

/-- C34: for each of the six pairs that the program passes to `_str_replace`
and every text, one replacement takes the number of occurrences of `frm` down,
so that more nested calls than the text has characters are never needed, and
the call comes back with the text that the single pass from the left makes,
which has no occurrence of `frm`. -/
theorem str_replace_is_single_pass (p : Str × Str) (hp : p ∈ sp_pairs ++ label_pairs)
    (s : Str) :
    (∀ i, strstr s p.1 = some i →
        occurrences p.1 (s.take i ++ p.2 ++ s.drop (i + p.1.length)) < occurrences p.1 s)
      ∧ occurrences p.1 s ≤ s.length
      ∧ (∀ fuel, occurrences p.1 s < fuel →
          _str_replace fuel s p.1 p.2 = .ok (replace_all p.1 p.2 s))
      ∧ strstr (replace_all p.1 p.2 s) p.1 = none := by
  have hs := separate_pairs.1 p hp
  refine ⟨fun i hi => ?_, occurrences_le_length _ _, fun fuel hf => str_replace_eq _ _ hs fuel s hf,
    ?_⟩
  · have := (str_replace_step s p.1 p.2 i hs hi).1
    omega
  · exact str_replace_result _ s p.1 p.2 _
      (str_replace_eq _ _ hs (occurrences p.1 s + 1) s (Nat.lt_succ_self _))

theorem str_replace_is_single_pass_witness :
    ((∀ i, strstr "movq %rsp, (%rsp)".toList "%rsp".toList = some i →
        occurrences "%rsp".toList ("movq %rsp, (%rsp)".toList.take i ++ "%r15".toList
          ++ "movq %rsp, (%rsp)".toList.drop (i + 4)) < occurrences "%rsp".toList "movq %rsp, (%rsp)".toList)
      ∧ occurrences "%rsp".toList "movq %rsp, (%rsp)".toList ≤ 17
      ∧ (∀ fuel, occurrences "%rsp".toList "movq %rsp, (%rsp)".toList < fuel →
          _str_replace fuel "movq %rsp, (%rsp)".toList "%rsp".toList "%r15".toList
            = .ok (replace_all "%rsp".toList "%r15".toList "movq %rsp, (%rsp)".toList))
      ∧ strstr (replace_all "%rsp".toList "%r15".toList "movq %rsp, (%rsp)".toList) "%rsp".toList
          = none)
      ∧ ("%rsp".toList, "%r15".toList) ∈ sp_pairs ++ label_pairs
      ∧ occurrences "%rsp".toList "movq %rsp, (%rsp)".toList = 2
      ∧ strstr "movq %rsp, (%rsp)".toList "%rsp".toList = some 5
      ∧ _str_replace 3 "movq %rsp, (%rsp)".toList "%rsp".toList "%r15".toList
          = .ok "movq %r15, (%r15)".toList
      ∧ replace_all "%rsp".toList "%r15".toList "movq %rsp, (%rsp)".toList
          = "movq %r15, (%r15)".toList
      ∧ _str_replace 2 "movq %rsp, (%rsp)".toList "%rsp".toList "%r15".toList
          = .fatal .undefined
      ∧ _str_replace 6 "a/b/c.d.s".toList "/".toList "_".toList = .ok "a_b_c.d.s".toList :=
  ⟨str_replace_is_single_pass ("%rsp".toList, "%r15".toList) (by decide) "movq %rsp, (%rsp)".toList,
    by decide, by decide, by decide, by decide, by decide, by decide, by decide⟩

/-- C32: the substitution pass comes back on every array, with every entry
that `is_insn` accepts replaced by the result of the four single passes and
every other entry as it was; no entry of the result that `is_insn` accepts
contains `%rsp`, `%esp` or `%sp`, and so none of the output of a `process_asm`
that comes back does. -/
theorem sp_substitution_complete (asm_data : s_asm_data) :
    replace_sp_with_frame_ptr asm_data
        = .ok { asm_data with new_lines := asm_data.new_lines.map sp_pass_line }
      ∧ (∀ l ∈ asm_data.new_lines.map sp_pass_line, is_insn l = true → mentions_sp l = false)
      ∧ (∀ m, process_asm asm_data = .ok m →
          ∀ l ∈ m.new_lines, is_insn l = true → mentions_sp l = false) := by
  have hrun : ∀ a : s_asm_data, replace_sp_with_frame_ptr a
      = .ok { a with new_lines := a.new_lines.map sp_pass_line } := by
    intro a
    simp only [replace_sp_with_frame_ptr, Res.bind_def, Res.pure_def, replace_sp_loop_eq,
      Res.bind_ok]
  have hclean : ∀ ls : List Str, ∀ l ∈ ls.map sp_pass_line, is_insn l = true →
      mentions_sp l = false := by
    intro ls l hl hi
    obtain ⟨l0, _, rfl⟩ := List.mem_map.mp hl
    exact sp_pass_line_clean l0 hi
  refine ⟨hrun asm_data, hclean _, fun m hm l hl hi => ?_⟩
  simp only [process_asm, Res.bind_def] at hm
  cases h : process_asm_loop asm_data.lines { asm_data with new_lines := [] } with
  | fatal e => rw [h] at hm; cases hm
  | ok m1 =>
    rw [h, Res.bind_ok, hrun m1] at hm
    cases hm
    exact hclean _ l hl hi

/-- C32, at a document of four lines: the stack pointer is replaced in the
instruction and kept in the comment and in the line with a label. -/
theorem sp_substitution_complete_witness :
    (replace_sp_with_frame_ptr
          (doc_out ["movq %rsp, 8(%esp)", "# %rsp", "x: movw %sp, %ax", "ret"]
            ["movq %rsp, 8(%esp)", "# %rsp", "x: movw %sp, %ax", "ret"])
        = .ok { doc_out ["movq %rsp, 8(%esp)", "# %rsp", "x: movw %sp, %ax", "ret"]
            ["movq %rsp, 8(%esp)", "# %rsp", "x: movw %sp, %ax", "ret"] with
            new_lines := (doc_out ["movq %rsp, 8(%esp)", "# %rsp", "x: movw %sp, %ax", "ret"]
              ["movq %rsp, 8(%esp)", "# %rsp", "x: movw %sp, %ax", "ret"]).new_lines.map
                sp_pass_line }
      ∧ (∀ l ∈ (doc_out ["movq %rsp, 8(%esp)", "# %rsp", "x: movw %sp, %ax", "ret"]
            ["movq %rsp, 8(%esp)", "# %rsp", "x: movw %sp, %ax", "ret"]).new_lines.map
              sp_pass_line, is_insn l = true → mentions_sp l = false)
      ∧ (∀ m, process_asm (doc_out ["movq %rsp, 8(%esp)", "# %rsp", "x: movw %sp, %ax", "ret"]
            ["movq %rsp, 8(%esp)", "# %rsp", "x: movw %sp, %ax", "ret"]) = .ok m →
          ∀ l ∈ m.new_lines, is_insn l = true → mentions_sp l = false))
      ∧ process_asm (doc_of ["movq %rsp, 8(%esp)", "# %rsp", "x: movw %sp, %ax", "ret"])
        = .ok (doc_out ["movq %rsp, 8(%esp)", "# %rsp", "x: movw %sp, %ax", "ret"]
            ["movq %r15, 8(%r15d)", "# %rsp", "x: movw %sp, %ax", "ret"]) :=
  ⟨sp_substitution_complete
    (doc_out ["movq %rsp, 8(%esp)", "# %rsp", "x: movw %sp, %ax", "ret"]
      ["movq %rsp, 8(%esp)", "# %rsp", "x: movw %sp, %ax", "ret"]), by decide!⟩

/-! ## The safe-stack template on an arbitrary push or pop line -/

/-- One iteration of the copy loop of `get_oparand` on a character: the loop
stops in front of it or goes on behind it, at some depth. -/
theorem get_oparand_copy_step (fuel depth : Nat) (c : Char) (rest acc : Str) :
    get_oparand_copy (fuel + 1) depth (c :: rest) acc = .ok (acc.reverse, c :: rest)
      ∨ ∃ d, get_oparand_copy (fuel + 1) depth (c :: rest) acc
          = get_oparand_copy fuel d rest (c :: acc) := by
  by_cases hs : (if c = ')' then ((if c = '(' then (depth + 1) % 2 ^ 32 else depth) + 2 ^ 32 - 1)
        % 2 ^ 32 else (if c = '(' then (depth + 1) % 2 ^ 32 else depth)) = 0
      ∧ (c = Char.ofNat 0 ∨ c ∈ " ,\t\n#;/".toList)
  · exact Or.inl (if_pos hs)
  · exact Or.inr ⟨_, if_neg hs⟩

theorem get_oparand_copy_length (fuel depth : Nat) (iter acc : Str) (r : Str × Str)
    (h : get_oparand_copy fuel depth iter acc = .ok r) : r.1.length < acc.length + fuel := by
  induction fuel generalizing depth iter acc with
  | zero => cases h
  | succ fuel ih =>
    cases iter with
    | nil =>
      simp only [get_oparand_copy] at h
      split at h
      · cases h
        simp only [List.length_reverse]
        omega
      · cases fuel <;> cases h
    | cons c rest =>
      rcases get_oparand_copy_step fuel depth c rest acc with h1 | ⟨d, h1⟩
      · rw [h1] at h
        cases h
        simp only [List.length_reverse]
        omega
      · rw [h1] at h
        have := ih _ _ _ h
        simp only [List.length_cons] at this
        omega

/-- An operand that `get_oparand` returns fits the buffer `op_t`. -/
theorem get_oparand_length (line op1 : Str) (h : get_oparand line 1 = .ok op1) :
    op1.length < OP_SIZE := by
  simp only [get_oparand, true_or, ↓reduceIte, get_oparand_loop, Res.bind_def] at h
  cases hc : get_oparand_copy OP_SIZE 0
      (_skip_seps (List.dropWhile Char.isAlpha (_skip_spaces line)) " ,\t\n".toList) [] with
  | fatal e => rw [hc] at h; cases h
  | ok r =>
    rw [hc, Res.bind_ok] at h
    cases h
    simpa using get_oparand_copy_length _ _ _ _ _ hc

/-- The type character is a letter of the opcode, or a blank when the opcode
ends where the character is looked for. -/
theorem get_optype_char (line : Str) (k : Nat) (c : Char) (h : get_optype line k = .ok c) :
    c = ' ' ∨ c.isAlpha = true := by
  simp only [get_optype, get_opcode, Res.bind_def, Res.pure_def] at h
  split at h
  · rw [Res.bind_ok] at h
    split at h
    · cases h
      exact Or.inl rfl
    · split at h
      · rename_i c' hc'
        cases h
        right
        have hm := List.get?_mem hc'
        exact (List.mem_takeWhile_imp hm)
      · cases h
  · cases h

theorem get_optype_bytes_eq (line : Str) (k : Nat) (c : Char) (h : get_optype line k = .ok c) :
    get_optype_bytes line k = .ok (optype_bytes c) := by
  simp only [get_optype_bytes, h, Res.bind_def, Res.bind_ok, Res.pure_def, optype_bytes]
  split
  · rfl
  · split
    · rfl
    · split <;> rfl

/-- An insertion of a formatted line that fits the buffer, into an array with
a free entry. -/
theorem insert_fmt_appended (m0 : s_asm_data) (L : List Str) (fmt : Str) (args : List FmtArg)
    (text : Str) (hv : vformat fmt args = .ok text) (hlen : text.length < MAX_ASM_LINE - 1)
    (hroom : m0.new_lines.length + L.length < 2 * m0.lines.length) :
    _insert_new_line_fmt (with_appended m0 L) fmt args = .ok (with_appended m0 (L ++ [text])) := by
  have h1 : text.take (MAX_ASM_LINE - 1) = text := List.take_of_length_le (Nat.le_of_lt hlen)
  have h2 : text.take MAX_ASM_LINE = text := List.take_of_length_le (by omega)
  have h3 : (with_appended m0 L).new_lines.length < 2 * (with_appended m0 L).lines.length := by
    simp only [with_appended, List.length_append]
    exact hroom
  simp only [_insert_new_line_fmt, hv, Res.bind_def, Res.bind_ok, _insert_new_line, h3, ↓reduceIte,
    h1, h2]
  simp only [with_appended, List.append_assoc]

/-- The commented original takes the place of the last entry. -/
theorem replace_cur_appended (m0 : s_asm_data) (L : List Str) (x line : Str)
    (hroom : m0.new_lines.length + L.length < 2 * m0.lines.length) :
    _replace_cur_line_fmt (with_appended m0 (L ++ [x])) "#-%s".toList [.str line]
      = .ok (with_appended m0 (L ++ [stored_line ("#-".toList ++ line)])) := by
  have hne : (with_appended m0 (L ++ [x])).new_lines ≠ [] := by
    simp [with_appended]
  have hcap : (with_appended m0 (L ++ [x])).new_lines.length
      ≤ 2 * (with_appended m0 (L ++ [x])).lines.length := by
    simp only [with_appended, List.length_append, List.length_cons, List.length_nil]
    omega
  rw [replace_cur_comment_eq _ line hne hcap]
  simp only [with_appended, stored_line, ← List.append_assoc, List.dropLast_concat]

theorem vformat_hdr (fn : Str) (n : Nat) :
    vformat "#> ================ by %s():%d".toList [.str fn, .int n]
      = .ok ("#> ================ by ".toList ++ fn ++ "():".toList ++ Nat.toDigits 10 n) := by
  simp [vformat, Res.bind_def, Res.pure_def, Res.bind]

/-- A template text around an operand fits the line buffer. -/
theorem text_fits (pre mid post : Str) (hm : mid.length < OP_SIZE)
    (hp : pre.length + post.length ≤ 1000) : (pre ++ mid ++ post).length < MAX_ASM_LINE - 1 := by
  simp only [List.length_append, OP_SIZE, MAX_ASM_LINE] at *
  omega

theorem digits_fit (pre post : Str) (c : Char) (hp : pre.length + post.length ≤ 1000) :
    (pre ++ Nat.toDigits 10 (optype_bytes c) ++ post).length < MAX_ASM_LINE - 1 := by
  apply text_fits _ _ _ _ hp
  unfold optype_bytes
  split_ifs <;> decide

/-- The template for a push whose operand does not start with `(`. -/
theorem replace_push_plain (line op1 x : Str) (c : Char) (m0 : s_asm_data)
    (hop : get_oparand line 1 = .ok op1) (hpush : opecode_with line "push".toList = true)
    (hty : get_optype line 4 = .ok c) (hmem : op1.head? ≠ some '(')
    (hroom : m0.new_lines.length + 5 ≤ 2 * m0.lines.length) :
    replace_push_pop_with_mov line (with_appended m0 [x])
      = .ok (with_appended m0 (stored_line ("#-".toList ++ line) :: push_template c op1)) := by
  have hlen := get_oparand_length line op1 hop
  have h4 : "push".toList.length = 4 := rfl
  have e0 := replace_cur_appended m0 [] x line (by simp only [List.length_nil]; omega)
  have e1 := insert_fmt_appended m0 [stored_line ("#-".toList ++ line)]
    "#> ================ by %s():%d".toList [.str "replace_push_pop_with_mov".toList, .int 689]
    push_pop_hdr rfl (by decide) (by simp only [List.length_cons, List.length_nil]; omega)
  have e2 := insert_fmt_appended m0 [stored_line ("#-".toList ++ line), push_pop_hdr]
    ("\t".toList ++ "sub   $%d, %%rsp".toList) [.int (optype_bytes c)]
    ("\tsub   $".toList ++ Nat.toDigits 10 (optype_bytes c) ++ ", %rsp".toList) rfl
    (digits_fit _ _ c (by decide))
    (by simp only [List.length_cons, List.length_nil]; omega)
  have e3 := insert_fmt_appended m0 [stored_line ("#-".toList ++ line), push_pop_hdr,
      "\tsub   $".toList ++ Nat.toDigits 10 (optype_bytes c) ++ ", %rsp".toList]
    ("\t".toList ++ "mov%c %s, (%%rsp)".toList) [.chr c, .str op1]
    ("\tmov".toList ++ [c] ++ " ".toList ++ op1 ++ ", (%rsp)".toList) rfl
    (text_fits _ _ _ hlen (Nat.le_of_ble_eq_true rfl))
    (by simp only [List.length_cons, List.length_nil]; omega)
  have e4 := insert_fmt_appended m0 [stored_line ("#-".toList ++ line), push_pop_hdr,
      "\tsub   $".toList ++ Nat.toDigits 10 (optype_bytes c) ++ ", %rsp".toList,
      "\tmov".toList ++ [c] ++ " ".toList ++ op1 ++ ", (%rsp)".toList]
    "#< ================ by %s():%d".toList [.str "replace_push_pop_with_mov".toList, .int 720]
    push_pop_ftr rfl (by decide) (by simp only [List.length_cons, List.length_nil]; omega)
  simp only [List.nil_append, List.cons_append] at e0 e1 e2 e3 e4
  simp only [replace_push_pop_with_mov, Res.bind_def, e0, Res.bind_ok, hop, hmem, hpush,
    decide_False, Bool.false_eq_true, ↓reduceIte, h4, hty, get_optype_bytes_eq line 4 c hty,
    _insert_hdr, _EMITI, _insert_ftr, e1, e2, e3, e4, push_template]

/-- The template for a push whose operand starts with `(`. -/
theorem replace_push_mem (line op1 x : Str) (c : Char) (m0 : s_asm_data)
    (hop : get_oparand line 1 = .ok op1) (hpush : opecode_with line "push".toList = true)
    (hty : get_optype line 4 = .ok c) (hmem : op1.head? = some '(')
    (hroom : m0.new_lines.length + 9 ≤ 2 * m0.lines.length) :
    replace_push_pop_with_mov line (with_appended m0 [x])
      = .ok (with_appended m0 (stored_line ("#-".toList ++ line) :: push_template c op1)) := by
  have hlen := get_oparand_length line op1 hop
  have h4 : "push".toList.length = 4 := rfl
  have e0 := replace_cur_appended m0 [] x line (by simp only [List.length_nil]; omega)
  have e1 := insert_fmt_appended m0 [stored_line ("#-".toList ++ line)]
    "#> ================ by %s():%d".toList [.str "replace_push_pop_with_mov".toList, .int 689]
    push_pop_hdr rfl (by decide) (by simp only [List.length_cons, List.length_nil]; omega)
  have e2 := insert_fmt_appended m0 [stored_line ("#-".toList ++ line), push_pop_hdr]
    ("\t".toList ++ "pushq %r10".toList ++ " #_volatile_".toList) []
    "\tpushq %r10 #_volatile_".toList rfl (by decide)
    (by simp only [List.length_cons, List.length_nil]; omega)
  have e3 := insert_fmt_appended m0 [stored_line ("#-".toList ++ line), push_pop_hdr,
      "\tpushq %r10 #_volatile_".toList]
    ("\t".toList ++ "xor   %r10, %r10".toList) []
    "\txor   %r10, %r10".toList rfl (by decide)
    (by simp only [List.length_cons, List.length_nil]; omega)
  have e4 := insert_fmt_appended m0 [stored_line ("#-".toList ++ line), push_pop_hdr,
      "\tpushq %r10 #_volatile_".toList, "\txor   %r10, %r10".toList]
    ("\t".toList ++ "mov%c %s, %%r10".toList) [.chr c, .str op1]
    ("\tmov".toList ++ [c] ++ " ".toList ++ op1 ++ ", %r10".toList) rfl
    (text_fits _ _ _ hlen (Nat.le_of_ble_eq_true rfl))
    (by simp only [List.length_cons, List.length_nil]; omega)
  have e5 := insert_fmt_appended m0 [stored_line ("#-".toList ++ line), push_pop_hdr,
      "\tpushq %r10 #_volatile_".toList, "\txor   %r10, %r10".toList,
      "\tmov".toList ++ [c] ++ " ".toList ++ op1 ++ ", %r10".toList]
    ("\t".toList ++ "sub   $%d, %%rsp".toList) [.int (optype_bytes c)]
    ("\tsub   $".toList ++ Nat.toDigits 10 (optype_bytes c) ++ ", %rsp".toList) rfl
    (digits_fit _ _ c (by decide))
    (by simp only [List.length_cons, List.length_nil]; omega)
  have e6 := insert_fmt_appended m0 [stored_line ("#-".toList ++ line), push_pop_hdr,
      "\tpushq %r10 #_volatile_".toList, "\txor   %r10, %r10".toList,
      "\tmov".toList ++ [c] ++ " ".toList ++ op1 ++ ", %r10".toList,
      "\tsub   $".toList ++ Nat.toDigits 10 (optype_bytes c) ++ ", %rsp".toList]
    ("\t".toList ++ "mov%c %s, (%%rsp)".toList) [.chr c, .str "%r10".toList]
    ("\tmov".toList ++ [c] ++ " %r10, (%rsp)".toList) rfl
    (by
      have := text_fits ("\tmov".toList ++ [c]) [] " %r10, (%rsp)".toList (by decide)
        (Nat.le_of_ble_eq_true rfl)
      simpa only [List.append_nil] using this)
    (by simp only [List.length_cons, List.length_nil]; omega)
  have e7 := insert_fmt_appended m0 [stored_line ("#-".toList ++ line), push_pop_hdr,
      "\tpushq %r10 #_volatile_".toList, "\txor   %r10, %r10".toList,
      "\tmov".toList ++ [c] ++ " ".toList ++ op1 ++ ", %r10".toList,
      "\tsub   $".toList ++ Nat.toDigits 10 (optype_bytes c) ++ ", %rsp".toList,
      "\tmov".toList ++ [c] ++ " %r10, (%rsp)".toList]
    ("\t".toList ++ "popq  %r10".toList ++ " #_volatile_".toList) []
    "\tpopq  %r10 #_volatile_".toList rfl (by decide)
    (by simp only [List.length_cons, List.length_nil]; omega)
  have e8 := insert_fmt_appended m0 [stored_line ("#-".toList ++ line), push_pop_hdr,
      "\tpushq %r10 #_volatile_".toList, "\txor   %r10, %r10".toList,
      "\tmov".toList ++ [c] ++ " ".toList ++ op1 ++ ", %r10".toList,
      "\tsub   $".toList ++ Nat.toDigits 10 (optype_bytes c) ++ ", %rsp".toList,
      "\tmov".toList ++ [c] ++ " %r10, (%rsp)".toList, "\tpopq  %r10 #_volatile_".toList]
    "#< ================ by %s():%d".toList [.str "replace_push_pop_with_mov".toList, .int 720]
    push_pop_ftr rfl (by decide) (by simp only [List.length_cons, List.length_nil]; omega)
  simp only [List.nil_append, List.cons_append] at e0 e1 e2 e3 e4 e5 e6 e7 e8
  simp only [replace_push_pop_with_mov, Res.bind_def, e0, Res.bind_ok, hop, hmem, hpush,
    decide_True, ↓reduceIte, h4, hty, get_optype_bytes_eq line 4 c hty,
    _insert_hdr, _EMITI, _EMITV, _insert_ftr, e1, e2, e3, e4, e5, e6, e7, e8, push_template]

/-- Two opcodes that differ in the second letter do not both start a line. -/
theorem opecode_with_second (line p q : Str) (a c d : Char) (hcd : c ≠ d)
    (h : opecode_with line (a :: c :: p) = true) : opecode_with line (a :: d :: q) = false := by
  simp only [opecode_with, starts_with] at h ⊢
  rw [isPrefixOf_false_iff]
  intro h'
  have h := List.isPrefixOf_iff_prefix.mp h
  generalize (line.dropWhile fun c => c == ' ' || c == '\t') = s at h h'
  cases s with
  | nil => simp at h
  | cons x s =>
    cases s with
    | nil => simp at h
    | cons y s =>
      simp only [List.cons_prefix_cons] at h h'
      exact hcd (h.2.1.trans h'.2.1.symm)

/-- The template for a pop whose operand does not start with `(`. -/
theorem replace_pop_plain (line op1 x : Str) (c : Char) (m0 : s_asm_data)
    (hop : get_oparand line 1 = .ok op1) (hpop : opecode_with line "pop".toList = true)
    (hty : get_optype line 3 = .ok c) (hmem : op1.head? ≠ some '(')
    (hroom : m0.new_lines.length + 5 ≤ 2 * m0.lines.length) :
    replace_push_pop_with_mov line (with_appended m0 [x])
      = .ok (with_appended m0 (stored_line ("#-".toList ++ line) :: pop_template c op1)) := by
  have hlen := get_oparand_length line op1 hop
  have h3 : "pop".toList.length = 3 := rfl
  have hpush : opecode_with line "push".toList = false :=
    opecode_with_second line "p".toList "sh".toList 'p' 'o' 'u' (by decide) hpop
  have e0 := replace_cur_appended m0 [] x line (by simp only [List.length_nil]; omega)
  have e1 := insert_fmt_appended m0 [stored_line ("#-".toList ++ line)]
    "#> ================ by %s():%d".toList [.str "replace_push_pop_with_mov".toList, .int 689]
    push_pop_hdr rfl (by decide) (by simp only [List.length_cons, List.length_nil]; omega)
  have e2 := insert_fmt_appended m0 [stored_line ("#-".toList ++ line), push_pop_hdr]
    ("\t".toList ++ "mov%c  (%%rsp), %s".toList) [.chr c, .str op1]
    ("\tmov".toList ++ [c] ++ "  (%rsp), ".toList ++ op1)
    (by
      have h : vformat ("\t".toList ++ "mov%c  (%%rsp), %s".toList) [.chr c, .str op1]
          = .ok ("\tmov".toList ++ [c] ++ "  (%rsp), ".toList ++ (op1 ++ [])) := rfl
      rwa [List.append_nil] at h)
    (by
      have := text_fits ("\tmov".toList ++ [c] ++ "  (%rsp), ".toList) op1 [] hlen
        (Nat.le_of_ble_eq_true rfl)
      simpa only [List.append_nil] using this)
    (by simp only [List.length_cons, List.length_nil]; omega)
  have e3 := insert_fmt_appended m0 [stored_line ("#-".toList ++ line), push_pop_hdr,
      "\tmov".toList ++ [c] ++ "  (%rsp), ".toList ++ op1]
    ("\t".toList ++ "add    $%d, %rsp".toList) [.int (optype_bytes c)]
    ("\tadd    $".toList ++ Nat.toDigits 10 (optype_bytes c) ++ ", %rsp".toList) rfl
    (digits_fit _ _ c (by decide))
    (by simp only [List.length_cons, List.length_nil]; omega)
  have e4 := insert_fmt_appended m0 [stored_line ("#-".toList ++ line), push_pop_hdr,
      "\tmov".toList ++ [c] ++ "  (%rsp), ".toList ++ op1,
      "\tadd    $".toList ++ Nat.toDigits 10 (optype_bytes c) ++ ", %rsp".toList]
    "#< ================ by %s():%d".toList [.str "replace_push_pop_with_mov".toList, .int 720]
    push_pop_ftr rfl (by decide) (by simp only [List.length_cons, List.length_nil]; omega)
  simp only [List.nil_append, List.cons_append] at e0 e1 e2 e3 e4
  simp only [replace_push_pop_with_mov, Res.bind_def, e0, Res.bind_ok, hop, hmem, hpush, hpop,
    decide_False, Bool.false_eq_true, ↓reduceIte, h3, hty, get_optype_bytes_eq line 3 c hty,
    _insert_hdr, _EMITI, _insert_ftr, e1, e2, e3, e4, pop_template]

/-- A result that is an undefined run whenever it is not a state. -/
theorem bind_undefined {α β : Type} (r : Res α) (f : α → Res β)
    (hr : (∃ a, r = .ok a) ∨ r = .fatal .undefined) (hf : ∀ a, f a = .fatal .undefined) :
    Res.bind r f = .fatal .undefined := by
  rcases hr with ⟨a, rfl⟩ | rfl
  · exact hf a
  · rfl

theorem insert_fmt_total (m : s_asm_data) (fmt : Str) (args : List FmtArg) (text : Str)
    (hv : vformat fmt args = .ok text) :
    (∃ a, _insert_new_line_fmt m fmt args = .ok a)
      ∨ _insert_new_line_fmt m fmt args = .fatal .undefined := by
  simp only [_insert_new_line_fmt, hv, Res.bind_def, Res.bind_ok, _insert_new_line]
  split
  · exact Or.inl ⟨_, rfl⟩
  · exact Or.inr rfl

theorem replace_cur_total (m : s_asm_data) (line : Str) :
    (∃ a, _replace_cur_line_fmt m "#-%s".toList [.str line] = .ok a)
      ∨ _replace_cur_line_fmt m "#-%s".toList [.str line] = .fatal .undefined := by
  unfold _replace_cur_line_fmt
  split
  · exact Or.inr rfl
  · exact insert_fmt_total _ _ _ _ (vformat_comment line)

/-- The template for a pop whose operand starts with `(`: the fourth line
passes the width, a `char`, for a `%s` conversion. -/
theorem replace_pop_mem (line op1 : Str) (c : Char) (m : s_asm_data)
    (hop : get_oparand line 1 = .ok op1) (hpop : opecode_with line "pop".toList = true)
    (hty : get_optype line 3 = .ok c) (hmem : op1.head? = some '(') :
    replace_push_pop_with_mov line m = .fatal .undefined := by
  have h3 : "pop".toList.length = 3 := rfl
  have hpush : opecode_with line "push".toList = false :=
    opecode_with_second line "p".toList "sh".toList 'p' 'o' 'u' (by decide) hpop
  simp only [replace_push_pop_with_mov, Res.bind_def, hop, Res.bind_ok, hmem, hpush, hpop,
    decide_True, Bool.false_eq_true, ↓reduceIte, h3, hty, get_optype_bytes_eq line 3 c hty,
    _insert_hdr, _EMITI, _EMITV, _insert_ftr]
  refine bind_undefined _ _ (replace_cur_total m line) fun m1 => ?_
  refine bind_undefined _ _ (insert_fmt_total _ _ _ _ (vformat_hdr _ _)) fun m2 => ?_
  refine bind_undefined _ _ (insert_fmt_total _ _ _ "\tpushq %r10 #_volatile_".toList rfl)
    fun m3 => ?_
  refine bind_undefined _ _ (insert_fmt_total _ _ _ "\txor   %r10, %r10".toList rfl)
    fun m4 => ?_
  refine bind_undefined _ _ (insert_fmt_total _ _ _
    ("\tmov".toList ++ [c] ++ "  (%rsp), %r10".toList) rfl) fun m5 => ?_
  rfl

/-! ## Template lines and the substitution pass -/

theorem mem_get_tail (t : Str) (x : Char) (h : x ∈ get_tail t) : x ∈ t := by
  unfold get_tail at h
  simp only [List.mem_reverse] at h
  have h1 := (List.dropWhile_sublist _).subset h
  rw [List.mem_reverse] at h1
  exact (List.dropWhile_sublist _).subset (List.mem_of_mem_take h1)

theorem strstr_single_absent (s : Str) (x : Char) (h : x ∉ s) : strstr s [x] = none := by
  rw [strstr_eq_none]
  intro k
  rw [isPrefixOf_false_iff]
  intro hp
  obtain ⟨r, hr⟩ := hp
  have : x ∈ s.drop k := by
    rw [← hr]
    simp
  exact h (List.mem_of_mem_drop this)

/-- A line without `:` and `#` whose opcode starts with none of `.`, `#`, `/`
is an instruction candidate. -/
theorem is_insn_of_clean (t : Str) (hc : ':' ∉ t) (hh : '#' ∉ t)
    (h1 : opecode_with t ".".toList = false) (h2 : opecode_with t "/".toList = false) :
    is_insn t = true := by
  have a : strstr (get_tail t) ":".toList = none :=
    strstr_single_absent _ _ fun h => hc (mem_get_tail t _ h)
  have b : opecode_with t "#".toList = false := by
    cases hb : opecode_with t "#".toList with
    | false => rfl
    | true =>
      exfalso
      simp only [opecode_with, starts_with] at hb
      obtain ⟨r, hr⟩ := List.isPrefixOf_iff_prefix.mp hb
      have : '#' ∈ t.dropWhile fun c => c == ' ' || c == '\t' := by
        rw [← hr]
        exact List.mem_append_left _ (by decide)
      exact hh ((List.dropWhile_sublist _).subset this)
  have d : ends_with t "#_volatile_".toList = false := by
    cases hb : ends_with t "#_volatile_".toList with
    | false => rfl
    | true =>
      exfalso
      simp only [ends_with] at hb
      obtain ⟨r, hr⟩ := List.isSuffixOf_iff_suffix.mp hb
      apply hh
      rw [← hr]
      exact List.mem_append_right _ (by decide)
  simp only [is_insn, a, Option.isNone_none, Bool.true_or, h1, b, h2, d, Bool.not_false,
    Bool.and_self]

theorem replace_all_cons_other (frm rep : Str) (x : Char) (cs : Str)
    (h : frm.head? ≠ some x) (hne : frm ≠ []) :
    replace_all frm rep (x :: cs) = x :: replace_all frm rep cs := by
  have : frm.isPrefixOf (x :: cs) = false := by
    cases frm with
    | nil => exact absurd rfl hne
    | cons f0 f =>
      rw [isPrefixOf_false_iff, List.cons_prefix_cons]
      rintro ⟨rfl, _⟩
      exact h rfl
  rw [replace_all_cons, this]
  rfl

/-- The four passes leave a character other than `%` in front of a line where
it is. -/
theorem sp_replaced_cons (x : Char) (cs : Str) (hx : x ≠ '%') :
    sp_replaced (x :: cs) = x :: sp_replaced cs := by
  have hh : ∀ frm rep : Str, frm.head? = some '%' → ∀ s : Str,
      replace_all frm rep (x :: s) = x :: replace_all frm rep s := by
    intro frm rep hf s
    apply replace_all_cons_other
    · rw [hf]
      intro h
      exact hx (Option.some.inj h).symm
    · intro h
      rw [h] at hf
      cases hf
  simp only [sp_replaced, sp_pairs, List.foldl_cons, List.foldl_nil]
  rw [hh "%rsp".toList (_get_frame_ptr 8) rfl, hh "%esp".toList (_get_frame_ptr 4) rfl,
    hh "%sp".toList (_get_frame_ptr 2) rfl, hh "%spl".toList (_get_frame_ptr 1) rfl]

/-- A template line made of a tab, a letter other than `p` and a rest without
`:` and `#` is an instruction candidate, and what the substitution pass makes
of it neither is a push or pop nor mentions the stack pointer. -/
theorem template_line_clean (x : Char) (rest : Str) (hx : x ∈ "msxa".toList)
    (hc : ':' ∉ rest) (hh : '#' ∉ rest) :
    is_insn ('\t' :: x :: rest) = true
      ∧ is_push_pop (sp_pass_line ('\t' :: x :: rest)) = false
      ∧ mentions_sp (sp_pass_line ('\t' :: x :: rest)) = false := by
  have hins : is_insn ('\t' :: x :: rest) = true := by
    apply is_insn_of_clean
    · simp only [List.mem_cons, not_or]
      refine ⟨by decide, ?_, hc⟩
      rintro rfl
      revert hx
      decide
    · simp only [List.mem_cons, not_or]
      refine ⟨by decide, ?_, hh⟩
      rintro rfl
      revert hx
      decide
    · simp only [String.toList, List.mem_cons, List.mem_singleton, List.not_mem_nil,
        or_false] at hx
      rcases hx with rfl | rfl | rfl | rfl <;> rfl
    · simp only [String.toList, List.mem_cons, List.mem_singleton, List.not_mem_nil,
        or_false] at hx
      rcases hx with rfl | rfl | rfl | rfl <;> rfl
  have hx' : x ≠ '%' := by
    rintro rfl
    revert hx
    decide
  refine ⟨hins, ?_, ?_⟩
  · simp only [sp_pass_line, hins, ↓reduceIte]
    rw [sp_replaced_cons _ _ (by decide), sp_replaced_cons _ _ hx']
    simp only [String.toList, List.mem_cons, List.mem_singleton, List.not_mem_nil,
      or_false] at hx
    rcases hx with rfl | rfl | rfl | rfl <;> rfl
  · simp only [sp_pass_line, hins, ↓reduceIte]
    exact (replace_sp_line_eq _).2

/-! ## The safe-stack replacement and the stack pointer -/

/-- The round of `process_asm` on a push line, with room for the lines of the
template. -/
theorem push_round (line op1 : Str) (c : Char) (m : s_asm_data)
    (hins : is_insn line = true) (hop : get_oparand line 1 = .ok op1)
    (hpush : opecode_with line "push".toList = true) (hty : get_optype line 4 = .ok c)
    (hroom : m.new_lines.length + (if op1.head? = some '(' then 9 else 5)
      ≤ 2 * m.lines.length) :
    process_asm_line line m
      = .ok (with_appended m (stored_line ("#-".toList ++ line) :: push_template c op1)) := by
  have hdl := dl_start_excl line "ush".toList 'p' (by decide) hpush
  have hcnt : opecode_with line "popcnt".toList = false :=
    opecode_with_second line "sh".toList "pcnt".toList 'p' 'u' 'o' (by decide) hpush
  have h1 : m.new_lines.length < 2 * m.lines.length := by
    split at hroom <;> omega
  rw [process_asm_line_insn line m hdl hins h1,
    process_asm_cp_push_pop line _ (by simp only [hpush, Bool.true_or]), Res.bind_ok]
  simp only [hpush, hcnt, Bool.true_or, Bool.false_eq_true, ↓reduceIte]
  by_cases hmem : op1.head? = some '('
  · rw [if_pos hmem] at hroom
    exact replace_push_mem line op1 _ c m hop hpush hty hmem hroom
  · rw [if_neg hmem] at hroom
    exact replace_push_plain line op1 _ c m hop hpush hty hmem hroom

/-- The round of `process_asm` on a pop line. -/
theorem pop_round (line op1 : Str) (c : Char) (m : s_asm_data)
    (hins : is_insn line = true) (hop : get_oparand line 1 = .ok op1)
    (hpop : opecode_with line "pop".toList = true)
    (hcnt : opecode_with line "popcnt".toList = false) (hty : get_optype line 3 = .ok c) :
    (op1.head? ≠ some '(' → m.new_lines.length + 5 ≤ 2 * m.lines.length →
        process_asm_line line m
          = .ok (with_appended m (stored_line ("#-".toList ++ line) :: pop_template c op1)))
      ∧ (op1.head? = some '(' → process_asm_line line m = .fatal .undefined) := by
  have hdl := dl_start_excl line "op".toList 'p' (by decide) hpop
  have hpp : (opecode_with line "push".toList || opecode_with line "pop".toList) = true := by
    simp only [hpop, Bool.or_true]
  constructor
  · intro hmem hroom
    rw [process_asm_line_insn line m hdl hins (by omega),
      process_asm_cp_push_pop line _ hpp, Res.bind_ok]
    simp only [hpp, hcnt, Bool.false_eq_true, ↓reduceIte]
    exact replace_pop_plain line op1 _ c m hop hpop hty hmem hroom
  · intro hmem
    by_cases h1 : m.new_lines.length < 2 * m.lines.length
    · rw [process_asm_line_insn line m hdl hins h1,
        process_asm_cp_push_pop line _ hpp, Res.bind_ok]
      simp only [hpp, hcnt, Bool.false_eq_true, ↓reduceIte]
      exact replace_pop_mem line op1 c _ hop hpop hty hmem
    · simp only [process_asm_line, _insert_new_line, h1, ↓reduceIte, Res.bind_def]
      rfl

theorem type_char_clean (line : Str) (k : Nat) (c : Char) (h : get_optype line k = .ok c) :
    ':' ≠ c ∧ '#' ≠ c := by
  rcases get_optype_char line k c h with rfl | hc
  · exact ⟨by decide, by decide⟩
  · constructor
    · rintro rfl
      revert hc
      decide
    · rintro rfl
      revert hc
      decide

theorem adjust_line_clean (opc : Str) (c : Char) (hopc : opc = "sub   $".toList ∨ opc = "add    $".toList) :
    is_push_pop (sp_pass_line ("\t".toList ++ opc ++ Nat.toDigits 10 (optype_bytes c)
        ++ ", %rsp".toList)) = false
      ∧ mentions_sp (sp_pass_line ("\t".toList ++ opc ++ Nat.toDigits 10 (optype_bytes c)
        ++ ", %rsp".toList)) = false := by
  unfold optype_bytes
  rcases hopc with rfl | rfl <;> split_ifs <;> decide

/-! ## The operand parser on well-formed operands -/

theorem get_oparand_copy_cons (fuel depth : Nat) (c : Char) (rest acc : Str) :
    get_oparand_copy (fuel + 1) depth (c :: rest) acc
      = if (if c = ')' then ((if c = '(' then (depth + 1) % 2 ^ 32 else depth) + 2 ^ 32 - 1)
              % 2 ^ 32 else (if c = '(' then (depth + 1) % 2 ^ 32 else depth)) = 0
            ∧ (c = Char.ofNat 0 ∨ c ∈ " ,\t\n#;/".toList)
        then .ok (acc.reverse, c :: rest)
        else get_oparand_copy fuel
          (if c = ')' then ((if c = '(' then (depth + 1) % 2 ^ 32 else depth) + 2 ^ 32 - 1)
              % 2 ^ 32 else (if c = '(' then (depth + 1) % 2 ^ 32 else depth))
          rest (c :: acc) := rfl

/-- Below `2 ^ 32` the counter of the copy loop is the number of open
parentheses. -/
theorem paren_depth_eq (d d' : Nat) (c : Char) (h : paren_depth d c = some d')
    (hd : d + 1 < 2 ^ 32) :
    (if c = ')' then ((if c = '(' then (d + 1) % 2 ^ 32 else d) + 2 ^ 32 - 1) % 2 ^ 32
      else (if c = '(' then (d + 1) % 2 ^ 32 else d)) = d' := by
  have e : (2 : Nat) ^ 32 = 4294967296 := by norm_num
  rw [e] at hd ⊢
  unfold paren_depth at h
  by_cases h1 : c = '('
  · have h2 : c ≠ ')' := by rw [h1]; decide
    simp only [h1, ↓reduceIte, Option.some.injEq] at h
    simp only [h1, ↓reduceIte, show ¬ ('(' = ')') by decide]
    omega
  · by_cases h2 : c = ')'
    · have hne : ¬ (')' = '(') := by decide
      simp only [h2, hne, ↓reduceIte] at h
      by_cases h3 : d = 0
      · simp only [h3, ↓reduceIte] at h
        cases h
      · simp only [h3, ↓reduceIte, Option.some.injEq] at h
        simp only [h2, ↓reduceIte, hne]
        omega
    · simp only [h1, h2, ↓reduceIte, Option.some.injEq] at h
      simp only [h1, h2, ↓reduceIte]
      exact h

theorem is_operand_end_iff (c : Char) :
    (c = Char.ofNat 0 ∨ c ∈ " ,\t\n#;/".toList) ↔ is_operand_end c = true := by
  simp only [is_operand_end, Bool.or_eq_true, beq_iff_eq, List.contains_iff_exists_mem_beq]
  constructor
  · rintro (h | h)
    · exact Or.inl h
    · exact Or.inr ⟨c, h, rfl⟩
  · rintro (h | ⟨x, hx, hxc⟩)
    · exact Or.inl h
    · exact Or.inr (hxc ▸ hx)

/-- The copy loop runs through a well-nested text and stops behind it, at
the end of the line or at a character that ends an operand. -/
theorem get_oparand_copy_run (s : Str) (f d : Nat) (rest acc : Str)
    (hs : well_nested d s = true) (hd : d + s.length + 1 < 2 ^ 32)
    (hrest : rest = [] ∨ ∃ c r, rest = c :: r ∧ is_operand_end c = true ∧ c ≠ '(' ∧ c ≠ ')') :
    get_oparand_copy (s.length + f + 1) d (s ++ rest) acc
      = .ok ((s.reverse ++ acc).reverse, rest) := by
  induction s generalizing f d acc with
  | nil =>
    have hd0 : d = 0 := by simpa [well_nested] using hs
    subst hd0
    rcases hrest with rfl | ⟨c, r, rfl, hc, h1, h2⟩
    · simp [get_oparand_copy]
    · simp only [List.length_nil, Nat.zero_add, List.nil_append, List.reverse_nil]
      rw [get_oparand_copy_cons]
      simp only [h1, h2, ↓reduceIte, is_operand_end_iff, hc, and_self]
  | cons c cs ih =>
    unfold well_nested at hs
    cases hp : paren_depth d c with
    | none => simp only [hp] at hs; cases hs
    | some d' =>
      simp only [hp, Bool.and_eq_true, Bool.not_eq_true', Bool.and_eq_false_iff,
        beq_eq_false_iff_ne] at hs
      obtain ⟨hstop, hcs⟩ := hs
      simp only [List.length_cons] at hd
      have hdd := paren_depth_eq d d' c hp (by omega)
      have hd' : d' ≤ d + 1 := by
        unfold paren_depth at hp
        split_ifs at hp <;> cases hp <;> omega
      have e : (c :: cs).length + f + 1 = (cs.length + f + 1) + 1 := by
        simp only [List.length_cons]
        omega
      rw [e, List.cons_append, get_oparand_copy_cons, hdd]
      have hno : ¬ (d' = 0 ∧ (c = Char.ofNat 0 ∨ c ∈ " ,\t\n#;/".toList)) := by
        rw [is_operand_end_iff]
        rintro ⟨h0, hc⟩
        rcases hstop with h | h
        · exact h h0
        · rw [hc] at h
          cases h
      rw [if_neg hno, ih f d' (c :: acc) hcs (by omega)]
      simp only [List.reverse_cons, List.append_assoc, List.singleton_append]

theorem dropWhile_all_append (p : Char → Bool) (a b : Str) (ha : a.all p = true) :
    (a ++ b).dropWhile p = b.dropWhile p := by
  induction a with
  | nil => rfl
  | cons x xs ih =>
    simp only [List.all_cons, Bool.and_eq_true] at ha
    rw [List.cons_append, List.dropWhile_cons_of_pos ha.1, ih ha.2]

/-- A well-formed operand starts with a character that no skipping loop of
`get_oparand` passes over. -/
theorem well_formed_head (op : Str) (h : well_formed_operand op = true) :
    op.length < OP_SIZE ∧ well_nested 0 op = true
      ∧ ∀ c, op.head? = some c → is_operand_end c = false := by
  simp only [well_formed_operand, Bool.and_eq_true, Bool.not_eq_true', List.isEmpty_eq_false,
    decide_eq_true_eq] at h
  obtain ⟨⟨-, hlen⟩, hn⟩ := h
  refine ⟨hlen, hn, ?_⟩
  intro c hc
  cases op with
  | nil => cases hc
  | cons x xs =>
    simp only [List.head?_cons, Option.some.injEq] at hc
    subst hc
    unfold well_nested at hn
    cases hp : paren_depth 0 x with
    | none => simp only [hp] at hn; cases hn
    | some d' =>
      simp only [hp, Bool.and_eq_true, Bool.not_eq_true', Bool.and_eq_false_iff,
        beq_eq_false_iff_ne] at hn
      rcases hn.1 with h0 | h0
      · cases he : is_operand_end x with
        | false => rfl
        | true =>
          exfalso
          apply h0
          unfold paren_depth at hp
          by_cases h1 : x = '('
          · rw [h1] at he
            exact absurd he (by decide)
          · by_cases h2 : x = ')'
            · rw [h2] at he
              exact absurd he (by decide)
            · simp only [h1, h2, ↓reduceIte, Option.some.injEq] at hp
              exact hp.symm
      · exact h0

theorem is_blank_spec (c : Char) (h : is_blank c = true) :
    " \t\n".toList.contains c = true ∧ " ,\t\n".toList.contains c = true
      ∧ c.isAlpha = false := by
  simp only [is_blank, Bool.or_eq_true, beq_iff_eq] at h
  rcases h with rfl | rfl <;> decide

theorem alpha_not_space (x : Char) (ha : x.isAlpha = true) :
    " \t\n".toList.contains x = false := by
  cases hs : " \t\n".toList.contains x with
  | false => rfl
  | true =>
    exfalso
    simp only [List.contains_iff_exists_mem_beq, beq_iff_eq] at hs
    obtain ⟨y, hy, hyx⟩ := hs
    subst hyx
    revert ha
    revert hy
    revert x
    decide

theorem all_blank_imp (s : Str) (h : s.all is_blank = true) :
    s.all (fun c => " \t\n".toList.contains c) = true
      ∧ s.all (fun c => " ,\t\n".toList.contains c) = true := by
  simp only [List.all_eq_true] at h ⊢
  exact ⟨fun c hc => (is_blank_spec c (h c hc)).1, fun c hc => (is_blank_spec c (h c hc)).2.1⟩

theorem operand_end_of_sep (c : Char) (h : " ,\t\n".toList.contains c = true) :
    is_operand_end c = true := by
  simp only [List.contains_iff_exists_mem_beq, beq_iff_eq] at h
  obtain ⟨x, hx, hxc⟩ := h
  subst hxc
  revert hx
  revert c
  decide

/-- The first round of the operand loop on a gap of blanks followed by a
well-formed operand. -/
theorem get_oparand_loop_first (gap op rest : Str) (num : Nat) (prev : Str)
    (hgap : gap.all (fun c => " ,\t\n".toList.contains c) = true)
    (hop : well_formed_operand op = true)
    (hrest : rest = [] ∨ ∃ c r, rest = c :: r ∧ is_operand_end c = true ∧ c ≠ '(' ∧ c ≠ ')') :
    get_oparand_loop (num + 1) (gap ++ (op ++ rest)) prev = get_oparand_loop num rest op := by
  obtain ⟨hlen, hn, hhead⟩ := well_formed_head op hop
  have hskip : _skip_seps (gap ++ (op ++ rest)) " ,\t\n".toList = op ++ rest := by
    unfold _skip_seps
    rw [dropWhile_all_append _ _ _ hgap]
    apply dropWhile_head
    intro c hc
    cases op with
    | nil => simp [well_formed_operand] at hop
    | cons x xs =>
      simp only [List.cons_append, List.head?_cons, Option.some.injEq] at hc
      subst hc
      cases hs : " ,\t\n".toList.contains x with
      | false => rfl
      | true =>
        have := operand_end_of_sep x hs
        rw [hhead x rfl] at this
        cases this
  have hcopy := get_oparand_copy_run op (OP_SIZE - op.length - 1) 0 rest [] hn
    (by
      have e : (2 : Nat) ^ 32 = 4294967296 := by norm_num
      rw [e]
      simp only [OP_SIZE] at hlen
      omega) hrest
  have e : op.length + (OP_SIZE - op.length - 1) + 1 = OP_SIZE := by omega
  rw [e] at hcopy
  simp only [List.append_nil, List.reverse_reverse] at hcopy
  simp only [get_oparand_loop, hskip, hcopy, Res.bind_def, Res.bind_ok]

/-- C17: on a line made of blanks, an alphabetic opcode, at least one blank
and a well-formed operand (not empty, shorter than 1024 characters, with
balanced parentheses, and with the characters that end an operand only
inside parentheses), `get_oparand` returns the operand for `num = 1`; on
such a line continued by a comma, blanks and a second well-formed operand it
returns the first operand for `num = 1` and the second for `num = 2`. -/
theorem get_oparand_round_trip (pre opc gap op1 : Str)
    (hpre : pre.all is_blank = true) (hopc : opc.all Char.isAlpha = true) (hopc' : opc ≠ [])
    (hgap : gap.all is_blank = true) (hgap' : gap ≠ [])
    (h1 : well_formed_operand op1 = true) :
    get_oparand (pre ++ opc ++ gap ++ op1) 1 = .ok op1
      ∧ ∀ gap2 op2 : Str, gap2.all is_blank = true → well_formed_operand op2 = true →
          get_oparand (pre ++ opc ++ gap ++ op1 ++ ",".toList ++ gap2 ++ op2) 1 = .ok op1
            ∧ get_oparand (pre ++ opc ++ gap ++ op1 ++ ",".toList ++ gap2 ++ op2) 2
              = .ok op2 := by
  have hstart : ∀ rest : Str,
      List.dropWhile Char.isAlpha (_skip_spaces (pre ++ (opc ++ (gap ++ rest))))
        = gap ++ rest := by
    intro rest
    unfold _skip_spaces
    rw [dropWhile_all_append _ _ _ (all_blank_imp pre hpre).1]
    have h2 : (opc ++ (gap ++ rest)).dropWhile (fun c => " \t\n".toList.contains c)
        = opc ++ (gap ++ rest) := by
      apply dropWhile_head
      intro c hc
      cases opc with
      | nil => exact absurd rfl hopc'
      | cons x xs =>
        simp only [List.cons_append, List.head?_cons, Option.some.injEq] at hc
        subst hc
        simp only [List.all_cons, Bool.and_eq_true] at hopc
        exact alpha_not_space x hopc.1
    rw [h2, dropWhile_all_append _ _ _ hopc]
    apply dropWhile_head
    intro c hc
    cases gap with
    | nil => exact absurd rfl hgap'
    | cons x xs =>
      simp only [List.cons_append, List.head?_cons, Option.some.injEq] at hc
      subst hc
      simp only [List.all_cons, Bool.and_eq_true] at hgap
      exact (is_blank_spec x hgap.1).2.2
  have hg := (all_blank_imp gap hgap).2
  constructor
  · have := hstart op1
    simp only [get_oparand, true_or, ↓reduceIte, List.append_assoc, this]
    have h := get_oparand_loop_first gap op1 [] 0 [] hg h1 (Or.inl rfl)
    rw [List.append_nil] at h
    rw [h]
    rfl
  · intro gap2 op2 hgap2 h2
    have hs := hstart (op1 ++ (",".toList ++ (gap2 ++ op2)))
    have hcomma : (",".toList ++ (gap2 ++ op2) = [] ∨ ∃ c r, ",".toList ++ (gap2 ++ op2) = c :: r
        ∧ is_operand_end c = true ∧ c ≠ '(' ∧ c ≠ ')') :=
      Or.inr ⟨',', gap2 ++ op2, rfl, by decide, by decide, by decide⟩
    have hg2 : (",".toList ++ gap2).all (fun c => " ,\t\n".toList.contains c) = true := by
      rw [List.all_append, (all_blank_imp gap2 hgap2).2]
      decide
    have ha := get_oparand_loop_first gap op1 (",".toList ++ (gap2 ++ op2)) 0 [] hg h1 hcomma
    have hb := get_oparand_loop_first gap op1 (",".toList ++ (gap2 ++ op2)) 1 [] hg h1 hcomma
    have hc := get_oparand_loop_first (",".toList ++ gap2) op2 [] 0 op1 hg2 h2 (Or.inl rfl)
    simp only [List.append_nil, List.append_assoc] at hc
    constructor
    · simp only [get_oparand, true_or, ↓reduceIte, List.append_assoc, hs, ha]
      rfl
    · simp only [get_oparand, or_true, ↓reduceIte, List.append_assoc, hs, hb, hc]
      rfl

theorem get_oparand_round_trip_witness :
    get_oparand ("\t".toList ++ "movq".toList ++ " ".toList ++ "-24(%rbp,%rax,8)".toList) 1
        = .ok "-24(%rbp,%rax,8)".toList
      ∧ get_oparand "\tmovq -24(%rbp,%rax,8), %rcx".toList 2 = .ok "%rcx".toList
      ∧ well_formed_operand "-24(%rbp,%rax,8)".toList = true
      ∧ well_formed_operand "foo bar".toList = false
      ∧ well_formed_operand "(%rax".toList = false :=
  ⟨(get_oparand_round_trip "\t".toList "movq".toList " ".toList "-24(%rbp,%rax,8)".toList
      (by decide) (by decide) (by decide) (by decide) (by decide) (by decide!)).1,
    ((get_oparand_round_trip "\t".toList "movq".toList " ".toList "-24(%rbp,%rax,8)".toList
      (by decide) (by decide) (by decide) (by decide) (by decide) (by decide!)).2
        " ".toList "%rcx".toList (by decide) (by decide!)).2,
    by decide!, by decide!, by decide!⟩

/-- C18, failing input: on `pushq (%rax` the copy loop of `get_oparand` passes
the end of the line with a parenthesis open and reads behind it.  The
assertion is reached only when the buffer fills up: by an unclosed
parenthesis with 1022 or more characters behind it, and by an operand of 1024
characters; an operand of 1023 characters is returned. -/
theorem unclosed_parenthesis_reads_past_line :
    get_oparand "pushq (%rax".toList 1 = .fatal .undefined
      ∧ get_oparand ("pushq (".toList ++ List.replicate 1021 'a') 1 = .fatal .undefined
      ∧ get_oparand ("pushq (".toList ++ List.replicate 1022 'a') 1 = .fatal .assertion
      ∧ get_oparand ("pushq ".toList ++ List.replicate 1024 'a') 1 = .fatal .assertion
      ∧ get_oparand ("pushq ".toList ++ List.replicate 1023 'a') 1
        = .ok (List.replicate 1023 'a') := by
  decide!

/-! ## The classifier on rip-relative operands -/

theorem symbol_char_plain (c : Char) (h : is_symbol_char c = true) :
    c ≠ '(' ∧ c ≠ ')' ∧ is_operand_end c = false ∧ c ≠ '@' ∧ c ≠ '+' ∧ c ≠ ' ' := by
  have key : ∀ t : Char, is_symbol_char t = false → c ≠ t := by
    intro t ht hc
    rw [hc, ht] at h
    cases h
  refine ⟨key _ (by decide), key _ (by decide), ?_, key _ (by decide), key _ (by decide),
    key _ (by decide)⟩
  cases he : is_operand_end c with
  | false => rfl
  | true =>
    exfalso
    rw [← is_operand_end_iff] at he
    rcases he with he | he
    · exact key _ (by decide) he
    · simp only [String.toList, List.mem_cons, List.mem_singleton, List.not_mem_nil,
        or_false] at he
      rcases he with he | he | he | he | he | he | he <;> exact key _ (by decide) he

/-- A text of characters that are no parentheses and end no operand leaves
the nesting as it is. -/
theorem well_nested_plain (X Y : Str) (d : Nat)
    (hX : ∀ c ∈ X, c ≠ '(' ∧ c ≠ ')' ∧ is_operand_end c = false) :
    well_nested d (X ++ Y) = well_nested d Y := by
  induction X with
  | nil => rfl
  | cons x xs ih =>
    obtain ⟨h1, h2, h3⟩ := hX x (List.mem_cons_self _ _)
    have hp : paren_depth d x = some d := by
      simp only [paren_depth, h1, h2, ↓reduceIte]
    rw [List.cons_append, well_nested]
    simp only [hp, h3, Bool.and_false, Bool.not_false, Bool.true_and]
    exact ih fun c hc => hX c (List.mem_cons_of_mem _ hc)

theorem is_mov_lea_spec (opc : Str) (h : is_mov_lea opc = true) :
    opc.all Char.isAlpha = true ∧ opc ≠ []
      ∧ ∀ rest, (!opecode_with (opc ++ rest) "mov".toList
          && !opecode_with (opc ++ rest) "lea".toList) = false := by
  simp only [is_mov_lea, Bool.and_eq_true, Bool.or_eq_true] at h
  obtain ⟨ha, hs⟩ := h
  have hne : opc ≠ [] := by
    rintro rfl
    rcases hs with hs | hs <;> cases hs
  refine ⟨ha, hne, fun rest => ?_⟩
  have hd : (opc ++ rest).dropWhile (fun c => c == ' ' || c == '\t') = opc ++ rest := by
    apply dropWhile_head
    intro c hc
    cases opc with
    | nil => exact absurd rfl hne
    | cons x xs =>
      simp only [List.cons_append, List.head?_cons, Option.some.injEq] at hc
      subst hc
      simp only [List.all_cons, Bool.and_eq_true] at ha
      have := alpha_not_space x ha.1
      cases hb : (x == ' ' || x == '\t') with
      | false => rfl
      | true =>
        exfalso
        simp only [Bool.or_eq_true, beq_iff_eq] at hb
        rcases hb with rfl | rfl <;> exact absurd this (by decide)
  have hpre : ∀ p : Str, starts_with opc p = true → opecode_with (opc ++ rest) p = true := by
    intro p hp
    simp only [opecode_with, hd, starts_with] at hp ⊢
    exact List.isPrefixOf_iff_prefix.mpr
      ((List.isPrefixOf_iff_prefix.mp hp).trans (List.prefix_append _ _))
  rcases hs with hs | hs
  · simp only [hpre _ hs, Bool.not_true, Bool.false_and]
  · simp only [hpre _ hs, Bool.not_true, Bool.and_false]

theorem strstr_append_none (A B q : Str) (c : Char) (hq : q.head? = some c) (hA : c ∉ A)
    (hB : strstr B q = none) : strstr (A ++ B) q = none := by
  induction A with
  | nil => exact hB
  | cons a A ih =>
    have hne : q.isPrefixOf (a :: (A ++ B)) = false := by
      cases q with
      | nil => cases hq
      | cons q0 q' =>
        simp only [List.head?_cons, Option.some.injEq] at hq
        subst hq
        rw [isPrefixOf_false_iff, List.cons_prefix_cons]
        rintro ⟨rfl, _⟩
        exact hA (List.mem_cons_self _ _)
    rw [List.cons_append, strstr, hne, ih fun h => hA (List.mem_cons_of_mem _ h)]
    rfl

theorem strstr_some_of_prefix (A B q : Str) (h : q.isPrefixOf B = true) :
    (strstr (A ++ B) q).isSome = true := by
  cases hs : strstr (A ++ B) q with
  | some i => rfl
  | none =>
    have := (strstr_eq_none _ _).mp hs A.length
    rw [List.drop_left, h] at this
    cases this

/-- The index of the first `@` behind a text without `@`. -/
theorem strstr_at (sym rest : Str) (h : '@' ∉ sym) :
    strstr (sym ++ '@' :: rest) "@".toList = some sym.length := by
  induction sym with
  | nil => simp [strstr]
  | cons x xs ih =>
    have hx : x ≠ '@' := fun e => h (e ▸ List.mem_cons_self _ _)
    have hne : "@".toList.isPrefixOf (x :: (xs ++ '@' :: rest)) = false := by
      rw [isPrefixOf_false_iff]
      show ¬ ('@' :: [] <+: x :: (xs ++ '@' :: rest))
      rw [List.cons_prefix_cons]
      rintro ⟨e, _⟩
      exact hx e.symm
    rw [List.cons_append, strstr, hne, ih fun h' => h (List.mem_cons_of_mem _ h')]
    rfl

theorem starts_with_append_false (X Y p : Str) (h : starts_with X p = false)
    (hY : ∀ c, Y.head? = some c → c ∉ p) (hne : Y ≠ []) :
    starts_with (X ++ Y) p = false := by
  simp only [starts_with] at h ⊢
  rw [isPrefixOf_false_iff] at h ⊢
  intro hp
  rcases prefix_split p X Y hp with h1 | ⟨q', hq', rfl, h2⟩
  · exact h h1
  · cases Y with
    | nil => exact hne rfl
    | cons y ys =>
      cases q' with
      | nil => exact hq' rfl
      | cons d q'' =>
        rw [List.cons_prefix_cons] at h2
        obtain ⟨rfl, _⟩ := h2
        exact hY d rfl (by simp)

/-- The operand that `get_oparand` finds in `opc X(%rip), %rax`. -/
theorem get_oparand_rip_line (opc X : Str) (hopc : is_mov_lea opc = true) (hne : X ≠ [])
    (hX : ∀ c ∈ X, c ≠ '(' ∧ c ≠ ')' ∧ is_operand_end c = false)
    (hlen : X.length + 6 < OP_SIZE) :
    get_oparand (rip_line opc X) 1 = .ok (X ++ "(%rip)".toList) := by
  obtain ⟨ha, hone, -⟩ := is_mov_lea_spec opc hopc
  have hwf : well_formed_operand (X ++ "(%rip)".toList) = true := by
    have h6 : "(%rip)".toList.length = 6 := rfl
    have h1 : (X ++ "(%rip)".toList).isEmpty = false := by
      cases X with
      | nil => exact absurd rfl hne
      | cons x xs => rfl
    simp only [well_formed_operand, h1, Bool.not_false, Bool.true_and, Bool.and_eq_true,
      decide_eq_true_eq, List.length_append, h6, well_nested_plain X _ 0 hX]
    exact ⟨hlen, by decide⟩
  have e : rip_line opc X = [] ++ opc ++ " ".toList ++ (X ++ "(%rip)".toList) ++ ",".toList
      ++ " ".toList ++ "%rax".toList := by
    simp only [rip_line, List.nil_append, List.append_assoc]
    rfl
  rw [e]
  exact ((get_oparand_round_trip [] opc " ".toList _ (by decide) ha hone (by decide)
    (by decide) hwf).2 " ".toList "%rax".toList (by decide) (by decide)).1

/-- The tests of the classifier that come before the symbol lists, on the
line `opc X(%rip), %rax`. -/
theorem classifier_front (opc X : Str) (hopc : is_mov_lea opc = true)
    (hne : X ≠ []) (hX : ∀ c ∈ X, c ≠ '(' ∧ c ≠ ')' ∧ is_operand_end c = false)
    (hlen : X.length + 6 < OP_SIZE) :
    (!opecode_with (rip_line opc X) "mov".toList
        && !opecode_with (rip_line opc X) "lea".toList) = false
      ∧ ((strstr (rip_line opc X) "( %rip ),".toList).isSome
          || (strstr (rip_line opc X) "(%rip),".toList).isNone) = false
      ∧ get_oparand (rip_line opc X) 1 = .ok (X ++ "(%rip)".toList)
      ∧ starts_with (X ++ "(%rip)".toList) "_dl_runtime_resolve".toList
          = starts_with X "_dl_runtime_resolve".toList
      ∧ ¬ (X ++ "(%rip)".toList).length < "(%rip)".toList.length
      ∧ (X ++ "(%rip)".toList).take ((X ++ "(%rip)".toList).length - "(%rip)".toList.length)
          = X := by
  obtain ⟨ha, hone, hml⟩ := is_mov_lea_spec opc hopc
  have h6 : "(%rip)".toList.length = 6 := rfl
  refine ⟨?_, ?_, get_oparand_rip_line opc X hopc hne hX hlen, ?_, ?_, ?_⟩
  · have := hml (" ".toList ++ X ++ "(%rip), %rax".toList)
    simpa only [rip_line, List.append_assoc] using this
  · have hparen : '(' ∉ opc ++ " ".toList ++ X := by
      simp only [List.mem_append, not_or]
      refine ⟨⟨?_, by decide⟩, fun h => (hX _ h).1 rfl⟩
      intro h
      have := List.all_eq_true.mp ha _ h
      exact absurd this (by decide)
    have h1 : strstr (rip_line opc X) "( %rip ),".toList = none :=
      strstr_append_none _ _ _ '(' rfl hparen (by decide)
    have h2 := strstr_some_of_prefix (opc ++ " ".toList ++ X) "(%rip), %rax".toList
      "(%rip),".toList (by decide)
    have h2' : (strstr (rip_line opc X) "(%rip),".toList).isSome = true := h2
    rw [h1]
    cases hs : strstr (rip_line opc X) "(%rip),".toList with
    | none => rw [hs] at h2'; cases h2'
    | some i => rfl
  · cases hres : starts_with X "_dl_runtime_resolve".toList with
    | false =>
      exact starts_with_append_false X _ _ hres
        (fun c hc => by
          simp only [String.toList, List.head?_cons, Option.some.injEq] at hc
          subst hc
          decide) (by decide)
    | true =>
      simp only [starts_with] at hres ⊢
      exact List.isPrefixOf_iff_prefix.mpr
        ((List.isPrefixOf_iff_prefix.mp hres).trans (List.prefix_append _ _))
  · simp only [List.length_append, h6]
    omega
  · simp only [List.length_append, h6, Nat.add_sub_cancel]
    exact List.take_left' rfl

theorem is_symbol_spec (sym : Str) (h : is_symbol sym = true) :
    sym ≠ [] ∧ (∀ c ∈ sym, is_symbol_char c = true)
      ∧ (∀ c ∈ sym, c ≠ '(' ∧ c ≠ ')' ∧ is_operand_end c = false)
      ∧ strstr sym "@".toList = none ∧ strchr sym '+' = none := by
  simp only [is_symbol, Bool.and_eq_true, Bool.not_eq_true', List.isEmpty_eq_false,
    List.all_eq_true] at h
  obtain ⟨hne, hall⟩ := h
  refine ⟨hne, hall, fun c hc => ?_, ?_, ?_⟩
  · obtain ⟨h1, h2, h3, -⟩ := symbol_char_plain c (hall c hc)
    exact ⟨h1, h2, h3⟩
  · exact strstr_single_absent sym '@' fun hc => (symbol_char_plain _ (hall _ hc)).2.2.2.1 rfl
  · exact strchr_none sym '+' fun x hx => (symbol_char_plain _ (hall _ hx)).2.2.2.2.1

/-- The classifier on `opc sym(%rip), %rax`, for a symbol of fewer than 1018
characters. -/
theorem classify_plain (opc sym : Str) (m : s_asm_data) (hopc : is_mov_lea opc = true)
    (hsym : is_symbol sym = true) (hlen : sym.length + 6 < OP_SIZE) :
    potential_func_addr_taken (rip_line opc sym) m
      = .ok (if starts_with sym "_dl_runtime_resolve".toList = true then false
          else if _in_func_syms sym m = true then true
          else if _in_obj_syms sym m = true then false
          else if starts_with sym ".".toList = true then false
          else internal_prefix sym) := by
  obtain ⟨hne, -, hplain, hat, hplus⟩ := is_symbol_spec sym hsym
  obtain ⟨f1, f2, f3, f4, f5, f6⟩ := classifier_front opc sym hopc hne hplain hlen
  unfold potential_func_addr_taken
  simp only [f1, f2, f3, f4, f5, f6, hat, hplus, Res.bind_def, Res.pure_def, Res.bind_ok,
    Bool.false_eq_true, ↓reduceIte, Option.isSome_none, Bool.or_false, internal_prefix]
  cases starts_with sym "_dl_runtime_resolve".toList <;>
    cases _in_func_syms sym m <;> cases _in_obj_syms sym m <;>
    cases starts_with sym ".".toList <;>
    cases (starts_with sym "__GI__".toList || starts_with sym "_dl_".toList) <;> rfl

/-- The classifier on `opc sym@sfx(%rip), %rax`. -/
theorem classify_at (opc sym sfx : Str) (m : s_asm_data) (hopc : is_mov_lea opc = true)
    (hsym : is_symbol sym = true) (hsfx : sfx.all is_symbol_char = true)
    (hlen : sym.length + sfx.length + 7 < OP_SIZE) :
    potential_func_addr_taken (rip_line opc (at_operand sym sfx)) m
      = .ok (if starts_with (at_operand sym sfx) "_dl_runtime_resolve".toList = true then false
          else if _in_func_syms sym m = true then true
          else if _in_obj_syms sym m = true then false
          else if starts_with sym ".".toList = true then false
          else if starts_with sfx "GOTPCREL".toList = true then true
          else internal_prefix sym) := by
  obtain ⟨hne, hall, hplain, -, hplus⟩ := is_symbol_spec sym hsym
  have hatmem : '@' ∉ sym := fun hc => (symbol_char_plain _ (hall _ hc)).2.2.2.1 rfl
  have hX : ∀ c ∈ at_operand sym sfx, c ≠ '(' ∧ c ≠ ')' ∧ is_operand_end c = false := by
    intro c hc
    simp only [at_operand, List.mem_append] at hc
    rcases hc with (hc | hc) | hc
    · exact hplain c hc
    · simp only [String.toList, List.mem_singleton] at hc
      subst hc
      exact ⟨by decide, by decide, by decide⟩
    · obtain ⟨h1, h2, h3, -⟩ := symbol_char_plain c (List.all_eq_true.mp hsfx c hc)
      exact ⟨h1, h2, h3⟩
  have hXne : at_operand sym sfx ≠ [] := by
    cases sym with
    | nil => exact absurd rfl hne
    | cons x xs => simp [at_operand]
  have hXlen : (at_operand sym sfx).length + 6 < OP_SIZE := by
    have h1 : "@".toList.length = 1 := rfl
    simp only [at_operand, List.length_append, h1]
    omega
  obtain ⟨f1, f2, f3, f4, f5, f6⟩ :=
    classifier_front opc (at_operand sym sfx) hopc hXne hX hXlen
  obtain ⟨k, hk⟩ : ∃ k, sym.length = k + 1 := by
    cases sym with
    | nil => exact absurd rfl hne
    | cons x xs => exact ⟨xs.length, rfl⟩
  have hform : at_operand sym sfx = sym ++ '@' :: sfx := by
    simp only [at_operand, List.append_assoc]
    rfl
  have hat : strstr (at_operand sym sfx) "@".toList = some (k + 1) := by
    rw [hform, strstr_at sym sfx hatmem, hk]
  have hget : ¬ (at_operand sym sfx).get? k = some ' ' := by
    rw [hform, List.get?_eq_getElem?, List.getElem?_append_left (by omega),
      ← List.get?_eq_getElem?]
    intro h
    have := List.get?_mem h
    exact (symbol_char_plain _ (hall _ this)).2.2.2.2.2 rfl
  have htake : (at_operand sym sfx).take (k + 1) = sym := by
    rw [hform, ← hk]
    exact List.take_left' rfl
  have hdrop : (at_operand sym sfx).drop (k + 2) = sfx := by
    have : k + 2 = (sym ++ ['@']).length := by
      simp only [List.length_append, List.length_singleton, hk]
    rw [hform, this, show sym ++ '@' :: sfx = (sym ++ ['@']) ++ sfx by simp]
    exact List.drop_left' rfl
  unfold potential_func_addr_taken
  simp only [f1, f2, f3, f4, f5, f6, hat, hget, htake, hdrop, hplus, Res.bind_def,
    Res.pure_def, Res.bind_ok, Bool.false_eq_true, ↓reduceIte, Option.isSome_none,
    Bool.or_false, internal_prefix]
  cases starts_with (at_operand sym sfx) "_dl_runtime_resolve".toList <;>
    cases _in_func_syms sym m <;> cases _in_obj_syms sym m <;>
    cases starts_with sym ".".toList <;> cases starts_with sfx "GOTPCREL".toList <;>
    cases (starts_with sym "__GI__".toList || starts_with sym "_dl_".toList) <;> rfl

theorem starts_with_at (sym sfx : Str) :
    starts_with (at_operand sym sfx) "_dl_runtime_resolve".toList
      = starts_with sym "_dl_runtime_resolve".toList := by
  have e : at_operand sym sfx = sym ++ ("@".toList ++ sfx) := by
    simp only [at_operand, List.append_assoc]
  rw [e]
  cases hres : starts_with sym "_dl_runtime_resolve".toList with
  | false =>
    exact starts_with_append_false sym _ _ hres
      (fun c hc => by
        simp only [String.toList, List.singleton_append, List.head?_cons,
          Option.some.injEq] at hc
        subst hc
        decide) (by simp)
  | true =>
    simp only [starts_with] at hres ⊢
    exact List.isPrefixOf_iff_prefix.mpr
      ((List.isPrefixOf_iff_prefix.mp hres).trans (List.prefix_append _ _))

/-- A declaration `.type sym, @function` of a document on which `load_syms`
returns puts `sym` into the function list. -/
theorem load_syms_declared (d d' : s_asm_data) (sym : Str)
    (hsym : sym.all is_symbol_char = true)
    (hdecl : decl_line sym "@function".toList ∈ d.lines) (hload : load_syms d = .ok d') :
    _in_func_syms sym d' = true := by
  have hne : d.lines ≠ [] := List.ne_nil_of_mem hdecl
  rw [load_syms_nonempty d hne] at hload
  obtain ⟨-, hd'⟩ := load_syms_loop_of_ok _ _ _ hload
  have hf : func_decl (decl_line sym "@function".toList) = some sym := by
    apply func_decl_line sym _ hsym
    simp only [ends_with]
    apply List.isSuffixOf_iff_suffix.mpr
    refine ⟨".type ".toList ++ sym ++ ", @".toList, ?_⟩
    simp only [decl_line, List.append_assoc]
    rfl
  rw [hd']
  simp only [_in_func_syms, List.nil_append, List.contains_iff_exists_mem_beq, beq_iff_eq]
  exact ⟨sym, List.mem_filterMap.mpr ⟨_, hdecl, hf⟩, rfl⟩

/-- C12 (counterexample): a function symbol of 1018 characters is recorded by
`load_syms`, and the classifier fails the assertion of `get_oparand` on the
`leaq` that takes its address: with `(%rip)` the operand has 1024 characters. -/
theorem long_function_symbol_aborts :
    load_syms (doc_of_lines [decl_line (List.replicate 1018 'a') "@function".toList])
        = .ok { doc_of_lines [decl_line (List.replicate 1018 'a') "@function".toList] with
            func_syms := [List.replicate 1018 'a'] }
      ∧ potential_func_addr_taken (rip_line "leaq".toList (List.replicate 1018 'a'))
          { doc_of_lines [decl_line (List.replicate 1018 'a') "@function".toList] with
            func_syms := [List.replicate 1018 'a'] }
        = .fatal .assertion
      ∧ is_symbol (List.replicate 1018 'a') = true := by
  decide!

/-- C12 (amended): for a symbol made of letters, digits, `_`, `.`, `$` that
does not start with `_dl_runtime_resolve`, declared by a line
`.type sym, @function` of a document on which `load_syms` returns: the symbol
is in the function list, and the classifier returns true for
`opc sym(%rip), %rax` when the symbol has fewer than 1018 characters and for
`opc sym@GOTPCREL(%rip), %rax` when it has fewer than 1009, for every opcode
`opc` of letters that starts with `mov` or `lea`. -/
theorem declared_function_address_taken (d d' : s_asm_data) (opc sym : Str)
    (hopc : is_mov_lea opc = true) (hsym : is_symbol sym = true)
    (hres : starts_with sym "_dl_runtime_resolve".toList = false)
    (hdecl : decl_line sym "@function".toList ∈ d.lines) (hload : load_syms d = .ok d') :
    _in_func_syms sym d' = true
      ∧ (sym.length + 6 < OP_SIZE →
          potential_func_addr_taken (rip_line opc sym) d' = .ok true)
      ∧ (sym.length + 15 < OP_SIZE →
          potential_func_addr_taken (rip_line opc (at_operand sym "GOTPCREL".toList)) d'
            = .ok true) := by
  have hall := (is_symbol_spec sym hsym).2.1
  have hin := load_syms_declared d d' sym (List.all_eq_true.mpr hall) hdecl hload
  refine ⟨hin, fun hlen => ?_, fun hlen => ?_⟩
  · rw [classify_plain opc sym d' hopc hsym hlen]
    simp only [hres, hin, Bool.false_eq_true, ↓reduceIte]
  · rw [classify_at opc sym "GOTPCREL".toList d' hopc hsym (by decide)
      (by
        have : "GOTPCREL".toList.length = 8 := rfl
        rw [this]
        omega), starts_with_at]
    simp only [hres, hin, Bool.false_eq_true, ↓reduceIte]

theorem declared_function_address_taken_witness :
    _in_func_syms "main".toList
        { doc_of [".type main, @function", "main:"] with func_syms := ["main".toList] } = true
      ∧ potential_func_addr_taken "leaq main(%rip), %rax".toList
        { doc_of [".type main, @function", "main:"] with func_syms := ["main".toList] }
        = .ok true
      ∧ potential_func_addr_taken "movq main@GOTPCREL(%rip), %rax".toList
        { doc_of [".type main, @function", "main:"] with func_syms := ["main".toList] }
        = .ok true :=
  have h := declared_function_address_taken (doc_of [".type main, @function", "main:"])
    { doc_of [".type main, @function", "main:"] with func_syms := ["main".toList] }
    "leaq".toList "main".toList (by decide) (by decide) (by decide) (by decide) (by decide!)
  have h' := declared_function_address_taken (doc_of [".type main, @function", "main:"])
    { doc_of [".type main, @function", "main:"] with func_syms := ["main".toList] }
    "movq".toList "main".toList (by decide) (by decide) (by decide) (by decide) (by decide!)
  ⟨h.1, h.2.1 (by decide), h'.2.2 (by decide)⟩

/-- C13 (counterexample): for an object symbol of 1018 characters the
classifier fails the assertion of `get_oparand` instead of returning
false. -/
theorem long_object_symbol_aborts :
    potential_func_addr_taken (rip_line "leaq".toList (List.replicate 1018 'a'))
        { doc_of [] with obj_syms := [List.replicate 1018 'a'] } = .fatal .assertion
      ∧ _in_obj_syms (List.replicate 1018 'a')
        { doc_of [] with obj_syms := [List.replicate 1018 'a'] } = true
      ∧ _in_func_syms (List.replicate 1018 'a')
        { doc_of [] with obj_syms := [List.replicate 1018 'a'] } = false
      ∧ is_symbol (List.replicate 1018 'a') = true := by
  decide!

/-- C13 (amended): for a symbol made of letters, digits, `_`, `.`, `$` that is
in the object list and not in the function list, the classifier returns
false for `opc sym(%rip), %rax` when the symbol has fewer than 1018
characters, and for `opc sym@sfx(%rip), %rax` when symbol and suffix together
have fewer than 1017, whatever the suffix and whatever prefix the symbol
has. -/
theorem object_symbol_not_taken (m : s_asm_data) (opc sym : Str)
    (hopc : is_mov_lea opc = true) (hsym : is_symbol sym = true)
    (hobj : _in_obj_syms sym m = true) (hfun : _in_func_syms sym m = false) :
    (sym.length + 6 < OP_SIZE → potential_func_addr_taken (rip_line opc sym) m = .ok false)
      ∧ ∀ sfx : Str, sfx.all is_symbol_char = true → sym.length + sfx.length + 7 < OP_SIZE →
          potential_func_addr_taken (rip_line opc (at_operand sym sfx)) m = .ok false := by
  refine ⟨fun hlen => ?_, fun sfx hsfx hlen => ?_⟩
  · rw [classify_plain opc sym m hopc hsym hlen]
    simp only [hobj, hfun, Bool.false_eq_true, ↓reduceIte, ite_self]
  · rw [classify_at opc sym sfx m hopc hsym hsfx hlen]
    simp only [hobj, hfun, Bool.false_eq_true, ↓reduceIte, ite_self]

theorem object_symbol_not_taken_witness :
    potential_func_addr_taken "leaq _dl_tab(%rip), %rax".toList
        { doc_of [] with obj_syms := ["_dl_tab".toList] } = .ok false
      ∧ potential_func_addr_taken "movq _dl_tab@GOTPCREL(%rip), %rax".toList
        { doc_of [] with obj_syms := ["_dl_tab".toList] } = .ok false :=
  have h := object_symbol_not_taken { doc_of [] with obj_syms := ["_dl_tab".toList] }
    "leaq".toList "_dl_tab".toList (by decide) (by decide) (by decide) (by decide)
  have h' := object_symbol_not_taken { doc_of [] with obj_syms := ["_dl_tab".toList] }
    "movq".toList "_dl_tab".toList (by decide) (by decide) (by decide) (by decide)
  ⟨h.1 (by decide), h'.2 "GOTPCREL".toList (by decide) (by decide)⟩

/-- C16 (counterexample): for a symbol of 1018 characters that is in neither
list the classifier fails the assertion of `get_oparand` instead of
returning false. -/
theorem long_unlisted_symbol_aborts :
    potential_func_addr_taken (rip_line "leaq".toList (List.replicate 1018 'a')) (doc_of [])
        = .fatal .assertion
      ∧ is_symbol (List.replicate 1018 'a') = true
      ∧ internal_prefix (List.replicate 1018 'a') = false := by
  decide!

/-- C16 (amended): for a symbol made of letters, digits, `_`, `.`, `$`, of
fewer than 1018 characters, that is in neither list and starts with neither
`.` nor `_dl_runtime_resolve`, the classifier returns true for
`opc sym(%rip), %rax` if the symbol starts with `__GI__` or `_dl_`, and false
otherwise. -/
theorem unlisted_symbol_default (m : s_asm_data) (opc sym : Str)
    (hopc : is_mov_lea opc = true) (hsym : is_symbol sym = true)
    (hlen : sym.length + 6 < OP_SIZE)
    (hfun : _in_func_syms sym m = false) (hobj : _in_obj_syms sym m = false)
    (hdot : starts_with sym ".".toList = false)
    (hres : starts_with sym "_dl_runtime_resolve".toList = false) :
    potential_func_addr_taken (rip_line opc sym) m
      = .ok (starts_with sym "__GI__".toList || starts_with sym "_dl_".toList) := by
  rw [classify_plain opc sym m hopc hsym hlen]
  simp only [hres, hobj, hfun, hdot, Bool.false_eq_true, ↓reduceIte, internal_prefix]

theorem unlisted_symbol_default_witness :
    potential_func_addr_taken "leaq _dl_open(%rip), %rax".toList (doc_of []) = .ok true
      ∧ potential_func_addr_taken "leaq __GI__exit(%rip), %rax".toList (doc_of []) = .ok true
      ∧ potential_func_addr_taken "leaq counter(%rip), %rax".toList (doc_of []) = .ok false :=
  ⟨unlisted_symbol_default (doc_of []) "leaq".toList "_dl_open".toList (by decide) (by decide)
      (by decide) (by decide) (by decide) (by decide) (by decide),
    unlisted_symbol_default (doc_of []) "leaq".toList "__GI__exit".toList (by decide)
      (by decide) (by decide) (by decide) (by decide) (by decide) (by decide),
    unlisted_symbol_default (doc_of []) "leaq".toList "counter".toList (by decide) (by decide)
      (by decide) (by decide) (by decide) (by decide) (by decide)⟩

/-- C35 (counterexample): `_dl_runtime_resolve` is in neither list, does not
start with `.` and contains no `+`, and the `mov` of
`_dl_runtime_resolve@GOTPCREL(%rip)` is classified not address-taking.  A
suffix other than `GOTPCREL` that starts with it, as in
`stdout@GOTPCRELX(%rip)`, is classified address-taking.  With a symbol of
1009 characters the operand `sym@GOTPCREL(%rip)` has 1024 and the classifier
fails the assertion of `get_oparand`. -/
theorem runtime_resolve_gotpcrel_not_taken :
    (potential_func_addr_taken "movq _dl_runtime_resolve@GOTPCREL(%rip), %rax".toList
          (doc_of []) = .ok false
      ∧ starts_with "_dl_runtime_resolve".toList ".".toList = false
      ∧ strchr "_dl_runtime_resolve".toList '+' = none)
    ∧ potential_func_addr_taken "movq stdout@GOTPCRELX(%rip), %rax".toList (doc_of [])
        = .ok true
    ∧ potential_func_addr_taken
        (rip_line "movq".toList (at_operand (List.replicate 1009 'a') "GOTPCREL".toList))
        (doc_of []) = .fatal .assertion :=
  ⟨by decide!, by decide!, by decide!⟩

/-- C35 (amended): for a symbol made of letters, digits, `_`, `.`, `$` that is
in neither list and starts with neither `.` nor `_dl_runtime_resolve`, and a
suffix of such characters, symbol and suffix together of fewer than 1017
characters: the classifier returns true for `opc sym@sfx(%rip), %rax` when the
suffix starts with `GOTPCREL`; when it does not, the classifier returns true
if the symbol starts with `__GI__` or `_dl_` and false otherwise. -/
theorem gotpcrel_suffix_taken (m : s_asm_data) (opc sym sfx : Str)
    (hopc : is_mov_lea opc = true) (hsym : is_symbol sym = true)
    (hsfx : sfx.all is_symbol_char = true) (hlen : sym.length + sfx.length + 7 < OP_SIZE)
    (hfun : _in_func_syms sym m = false) (hobj : _in_obj_syms sym m = false)
    (hdot : starts_with sym ".".toList = false)
    (hres : starts_with sym "_dl_runtime_resolve".toList = false) :
    (starts_with sfx "GOTPCREL".toList = true →
        potential_func_addr_taken (rip_line opc (at_operand sym sfx)) m = .ok true)
      ∧ (starts_with sfx "GOTPCREL".toList = false →
        potential_func_addr_taken (rip_line opc (at_operand sym sfx)) m
          = .ok (starts_with sym "__GI__".toList || starts_with sym "_dl_".toList)) := by
  rw [classify_at opc sym sfx m hopc hsym hsfx hlen, starts_with_at]
  constructor
  · intro hg
    simp only [hres, hobj, hfun, hdot, hg, Bool.false_eq_true, ↓reduceIte]
  · intro hg
    simp only [hres, hobj, hfun, hdot, hg, Bool.false_eq_true, ↓reduceIte, internal_prefix]

theorem gotpcrel_suffix_taken_witness :
    potential_func_addr_taken "movq stdout@GOTPCREL(%rip), %rax".toList (doc_of []) = .ok true
      ∧ potential_func_addr_taken "movq errno@GOTTPOFF(%rip), %rax".toList (doc_of [])
        = .ok false :=
  ⟨(gotpcrel_suffix_taken (doc_of []) "movq".toList "stdout".toList "GOTPCREL".toList
      (by decide) (by decide) (by decide) (by decide) (by decide) (by decide) (by decide)
      (by decide)).1 (by decide),
    (gotpcrel_suffix_taken (doc_of []) "movq".toList "errno".toList "GOTTPOFF".toList
      (by decide) (by decide) (by decide) (by decide) (by decide) (by decide) (by decide)
      (by decide)).2 (by decide)⟩

/-! ## The block of `encode_func_addr` -/

theorem frame_ptr_length (n : Nat) : (get_frame_ptr n).length ≤ 4 := by
  unfold get_frame_ptr
  split <;> decide

/-- The function `encode_func_addr` appends its block to the array, given
room for the seventeen lines. -/
theorem encode_func_addr_eq (line D x : Str) (m0 : s_asm_data)
    (hD : get_oparand line 2 = .ok D) (hlen : D.length < OP_SIZE)
    (hroom : m0.new_lines.length + 18 ≤ 2 * m0.lines.length) :
    encode_func_addr line (with_appended m0 [x])
      = .ok (with_appended m0 (x :: encode_block D)) := by
  have e0 := insert_fmt_appended m0 [x]
    "#> ================ by %s():%d".toList [.str "encode_func_addr".toList, .int 494]
    ("#> ================ by encode_func_addr():494".toList) rfl (by decide)
    (by simp only [List.length_cons, List.length_nil]; omega)
  have e1 := insert_fmt_appended m0 ([x, "#> ================ by encode_func_addr():494".toList])
    ("\t".toList ++ "pushq %%r15".toList ++ " #_volatile_".toList) []
    ("\tpushq %r15 #_volatile_".toList) rfl (by decide)
    (by simp only [List.length_cons, List.length_nil]; omega)
  have e2 := insert_fmt_appended m0 ([x, "#> ================ by encode_func_addr():494".toList, "\tpushq %r15 #_volatile_".toList])
    ("\t".toList ++ "movq  %%gs:0x100000, %%r15".toList) []
    ("\tmovq  %gs:0x100000, %r15".toList) rfl (by decide)
    (by simp only [List.length_cons, List.length_nil]; omega)
  have e3 := insert_fmt_appended m0 ([x, "#> ================ by encode_func_addr():494".toList, "\tpushq %r15 #_volatile_".toList, "\tmovq  %gs:0x100000, %r15".toList])
    ("\t".toList ++ "mov   %s, %%gs:0x100000(%%r15)".toList) [.str D]
    ("\tmov   ".toList ++ D ++ ", %gs:0x100000(%r15)".toList) rfl (text_fits _ _ _ hlen (Nat.le_of_ble_eq_true rfl))
    (by simp only [List.length_cons, List.length_nil]; omega)
  have e4 := insert_fmt_appended m0 ([x, "#> ================ by encode_func_addr():494".toList, "\tpushq %r15 #_volatile_".toList, "\tmovq  %gs:0x100000, %r15".toList, "\tmov   ".toList ++ D ++ ", %gs:0x100000(%r15)".toList])
    ("\t".toList ++ "pushq %%rdi".toList ++ " #_volatile_".toList) []
    ("\tpushq %rdi #_volatile_".toList) rfl (by decide)
    (by simp only [List.length_cons, List.length_nil]; omega)
  have e5 := insert_fmt_appended m0 ([x, "#> ================ by encode_func_addr():494".toList, "\tpushq %r15 #_volatile_".toList, "\tmovq  %gs:0x100000, %r15".toList, "\tmov   ".toList ++ D ++ ", %gs:0x100000(%r15)".toList, "\tpushq %rdi #_volatile_".toList])
    ("\t".toList ++ "pushq %%rax".toList ++ " #_volatile_".toList) []
    ("\tpushq %rax #_volatile_".toList) rfl (by decide)
    (by simp only [List.length_cons, List.length_nil]; omega)
  have e6 := insert_fmt_appended m0 ([x, "#> ================ by encode_func_addr():494".toList, "\tpushq %r15 #_volatile_".toList, "\tmovq  %gs:0x100000, %r15".toList, "\tmov   ".toList ++ D ++ ", %gs:0x100000(%r15)".toList, "\tpushq %rdi #_volatile_".toList, "\tpushq %rax #_volatile_".toList])
    ("\t".toList ++ "rdrand %%eax".toList) []
    ("\trdrand %eax".toList) rfl (by decide)
    (by simp only [List.length_cons, List.length_nil]; omega)
  have e7 := insert_fmt_appended m0 ([x, "#> ================ by encode_func_addr():494".toList, "\tpushq %r15 #_volatile_".toList, "\tmovq  %gs:0x100000, %r15".toList, "\tmov   ".toList ++ D ++ ", %gs:0x100000(%r15)".toList, "\tpushq %rdi #_volatile_".toList, "\tpushq %rax #_volatile_".toList, "\trdrand %eax".toList])
    ("\t".toList ++ "shl $32, %%rax".toList) []
    ("\tshl $32, %rax".toList) rfl (by decide)
    (by simp only [List.length_cons, List.length_nil]; omega)
  have e8 := insert_fmt_appended m0 ([x, "#> ================ by encode_func_addr():494".toList, "\tpushq %r15 #_volatile_".toList, "\tmovq  %gs:0x100000, %r15".toList, "\tmov   ".toList ++ D ++ ", %gs:0x100000(%r15)".toList, "\tpushq %rdi #_volatile_".toList, "\tpushq %rax #_volatile_".toList, "\trdrand %eax".toList, "\tshl $32, %rax".toList])
    ("\t".toList ++ "movq  %%r15, %%rdi".toList) []
    ("\tmovq  %r15, %rdi".toList) rfl (by decide)
    (by simp only [List.length_cons, List.length_nil]; omega)
  have e9 := insert_fmt_appended m0 ([x, "#> ================ by encode_func_addr():494".toList, "\tpushq %r15 #_volatile_".toList, "\tmovq  %gs:0x100000, %r15".toList, "\tmov   ".toList ++ D ++ ", %gs:0x100000(%r15)".toList, "\tpushq %rdi #_volatile_".toList, "\tpushq %rax #_volatile_".toList, "\trdrand %eax".toList, "\tshl $32, %rax".toList, "\tmovq  %r15, %rdi".toList])
    ("\t".toList ++ "movq  %%rax, %%gs:0x100008(%%rdi)".toList) []
    ("\tmovq  %rax, %gs:0x100008(%rdi)".toList) rfl (by decide)
    (by simp only [List.length_cons, List.length_nil]; omega)
  have e10 := insert_fmt_appended m0 ([x, "#> ================ by encode_func_addr():494".toList, "\tpushq %r15 #_volatile_".toList, "\tmovq  %gs:0x100000, %r15".toList, "\tmov   ".toList ++ D ++ ", %gs:0x100000(%r15)".toList, "\tpushq %rdi #_volatile_".toList, "\tpushq %rax #_volatile_".toList, "\trdrand %eax".toList, "\tshl $32, %rax".toList, "\tmovq  %r15, %rdi".toList, "\tmovq  %rax, %gs:0x100008(%rdi)".toList])
    ("\t".toList ++ "or    %%rax, %%r15".toList) []
    ("\tor    %rax, %r15".toList) rfl (by decide)
    (by simp only [List.length_cons, List.length_nil]; omega)
  have e11 := insert_fmt_appended m0 ([x, "#> ================ by encode_func_addr():494".toList, "\tpushq %r15 #_volatile_".toList, "\tmovq  %gs:0x100000, %r15".toList, "\tmov   ".toList ++ D ++ ", %gs:0x100000(%r15)".toList, "\tpushq %rdi #_volatile_".toList, "\tpushq %rax #_volatile_".toList, "\trdrand %eax".toList, "\tshl $32, %rax".toList, "\tmovq  %r15, %rdi".toList, "\tmovq  %rax, %gs:0x100008(%rdi)".toList, "\tor    %rax, %r15".toList])
    ("\t".toList ++ "popq %%rax".toList ++ " #_volatile_".toList) []
    ("\tpopq %rax #_volatile_".toList) rfl (by decide)
    (by simp only [List.length_cons, List.length_nil]; omega)
  have e12 := insert_fmt_appended m0 ([x, "#> ================ by encode_func_addr():494".toList, "\tpushq %r15 #_volatile_".toList, "\tmovq  %gs:0x100000, %r15".toList, "\tmov   ".toList ++ D ++ ", %gs:0x100000(%r15)".toList, "\tpushq %rdi #_volatile_".toList, "\tpushq %rax #_volatile_".toList, "\trdrand %eax".toList, "\tshl $32, %rax".toList, "\tmovq  %r15, %rdi".toList, "\tmovq  %rax, %gs:0x100008(%rdi)".toList, "\tor    %rax, %r15".toList, "\tpopq %rax #_volatile_".toList])
    ("\t".toList ++ "popq %%rdi".toList ++ " #_volatile_".toList) []
    ("\tpopq %rdi #_volatile_".toList) rfl (by decide)
    (by simp only [List.length_cons, List.length_nil]; omega)
  have e13 := insert_fmt_appended m0 ([x, "#> ================ by encode_func_addr():494".toList, "\tpushq %r15 #_volatile_".toList, "\tmovq  %gs:0x100000, %r15".toList, "\tmov   ".toList ++ D ++ ", %gs:0x100000(%r15)".toList, "\tpushq %rdi #_volatile_".toList, "\tpushq %rax #_volatile_".toList, "\trdrand %eax".toList, "\tshl $32, %rax".toList, "\tmovq  %r15, %rdi".toList, "\tmovq  %rax, %gs:0x100008(%rdi)".toList, "\tor    %rax, %r15".toList, "\tpopq %rax #_volatile_".toList, "\tpopq %rdi #_volatile_".toList])
    ("\t".toList ++ "addl  $0x10, %%gs:0x100000".toList) []
    ("\taddl  $0x10, %gs:0x100000".toList) rfl (by decide)
    (by simp only [List.length_cons, List.length_nil]; omega)
  have e14 := insert_fmt_appended m0 ([x, "#> ================ by encode_func_addr():494".toList, "\tpushq %r15 #_volatile_".toList, "\tmovq  %gs:0x100000, %r15".toList, "\tmov   ".toList ++ D ++ ", %gs:0x100000(%r15)".toList, "\tpushq %rdi #_volatile_".toList, "\tpushq %rax #_volatile_".toList, "\trdrand %eax".toList, "\tshl $32, %rax".toList, "\tmovq  %r15, %rdi".toList, "\tmovq  %rax, %gs:0x100008(%rdi)".toList, "\tor    %rax, %r15".toList, "\tpopq %rax #_volatile_".toList, "\tpopq %rdi #_volatile_".toList, "\taddl  $0x10, %gs:0x100000".toList])
    ("\t".toList ++ "mov   %%%s, %s".toList) [.str (get_frame_ptr (reg_bytes D)), .str D]
    ("\tmov   %".toList ++ get_frame_ptr (reg_bytes D) ++ ", ".toList ++ D) (by
      have h : vformat ("\t".toList ++ "mov   %%%s, %s".toList)
          [.str (get_frame_ptr (reg_bytes D)), .str D]
          = .ok ("\tmov   %".toList ++ (get_frame_ptr (reg_bytes D) ++ (", ".toList ++ (D ++ []))))
          := rfl
      simpa only [List.append_nil, List.append_assoc] using h) (by
      have hf := frame_ptr_length (reg_bytes D)
      have h8 : "\tmov   %".toList.length = 8 := rfl
      have h2 : ", ".toList.length = 2 := rfl
      simp only [List.length_append, h8, h2, OP_SIZE, MAX_ASM_LINE] at hlen ⊢
      omega)
    (by simp only [List.length_cons, List.length_nil]; omega)
  have e15 := insert_fmt_appended m0 ([x, "#> ================ by encode_func_addr():494".toList, "\tpushq %r15 #_volatile_".toList, "\tmovq  %gs:0x100000, %r15".toList, "\tmov   ".toList ++ D ++ ", %gs:0x100000(%r15)".toList, "\tpushq %rdi #_volatile_".toList, "\tpushq %rax #_volatile_".toList, "\trdrand %eax".toList, "\tshl $32, %rax".toList, "\tmovq  %r15, %rdi".toList, "\tmovq  %rax, %gs:0x100008(%rdi)".toList, "\tor    %rax, %r15".toList, "\tpopq %rax #_volatile_".toList, "\tpopq %rdi #_volatile_".toList, "\taddl  $0x10, %gs:0x100000".toList, "\tmov   %".toList ++ get_frame_ptr (reg_bytes D) ++ ", ".toList ++ D])
    ("\t".toList ++ "popq  %%r15".toList ++ " #_volatile_".toList) []
    ("\tpopq  %r15 #_volatile_".toList) rfl (by decide)
    (by simp only [List.length_cons, List.length_nil]; omega)
  have e16 := insert_fmt_appended m0 ([x, "#> ================ by encode_func_addr():494".toList, "\tpushq %r15 #_volatile_".toList, "\tmovq  %gs:0x100000, %r15".toList, "\tmov   ".toList ++ D ++ ", %gs:0x100000(%r15)".toList, "\tpushq %rdi #_volatile_".toList, "\tpushq %rax #_volatile_".toList, "\trdrand %eax".toList, "\tshl $32, %rax".toList, "\tmovq  %r15, %rdi".toList, "\tmovq  %rax, %gs:0x100008(%rdi)".toList, "\tor    %rax, %r15".toList, "\tpopq %rax #_volatile_".toList, "\tpopq %rdi #_volatile_".toList, "\taddl  $0x10, %gs:0x100000".toList, "\tmov   %".toList ++ get_frame_ptr (reg_bytes D) ++ ", ".toList ++ D, "\tpopq  %r15 #_volatile_".toList])
    "#< ================ by %s():%d".toList [.str "encode_func_addr".toList, .int 546]
    ("#< ================ by encode_func_addr():546".toList) rfl (by decide)
    (by simp only [List.length_cons, List.length_nil]; omega)
  simp only [List.nil_append, List.cons_append] at e0 e1 e2 e3 e4 e5 e6 e7 e8 e9 e10 e11 e12 e13 e14 e15 e16
  simp only [encode_func_addr, hD, Res.bind_def, Res.bind_ok, _insert_hdr, _EMITI, _EMITV,
    _insert_ftr, e0, e1, e2, e3, e4, e5, e6, e7, e8, e9, e10, e11, e12, e13, e14, e15, e16, encode_block]

theorem well_nested_suffix (X Y : Str) (d : Nat) (h : well_nested d (X ++ Y) = true) :
    ∃ d', well_nested d' Y = true := by
  induction X generalizing d with
  | nil => exact ⟨d, h⟩
  | cons x xs ih =>
    rw [List.cons_append, well_nested] at h
    cases hp : paren_depth d x with
    | none => simp only [hp] at h; cases h
    | some d' =>
      simp only [hp, Bool.and_eq_true] at h
      exact ih d' h.2

/-- A well-formed operand does not end with the tag `#_volatile_`. -/
theorem well_formed_not_tagged (D : Str) (h : well_formed_operand D = true) :
    ends_with D "#_volatile_".toList = false := by
  cases he : ends_with D "#_volatile_".toList with
  | false => rfl
  | true =>
    exfalso
    obtain ⟨X, hX⟩ := List.isSuffixOf_iff_suffix.mp he
    obtain ⟨-, hn, -⟩ := well_formed_head D h
    rw [← hX] at hn
    obtain ⟨d', hd'⟩ := well_nested_suffix X _ 0 hn
    have e : "#_volatile_".toList = '#' :: ("_volatile_".toList ++ []) := rfl
    rw [e, well_nested] at hd'
    have hp : paren_depth d' '#' = some d' := rfl
    simp only [hp, Bool.and_eq_true, Bool.not_eq_true', Bool.and_eq_false_iff,
      beq_eq_false_iff_ne] at hd'
    obtain ⟨h1, h2⟩ := hd'
    rw [well_nested_plain _ _ d' (by decide)] at h2
    have h0 : d' = 0 := by simpa [well_nested] using h2
    rcases h1 with h1 | h1
    · exact h1 h0
    · exact absurd h1 (by decide)

theorem ends_with_closed (X S p : Str) (h : p.length ≤ S.length) :
    ends_with (X ++ S) p = ends_with S p := by
  simp only [ends_with]
  cases hs : p.isSuffixOf S with
  | true =>
    exact List.isSuffixOf_iff_suffix.mpr
      ((List.isSuffixOf_iff_suffix.mp hs).trans (List.suffix_append _ _))
  | false =>
    cases hx : p.isSuffixOf (X ++ S) with
    | false => rfl
    | true =>
      exfalso
      have h1 := List.isSuffixOf_iff_suffix.mp hx
      have h2 : S <:+ X ++ S := List.suffix_append _ _
      have := List.suffix_of_suffix_length_le h1 h2 h
      rw [List.isSuffixOf_iff_suffix.mpr this] at hs
      cases hs

theorem frame_ptr_operand (n : Nat) :
    well_formed_operand ("%".toList ++ get_frame_ptr n) = true := by
  unfold get_frame_ptr
  split <;> decide

theorem written_by_of_second (l op2 : Str) (h1 : opecode_with l "#".toList = false)
    (h2 : ends_with l "#_volatile_".toList = false) (h : get_oparand l 2 = .ok op2)
    (hne : op2 ≠ []) : written_by l = some op2 := by
  cases op2 with
  | nil => exact absurd rfl hne
  | cons x xs => simp only [written_by, h1, h2, h, Bool.or_self, Bool.false_eq_true, ↓reduceIte]

theorem well_formed_ne (D : Str) (h : well_formed_operand D = true) : D ≠ [] := by
  rintro rfl
  cases h

/-- C37: for an instruction line that the classifier takes for
address-taking, with a well-formed second operand `D`, in an array with room
for eighteen lines, the round of `process_asm` appends the line itself
followed by the block of `encode_func_addr`.  In the block the tagged
`pushq` lines save `%r15`, `%rdi`, `%rax` in this order and the tagged `popq`
lines restore `%rax`, `%rdi`, `%r15`; the operands written by the
instructions without tag are `%r15`, the real-value cell, `%eax`, `%rax`,
`%rdi`, the nonce cell, `%r15`, the counter and at last `D`; and from the
first `popq` on the block is `popq %rax`, `popq %rdi`, the `addl` on the
counter, the `mov` of the frame register at the width of `D` into `D`,
`popq  %r15` and the footer. -/
theorem encode_block_preserves_registers (line D : Str) (m : s_asm_data)
    (hdl : starts_with line "_dl_start:".toList = false) (hins : is_insn line = true)
    (htaken : potential_func_addr_taken line m = .ok true)
    (hD : get_oparand line 2 = .ok D) (hwf : well_formed_operand D = true)
    (hlen : line.length ≤ MAX_ASM_LINE)
    (hroom : m.new_lines.length + 18 ≤ 2 * m.lines.length) :
    process_asm_line line m = .ok (with_appended m (line :: encode_block D))
      ∧ (encode_block D).filterMap saved_by = ["%r15", "%rdi", "%rax"].map String.toList
      ∧ (encode_block D).filterMap restored_by = ["%rax", "%rdi", "%r15"].map String.toList
      ∧ (encode_block D).filterMap written_by
          = ["%r15", "%gs:0x100000(%r15)", "%eax", "%rax", "%rdi", "%gs:0x100008(%rdi)", "%r15",
              "%gs:0x100000"].map String.toList ++ [D]
      ∧ (encode_block D).drop 11
          = ["\tpopq %rax #_volatile_".toList,
             "\tpopq %rdi #_volatile_".toList,
             "\taddl  $0x10, %gs:0x100000".toList,
             "\tmov   %".toList ++ get_frame_ptr (reg_bytes D) ++ ", ".toList ++ D,
             "\tpopq  %r15 #_volatile_".toList,
             "#< ================ by encode_func_addr():546".toList] := by
  obtain ⟨hDlen, -, -⟩ := well_formed_head D hwf
  have hDne := well_formed_ne D hwf
  -- the two lines of the block that carry the operand
  have hA : ∀ f : Str → Option Str,
      (encode_block D).filterMap f
        = (["#> ================ by encode_func_addr():494",
            "\tpushq %r15 #_volatile_",
            "\tmovq  %gs:0x100000, %r15"].map String.toList).filterMap f
          ++ (f ("\tmov   ".toList ++ D ++ ", %gs:0x100000(%r15)".toList)).toList
          ++ (["\tpushq %rdi #_volatile_",
            "\tpushq %rax #_volatile_",
            "\trdrand %eax",
            "\tshl $32, %rax",
            "\tmovq  %r15, %rdi",
            "\tmovq  %rax, %gs:0x100008(%rdi)",
            "\tor    %rax, %r15",
            "\tpopq %rax #_volatile_",
            "\tpopq %rdi #_volatile_",
            "\taddl  $0x10, %gs:0x100000"].map String.toList).filterMap f
          ++ (f ("\tmov   %".toList ++ get_frame_ptr (reg_bytes D) ++ ", ".toList ++ D)).toList
          ++ (["\tpopq  %r15 #_volatile_",
            "#< ================ by encode_func_addr():546"].map String.toList).filterMap f := by
    intro f
    have e : encode_block D
        = ["#> ================ by encode_func_addr():494",
            "\tpushq %r15 #_volatile_",
            "\tmovq  %gs:0x100000, %r15"].map String.toList
          ++ [("\tmov   ".toList ++ D ++ ", %gs:0x100000(%r15)".toList)]
          ++ ["\tpushq %rdi #_volatile_",
            "\tpushq %rax #_volatile_",
            "\trdrand %eax",
            "\tshl $32, %rax",
            "\tmovq  %r15, %rdi",
            "\tmovq  %rax, %gs:0x100008(%rdi)",
            "\tor    %rax, %r15",
            "\tpopq %rax #_volatile_",
            "\tpopq %rdi #_volatile_",
            "\taddl  $0x10, %gs:0x100000"].map String.toList
          ++ [("\tmov   %".toList ++ get_frame_ptr (reg_bytes D) ++ ", ".toList ++ D)]
          ++ ["\tpopq  %r15 #_volatile_",
            "#< ================ by encode_func_addr():546"].map String.toList := rfl
    rw [e]
    simp only [List.filterMap_append, List.filterMap_cons, List.filterMap_nil]
    cases f ("\tmov   ".toList ++ D ++ ", %gs:0x100000(%r15)".toList) <;>
      cases f ("\tmov   %".toList ++ get_frame_ptr (reg_bytes D) ++ ", ".toList ++ D) <;> rfl
  have hw3 : written_by ("\tmov   ".toList ++ D ++ ", %gs:0x100000(%r15)".toList)
      = some "%gs:0x100000(%r15)".toList := by
    refine written_by_of_second _ _ ?_ ?_ ?_ ?_
    · rfl
    · have := ends_with_closed ("\tmov   ".toList ++ D) ", %gs:0x100000(%r15)".toList
        "#_volatile_".toList (by decide)
      rw [this]
      decide
    · have := ((get_oparand_round_trip "\t".toList "mov".toList "   ".toList D (by decide)
        (by decide) (by decide) (by decide) (by decide) hwf).2 " ".toList
        "%gs:0x100000(%r15)".toList (by decide) (by decide!)).2
      simpa only [List.append_assoc] using this
    · decide
  have hw14 : written_by ("\tmov   %".toList ++ get_frame_ptr (reg_bytes D) ++ ", ".toList ++ D)
      = some D := by
    refine written_by_of_second _ _ ?_ ?_ ?_ ?_
    · rfl
    · cases he : ends_with ("\tmov   %".toList ++ get_frame_ptr (reg_bytes D) ++ ", ".toList ++ D)
          "#_volatile_".toList with
      | false => rfl
      | true =>
        exfalso
        have hs := List.isSuffixOf_iff_suffix.mp he
        have h11 : "#_volatile_".toList.length = 11 := rfl
        by_cases hl : "#_volatile_".toList.length ≤ D.length
        · have := List.suffix_of_suffix_length_le hs (List.suffix_append _ D) hl
          have hh := well_formed_not_tagged D hwf
          simp only [ends_with] at hh
          rw [List.isSuffixOf_iff_suffix.mpr this] at hh
          cases hh
        · cases D with
          | nil => exact hDne rfl
          | cons x xs =>
            -- the operand is a proper tail of the tag: the blank before it is not
            have hblank : " ".toList ++ (x :: xs) <:+ "#_volatile_".toList := by
              have h1 : " ".toList.length = 1 := rfl
              have hl2 : (" ".toList ++ (x :: xs)).length ≤ "#_volatile_".toList.length := by
                simp only [List.length_append, h1, h11, List.length_cons] at hl ⊢
                omega
              have hsuf : " ".toList ++ (x :: xs)
                  <:+ "\tmov   %".toList ++ get_frame_ptr (reg_bytes (x :: xs)) ++ ", ".toList
                    ++ (x :: xs) := by
                have e2 : "\tmov   %".toList ++ get_frame_ptr (reg_bytes (x :: xs)) ++ ", ".toList
                      ++ (x :: xs)
                    = ("\tmov   %".toList ++ get_frame_ptr (reg_bytes (x :: xs)) ++ ",".toList)
                      ++ (" ".toList ++ (x :: xs)) := by
                  simp only [List.append_assoc]
                  rfl
                rw [e2]
                exact List.suffix_append _ _
              exact List.suffix_of_suffix_length_le hsuf hs hl2
            have : ' ' ∈ "#_volatile_".toList := by
              obtain ⟨q, hq⟩ := hblank
              rw [← hq]
              exact List.mem_append_right _ (List.mem_append_left _ (by decide))
            exact absurd this (by decide)
    · have := ((get_oparand_round_trip "\t".toList "mov".toList "   ".toList
        ("%".toList ++ get_frame_ptr (reg_bytes D)) (by decide) (by decide) (by decide)
        (by decide) (by decide) (frame_ptr_operand _)).2 " ".toList D (by decide) hwf).2
      have e : "\t".toList ++ "mov".toList ++ "   ".toList
            ++ ("%".toList ++ get_frame_ptr (reg_bytes D)) ++ ",".toList ++ " ".toList ++ D
          = "\tmov   %".toList ++ get_frame_ptr (reg_bytes D) ++ ", ".toList ++ D := by
        simp only [List.append_assoc]
        rfl
      rw [← e]
      exact this
    · exact hDne
  have hmov : opecode_with line "mov".toList = true ∨ opecode_with line "lea".toList = true := by
    cases h1 : opecode_with line "mov".toList with
    | true => exact Or.inl rfl
    | false =>
      cases h2 : opecode_with line "lea".toList with
      | true => exact Or.inr rfl
      | false =>
        rw [potential_func_addr_taken_other_opcode line m h1 h2] at htaken
        cases htaken
  have hpush : opecode_with line "push".toList = false := by
    rcases hmov with h | h
    · exact opecode_with_excl line "ov".toList "ush".toList 'm' 'p' (by decide) h
    · exact opecode_with_excl line "ea".toList "ush".toList 'l' 'p' (by decide) h
  have hpop : opecode_with line "pop".toList = false := by
    rcases hmov with h | h
    · exact opecode_with_excl line "ov".toList "op".toList 'm' 'p' (by decide) h
    · exact opecode_with_excl line "ea".toList "op".toList 'l' 'p' (by decide) h
  refine ⟨?_, ?_, ?_, ?_, rfl⟩
  · have htaken' : potential_func_addr_taken line
        { m with new_lines := m.new_lines ++ [line] } = .ok true := htaken
    have henc := encode_func_addr_eq line D line m hD hDlen hroom
    have henc' : encode_func_addr line { m with new_lines := m.new_lines ++ [line] }
        = .ok (with_appended m (line :: encode_block D)) := henc
    rw [process_asm_line_insn line m hdl hins (by omega), List.take_of_length_le hlen]
    simp only [process_asm_cp, htaken', henc', hpush, hpop, Res.bind_def, Res.pure_def,
      Res.bind_ok, Bool.false_eq_true, ↓reduceIte, Bool.or_self]
  · rw [hA]
    have h3 : saved_by ("\tmov   ".toList ++ D ++ ", %gs:0x100000(%r15)".toList) = none := rfl
    have h14 : saved_by ("\tmov   %".toList ++ get_frame_ptr (reg_bytes D) ++ ", ".toList ++ D)
        = none := rfl
    rw [h3, h14]
    decide!
  · rw [hA]
    have h3 : restored_by ("\tmov   ".toList ++ D ++ ", %gs:0x100000(%r15)".toList) = none := rfl
    have h14 : restored_by
        ("\tmov   %".toList ++ get_frame_ptr (reg_bytes D) ++ ", ".toList ++ D) = none := rfl
    rw [h3, h14]
    decide!
  · rw [hA, hw3, hw14]
    have e1 : (["#> ================ by encode_func_addr():494",
            "\tpushq %r15 #_volatile_",
            "\tmovq  %gs:0x100000, %r15"].map String.toList).filterMap written_by
        = ["%r15".toList] := by decide!
    have e2 : (["\tpushq %rdi #_volatile_",
            "\tpushq %rax #_volatile_",
            "\trdrand %eax",
            "\tshl $32, %rax",
            "\tmovq  %r15, %rdi",
            "\tmovq  %rax, %gs:0x100008(%rdi)",
            "\tor    %rax, %r15",
            "\tpopq %rax #_volatile_",
            "\tpopq %rdi #_volatile_",
            "\taddl  $0x10, %gs:0x100000"].map String.toList).filterMap written_by
        = ["%eax", "%rax", "%rdi", "%gs:0x100008(%rdi)", "%r15", "%gs:0x100000"].map
            String.toList := by decide!
    have e3 : (["\tpopq  %r15 #_volatile_",
            "#< ================ by encode_func_addr():546"].map String.toList).filterMap
              written_by = [] := by decide!
    rw [e1, e2, e3]
    rfl

/-- C37, at `leaq _dl_open(%rip), %rax` in a document of ten lines of which
one is emitted, and at the document of this single line, whose array has
two entries: there the block is written past it. -/
theorem encode_block_preserves_registers_witness :
    process_asm_line "leaq _dl_open(%rip), %rax".toList (blank_doc 10 1)
        = .ok (with_appended (blank_doc 10 1)
            ("leaq _dl_open(%rip), %rax".toList :: encode_block "%rax".toList))
      ∧ encode_block "%rax".toList
        = ["#> ================ by encode_func_addr():494",
           "\tpushq %r15 #_volatile_",
           "\tmovq  %gs:0x100000, %r15",
           "\tmov   %rax, %gs:0x100000(%r15)",
           "\tpushq %rdi #_volatile_",
           "\tpushq %rax #_volatile_",
           "\trdrand %eax",
           "\tshl $32, %rax",
           "\tmovq  %r15, %rdi",
           "\tmovq  %rax, %gs:0x100008(%rdi)",
           "\tor    %rax, %r15",
           "\tpopq %rax #_volatile_",
           "\tpopq %rdi #_volatile_",
           "\taddl  $0x10, %gs:0x100000",
           "\tmov   %r15, %rax",
           "\tpopq  %r15 #_volatile_",
           "#< ================ by encode_func_addr():546"].map String.toList
      ∧ (encode_block "%eax".toList).get? 14 = some "\tmov   %r15d, %eax".toList
      ∧ process_asm (doc_of ["leaq _dl_open(%rip), %rax"]) = .fatal .undefined :=
  ⟨(encode_block_preserves_registers "leaq _dl_open(%rip), %rax".toList "%rax".toList
      (blank_doc 10 1) (by decide) (by decide!) (by decide!) (by decide!) (by decide!)
      (by decide) (by decide)).1, by decide, by decide, by decide!⟩

/-! ## The operand that `get_oparand` returns, and the label test of `is_insn` -/

theorem get_oparand_copy_next (fuel d : Nat) (c : Char) (rest acc : Str) :
    get_oparand_copy (fuel + 1) d (c :: rest) acc
      = if next_depth d c = 0 ∧ (c = Char.ofNat 0 ∨ c ∈ " ,\t\n#;/".toList) then
          .ok (acc.reverse, c :: rest)
        else get_oparand_copy fuel (next_depth d c) rest (c :: acc) := rfl

/-- What the copy loop returns is what it had copied followed by a text `u`
behind which the counter is zero, and behind no `#` of `u` is it zero: the
loop would have stopped there. -/
theorem get_oparand_copy_depth (fuel d : Nat) (iter acc : Str) (r : Str × Str)
    (h : get_oparand_copy fuel d iter acc = .ok r) :
    ∃ u, r.1 = acc.reverse ++ u ∧ u.foldl next_depth d = 0
      ∧ ∀ a b, u = a ++ '#' :: b → (a ++ ['#']).foldl next_depth d ≠ 0 := by
  induction fuel generalizing d iter acc with
  | zero => cases h
  | succ fuel ih =>
    cases iter with
    | nil =>
      simp only [get_oparand_copy] at h
      split at h
      · rename_i hd
        cases h
        refine ⟨[], by simp, by simpa using hd, ?_⟩
        intro a b hab
        cases a <;> cases hab
      · cases fuel <;> cases h
    | cons c rest =>
      rw [get_oparand_copy_next] at h
      by_cases hs : next_depth d c = 0 ∧ (c = Char.ofNat 0 ∨ c ∈ " ,\t\n#;/".toList)
      · rw [if_pos hs] at h
        cases h
        obtain ⟨h0, hc⟩ := hs
        have hne1 : c ≠ '(' := by rintro rfl; revert hc; decide
        have hne2 : c ≠ ')' := by rintro rfl; revert hc; decide
        simp only [next_depth, hne1, hne2, ↓reduceIte] at h0
        refine ⟨[], by simp, by simpa using h0, ?_⟩
        intro a b hab
        cases a <;> cases hab
      · rw [if_neg hs] at h
        obtain ⟨u, hu1, hu2, hu3⟩ := ih _ _ _ h
        refine ⟨c :: u, by simpa using hu1, by simpa only [List.foldl_cons] using hu2, ?_⟩
        intro a b hab
        cases a with
        | nil =>
          simp only [List.nil_append, List.cons.injEq] at hab
          obtain ⟨rfl, -⟩ := hab
          intro h0
          apply hs
          simp only [List.nil_append, List.foldl_cons, List.foldl_nil] at h0
          exact ⟨h0, Or.inr (by decide)⟩
        | cons x a =>
          simp only [List.cons_append, List.cons.injEq] at hab
          obtain ⟨rfl, rfl⟩ := hab
          have := hu3 a b rfl
          simpa only [List.cons_append, List.foldl_cons] using this

/-- An operand that `get_oparand` returns does not end with the tag
`#_volatile_`. -/
theorem get_oparand_not_tagged (line op1 : Str) (h : get_oparand line 1 = .ok op1) :
    ends_with op1 "#_volatile_".toList = false := by
  simp only [get_oparand, true_or, ↓reduceIte, get_oparand_loop, Res.bind_def] at h
  cases hc : get_oparand_copy OP_SIZE 0
      (_skip_seps (List.dropWhile Char.isAlpha (_skip_spaces line)) " ,\t\n".toList) [] with
  | fatal e => rw [hc] at h; cases h
  | ok r =>
    rw [hc, Res.bind_ok] at h
    cases h
    obtain ⟨u, hu1, hu2, hu3⟩ := get_oparand_copy_depth _ _ _ _ _ hc
    simp only [List.reverse_nil, List.nil_append] at hu1
    cases hb : ends_with r.1 "#_volatile_".toList with
    | false => rfl
    | true =>
      exfalso
      simp only [ends_with] at hb
      obtain ⟨w, hw⟩ := List.isSuffixOf_iff_suffix.mp hb
      rw [hu1] at hw
      have h3 := hu3 w "_volatile_".toList hw.symm
      apply h3
      rw [← hw] at hu2
      have : ∀ k, List.foldl next_depth k "_volatile_".toList = k := by
        intro k
        simp only [String.toList, List.foldl_cons, List.foldl_nil, next_depth]
        rfl
      have e : w ++ "#_volatile_".toList = (w ++ ['#']) ++ "_volatile_".toList := by
        simp
      rw [e, List.foldl_append, this] at hu2
      exact hu2

/-- The code part, character by character. -/
theorem code_part_cons (x : Char) (xs : Str) :
    code_part (x :: xs) = if (x = '#' ∨ x = '/' ∨ x = ';') then [] else x :: code_part xs := by
  unfold code_part
  rw [List.takeWhile_cons]
  by_cases h : x = '#' ∨ x = '/' ∨ x = ';'
  · rw [if_pos h]
    rcases h with rfl | rfl | rfl <;> rfl
  · rw [if_neg h]
    simp only [not_or] at h
    simp [h.1, h.2.1, h.2.2]

/-- The search of `strchr` behind a character that is not the one looked
for. -/
theorem strchr_cons_ne (x c : Char) (xs : Str) (h : x ≠ c) :
    strchr (x :: xs) c = (strchr xs c).map (· + 1) := by
  simp only [strchr, h, ↓reduceIte]

/-- The function `get_tail` returns the code part of the line without its
leading trim characters, cut behind its last effective character. -/
theorem get_tail_eq (raw : Str) :
    get_tail raw = ((code_part (raw.dropWhile is_trim_char)).reverse.dropWhile
      fun c => !is_effective_char c).reverse := by
  unfold get_tail
  simp only []
  congr 3
  generalize raw.dropWhile is_trim_char = s
  induction s with
  | nil => rfl
  | cons x xs ih =>
    rw [code_part_cons]
    by_cases h : x = '#' ∨ x = '/' ∨ x = ';'
    · rw [if_pos h]
      rcases h with rfl | rfl | rfl
      · simp only [strchr, ↓reduceIte]
        cases strchr xs '/' <;> cases strchr xs ';' <;> simp
      · rw [strchr_cons_ne _ '#' _ (by decide)]
        simp only [strchr, ↓reduceIte]
        cases strchr xs '#' <;> cases strchr xs ';' <;> simp
      · rw [strchr_cons_ne _ '#' _ (by decide), strchr_cons_ne _ '/' _ (by decide)]
        simp only [strchr, ↓reduceIte]
        cases strchr xs '#' <;> cases strchr xs '/' <;> simp
    · rw [if_neg h]
      simp only [not_or] at h
      rw [strchr_cons_ne _ _ _ h.1, strchr_cons_ne _ _ _ h.2.1, strchr_cons_ne _ _ _ h.2.2]
      generalize strchr xs '#' = a at ih ⊢
      generalize strchr xs '/' = b at ih ⊢
      generalize strchr xs ';' = c at ih ⊢
      rw [← ih]
      clear ih
      cases a <;> cases b <;> cases c <;>
        simp only [Option.map, List.length_cons, Nat.add_lt_add_iff_right] <;>
        (try split_ifs) <;> simp only [List.take_succ_cons] <;> (exfalso; simp only [Nat.add_lt_add_iff_right] at *; omega)
/-- Dropping characters from the front stops at the latest at one that is
not to be dropped. -/
theorem dropWhile_keeps (p : Char → Bool) (l1 l2 : Str) (x : Char) (hx : p x = false) :
    (x :: l2) <:+ (l1 ++ x :: l2).dropWhile p := by
  induction l1 with
  | nil =>
    rw [List.nil_append, List.dropWhile_cons, hx]
    exact List.suffix_refl _
  | cons y l1 ih =>
    rw [List.cons_append, List.dropWhile_cons]
    cases hy : p y with
    | true => simpa only [↓reduceIte] using ih
    | false =>
      simp only [Bool.false_eq_true, ↓reduceIte]
      exact (List.suffix_append l1 (x :: l2)).trans (List.suffix_cons y _)

/-- The tail is a prefix of the code part. -/
theorem get_tail_initial (raw : Str) :
    get_tail raw <+: code_part (raw.dropWhile is_trim_char) := by
  rw [get_tail_eq, ← List.reverse_suffix, List.reverse_reverse]
  exact List.dropWhile_suffix _

/-- The tail keeps a prefix of the code part that ends in an effective
character. -/
theorem get_tail_keeps (raw a : Str) (e : Char) (he : is_effective_char e = true)
    (h : (a ++ [e]) <+: code_part (raw.dropWhile is_trim_char)) :
    (a ++ [e]) <+: get_tail raw := by
  obtain ⟨b, hb⟩ := h
  rw [get_tail_eq, ← hb, ← List.reverse_suffix, List.reverse_reverse]
  have : (a ++ [e] ++ b).reverse = b.reverse ++ e :: a.reverse := by simp
  rw [this]
  have h2 : (a ++ [e]).reverse = e :: a.reverse := by simp
  rw [h2]
  exact dropWhile_keeps _ _ _ _ (by simp only [he, Bool.not_true])

/-- The search of `strstr` finds a text exactly when the text occurs. -/
theorem strstr_isSome_iff (s q : Str) : (strstr s q).isSome = true ↔ q <:+: s := by
  constructor
  · intro h
    cases hs : strstr s q with
    | none => rw [hs] at h; cases h
    | some i =>
      obtain ⟨h1, -, -⟩ := strstr_eq_some s q i hs
      exact (List.isPrefixOf_iff_prefix.mp h1).isInfix.trans (List.drop_suffix i s).isInfix
  · rintro ⟨a, b, rfl⟩
    rw [List.append_assoc]
    exact strstr_some_of_prefix a (q ++ b) q (List.isPrefixOf_iff_prefix.mpr (List.prefix_append q b))

/-- The search for one character fails exactly when the character does not
occur. -/
theorem strstr_single_none_iff (s : Str) (x : Char) : strstr s [x] = none ↔ x ∉ s := by
  constructor
  · intro h hx
    obtain ⟨a, b, rfl⟩ := List.append_of_mem hx
    have := strstr_some_of_prefix a (x :: b) [x]
      (List.isPrefixOf_iff_prefix.mpr ⟨b, rfl⟩)
    rw [h] at this
    cases this
  · exact strstr_single_absent s x

/-- The label test of `is_insn`, read off the code part of the line. -/
theorem label_test_iff (raw : Str) :
    ((strstr (get_tail raw) ":".toList).isNone
        || (strstr (get_tail raw) "%fs:".toList).isSome) = true
      ↔ (':' ∉ code_part (raw.dropWhile is_trim_char)
          ∨ "%fs:".toList <:+: code_part (raw.dropWhile is_trim_char)) := by
  rw [Bool.or_eq_true, Option.isNone_iff_eq_none, strstr_isSome_iff]
  have hc : strstr (get_tail raw) ":".toList = none
      ↔ ':' ∉ code_part (raw.dropWhile is_trim_char) := by
    rw [show ":".toList = [':'] from rfl, strstr_single_none_iff]
    constructor
    · intro h hx
      obtain ⟨a, b, hab⟩ := List.append_of_mem hx
      apply h
      have := get_tail_keeps raw a ':' (by decide) ⟨b, by rw [hab]; simp⟩
      exact this.subset (by simp)
    · intro h hx
      exact h ((get_tail_initial raw).subset hx)
  constructor
  · rintro (h | h)
    · exact Or.inl (hc.mp h)
    · exact Or.inr (h.trans (get_tail_initial raw).isInfix)
  · rintro (h | h)
    · exact Or.inl (hc.mpr h)
    · obtain ⟨a, b, hab⟩ := h
      refine Or.inr ?_
      have := get_tail_keeps raw (a ++ "%fs".toList) ':' (by decide)
        ⟨b, by rw [← hab]; simp⟩
      obtain ⟨r, hr⟩ := this
      exact ⟨a, r, by rw [← hr]; simp⟩

/-- The code part behind a text without `#`, `/` and `;`. -/
theorem code_part_append_left (P s : Str) (hP : ∀ y ∈ P, y ≠ '#' ∧ y ≠ '/' ∧ y ≠ ';') :
    code_part (P ++ s) = P ++ code_part s := by
  induction P with
  | nil => rfl
  | cons y P ih =>
    have hy := hP y (List.mem_cons_self _ _)
    rw [List.cons_append, code_part_cons, if_neg (by simp only [not_or]; exact hy),
      ih fun z hz => hP z (List.mem_cons_of_mem _ hz)]
    rfl

/-- The code part of a text starts the code part of any text it starts. -/
theorem code_part_initial (a b : Str) : code_part a <+: code_part (a ++ b) := by
  induction a with
  | nil => exact List.nil_prefix
  | cons x a ih =>
    rw [List.cons_append, code_part_cons, code_part_cons]
    split
    · exact List.prefix_refl _
    · exact (List.prefix_cons_inj x).mpr ih

/-- A character of the code part of `a ++ b` is in the code part of `a` or
in `b`. -/
theorem code_part_mem (a b : Str) (x : Char) (h : x ∈ code_part (a ++ b)) :
    x ∈ code_part a ∨ x ∈ b := by
  induction a with
  | nil => exact Or.inr ((List.takeWhile_sublist _).subset h)
  | cons y a ih =>
    rw [List.cons_append, code_part_cons] at h
    rw [code_part_cons]
    split at h
    · cases h
    · rename_i hy
      rw [if_neg hy]
      rcases List.mem_cons.mp h with rfl | h
      · exact Or.inl (List.mem_cons_self _ _)
      · rcases ih h with h | h
        · exact Or.inl (List.mem_cons_of_mem _ h)
        · exact Or.inr h

/-- The code part of a text, trimmed or not, has the same `:` and `%fs:`. -/
theorem code_part_trim (s : Str) :
    code_part s = s.takeWhile is_trim_char ++ code_part (s.dropWhile is_trim_char) := by
  conv_lhs => rw [← List.takeWhile_append_dropWhile is_trim_char s]
  apply code_part_append_left
  intro y hy
  have := List.mem_takeWhile_imp hy
  refine ⟨?_, ?_, ?_⟩ <;> rintro rfl <;> revert this <;> decide

/-- A template line that puts the operand between two texts without `:`,
`#`, `/` and `;` passes the label test of `is_insn` when the operand does. -/
theorem label_test_template (x : Char) (P op1 Q : Str) (hx : is_trim_char x = false)
    (hP : ∀ y ∈ x :: P, y ≠ '#' ∧ y ≠ '/' ∧ y ≠ ';') (hP' : ':' ∉ x :: P) (hQ : ':' ∉ Q)
    (hseg : ((strstr (get_tail op1) ":".toList).isNone
      || (strstr (get_tail op1) "%fs:".toList).isSome) = true) :
    ((strstr (get_tail ('\t' :: x :: P ++ op1 ++ Q)) ":".toList).isNone
      || (strstr (get_tail ('\t' :: x :: P ++ op1 ++ Q)) "%fs:".toList).isSome) = true := by
  rw [label_test_iff] at hseg ⊢
  have hd : ('\t' :: x :: P ++ op1 ++ Q).dropWhile is_trim_char = (x :: P) ++ (op1 ++ Q) := by
    simp only [List.cons_append, List.dropWhile_cons, hx, Bool.false_eq_true, ↓reduceIte,
      List.append_assoc]
    rfl
  rw [hd, code_part_append_left _ _ hP]
  rcases hseg with h | h
  · left
    intro hm
    rcases List.mem_append.mp hm with hm | hm
    · exact hP' hm
    · rcases code_part_mem _ _ _ hm with hm | hm
      · rw [code_part_trim] at hm
        rcases List.mem_append.mp hm with hm | hm
        · have := List.mem_takeWhile_imp hm
          revert this
          decide
        · exact h hm
      · exact hQ hm
  · right
    have h1 : "%fs:".toList <:+: code_part op1 := by
      rw [code_part_trim]
      exact h.trans (List.suffix_append _ _).isInfix
    exact (h1.trans (code_part_initial op1 Q).isInfix).trans (List.suffix_append _ _).isInfix
/-! ## The safe-stack replacement and the stack pointer: the claim -/

/-- The type character is none of `#`, `/`, `;`, `:`. -/
theorem type_char_plain (line : Str) (k : Nat) (c : Char) (h : get_optype line k = .ok c) :
    c ≠ '#' ∧ c ≠ '/' ∧ c ≠ ';' ∧ c ≠ ':' := by
  rcases get_optype_char line k c h with rfl | hc
  · decide
  · refine ⟨?_, ?_, ?_, ?_⟩ <;> rintro rfl <;> revert hc <;> decide

/-- A line whose last character is not that of the tag does not end with the
tag. -/
theorem ends_with_last (X Q p Q' p' : Str) (y z : Char) (hQ : Q.reverse = y :: Q')
    (hp : p.reverse = z :: p') (hyz : y ≠ z) : ends_with (X ++ Q) p = false := by
  cases hb : ends_with (X ++ Q) p with
  | false => rfl
  | true =>
    exfalso
    simp only [ends_with] at hb
    have h1 := List.isSuffixOf_iff_suffix.mp hb
    rw [← List.reverse_prefix, List.reverse_append, hQ, hp, List.cons_append,
      List.cons_prefix_cons] at h1
    exact hyz h1.1.symm

/-- A text behind a blank ends with the tag only if the text does. -/
theorem ends_with_behind_blank (X op1 : Str)
    (h : ends_with op1 "#_volatile_".toList = false) :
    ends_with (X ++ ' ' :: op1) "#_volatile_".toList = false := by
  cases hb : ends_with (X ++ ' ' :: op1) "#_volatile_".toList with
  | false => rfl
  | true =>
    exfalso
    simp only [ends_with] at hb h
    have h1 := List.isSuffixOf_iff_suffix.mp hb
    have h2 : (' ' :: op1) <:+ X ++ ' ' :: op1 := List.suffix_append _ _
    rcases List.suffix_or_suffix_of_suffix h1 h2 with h3 | h3
    · rcases List.suffix_cons_iff.mp h3 with h4 | h4
      · have h5 : some '#' = some ' ' := congrArg List.head? h4
        exact absurd (Option.some.inj h5) (by decide)
      · rw [List.isSuffixOf_iff_suffix.mpr h4] at h
        cases h
    · have : ' ' ∈ "#_volatile_".toList := h3.subset (List.mem_cons_self _ _)
      revert this
      decide

/-- What the substitution pass makes of a template line that starts with a tab
and `m` and is an instruction candidate. -/
theorem template_line_pass (rest : Str) (hins : is_insn ('\t' :: 'm' :: rest) = true) :
    is_push_pop (sp_pass_line ('\t' :: 'm' :: rest)) = false
      ∧ mentions_sp (sp_pass_line ('\t' :: 'm' :: rest)) = false := by
  refine ⟨?_, ?_⟩
  · simp only [sp_pass_line, hins, ↓reduceIte]
    rw [sp_replaced_cons _ _ (by decide), sp_replaced_cons _ _ (by decide)]
    rfl
  · simp only [sp_pass_line, hins, ↓reduceIte]
    exact (replace_sp_line_eq _).2

/-- A `mov` line of the template around an operand that passes the label test
of `is_insn`. -/
theorem template_mov_line (P op1 Q : Str)
    (hP : ∀ y ∈ P, y ≠ '#' ∧ y ≠ '/' ∧ y ≠ ';' ∧ y ≠ ':') (hQ : ':' ∉ Q)
    (hseg : ((strstr (get_tail op1) ":".toList).isNone
      || (strstr (get_tail op1) "%fs:".toList).isSome) = true)
    (hend : ends_with ('\t' :: 'm' :: P ++ op1 ++ Q) "#_volatile_".toList = false) :
    is_push_pop (sp_pass_line ('\t' :: 'm' :: P ++ op1 ++ Q)) = false
      ∧ mentions_sp (sp_pass_line ('\t' :: 'm' :: P ++ op1 ++ Q)) = false := by
  have hlab := label_test_template 'm' P op1 Q (by decide)
    (by
      intro y hy
      rcases List.mem_cons.mp hy with rfl | hy
      · decide
      · exact ⟨(hP y hy).1, (hP y hy).2.1, (hP y hy).2.2.1⟩)
    (by
      intro hy
      rcases List.mem_cons.mp hy with h | hy
      · revert h
        decide
      · exact (hP _ hy).2.2.2 rfl)
    hQ hseg
  have h1 : opecode_with ('\t' :: 'm' :: P ++ op1 ++ Q) ".".toList = false := rfl
  have h2 : opecode_with ('\t' :: 'm' :: P ++ op1 ++ Q) "#".toList = false := rfl
  have h3 : opecode_with ('\t' :: 'm' :: P ++ op1 ++ Q) "/".toList = false := rfl
  have hins : is_insn ('\t' :: 'm' :: P ++ op1 ++ Q) = true := by
    simp only [is_insn, hlab, h1, h2, h3, hend, Bool.not_false, Bool.and_self]
  exact template_line_pass _ hins

/-- C27 (amended): for a line that `process_asm` takes for a push or pop (an
instruction candidate whose opcode starts with `push`, or with `pop` but not
`popcnt`), with the first operand `op1` as `get_oparand` returns it and the
type character `c` as `get_optype` returns it, where `op1` taken alone passes
the label test of `is_insn` (no `:` in front of a comment character, unless
`%fs:` stands there).  A push, in an array with room for the lines written
(nine for an operand that starts with `(`, five otherwise): the round leaves
the commented original and the lines of the template; the substitution pass
maps them line by line; and every line of the template either is one of the
two tagged lines that save and restore `%r10` around an operand starting with
`(`, which the pass leaves as they are, or ends up as a line that is no push
or pop and contains none of `%rsp`, `%esp`, `%sp`.  A pop whose operand does
not start with `(`, with room for five lines: the same with no exception. -/
theorem safe_stack_avoids_stack_pointer (line op1 : Str) (c : Char) (m : s_asm_data)
    (hins : is_insn line = true) (hop : get_oparand line 1 = .ok op1)
    (hseg : ((strstr (get_tail op1) ":".toList).isNone
      || (strstr (get_tail op1) "%fs:".toList).isSome) = true) :
    (opecode_with line "push".toList = true → get_optype line 4 = .ok c →
        m.new_lines.length + (if op1.head? = some '(' then 9 else 5) ≤ 2 * m.lines.length →
        process_asm_line line m
            = .ok (with_appended m (stored_line ("#-".toList ++ line) :: push_template c op1))
          ∧ replace_sp_loop (stored_line ("#-".toList ++ line) :: push_template c op1)
            = .ok ((stored_line ("#-".toList ++ line) :: push_template c op1).map sp_pass_line)
          ∧ ∀ t ∈ push_template c op1,
              (op1.head? = some '(' ∧ t ∈ scratch_save_lines ∧ sp_pass_line t = t)
                ∨ (is_push_pop (sp_pass_line t) = false ∧ mentions_sp (sp_pass_line t) = false))
      ∧ (opecode_with line "pop".toList = true → opecode_with line "popcnt".toList = false →
          get_optype line 3 = .ok c → op1.head? ≠ some '(' →
          m.new_lines.length + 5 ≤ 2 * m.lines.length →
          process_asm_line line m
              = .ok (with_appended m (stored_line ("#-".toList ++ line) :: pop_template c op1))
            ∧ replace_sp_loop (stored_line ("#-".toList ++ line) :: pop_template c op1)
              = .ok ((stored_line ("#-".toList ++ line) :: pop_template c op1).map
                  sp_pass_line)
            ∧ ∀ t ∈ pop_template c op1,
                is_push_pop (sp_pass_line t) = false ∧ mentions_sp (sp_pass_line t) = false) := by
  have hfix : ∀ t ∈ [push_pop_hdr, push_pop_ftr, "\txor   %r10, %r10".toList],
      is_push_pop (sp_pass_line t) = false ∧ mentions_sp (sp_pass_line t) = false := by
    decide
  have htag : ∀ t ∈ scratch_save_lines, sp_pass_line t = t := by
    decide
  have hP : ∀ (k : Nat) (S : Str), get_optype line k = .ok c →
      (∀ y ∈ S, y ≠ '#' ∧ y ≠ '/' ∧ y ≠ ';' ∧ y ≠ ':') →
      ∀ y ∈ "ov".toList ++ [c] ++ S, y ≠ '#' ∧ y ≠ '/' ∧ y ≠ ';' ∧ y ≠ ':' := by
    intro k S hty hS y hy
    simp only [List.mem_append, List.mem_singleton] at hy
    rcases hy with (hy | rfl) | hy
    · revert y
      decide
    · exact type_char_plain line k y hty
    · exact hS y hy
  constructor
  · intro hpush hty hroom
    obtain ⟨hc1, hc2⟩ := type_char_clean line 4 c hty
    refine ⟨push_round line op1 c m hins hop hpush hty hroom, replace_sp_loop_eq _, ?_⟩
    intro t ht
    unfold push_template at ht
    by_cases hmem : op1.head? = some '('
    · rw [if_pos hmem] at ht
      simp only [List.mem_cons, List.mem_singleton, List.not_mem_nil, or_false] at ht
      rcases ht with rfl | rfl | rfl | rfl | rfl | rfl | rfl | rfl
      · exact Or.inr (hfix _ (by decide))
      · exact Or.inl ⟨hmem, by decide, htag _ (by decide)⟩
      · exact Or.inr (hfix _ (by decide))
      · exact Or.inr (template_mov_line ("ov".toList ++ [c] ++ " ".toList) op1 ", %r10".toList
          (hP 4 _ hty (by decide)) (by decide) hseg
          (ends_with_last _ ", %r10".toList _ _ _ '0' '_' rfl rfl (by decide)))
      · exact Or.inr (adjust_line_clean _ c (Or.inl rfl))
      · exact Or.inr (template_line_clean 'm'
          ("ov".toList ++ [c] ++ " %r10, (%rsp)".toList) (by decide)
          (by
            simp only [List.mem_append, List.mem_singleton, not_or]
            exact ⟨⟨by decide, hc1⟩, by decide⟩)
          (by
            simp only [List.mem_append, List.mem_singleton, not_or]
            exact ⟨⟨by decide, hc2⟩, by decide⟩)).2
      · exact Or.inl ⟨hmem, by decide, htag _ (by decide)⟩
      · exact Or.inr (hfix _ (by decide))
    · rw [if_neg hmem] at ht
      simp only [List.mem_cons, List.mem_singleton, List.not_mem_nil, or_false] at ht
      rcases ht with rfl | rfl | rfl | rfl
      · exact Or.inr (hfix _ (by decide))
      · exact Or.inr (adjust_line_clean _ c (Or.inl rfl))
      · exact Or.inr (template_mov_line ("ov".toList ++ [c] ++ " ".toList) op1
          ", (%rsp)".toList (hP 4 _ hty (by decide)) (by decide) hseg
          (ends_with_last _ ", (%rsp)".toList _ _ _ ')' '_' rfl rfl (by decide)))
      · exact Or.inr (hfix _ (by decide))
  · intro hpop hcnt hty hmem hroom
    refine ⟨(pop_round line op1 c m hins hop hpop hcnt hty).1 hmem hroom,
      replace_sp_loop_eq _, ?_⟩
    intro t ht
    unfold pop_template at ht
    simp only [List.mem_cons, List.mem_singleton, List.not_mem_nil, or_false] at ht
    rcases ht with rfl | rfl | rfl | rfl
    · exact hfix _ (by decide)
    · have hend := ends_with_behind_blank ("\tmov".toList ++ [c] ++ "  (%rsp),".toList) op1
        (get_oparand_not_tagged line op1 hop)
      have := template_mov_line ("ov".toList ++ [c] ++ "  (%rsp), ".toList) op1 []
        (hP 3 _ hty (by decide)) (by decide) hseg
        (by simpa only [List.append_nil, List.append_assoc, List.cons_append,
          List.nil_append, String.toList] using hend)
      simpa only [List.append_nil] using this
    · exact adjust_line_clean _ c (Or.inr rfl)
    · exact hfix _ (by decide)

/-- C27 (counterexample): in documents of eight lines, whose array holds the
entries written.  The lines left for `pushq (%rax)` contain the tagged
`pushq %r10` and `popq  %r10`, which are a push and a pop on the real stack
in the final output.  For `popq (%rax)` the pass does not come back: the
template passes a `char` for a `%s` conversion.  For `pushq %gs:8, %fs:0`,
which the `%fs:` makes an instruction candidate, the emitted `mov` line has a
`:` without `%fs:`, is taken for a label by the substitution pass, and keeps
`%rsp`. -/
theorem push_memory_operand_keeps_push :
    (process_asm (doc_of [".text", "f:", "pushq (%rax)", "ret", ".data", "x:", ".long 1",
        ".long 2"])
      = .ok (doc_out [".text", "f:", "pushq (%rax)", "ret", ".data", "x:", ".long 1", ".long 2"]
          [".text",
           "f:",
           "#-pushq (%rax)",
           "#> ================ by replace_push_pop_with_mov():689",
           "\tpushq %r10 #_volatile_",
           "\txor   %r10, %r10",
           "\tmovq (%rax), %r10",
           "\tsub   $8, %r15",
           "\tmovq %r10, (%r15)",
           "\tpopq  %r10 #_volatile_",
           "#< ================ by replace_push_pop_with_mov():720",
           "ret",
           ".data",
           "x:",
           ".long 1",
           ".long 2"])
      ∧ is_push_pop "\tpushq %r10 #_volatile_".toList = true
      ∧ is_push_pop "\tpopq  %r10 #_volatile_".toList = true)
    ∧ process_asm (doc_of [".text", "f:", "popq (%rax)", "ret", ".data", "x:", ".long 1",
        ".long 2"]) = .fatal .undefined
    ∧ (is_insn "pushq %gs:8, %fs:0".toList = true
      ∧ process_asm (doc_of [".text", "f:", "pushq %gs:8, %fs:0", "ret", ".data", "x:",
          ".long 1", ".long 2"])
        = .ok (doc_out [".text", "f:", "pushq %gs:8, %fs:0", "ret", ".data", "x:", ".long 1",
            ".long 2"]
          [".text",
           "f:",
           "#-pushq %gs:8, %fs:0",
           "#> ================ by replace_push_pop_with_mov():689",
           "\tsub   $8, %r15",
           "\tmovq %gs:8, (%rsp)",
           "#< ================ by replace_push_pop_with_mov():720",
           "ret",
           ".data",
           "x:",
           ".long 1",
           ".long 2"])
      ∧ mentions_sp "\tmovq %gs:8, (%rsp)".toList = true) :=
  ⟨by decide!, by decide!, by decide!⟩

/-- C27 (amended), at `pushq (%rax,%rbx,8)` and `popq %fs:(%rax)` in a document
of eight lines of which two are emitted. -/
theorem safe_stack_avoids_stack_pointer_witness :
    (process_asm_line "pushq (%rax,%rbx,8)".toList
          (doc_out [".text", "f:", "nop", "ret", ".data", "x:", ".long 1", ".long 2"]
        [".text", "f:"])
        = .ok (with_appended
            (doc_out [".text", "f:", "nop", "ret", ".data", "x:", ".long 1", ".long 2"]
        [".text", "f:"])
            (stored_line ("#-".toList ++ "pushq (%rax,%rbx,8)".toList)
              :: push_template 'q' "(%rax,%rbx,8)".toList))
      ∧ replace_sp_loop (stored_line ("#-".toList ++ "pushq (%rax,%rbx,8)".toList)
            :: push_template 'q' "(%rax,%rbx,8)".toList)
        = .ok ((stored_line ("#-".toList ++ "pushq (%rax,%rbx,8)".toList)
            :: push_template 'q' "(%rax,%rbx,8)".toList).map sp_pass_line)
      ∧ ∀ t ∈ push_template 'q' "(%rax,%rbx,8)".toList,
          ("(%rax,%rbx,8)".toList.head? = some '(' ∧ t ∈ scratch_save_lines ∧ sp_pass_line t = t)
            ∨ (is_push_pop (sp_pass_line t) = false ∧ mentions_sp (sp_pass_line t) = false))
      ∧ (push_template 'q' "(%rax,%rbx,8)".toList).map sp_pass_line
        = ["#> ================ by replace_push_pop_with_mov():689",
           "\tpushq %r10 #_volatile_",
           "\txor   %r10, %r10",
           "\tmovq (%rax,%rbx,8), %r10",
           "\tsub   $8, %r15",
           "\tmovq %r10, (%r15)",
           "\tpopq  %r10 #_volatile_",
           "#< ================ by replace_push_pop_with_mov():720"].map String.toList
      ∧ (process_asm_line "popq %fs:(%rax)".toList
          (doc_out [".text", "f:", "nop", "ret", ".data", "x:", ".long 1", ".long 2"]
        [".text", "f:"])
        = .ok (with_appended
            (doc_out [".text", "f:", "nop", "ret", ".data", "x:", ".long 1", ".long 2"]
        [".text", "f:"])
            (stored_line ("#-".toList ++ "popq %fs:(%rax)".toList)
              :: pop_template 'q' "%fs:(%rax)".toList))
        ∧ replace_sp_loop (stored_line ("#-".toList ++ "popq %fs:(%rax)".toList)
              :: pop_template 'q' "%fs:(%rax)".toList)
          = .ok ((stored_line ("#-".toList ++ "popq %fs:(%rax)".toList)
              :: pop_template 'q' "%fs:(%rax)".toList).map sp_pass_line)
        ∧ ∀ t ∈ pop_template 'q' "%fs:(%rax)".toList,
            is_push_pop (sp_pass_line t) = false ∧ mentions_sp (sp_pass_line t) = false)
      ∧ (pop_template 'q' "%fs:(%rax)".toList).map sp_pass_line
        = ["#> ================ by replace_push_pop_with_mov():689",
           "\tmovq  (%r15), %fs:(%rax)",
           "\tadd    $8, %r15",
           "#< ================ by replace_push_pop_with_mov():720"].map String.toList :=
  ⟨(safe_stack_avoids_stack_pointer "pushq (%rax,%rbx,8)".toList "(%rax,%rbx,8)".toList 'q'
      (doc_out [".text", "f:", "nop", "ret", ".data", "x:", ".long 1", ".long 2"]
        [".text", "f:"]) (by decide!) (by decide!) (by decide!)).1
      (by decide!) (by decide!) (by decide!),
    by decide!,
    (safe_stack_avoids_stack_pointer "popq %fs:(%rax)".toList "%fs:(%rax)".toList 'q'
      (doc_out [".text", "f:", "nop", "ret", ".data", "x:", ".long 1", ".long 2"]
        [".text", "f:"]) (by decide!) (by decide!) (by decide!)).2
      (by decide!) (by decide!) (by decide!) (by decide) (by decide!),
    by decide!⟩

end AslrGuard
